import Mathlib

/-!
fantatech: decoder core.

A shallow embedding of the string helpers (`ftbase.cc`), the format
dispatcher (`ftconv.cc`) and the TXT / BP2 / BP3 decoders and the BIN / LB5
pack files (`ftformat.cc`), followed by theorems about them.

Conventions of the embedding:
* a byte (`u8`) is a `Nat`; arithmetic that is stored back into a `u8` is
  reduced `% 256` explicitly;
* a `u32` computed from header fields is reduced with `u32` (`% 2^32`) where
  the code computes it; offsets that the code keeps inside a buffer are plain
  `Nat`s, and a store outside a buffer is not represented;
* a `Span<u8>` or a byte buffer is a `List Nat`; a cursor `i` into a span is
  represented by the suffix `data[i..]` that is still unread;
* an SDL surface is the list of its rows; a store to it is made at the byte
  offset behind `surf->pixels` that the code computes (`surfaceWrite`), with
  `surf->pitch` the bytes of a row rounded up to a multiple of 4;
* a C string (`const char*`) is the `List Char` of its characters before the
  terminating NUL; reading past its last character yields the NUL;
* a `for` loop is a function on the loop state whose first argument counts
  the iterations still to do; a loader that returns `false` is an
  `Except LoadError`, a decoder that returns `NULL` an `Option`;
* the SDL stream and surface functions and the CP932 transcoder are not part
  of the repository: the stream functions follow the byte reader of the
  specification, the transcoder is a parameter.
-/

namespace Fantatech

/-! ## ftbase.hh -/

/-- `InRange<T>(x, xmin, xmax)`: `x >= xmin && x <= xmax`. -/
def InRange (x xmin xmax : Nat) : Bool :=
  decide (x ≥ xmin) && decide (x ≤ xmax)

/-! ## ftbase.cc : IsValidUTF8 -/

/-- The body shared by the two-byte branch: `if (i >= data.len) return false;`
then `p1 = data[i++]` must lie in `[lo, hi]`.  `none` is `return false`,
`some r` is `continue` with `r = data[i..]`. -/
def IsValidUTF8.tail1 (lo hi : Nat) : List Nat → Option (List Nat)
  | p1 :: rest1 =>
    if !InRange p1 lo hi then none
    else some rest1
  | [] => none

/-- The body shared by the three-byte branches: `if (i + 1 >= data.len) return
false;` then `p1 = data[i++]`, `p2 = data[i++]` with `p1` in `[lo, hi]` and
`p2` in `[80, BF]`. -/
def IsValidUTF8.tail2 (lo hi : Nat) : List Nat → Option (List Nat)
  | p1 :: p2 :: rest2 =>
    if !InRange p1 lo hi then none
    else if !InRange p2 0x80 0xBF then none
    else some rest2
  | _ => none

/-- The body shared by the four-byte branches: `if (i + 2 >= data.len) return
false;` then `p1`, `p2`, `p3` are read, with `p1` in `[lo, hi]` and `p2`, `p3`
in `[80, BF]`. -/
def IsValidUTF8.tail3 (lo hi : Nat) : List Nat → Option (List Nat)
  | p1 :: p2 :: p3 :: rest3 =>
    if !InRange p1 lo hi then none
    else if !InRange p2 0x80 0xBF then none
    else if !InRange p3 0x80 0xBF then none
    else some rest3
  | _ => none

/-- One iteration of the `while (i < data.len)` loop of `IsValidUTF8`, entered
with lead byte `p0 = data[i++]` and `rest = data[i..]`.  `none` is
`return false`; `some r` is `continue` with `r` the part still unread. -/
def IsValidUTF8.step (p0 : Nat) (rest : List Nat) : Option (List Nat) :=
  -- [00, 7F]
  if p0 ≤ 0x7F then some rest
  -- [C2, DF] [80, BF]
  else if InRange p0 0xC2 0xDF then IsValidUTF8.tail1 0x80 0xBF rest
  -- E0 [A0, BF] [80, BF]
  else if p0 = 0xE0 then IsValidUTF8.tail2 0xA0 0xBF rest
  -- [E1, EC] [80, BF] [80, BF]
  else if InRange p0 0xE1 0xEC then IsValidUTF8.tail2 0x80 0xBF rest
  -- ED [80, 9F] [80, BF]
  else if p0 = 0xED then IsValidUTF8.tail2 0x80 0x9F rest
  -- [EE, EF] [80, BF] [80, BF]
  else if InRange p0 0xEE 0xEF then IsValidUTF8.tail2 0x80 0xBF rest
  -- F0 [90, BF] [80, BF] [80, BF]
  else if p0 = 0xF0 then IsValidUTF8.tail3 0x90 0xBF rest
  -- [F1, F3] [80, BF] [80, BF] [80, BF]
  else if InRange p0 0xF1 0xF3 then IsValidUTF8.tail3 0x80 0xBF rest
  -- F4 [80, 8F] [80, BF] [80, BF]
  else if p0 = 0xF4 then IsValidUTF8.tail3 0x80 0x8F rest
  -- Otherwise invalid lead byte
  else none

theorem InRange_iff {x lo hi : Nat} : InRange x lo hi = true ↔ lo ≤ x ∧ x ≤ hi := by
  simp [InRange]

theorem IsValidUTF8.tail1_eq_some {lo hi : Nat} {rest r : List Nat} :
    IsValidUTF8.tail1 lo hi rest = some r ↔
      ∃ p1, rest = p1 :: r ∧ (lo ≤ p1 ∧ p1 ≤ hi) := by
  match rest with
  | [] => simp [IsValidUTF8.tail1]
  | p1 :: rest1 =>
    simp only [IsValidUTF8.tail1, InRange, List.cons.injEq]
    constructor
    · intro h
      split_ifs at h with c1
      simp at c1 h
      exact ⟨p1, ⟨rfl, h⟩, c1⟩
    · rintro ⟨q1, ⟨rfl, rfl⟩, h1⟩
      simp [h1]

theorem IsValidUTF8.tail2_eq_some {lo hi : Nat} {rest r : List Nat} :
    IsValidUTF8.tail2 lo hi rest = some r ↔
      ∃ p1 p2, rest = p1 :: p2 :: r ∧ (lo ≤ p1 ∧ p1 ≤ hi) ∧ (0x80 ≤ p2 ∧ p2 ≤ 0xBF) := by
  match rest with
  | [] => simp [IsValidUTF8.tail2]
  | [_] => simp [IsValidUTF8.tail2]
  | p1 :: p2 :: rest2 =>
    simp only [IsValidUTF8.tail2, InRange, List.cons.injEq]
    constructor
    · intro h
      split_ifs at h with c1 c2
      simp at c1 c2 h
      exact ⟨p1, p2, ⟨rfl, rfl, h⟩, c1, c2⟩
    · rintro ⟨q1, q2, ⟨rfl, rfl, rfl⟩, h1, h2⟩
      simp [h1, h2]

theorem IsValidUTF8.tail3_eq_some {lo hi : Nat} {rest r : List Nat} :
    IsValidUTF8.tail3 lo hi rest = some r ↔
      ∃ p1 p2 p3, rest = p1 :: p2 :: p3 :: r ∧ (lo ≤ p1 ∧ p1 ≤ hi) ∧
        (0x80 ≤ p2 ∧ p2 ≤ 0xBF) ∧ (0x80 ≤ p3 ∧ p3 ≤ 0xBF) := by
  match rest with
  | [] => simp [IsValidUTF8.tail3]
  | [_] => simp [IsValidUTF8.tail3]
  | [_, _] => simp [IsValidUTF8.tail3]
  | p1 :: p2 :: p3 :: rest3 =>
    simp only [IsValidUTF8.tail3, InRange, List.cons.injEq]
    constructor
    · intro h
      split_ifs at h with c1 c2 c3
      simp at c1 c2 c3 h
      exact ⟨p1, p2, p3, ⟨rfl, rfl, rfl, h⟩, c1, c2, c3⟩
    · rintro ⟨q1, q2, q3, ⟨rfl, rfl, rfl, rfl⟩, h1, h2, h3⟩
      simp [h1, h2, h3]

/-- The branch an iteration takes, by lead byte. -/
theorem IsValidUTF8.step_cases (p0 : Nat) (rest : List Nat) :
    (p0 ≤ 0x7F ∧ IsValidUTF8.step p0 rest = some rest) ∨
    ((0xC2 ≤ p0 ∧ p0 ≤ 0xDF) ∧ IsValidUTF8.step p0 rest = IsValidUTF8.tail1 0x80 0xBF rest) ∨
    (p0 = 0xE0 ∧ IsValidUTF8.step p0 rest = IsValidUTF8.tail2 0xA0 0xBF rest) ∨
    ((0xE1 ≤ p0 ∧ p0 ≤ 0xEC) ∧ IsValidUTF8.step p0 rest = IsValidUTF8.tail2 0x80 0xBF rest) ∨
    (p0 = 0xED ∧ IsValidUTF8.step p0 rest = IsValidUTF8.tail2 0x80 0x9F rest) ∨
    ((0xEE ≤ p0 ∧ p0 ≤ 0xEF) ∧ IsValidUTF8.step p0 rest = IsValidUTF8.tail2 0x80 0xBF rest) ∨
    (p0 = 0xF0 ∧ IsValidUTF8.step p0 rest = IsValidUTF8.tail3 0x90 0xBF rest) ∨
    ((0xF1 ≤ p0 ∧ p0 ≤ 0xF3) ∧ IsValidUTF8.step p0 rest = IsValidUTF8.tail3 0x80 0xBF rest) ∨
    (p0 = 0xF4 ∧ IsValidUTF8.step p0 rest = IsValidUTF8.tail3 0x80 0x8F rest) ∨
    (((0x80 ≤ p0 ∧ p0 ≤ 0xC1) ∨ 0xF5 ≤ p0) ∧ IsValidUTF8.step p0 rest = none) := by
  unfold IsValidUTF8.step
  by_cases c1 : p0 ≤ 0x7F
  · exact Or.inl ⟨c1, if_pos c1⟩
  rw [if_neg c1]
  by_cases c2 : InRange p0 0xC2 0xDF = true
  · exact Or.inr (Or.inl ⟨InRange_iff.mp c2, if_pos c2⟩)
  rw [if_neg c2]
  by_cases c3 : p0 = 0xE0
  · exact Or.inr (Or.inr (Or.inl ⟨c3, if_pos c3⟩))
  rw [if_neg c3]
  by_cases c4 : InRange p0 0xE1 0xEC = true
  · exact Or.inr (Or.inr (Or.inr (Or.inl ⟨InRange_iff.mp c4, if_pos c4⟩)))
  rw [if_neg c4]
  by_cases c5 : p0 = 0xED
  · exact Or.inr (Or.inr (Or.inr (Or.inr (Or.inl ⟨c5, if_pos c5⟩))))
  rw [if_neg c5]
  by_cases c6 : InRange p0 0xEE 0xEF = true
  · exact Or.inr (Or.inr (Or.inr (Or.inr (Or.inr (Or.inl ⟨InRange_iff.mp c6, if_pos c6⟩)))))
  rw [if_neg c6]
  by_cases c7 : p0 = 0xF0
  · exact Or.inr (Or.inr (Or.inr (Or.inr (Or.inr (Or.inr (Or.inl ⟨c7, if_pos c7⟩))))))
  rw [if_neg c7]
  by_cases c8 : InRange p0 0xF1 0xF3 = true
  · exact Or.inr (Or.inr (Or.inr (Or.inr (Or.inr (Or.inr (Or.inr
      (Or.inl ⟨InRange_iff.mp c8, if_pos c8⟩)))))))
  rw [if_neg c8]
  by_cases c9 : p0 = 0xF4
  · exact Or.inr (Or.inr (Or.inr (Or.inr (Or.inr (Or.inr (Or.inr (Or.inr
      (Or.inl ⟨c9, if_pos c9⟩))))))))
  rw [if_neg c9]
  refine Or.inr (Or.inr (Or.inr (Or.inr (Or.inr (Or.inr (Or.inr (Or.inr
      (Or.inr ⟨?_, rfl⟩))))))))
  have n2 : ¬ (0xC2 ≤ p0 ∧ p0 ≤ 0xDF) := fun h => c2 (InRange_iff.mpr h)
  have n4 : ¬ (0xE1 ≤ p0 ∧ p0 ≤ 0xEC) := fun h => c4 (InRange_iff.mpr h)
  have n6 : ¬ (0xEE ≤ p0 ∧ p0 ≤ 0xEF) := fun h => c6 (InRange_iff.mpr h)
  have n8 : ¬ (0xF1 ≤ p0 ∧ p0 ≤ 0xF3) := fun h => c8 (InRange_iff.mpr h)
  omega

/-- Every iteration leaves a part of what it was given. -/
theorem IsValidUTF8.step_length {p0 : Nat} {rest r : List Nat}
    (h : IsValidUTF8.step p0 rest = some r) : r.length ≤ rest.length := by
  rcases IsValidUTF8.step_cases p0 rest with ⟨_, e⟩ | ⟨_, e⟩ | ⟨_, e⟩ | ⟨_, e⟩ | ⟨_, e⟩ |
    ⟨_, e⟩ | ⟨_, e⟩ | ⟨_, e⟩ | ⟨_, e⟩ | ⟨_, e⟩ <;> rw [e] at h
  · simp only [Option.some.injEq] at h; subst h; exact Nat.le_refl _
  · obtain ⟨_, rfl, _⟩ := IsValidUTF8.tail1_eq_some.mp h
    simp only [List.length_cons]; omega
  · obtain ⟨_, _, rfl, _⟩ := IsValidUTF8.tail2_eq_some.mp h
    simp only [List.length_cons]; omega
  · obtain ⟨_, _, rfl, _⟩ := IsValidUTF8.tail2_eq_some.mp h
    simp only [List.length_cons]; omega
  · obtain ⟨_, _, rfl, _⟩ := IsValidUTF8.tail2_eq_some.mp h
    simp only [List.length_cons]; omega
  · obtain ⟨_, _, rfl, _⟩ := IsValidUTF8.tail2_eq_some.mp h
    simp only [List.length_cons]; omega
  · obtain ⟨_, _, _, rfl, _⟩ := IsValidUTF8.tail3_eq_some.mp h
    simp only [List.length_cons]; omega
  · obtain ⟨_, _, _, rfl, _⟩ := IsValidUTF8.tail3_eq_some.mp h
    simp only [List.length_cons]; omega
  · obtain ⟨_, _, _, rfl, _⟩ := IsValidUTF8.tail3_eq_some.mp h
    simp only [List.length_cons]; omega
  · exact absurd h (by simp)

/-- `IsValidUTF8(Span<u8> data)`.  The argument is the unread part
`data[i..]` of the span: the loop ends with `true` when nothing is left. -/
def IsValidUTF8 : List Nat → Bool
  | [] => true
  | p0 :: rest =>
    match h : IsValidUTF8.step p0 rest with
    | none => false
    | some r => IsValidUTF8 r
termination_by data => data.length
decreasing_by
  have := IsValidUTF8.step_length h
  simp only [List.length_cons]
  omega

/-- One well-formed UTF-8 byte sequence, following the table of RFC 3629
quoted by the specification of the validator. -/
def WellFormedSeq (s : List Nat) : Prop :=
  (∃ a, s = [a] ∧ a ≤ 0x7F) ∨
  (∃ a b, s = [a, b] ∧ (0xC2 ≤ a ∧ a ≤ 0xDF) ∧ (0x80 ≤ b ∧ b ≤ 0xBF)) ∨
  (∃ b c, s = [0xE0, b, c] ∧ (0xA0 ≤ b ∧ b ≤ 0xBF) ∧ (0x80 ≤ c ∧ c ≤ 0xBF)) ∨
  (∃ a b c, s = [a, b, c] ∧ (0xE1 ≤ a ∧ a ≤ 0xEC) ∧ (0x80 ≤ b ∧ b ≤ 0xBF) ∧
    (0x80 ≤ c ∧ c ≤ 0xBF)) ∨
  (∃ b c, s = [0xED, b, c] ∧ (0x80 ≤ b ∧ b ≤ 0x9F) ∧ (0x80 ≤ c ∧ c ≤ 0xBF)) ∨
  (∃ a b c, s = [a, b, c] ∧ (0xEE ≤ a ∧ a ≤ 0xEF) ∧ (0x80 ≤ b ∧ b ≤ 0xBF) ∧
    (0x80 ≤ c ∧ c ≤ 0xBF)) ∨
  (∃ b c d, s = [0xF0, b, c, d] ∧ (0x90 ≤ b ∧ b ≤ 0xBF) ∧ (0x80 ≤ c ∧ c ≤ 0xBF) ∧
    (0x80 ≤ d ∧ d ≤ 0xBF)) ∨
  (∃ a b c d, s = [a, b, c, d] ∧ (0xF1 ≤ a ∧ a ≤ 0xF3) ∧ (0x80 ≤ b ∧ b ≤ 0xBF) ∧
    (0x80 ≤ c ∧ c ≤ 0xBF) ∧ (0x80 ≤ d ∧ d ≤ 0xBF)) ∨
  (∃ b c d, s = [0xF4, b, c, d] ∧ (0x80 ≤ b ∧ b ≤ 0x8F) ∧ (0x80 ≤ c ∧ c ≤ 0xBF) ∧
    (0x80 ≤ d ∧ d ≤ 0xBF))

/-- A span is well-formed UTF-8 when it is a concatenation of well-formed
sequences. -/
def WellFormedUTF8 (data : List Nat) : Prop :=
  ∃ segs : List (List Nat), (∀ s ∈ segs, WellFormedSeq s) ∧ data = segs.flatten

/-! ## ftbase.cc : WildcardMatch -/

/-- The first `while (*s)` loop of `WildcardMatch`, one equation per iteration.
`p` and `s` are the pattern and the string from the two cursors on; reading
`*p` at the end of the pattern yields the NUL, which equals no character of the
string.  `star` and `ss` are assigned together and are kept as one optional
pair (`none` is `star == NULL`): `star` is the pattern from the remembered `*`
on, `ss` the string from the remembered position on.  After the loop comes
`while (*p == '*') ++p; return !*p;`.  The first argument bounds the number of
iterations; `none` means the bound was reached. -/
def WildcardMatch.loop : Nat → List Char → List Char → Option (List Char × List Char) →
    Option Bool
  | 0, _, _, _ => none
  | _ + 1, p, [], _ => some (p.dropWhile (fun c => c = '*')).isEmpty
  | fuel + 1, p, c :: s, bt =>
    if p.head? = some '?' ∨ p.head? = some c then
      WildcardMatch.loop fuel p.tail s bt
    else if p.head? = some '*' then
      WildcardMatch.loop fuel p.tail (c :: s) (some (p, c :: s))
    else
      match bt with
      | some (star, ss) => WildcardMatch.loop fuel star.tail ss.tail (some (star, ss.tail))
      | none => some false

/-- `WildcardMatch(pattern, str)`.  Every iteration either advances in the
string, or advances in the pattern, or moves the remembered string position
forward, so `(|str| + 2) * (|pattern| + |str| + 1)` iterations are enough
(`WildcardMatch_total`). -/
def WildcardMatch (pattern str : List Char) : Option Bool :=
  WildcardMatch.loop ((str.length + 2) * (pattern.length + str.length + 1)) pattern str none

/-- How far the remembered string position is from the end of the string
(`S + 1` while nothing is remembered). -/
def WildcardMatch.rank (S : Nat) : Option (List Char × List Char) → Nat
  | none => S + 1
  | some (_, ss) => ss.length

/-- The quantity that every iteration of the first loop of `WildcardMatch`
decreases; `K` exceeds `|pattern| + |str|` and `S` is `|str|`. -/
def WildcardMatch.budget (K S : Nat) (p s : List Char)
    (bt : Option (List Char × List Char)) : Nat :=
  WildcardMatch.rank S bt * K + (p.length + s.length)

/-- Classic glob matching, as the specification words it: `?` matches exactly
one character, `*` matches any run of zero or more characters, any other
pattern character matches only itself. -/
inductive GlobMatch : List Char → List Char → Prop
  | nil : GlobMatch [] []
  | one (c : Char) {p s : List Char} : GlobMatch p s → GlobMatch ('?' :: p) (c :: s)
  | star_none {p s : List Char} : GlobMatch p s → GlobMatch ('*' :: p) s
  | star_more (c : Char) {p s : List Char} :
      GlobMatch ('*' :: p) s → GlobMatch ('*' :: p) (c :: s)
  | self (c : Char) {p s : List Char} : c ≠ '?' → c ≠ '*' →
      GlobMatch p s → GlobMatch (c :: p) (c :: s)

/-! ## ftbase.cc : path helpers -/

/-- `IsDelim(c)` as built without `_WIN32`: only `/` is a separator. -/
def IsDelim (c : Char) : Bool := c = '/'

/-- The first loop of `Extension`: `for (i = 0; path[i]; ++i)`.  `prev` is
`path[i - 1]`, the third argument is `path[i..]`. -/
def Extension.scan (prev : Char) (end_part : Option (List Char)) :
    List Char → Option (List Char)
  | [] => end_part
  | c :: rest =>
    Extension.scan c (if c = '.' ∧ ¬ IsDelim prev then some rest else end_part) rest

/-- `Extension(path)`.  At `i = 0` the loop evaluates `path[i - 1]`, the byte
that memory holds just before the string; that byte is not part of the
argument and is the parameter `before`.  It is only looked at when
`path[0] == '.'`.  `none` is the `NULL` result. -/
def Extension (before : Char) (path : List Char) : Option (List Char) :=
  match Extension.scan before none path with
  | none => none
  | some end_part => if end_part.any IsDelim then none else some end_part

/-! ## ftconv.cc : format dispatcher -/

/-- The `FTYPE_*` enumeration of `ftconv.cc`. -/
inductive FileType
  | FTYPE_UNKNOWN
  | FTYPE_BIN
  | FTYPE_LB5
  | FTYPE_BP2
  | FTYPE_BP3
  | FTYPE_BMP
  | FTYPE_TXT_UTF8
  | FTYPE_TXT_1997
  | FTYPE_TXT_2006
  deriving DecidableEq, Repr

/-- Modelled from the spec: `SDL_strcasecmp` belongs to the SDL library; the
dispatcher's "extension comparison is case-insensitive" is taken as equality
after ASCII lower-casing.  The result is `0` for equal strings and non-zero
otherwise (the sign is not used by the callers). -/
def SDL_strcasecmp (str1 str2 : List Char) : Int :=
  if str1.map Char.toLower = str2.map Char.toLower then 0 else 1

/-- `GuessFileTypeForConversion(f, data)`, with `path` the field `f->path` and
`before` the byte in front of it (see `Extension`).  `data[i]` is
`data.getD i 0`; the function asserts `data.len >= 4`. -/
def GuessFileTypeForConversion (before : Char) (path : List Char) (data : List Nat) :
    FileType :=
  match Extension before path with
  | some ext =>
    if SDL_strcasecmp ext ['b', 'i', 'n'] = 0 then FileType.FTYPE_BIN
    else if SDL_strcasecmp ext ['l', 'b', '5'] = 0 then FileType.FTYPE_LB5
    else if SDL_strcasecmp ext ['b', 'p', '2'] = 0 then FileType.FTYPE_BP2
    else if SDL_strcasecmp ext ['b', 'm', 'p'] = 0 then
      if data.getD 0 0 = 0x88 ∧ data.getD 1 0 = 0x88 ∧ data.getD 2 0 = 0x88 ∧
          data.getD 3 0 = 0x88 then FileType.FTYPE_BP3
      else if data.getD 0 0 = 0x42 ∧ data.getD 1 0 = 0x4D then FileType.FTYPE_BMP
      else FileType.FTYPE_UNKNOWN
    else if SDL_strcasecmp ext ['t', 'x', 't'] = 0 then
      if data.getD 0 0 = 0x01 then FileType.FTYPE_TXT_1997
      else if IsValidUTF8 data then FileType.FTYPE_TXT_UTF8
      else FileType.FTYPE_TXT_2006
    else FileType.FTYPE_UNKNOWN
  | none => FileType.FTYPE_UNKNOWN

/-! ## Byte streams -/

/-- Modelled from the spec: the byte reader of §4.1, a seekable sequence of
bytes with a current position (`SDL_IOStream` and its functions belong to the
SDL library).  Reads never cross the end of the stream. -/
structure SDL_IOStream where
  data : List Nat
  pos : Nat
  deriving DecidableEq, Repr

/-- The part of the stream from the current position on. -/
def SDL_IOStream.unread (io : SDL_IOStream) : List Nat := io.data.drop io.pos

/-- Modelled from the spec: `SDL_ReadIO(io, ptr, size)` delivers the bytes
from the current position on, at most `size` of them, and advances by what it
delivered; the caller compares the number delivered with `size`. -/
def SDL_ReadIO (io : SDL_IOStream) (size : Nat) : List Nat × SDL_IOStream :=
  let got := io.unread.take size
  (got, { io with pos := io.pos + got.length })

/-- Modelled from the spec: `read_u8`; `none` when no byte is left. -/
def SDL_ReadU8 (io : SDL_IOStream) : Option (Nat × SDL_IOStream) :=
  match SDL_ReadIO io 1 with
  | ([b0], io1) => some (b0, io1)
  | _ => none

/-- Modelled from the spec: `read_u16_le`; `none` when fewer than two bytes
are left. -/
def SDL_ReadU16LE (io : SDL_IOStream) : Option (Nat × SDL_IOStream) :=
  match SDL_ReadIO io 2 with
  | ([b0, b1], io1) => some (b0 + 256 * b1, io1)
  | _ => none

/-- Modelled from the spec: `read_u32_le`; `none` when fewer than four bytes
are left. -/
def SDL_ReadU32LE (io : SDL_IOStream) : Option (Nat × SDL_IOStream) :=
  match SDL_ReadIO io 4 with
  | ([b0, b1, b2, b3], io1) => some (b0 + 256 * b1 + 65536 * b2 + 16777216 * b3, io1)
  | _ => none

/-- Modelled from the spec: `tell`. -/
def SDL_TellIO (io : SDL_IOStream) : Nat := io.pos

/-- Modelled from the spec: `seek(absolute)`, `SDL_SeekIO(io, offset,
SDL_IO_SEEK_SET)` for `offset >= 0`. -/
def SDL_SeekIO_SET (io : SDL_IOStream) (offset : Nat) : SDL_IOStream :=
  { io with pos := offset }

/-- Modelled from the spec: `seek_relative(delta)`, `SDL_SeekIO(io, offset,
SDL_IO_SEEK_CUR)` for `offset >= 0`. -/
def SDL_SeekIO_CUR (io : SDL_IOStream) (offset : Nat) : SDL_IOStream :=
  { io with pos := io.pos + offset }

/-- Modelled from the spec: `seek_end`, `SDL_SeekIO(io, 0, SDL_IO_SEEK_END)`. -/
def SDL_SeekIO_END (io : SDL_IOStream) : SDL_IOStream :=
  { io with pos := io.data.length }

/-- The four bytes of a little-endian u32. -/
def u32le (n : Nat) : List Nat :=
  [n % 256, n / 256 % 256, n / 65536 % 256, n / 16777216 % 256]

/-! ## Machine integers and buffers -/

/-- A `u32` result: the value reduced modulo `2^32`. -/
def u32 (x : Nat) : Nat := x % 4294967296

/-- `Align4<usize>(x)`: `(x + 3) & ~3`. -/
def Align4 (x : Nat) : Nat := (x + 3) - (x + 3) % 4

/-- `SDL_memcpy(&buf[off], bytes, bytes.length)` and, with zeros for `bytes`,
`SDL_memset(&buf[off], 0, n)`, for a destination that lies inside `buf`. -/
def memWrite (buf : List Nat) (off : Nat) (bytes : List Nat) : List Nat :=
  buf.take off ++ bytes ++ buf.drop (off + bytes.length)

/-- One row of `surfaceWrite`: the row begins `base` bytes behind
`surf->pixels`, `col` counts its bytes; a byte of the row is replaced when it
lies among the `bytes.length` bytes from `off` on. -/
def surfaceWrite.row (off : Nat) (bytes : List Nat) (base : Nat) : Nat → List Nat → List Nat
  | _, [] => []
  | col, b :: row =>
    (if off ≤ base + col ∧ base + col < off + bytes.length then bytes.getD (base + col - off) 0
      else b) :: surfaceWrite.row off bytes base (col + 1) row

/-- The rows of `surfaceWrite`, `q` counts them: row `q` begins `q * pitch`
bytes behind `surf->pixels`. -/
def surfaceWrite.rows (pitch off : Nat) (bytes : List Nat) :
    Nat → List (List Nat) → List (List Nat)
  | _, [] => []
  | q, row :: rows =>
    surfaceWrite.row off bytes (q * pitch) 0 row :: surfaceWrite.rows pitch off bytes (q + 1) rows

/-- `SDL_memcpy((u8*)surf->pixels + off, bytes, bytes.length)` for a surface
that is kept as its rows: row `q` of the surface is the bytes from `q * pitch`
on of `surf->pixels` (what lies between the end of a row and the next row is
not kept), so byte `col` of row `q` is replaced when `q * pitch + col` is one of
the `bytes.length` addresses from `off` on.  The part of a store that lies
outside the surface is dropped. -/
def surfaceWrite (pitch : Nat) (rows : List (List Nat)) (off : Nat) (bytes : List Nat) :
    List (List Nat) :=
  surfaceWrite.rows pitch off bytes 0 rows

/-- `surf->pitch` of a surface that `SDL_CreateSurface` returned, the distance
in bytes from one row of the surface to the next.  The pitch is set inside the
SDL library, which rounds the bytes of a row of pixels, `row_bytes`, up to a
multiple of 4. -/
def SDL_Surface.pitch (row_bytes : Nat) : Nat := Align4 row_bytes

/-! ## ftformat.cc : TXT files -/

/-- The C string that starts at the beginning of a buffer: its bytes before
the first NUL.  This is what a callee that takes a `const char*` sees. -/
def CString (buf : List Nat) : List Nat := buf.takeWhile (fun b => b ≠ 0)

/-- `ShiftToUTF8(shift_jis_string)`.  The transcoder of
`thirdparty/thtk_cp932` is the parameter `cp932_to_utf8`, from the CP932
C string to the UTF-8 C string it writes; the result buffer is sized by
`cp932_to_utf8_len` of the same argument. -/
def ShiftToUTF8 (cp932_to_utf8 : List Nat → List Nat) (shift_jis_string : List Nat) :
    List Nat :=
  cp932_to_utf8 (CString shift_jis_string)

/-- `DecodeTXT_1997(io)`; `none` is the `NULL` result.  `data` is the buffer of
`MemAllocZ<u8>(txt_len + 1)` after the read and the XOR loop: the sum is a
`u32`, so the buffer holds `u32 (txt_len + 1)` zero bytes, of which the first
`txt_len` receive the bytes read.  For `txt_len = 2^32 - 1` the sum is 0: the
code then has no buffer and stores and reads behind it, and the model does not
follow the code there (it keeps the bytes read, without a terminator). -/
def DecodeTXT_1997 (cp932_to_utf8 : List Nat → List Nat) (io : SDL_IOStream) :
    Option (List Nat) :=
  match SDL_ReadU8 io with
  | none => none
  | some (txt_magic, io1) =>
    if txt_magic ≠ 1 then none
    else
      match SDL_ReadU32LE io1 with
      | none => none
      | some (txt_len, io2) =>
        let got := ( SDL_ReadIO io2 txt_len).1
        if got.length ≠ txt_len then none
        else
          let data := memWrite (List.replicate (u32 (txt_len + 1)) 0) 0
            (got.map (fun b => (b ^^^ 0xFF) % 256))
          some (ShiftToUTF8 cp932_to_utf8 data)

/-- The loop body of `DecodeTXT_2006`: `if (data[i] > 0xF) data[i] = 0xE -
data[i];`, stored into a `u8`. -/
def DecodeTXT_2006.subst (b : Nat) : Nat :=
  if b > 0xF then (0xE + 256 - b) % 256 else b

/-- `DecodeTXT_2006(io, len)`; `none` is the `NULL` result.  `data` is the
zeroed buffer of `len + 1` bytes after the read and the substitution loop.
`len` is a `usize` and the counter of the loop a `u32`: for `len >= 2^32` the
condition `i < len` never fails and the call does not return, and for
`len = 2^64 - 1` the sum `len + 1` is 0.  The model does not follow the code for
these lengths: it stands for the code where `len` (with `len = 0`, the size of
the stream) is below `2^32`. -/
def DecodeTXT_2006 (cp932_to_utf8 : List Nat → List Nat) (io : SDL_IOStream) (len : Nat) :
    Option (List Nat) :=
  let (io1, len1) :=
    if len = 0 then
      let ioEnd := SDL_SeekIO_END io
      (SDL_SeekIO_SET ioEnd 0, SDL_TellIO ioEnd)
    else (io, len)
  let got := ( SDL_ReadIO io1 len1).1
  if got.length ≠ len1 then none
  else
    let data := got.map DecodeTXT_2006.subst ++ [0]
    some (ShiftToUTF8 cp932_to_utf8 data)

/-! ## ftformat.cc : BMP headers -/

/-- `Align8<u32>(x)`. -/
def Align8 (x : Nat) : Nat :=
  let rem := x % 8
  if rem ≠ 0 then u32 (x + 8 - rem) else x

/-- `struct BMP_FileHeader`. -/
structure BMP_FileHeader where
  bfType0 : Nat
  bfType1 : Nat
  bfSize : Nat
  bfReserved1 : Nat
  bfReserved2 : Nat
  bfOffBits : Nat
  deriving DecidableEq, Repr

/-- `struct BMP_InfoHeader`. -/
structure BMP_InfoHeader where
  biSize : Nat
  biWidth : Nat
  biHeight : Nat
  biPlanes : Nat
  biBitCount : Nat
  biCompression : Nat
  biSizeImage : Nat
  biXPelsPerMeter : Nat
  biYPelsPerMeter : Nat
  biClrUsed : Nat
  biClrImportant : Nat
  deriving DecidableEq, Repr

/-- `LoadBMPFileHeader(bfh, io)`; `none` is the `false` result. -/
def LoadBMPFileHeader (io : SDL_IOStream) : Option (BMP_FileHeader × SDL_IOStream) := do
  let (bfType0, io) ← SDL_ReadU8 io
  let (bfType1, io) ← SDL_ReadU8 io
  let (bfSize, io) ← SDL_ReadU32LE io
  let (bfReserved1, io) ← SDL_ReadU16LE io
  let (bfReserved2, io) ← SDL_ReadU16LE io
  let (bfOffBits, io) ← SDL_ReadU32LE io
  pure ({ bfType0, bfType1, bfSize, bfReserved1, bfReserved2, bfOffBits }, io)

/-- `LoadBMPInfoHeader(bih, io)`; `none` is the `false` result. -/
def LoadBMPInfoHeader (io : SDL_IOStream) : Option (BMP_InfoHeader × SDL_IOStream) := do
  let (biSize, io) ← SDL_ReadU32LE io
  let (biWidth, io) ← SDL_ReadU32LE io
  let (biHeight, io) ← SDL_ReadU32LE io
  let (biPlanes, io) ← SDL_ReadU16LE io
  let (biBitCount, io) ← SDL_ReadU16LE io
  let (biCompression, io) ← SDL_ReadU32LE io
  let (biSizeImage, io) ← SDL_ReadU32LE io
  let (biXPelsPerMeter, io) ← SDL_ReadU32LE io
  let (biYPelsPerMeter, io) ← SDL_ReadU32LE io
  let (biClrUsed, io) ← SDL_ReadU32LE io
  let (biClrImportant, io) ← SDL_ReadU32LE io
  pure ({ biSize, biWidth, biHeight, biPlanes, biBitCount, biCompression, biSizeImage,
          biXPelsPerMeter, biYPelsPerMeter, biClrUsed, biClrImportant }, io)

/-! ## ftformat.cc : BP3 files -/

/-- `struct BP3`. -/
structure BP3 where
  magic : Nat
  width : Nat
  height : Nat
  decompressed_length : Nat
  deriving DecidableEq, Repr

/-- The pixel part of `struct Bitmap` after a load: the surface created with
`SDL_CreateSurface(width, height, format)`, kept as its `height` rows of
`width` pixels each (the row padding up to `pitch` is not kept). -/
structure Bitmap where
  width : Nat
  height : Nat
  rows : List (List Nat)
  deriving DecidableEq, Repr

/-- How a loader gives up: `io` is a plain `return false` after a failed read
or seek of the stream, `msg text` is `return SDL_SetError(text)`. -/
inductive LoadError
  | io
  | msg (text : String)
  deriving DecidableEq, Repr

/-- The first `switch (mode_tab[i])` of `LoadBP3`: bits per pixel of a tile
mode; `none` is the `default:` case. -/
def LoadBP3.bpp (mode : Nat) : Option Nat :=
  match mode with
  | 0 => some 0
  | 1 => some 8
  | 2 => some 8
  | 3 => some 8
  | 4 => some 4
  | 5 => some 8
  | 6 => some 16
  | 7 => some 24
  | _ => none

/-- The row loop `for (y = 0; y < chunk_h; ++y)` that fills `tile_buf`: the
first argument counts the rows still to do, the state is `(dst, tile_buf, io)`. -/
def LoadBP3.readRows (stored_row_bytes pad_per_row : Nat) :
    Nat → Nat → List Nat → SDL_IOStream → Except LoadError (Nat × List Nat × SDL_IOStream)
  | 0, dst, tile_buf, io => .ok (dst, tile_buf, io)
  | n + 1, dst, tile_buf, io =>
    let afterRead : Except LoadError (Nat × List Nat × SDL_IOStream) :=
      if stored_row_bytes ≠ 0 then
        if u32 (dst + stored_row_bytes) > 192 then .error (.msg "Malformed tile data")
        else
          let r := SDL_ReadIO io stored_row_bytes
          if r.1.length ≠ stored_row_bytes then .error .io
          else .ok (u32 (dst + stored_row_bytes), memWrite tile_buf dst r.1, r.2)
      else .ok (dst, tile_buf, io)
    match afterRead with
    | .error e => .error e
    | .ok (dst1, tile_buf1, io1) =>
      if pad_per_row ≠ 0 then
        if u32 (dst1 + pad_per_row) > 192 then .error (.msg "Malformed tile data")
        else
          LoadBP3.readRows stored_row_bytes pad_per_row n (u32 (dst1 + pad_per_row))
            (memWrite tile_buf1 dst1 (List.replicate pad_per_row 0)) io1
      else LoadBP3.readRows stored_row_bytes pad_per_row n dst1 tile_buf1 io1

/-- The part of the tile loop of `LoadBP3` that fills the scratch `tile_buf`
(192 bytes, zeroed first) from the stream and moves the stream behind the
tile's stored bytes. -/
def LoadBP3.readTile (bpp chunk_w chunk_h : Nat) (io : SDL_IOStream) :
    Except LoadError (List Nat × SDL_IOStream) :=
  let tile_buf := List.replicate 192 0
  if bpp > 0 then
    let pos0 := SDL_TellIO io
    let stored_row_bytes := u32 (bpp * chunk_w) / 8
    let pad_per_row := u32 (bpp + 4294967296 - stored_row_bytes)
    match LoadBP3.readRows stored_row_bytes pad_per_row chunk_h 0 tile_buf io with
    | .error e => .error e
    | .ok (dst, tile_buf1, io1) =>
      let total_needed := bpp * 8
      if total_needed > 192 then .error (.msg "Malformed tile data")
      else
        let tile_buf2 :=
          if dst < total_needed then
            memWrite tile_buf1 dst (List.replicate (total_needed - dst) 0)
          else tile_buf1
        let stored_total := bpp * chunk_w * chunk_h / 8
        .ok (tile_buf2, SDL_SeekIO_SET io1 (pos0 + stored_total))
  else .ok (tile_buf, io)

/-- The second `switch (mode_tab[i])` of `LoadBP3`: the three bytes stored at
`outbuf[dst_off + 0 .. dst_off + 2]` for the pixel in column `tx`, read from
`tile_buf` at `src_off`.  `none` is the fall-through of a mode without a
`case`, which stores nothing. -/
def LoadBP3.decodePixel (mode base_b base_g base_r : Nat) (tile_buf : List Nat)
    (src_off tx : Nat) : Option (Nat × Nat × Nat) :=
  match mode with
  | 0 => some (base_b, base_g, base_r)
  | 1 =>
    let p := tile_buf.getD src_off 0
    some ((((p >>> 0) &&& 7) + base_b) &&& 0xFF,
          (((p >>> 3) &&& 7) + base_g) &&& 0xFF,
          (((p >>> 6) &&& 3) + base_r) &&& 0xFF)
  | 2 =>
    let p := tile_buf.getD src_off 0
    some ((((p >>> 0) &&& 3) + base_b) &&& 0xFF,
          (((p >>> 2) &&& 7) + base_g) &&& 0xFF,
          (((p >>> 5) &&& 7) + base_r) &&& 0xFF)
  | 3 =>
    let p := tile_buf.getD src_off 0
    some ((((p >>> 0) &&& 7) + base_b) &&& 0xFF,
          (((p >>> 3) &&& 3) + base_g) &&& 0xFF,
          (((p >>> 5) &&& 7) + base_r) &&& 0xFF)
  | 4 =>
    let p := tile_buf.getD src_off 0
    let nib := if tx &&& 1 ≠ 0 then (p >>> 4) &&& 0x0F else p &&& 0x0F
    some ((nib + base_b) &&& 0xFF, (nib + base_g) &&& 0xFF, (nib + base_r) &&& 0xFF)
  | 5 =>
    let p := tile_buf.getD src_off 0
    some (p, p, p)
  | 6 =>
    let p0 := tile_buf.getD (src_off + 0) 0
    let p1 := tile_buf.getD (src_off + 1) 0
    some (((p0 &&& 0x1F) + base_b) % 256,
          (((p0 >>> 5) + 8 * (p1 &&& 3)) + base_g) % 256,
          (((p1 &&& 0x7C) >>> 2) + base_r) % 256)
  | 7 =>
    some (tile_buf.getD (src_off + 0) 0, tile_buf.getD (src_off + 1) 0,
          tile_buf.getD (src_off + 2) 0)
  | _ => none

/-- The loop `for (tx = 0; tx < 8; ++tx)` of `LoadBP3`: the first argument
counts the pixels still to do, the state is `(tx, dst_off, src_off, outbuf)`. -/
def LoadBP3.decodeRow (mode src_step base_b base_g base_r : Nat) (tile_buf : List Nat) :
    Nat → Nat → Nat → Nat → List Nat → List Nat
  | 0, _, _, _, outbuf => outbuf
  | n + 1, tx, dst_off, src_off, outbuf =>
    let outbuf1 :=
      match LoadBP3.decodePixel mode base_b base_g base_r tile_buf src_off tx with
      | some (b, g, r) => ((outbuf.set (dst_off + 0) b).set (dst_off + 1) g).set (dst_off + 2) r
      | none => outbuf
    -- GRAY4: advance one byte every 2 pixels
    let src_off1 :=
      if mode = 4 then
        if tx &&& 1 = 1 then src_off + 1 else src_off
      else src_off + src_step
    LoadBP3.decodeRow mode src_step base_b base_g base_r tile_buf n (tx + 1) (dst_off + 3)
      src_off1 outbuf1

/-- The loop `for (ty = 0; ty < 8; ++ty)` of `LoadBP3`: the first argument
counts the rows still to do, the state is `(ty, src_row_byte_off, outbuf)`;
`tile_base` is `tile_col_base + tile_row_base`. -/
def LoadBP3.decodeRows (mode bpp base_b base_g base_r : Nat) (tile_buf : List Nat)
    (tile_base grid_row_bytes : Nat) : Nat → Nat → Nat → List Nat → List Nat
  | 0, _, _, outbuf => outbuf
  | n + 1, ty, src_row_byte_off, outbuf =>
    let dst_off := u32 (tile_base + ty * grid_row_bytes)
    let src_off := src_row_byte_off
    let outbuf1 := LoadBP3.decodeRow mode (bpp / 8) base_b base_g base_r tile_buf 8 0
      dst_off src_off outbuf
    LoadBP3.decodeRows mode bpp base_b base_g base_r tile_buf tile_base grid_row_bytes n
      (ty + 1) (src_row_byte_off + bpp) outbuf1

/-- The header-derived sizes of `LoadBP3`. -/
structure LoadBP3.Dims where
  width : Nat
  height : Nat
  padded_w : Nat
  padded_h : Nat
  num_tiles : Nat
  tiles_per_row : Nat
  grid_row_bytes : Nat
  deriving DecidableEq, Repr

/-- `padded_w`, `padded_h`, `num_tiles`, `tiles_per_row`, `grid_row_bytes` as
`LoadBP3` computes them from the header's width and height. -/
def LoadBP3.dims (width height : Nat) : LoadBP3.Dims :=
  let padded_w := Align8 width
  let padded_h := Align8 height
  { width := width
    height := height
    padded_w := padded_w
    padded_h := padded_h
    num_tiles := u32 (padded_w * padded_h) / 64
    tiles_per_row := padded_w / 8
    grid_row_bytes := u32 (3 * padded_w) }

/-- `chunk_w` of tile `i`. -/
def LoadBP3.chunk_w (d : LoadBP3.Dims) (i : Nat) : Nat :=
  if u32 ((i % d.tiles_per_row) * 8 + 8) ≥ d.width then
    u32 (d.width + 8 + 4294967296 - d.padded_w)
  else 8

/-- `chunk_h` of tile `i`. -/
def LoadBP3.chunk_h (d : LoadBP3.Dims) (i : Nat) : Nat :=
  if u32 ((i / d.tiles_per_row) * 8 + 8) ≥ d.height then
    u32 (d.height + 8 + 4294967296 - d.padded_h)
  else 8

/-- The decode of tile `i` into `outbuf`, from `// decode tile into outbuf` to
the end of the tile loop's body. -/
def LoadBP3.decodeTile (d : LoadBP3.Dims) (mode_tab param_tab : List Nat) (i bpp : Nat)
    (tile_buf outbuf : List Nat) : List Nat :=
  let tile_row_base := u32 (d.grid_row_bytes * 8 * (i / d.tiles_per_row))
  let tile_col_base := u32 (24 * (i % d.tiles_per_row))
  let base_b := param_tab.getD (3 * i + 0) 0
  let base_g := param_tab.getD (3 * i + 1) 0
  let base_r := param_tab.getD (3 * i + 2) 0
  LoadBP3.decodeRows (mode_tab.getD i 0) bpp base_b base_g base_r tile_buf
    (tile_col_base + tile_row_base) d.grid_row_bytes 8 0 0 outbuf

/-- The tile loop `for (i = 0; i < num_tiles; ++i)` of `LoadBP3`: the first
argument counts the tiles still to do, the state is `(i, io, outbuf)`. -/
def LoadBP3.tileLoop (d : LoadBP3.Dims) (mode_tab param_tab : List Nat) :
    Nat → Nat → SDL_IOStream → List Nat → Except LoadError (SDL_IOStream × List Nat)
  | 0, _, io, outbuf => .ok (io, outbuf)
  | n + 1, i, io, outbuf =>
    match LoadBP3.bpp (mode_tab.getD i 0) with
    | none => .error (.msg "Invalid tile mode")
    | some bpp =>
      match LoadBP3.readTile bpp (LoadBP3.chunk_w d i) (LoadBP3.chunk_h d i) io with
      | .error e => .error e
      | .ok (tile_buf, io1) =>
        LoadBP3.tileLoop d mode_tab param_tab n (i + 1) io1
          (LoadBP3.decodeTile d mode_tab param_tab i bpp tile_buf outbuf)

/-- Modelled from the spec: `SDL_FlipSurface(surf, SDL_FLIP_VERTICAL)` of the
SDL library, "vertically flips": the rows in reverse order. -/
def SDL_FlipSurface_VERTICAL (bmp : Bitmap) : Bitmap :=
  { bmp with rows := bmp.rows.reverse }

/-- The copy loop at the end of `LoadBP3`, `for (u32 y = 0; y < height; ++y)`:
the `width * 3` bytes of row `y` of the padded grid, from `outbuf + y *
grid_row_bytes` on (a `size_t` product), are copied to the address `y *
surf->pitch` bytes behind `surf->pixels` (a `u32` product).  The first argument
counts the rows still to do, the state is `(y, rows)`.  A read behind the end of
`outbuf` delivers no bytes. -/
def LoadBP3.cropRows (d : LoadBP3.Dims) (pitch : Nat) (outbuf : List Nat) :
    Nat → Nat → List (List Nat) → List (List Nat)
  | 0, _, rows => rows
  | n + 1, y, rows =>
    LoadBP3.cropRows d pitch outbuf n (y + 1)
      (surfaceWrite pitch rows (u32 (y * pitch))
        ((outbuf.drop (y * d.grid_row_bytes)).take (d.width * 3)))

/-- The end of `LoadBP3` up to the flip: the surface of
`SDL_CreateSurface(width, height, SDL_PIXELFORMAT_BGR24)`, `height` rows of
`width * 3` bytes that the SDL library hands out zeroed, after the copy loop. -/
def LoadBP3.crop (d : LoadBP3.Dims) (outbuf : List Nat) : Bitmap :=
  { width := d.width
    height := d.height
    rows := LoadBP3.cropRows d (SDL_Surface.pitch (d.width * 3)) outbuf d.height 0
      (List.replicate d.height (List.replicate (d.width * 3) 0)) }

/-- A failed stream read is a plain `return false`. -/
def orFail {α : Type} : Option α → Except LoadError α
  | some a => .ok a
  | none => .error .io

/-- The beginning of `LoadBP3`: the four header fields, the magic check and
the two BMP headers (read and not used). -/
def LoadBP3.header (io : SDL_IOStream) : Except LoadError (BP3 × SDL_IOStream) := do
  let (magic, io) ← orFail (SDL_ReadU32LE io)
  let (width, io) ← orFail (SDL_ReadU32LE io)
  let (height, io) ← orFail (SDL_ReadU32LE io)
  let (decompressed_length, io) ← orFail (SDL_ReadU32LE io)
  let bp3 : BP3 := { magic, width, height, decompressed_length }
  if bp3.magic ≠ 0x88888888 then .error (.msg "Invalid file")
  else
    let (_, io) ← orFail (LoadBMPFileHeader io)
    let (_, io) ← orFail (LoadBMPInfoHeader io)
    pure (bp3, io)

/-- The two tables of `LoadBP3`: `mode_tab` and `param_tab`. -/
def LoadBP3.tables (d : LoadBP3.Dims) (io : SDL_IOStream) :
    Except LoadError (List Nat × List Nat × SDL_IOStream) :=
  let mode_tab := SDL_ReadIO io d.num_tiles
  if mode_tab.1.length ≠ d.num_tiles then .error .io
  else
    let param_tab := SDL_ReadIO mode_tab.2 (u32 (d.num_tiles * 3))
    if param_tab.1.length ≠ u32 (d.num_tiles * 3) then .error .io
    else .ok (mode_tab.1, param_tab.1, param_tab.2)

/-- `LoadBP3` up to the end of the tile loop: the header's sizes and the full
padded grid `outbuf` (BGR24). -/
def LoadBP3.grid (io : SDL_IOStream) : Except LoadError (LoadBP3.Dims × List Nat) := do
  let (bp3, io) ← LoadBP3.header io
  let d := LoadBP3.dims bp3.width bp3.height
  let (mode_tab, param_tab, io) ← LoadBP3.tables d io
  let outbuf := List.replicate (u32 (d.padded_w * d.padded_h * 3)) 0
  let (_, outbuf) ← LoadBP3.tileLoop d mode_tab param_tab d.num_tiles 0 io outbuf
  pure (d, outbuf)

/-- `LoadBP3(bmp, io)`; an error is the `false` result, `ok` carries the
surface left in `bmp->surf`.  Creating, locking and flipping the surface are
SDL calls and are taken to succeed. -/
def LoadBP3 (io : SDL_IOStream) : Except LoadError Bitmap := do
  let (d, outbuf) ← LoadBP3.grid io
  pure (SDL_FlipSurface_VERTICAL (LoadBP3.crop d outbuf))

/-- The stream of scenario 5: an 8x8 image, mode table `[5]`, parameters
`00 00 00`, payload `0..63` (the two BMP headers are zero-filled). -/
def bp3Gray8Example : SDL_IOStream :=
  ⟨u32le 0x88888888 ++ u32le 8 ++ u32le 8 ++ u32le 192 ++ List.replicate 54 0 ++ [5] ++
    [0, 0, 0] ++ List.range 64, 0⟩

/-- The tile pixel `(tx, ty)` of a full 8x8 tile as the specification's table
of tile modes gives it, from the tile's on-disk payload: `p`, `p1`, `p2` are
the payload bytes from offset `(8 * ty + tx) * bpp / 8` on; the result is
`(b, g, r)`. -/
def BP3TilePixelSpec (m base_b base_g base_r : Nat) (payload : List Nat) (tx ty : Nat) :
    Nat × Nat × Nat :=
  let bpp := [0, 8, 8, 8, 4, 8, 16, 24].getD m 0
  let off := (8 * ty + tx) * bpp / 8
  let p := payload.getD off 0
  let p1 := payload.getD (off + 1) 0
  let p2 := payload.getD (off + 2) 0
  match m with
  | 0 => (base_b, base_g, base_r)
  | 1 => (((p &&& 7) + base_b) % 256, (((p >>> 3) &&& 7) + base_g) % 256,
          (((p >>> 6) &&& 3) + base_r) % 256)
  | 2 => (((p &&& 3) + base_b) % 256, (((p >>> 2) &&& 7) + base_g) % 256,
          (((p >>> 5) &&& 7) + base_r) % 256)
  | 3 => (((p &&& 7) + base_b) % 256, (((p >>> 3) &&& 3) + base_g) % 256,
          (((p >>> 5) &&& 7) + base_r) % 256)
  | 4 =>
    let n := if tx % 2 = 0 then p % 16 else p / 16 % 16
    ((n + base_b) % 256, (n + base_g) % 256, (n + base_r) % 256)
  | 5 => (p, p, p)
  | 6 => (((p &&& 0x1F) + base_b) % 256, (((p >>> 5) + 8 * (p1 &&& 3)) + base_g) % 256,
          (((p1 &&& 0x7C) >>> 2) + base_r) % 256)
  | 7 => (p, p1, p2)
  | _ => (0, 0, 0)

/-- Where the pixel of column `t` starts in its scratch row: GRAY4 packs two
pixels per byte, every other mode takes `src_step` bytes per pixel. -/
def LoadBP3.srcCol (mode src_step t : Nat) : Nat :=
  if mode = 4 then t / 2 else t * src_step

/-- The scratch contents `tile_buf` of the tiles `i, i + 1, ..., i + n - 1`, as
the tile loop of `LoadBP3` reads them one after the other from `io` (the tile
loop without its decode step). -/
def LoadBP3.tileBufs (d : LoadBP3.Dims) (mode_tab : List Nat) :
    Nat → Nat → SDL_IOStream → Except LoadError (List (List Nat))
  | 0, _, _ => .ok []
  | n + 1, i, io =>
    match LoadBP3.bpp (mode_tab.getD i 0) with
    | none => .error (.msg "Invalid tile mode")
    | some bpp =>
      match LoadBP3.readTile bpp (LoadBP3.chunk_w d i) (LoadBP3.chunk_h d i) io with
      | .error e => .error e
      | .ok (tile_buf, io1) =>
        match LoadBP3.tileBufs d mode_tab n (i + 1) io1 with
        | .error e => .error e
        | .ok tbs => .ok (tile_buf :: tbs)

/-- The pixel `(tx, ty)` of tile number `i`: what the second `switch` of
`LoadBP3` yields for it from the tile's mode, base colour and scratch `tbs[i]`;
the pixel is read at `ty * bpp` plus its column's offset in the scratch row. -/
def LoadBP3.tilePixel (mode_tab param_tab : List Nat) (tbs : List (List Nat))
    (i tx ty : Nat) : Option (Nat × Nat × Nat) :=
  let mode := mode_tab.getD i 0
  let bpp := (LoadBP3.bpp mode).getD 0
  LoadBP3.decodePixel mode (param_tab.getD (3 * i + 0) 0) (param_tab.getD (3 * i + 1) 0)
    (param_tab.getD (3 * i + 2) 0) (tbs.getD i [])
    (0 + ty * bpp + LoadBP3.srcCol mode (bpp / 8) tx) tx

/-- Channel `k` (0 blue, 1 green, 2 red) of a pixel. -/
def channel (px : Nat × Nat × Nat) (k : Nat) : Nat :=
  match k with
  | 0 => px.1
  | 1 => px.2.1
  | _ => px.2.2

/-- Channel `k` of the pixel `(x, y)` of the padded BGR24 grid `outbuf`. -/
def LoadBP3.gridPixel (d : LoadBP3.Dims) (outbuf : List Nat) (x y k : Nat) : Nat :=
  outbuf.getD (y * d.grid_row_bytes + 3 * x + k) 0

/-- Channel `k` of the pixel `(x, y)` of a BGR24 bitmap. -/
def Bitmap.pixel (bmp : Bitmap) (x y k : Nat) : Nat :=
  (bmp.rows.getD y []).getD (3 * x + k) 0

/-- Where tile `i` starts in the padded grid: `tile_col_base + tile_row_base`
without the reduction modulo `2^32`. -/
def LoadBP3.tileBase (d : LoadBP3.Dims) (i : Nat) : Nat :=
  24 * (i % d.tiles_per_row) + d.grid_row_bytes * 8 * (i / d.tiles_per_row)

/-! ## ftformat.cc : BP2 files -/

/-- The run-length state of `BP2_DecodeRLE` inside one slice: `rrle`, `rlen`,
`rval` and the chunk from the cursor `p` on (`chunk_len` is its length). -/
structure BP2_DecodeRLE.Run where
  rrle : Bool
  rlen : Nat
  rval : List Nat
  p : List Nat
  deriving DecidableEq, Repr

/-- The loop `while (rlen == 0)` of `BP2_DecodeRLE`, which reads control
words until a run with a non-zero length is open.  The first argument bounds
the number of iterations; every iteration takes at least the two bytes of a
control word from the chunk, so a bound above the chunk's length is never
reached (`BP2_DecodeRLE.nextRun_unfold`). -/
def BP2_DecodeRLE.nextRun.go (SRC_BPP : Nat) :
    Nat → BP2_DecodeRLE.Run → Except LoadError BP2_DecodeRLE.Run
  | 0, _ => .error (.msg "Malformed slice")
  | fuel + 1, st =>
    if st.rlen ≠ 0 then .ok st
    else if st.p.length < 2 then .error (.msg "Malformed slice")
    else
      let ctrl := st.p.getD 0 0 ||| (st.p.getD 1 0 <<< 8)
      let p := st.p.drop 2
      if ctrl &&& 0x8000 ≠ 0 then
        -- repeat pixel
        if p.length < SRC_BPP then .error (.msg "Malformed slice")
        else
          BP2_DecodeRLE.nextRun.go SRC_BPP fuel
            { rrle := true, rlen := ctrl &&& 0x7FFF, rval := p.take SRC_BPP,
              p := p.drop SRC_BPP }
      else
        -- read literals
        BP2_DecodeRLE.nextRun.go SRC_BPP fuel
          { rrle := false, rlen := ctrl, rval := st.rval, p := p }

/-- The loop `while (rlen == 0)` of `BP2_DecodeRLE`. -/
def BP2_DecodeRLE.nextRun (SRC_BPP : Nat) (st : BP2_DecodeRLE.Run) :
    Except LoadError BP2_DecodeRLE.Run :=
  BP2_DecodeRLE.nextRun.go SRC_BPP (st.p.length + 1) st

/-- The `DST_BPP` bytes stored for one pixel: `col[plane] = v[plane % SRC_BPP]`
for `plane = 0 .. DST_BPP - 1`. -/
def BP2_DecodeRLE.planes (SRC_BPP DST_BPP : Nat) (v : List Nat) : List Nat :=
  (List.range DST_BPP).map (fun plane => v.getD (plane % SRC_BPP) 0)

/-- The body of the loop `for (y = 0; y < 8; ++y)`: one pixel, stored at `col`
(an offset into `slice`). -/
def BP2_DecodeRLE.pixel (SRC_BPP DST_BPP : Nat) (st : BP2_DecodeRLE.Run) (slice : List Nat)
    (col : Nat) : Except LoadError (BP2_DecodeRLE.Run × List Nat) :=
  match BP2_DecodeRLE.nextRun SRC_BPP st with
  | .error e => .error e
  | .ok st1 =>
    if st1.rrle then
      .ok ({ st1 with rlen := st1.rlen - 1 },
        memWrite slice col (BP2_DecodeRLE.planes SRC_BPP DST_BPP st1.rval))
    else
      if st1.p.length < SRC_BPP then .error (.msg "Malformed slice")
      else
        let literal := st1.p.take SRC_BPP
        .ok ({ st1 with rlen := st1.rlen - 1, p := st1.p.drop SRC_BPP },
          memWrite slice col (BP2_DecodeRLE.planes SRC_BPP DST_BPP literal))

/-- The loop `for (y = 0; y < 8; ++y)`: the first argument counts the pixels
still to do, the state is `(col, run state, slice)`. -/
def BP2_DecodeRLE.column (SRC_BPP DST_BPP dst_pitch : Nat) :
    Nat → Nat → BP2_DecodeRLE.Run → List Nat →
      Except LoadError (BP2_DecodeRLE.Run × List Nat)
  | 0, _, st, slice => .ok (st, slice)
  | n + 1, col, st, slice =>
    match BP2_DecodeRLE.pixel SRC_BPP DST_BPP st slice col with
    | .error e => .error e
    | .ok (st1, slice1) =>
      BP2_DecodeRLE.column SRC_BPP DST_BPP dst_pitch n (col + dst_pitch) st1 slice1

/-- The loop `for (x = 0; x < biWidth; ++x)`: the first argument counts the
columns still to do, the state is `(x, run state, slice)`. -/
def BP2_DecodeRLE.columns (SRC_BPP DST_BPP dst_pitch : Nat) :
    Nat → Nat → BP2_DecodeRLE.Run → List Nat →
      Except LoadError (BP2_DecodeRLE.Run × List Nat)
  | 0, _, st, slice => .ok (st, slice)
  | n + 1, x, st, slice =>
    match BP2_DecodeRLE.column SRC_BPP DST_BPP dst_pitch 8 (x * DST_BPP) st slice with
    | .error e => .error e
    | .ok (st1, slice1) =>
      BP2_DecodeRLE.columns SRC_BPP DST_BPP dst_pitch n (x + 1) st1 slice1

/-- The run-length decoding of one slice of `BP2_DecodeRLE<SRC_BPP, DST_BPP>`:
from `// Run-length decoding` to the end of the loop over `x`.  `chunk` is the
slice's chunk, `slice` the scratch of `dst_pitch * 8` bytes as the previous
slice left it; the result is the scratch afterwards. -/
def BP2_DecodeRLE.slice (SRC_BPP DST_BPP biWidth : Nat) (chunk slice : List Nat) :
    Except LoadError (List Nat) :=
  let dst_pitch := Align4 (biWidth * DST_BPP)
  match BP2_DecodeRLE.columns SRC_BPP DST_BPP dst_pitch biWidth 0
      { rrle := false, rlen := 0, rval := List.replicate SRC_BPP 0, p := chunk } slice with
  | .error e => .error e
  | .ok (_, slice1) => .ok slice1

/-- Up to `n` literal pixels of `bpp` bytes each from the front of `p`, as
many as are complete. -/
def BP2RunExpansion.literals (bpp : Nat) : Nat → List Nat → List (List Nat)
  | 0, _ => []
  | n + 1, p =>
    if p.length < bpp then []
    else p.take bpp :: BP2RunExpansion.literals bpp n (p.drop bpp)

/-- The run expansion of a chunk, control word by control word; the first
argument bounds the number of control words. -/
def BP2RunExpansion.go (bpp : Nat) : Nat → List Nat → List (List Nat)
  | fuel + 1, c0 :: c1 :: rest =>
    let ctrl := c0 + 256 * c1
    if 32768 ≤ ctrl then
      if rest.length < bpp then []
      else
        List.replicate (ctrl % 32768) (rest.take bpp) ++
          BP2RunExpansion.go bpp fuel (rest.drop bpp)
    else
      if rest.length < ctrl * bpp then BP2RunExpansion.literals bpp ctrl rest
      else
        BP2RunExpansion.literals bpp ctrl rest ++
          BP2RunExpansion.go bpp fuel (rest.drop (ctrl * bpp))
  | _, _ => []

/-- The run expansion of a chunk as the specification words it: the chunk is
a sequence of little-endian u16 control words; a control word with bit 15 set
is followed by one `bpp`-byte value and stands for `ctrl & 0x7FFF` copies of
it; any other control word stands for the `ctrl` literal `bpp`-byte pixels
that follow it.  The list ends where the chunk is exhausted. -/
def BP2RunExpansion (bpp : Nat) (chunk : List Nat) : List (List Nat) :=
  BP2RunExpansion.go bpp chunk.length chunk

/-- The pixels that a run state still stands for: the rest of the open run (a
repeat run of `rlen` copies of `rval`, or `rlen` literal pixels at the cursor)
followed by the run expansion of what comes after it in the chunk. -/
def BP2_DecodeRLE.pending (bpp : Nat) (st : BP2_DecodeRLE.Run) : List (List Nat) :=
  if st.rrle then List.replicate st.rlen st.rval ++ BP2RunExpansion bpp st.p
  else if st.p.length < st.rlen * bpp then BP2RunExpansion.literals bpp st.rlen st.p
  else
    BP2RunExpansion.literals bpp st.rlen st.p ++
      BP2RunExpansion bpp (st.p.drop (st.rlen * bpp))

/-- The bitmap that scenario 5 expects for `bp3Gray8Example`: every channel of
the pixel `(x, y)` is `(7 - y) * 8 + x`. -/
def bp3Gray8Expected : Bitmap :=
  { width := 8
    height := 8
    rows :=
      [[56, 56, 56, 57, 57, 57, 58, 58, 58, 59, 59, 59, 60, 60, 60, 61, 61, 61, 62, 62, 62, 63, 63, 63],
      [48, 48, 48, 49, 49, 49, 50, 50, 50, 51, 51, 51, 52, 52, 52, 53, 53, 53, 54, 54, 54, 55, 55, 55],
      [40, 40, 40, 41, 41, 41, 42, 42, 42, 43, 43, 43, 44, 44, 44, 45, 45, 45, 46, 46, 46, 47, 47, 47],
      [32, 32, 32, 33, 33, 33, 34, 34, 34, 35, 35, 35, 36, 36, 36, 37, 37, 37, 38, 38, 38, 39, 39, 39],
      [24, 24, 24, 25, 25, 25, 26, 26, 26, 27, 27, 27, 28, 28, 28, 29, 29, 29, 30, 30, 30, 31, 31, 31],
      [16, 16, 16, 17, 17, 17, 18, 18, 18, 19, 19, 19, 20, 20, 20, 21, 21, 21, 22, 22, 22, 23, 23, 23],
      [8, 8, 8, 9, 9, 9, 10, 10, 10, 11, 11, 11, 12, 12, 12, 13, 13, 13, 14, 14, 14, 15, 15, 15],
      [0, 0, 0, 1, 1, 1, 2, 2, 2, 3, 3, 3, 4, 4, 4, 5, 5, 5, 6, 6, 6, 7, 7, 7]] }

/-! ## ftformat.cc : BP2 files, the slice loop and `LoadBP2` -/

/-- `struct BP2`. -/
structure BP2 where
  magic : Nat
  encoding : Nat
  palette_len : Nat
  idk : Nat
  slice_count : Nat
  extra_slice_count : Nat
  deriving DecidableEq, Repr

/-- `struct BP2Params`. -/
structure BP2Params where
  bp2 : BP2
  bfh : BMP_FileHeader
  bih : BMP_InfoHeader
  deriving DecidableEq, Repr

/-- The copy loops of `BP2_DecodeRLE`, `for (y = 0; y < n; ++y) SDL_memcpy(rdst,
rsrc, biWidth * DST_BPP)`: the first `row_bytes = biWidth * DST_BPP` bytes of
row `y` of the scratch `slice` are copied to the address `surf->pitch * (first +
y)` bytes behind `surf->pixels`.  The first argument counts the rows still to
do, the state is `(y, rows)`.  `first` is `i * 8` in the slice loop and `biHeight
- extra` in the trailer loop; the row number `first + y` is a `u32` and so is its
product with `surf->pitch`, the parameter `pitch`. -/
def BP2_DecodeRLE.copyRows (row_bytes dst_pitch pitch first : Nat) (slice : List Nat) :
    Nat → Nat → List (List Nat) → List (List Nat)
  | 0, _, rows => rows
  | n + 1, y, rows =>
    BP2_DecodeRLE.copyRows row_bytes dst_pitch pitch first slice n (y + 1)
      (surfaceWrite pitch rows (u32 (pitch * u32 (first + y)))
        ((slice.drop (dst_pitch * y)).take row_bytes))

/-- The slice loop `for (i = 0; i < slice_count; ++i)` of `BP2_DecodeRLE`: the
first argument counts the slices still to do, the state is `(i, io, slice,
rows)` with `slice` the scratch and `rows` the rows of the surface; `pitch` is
`surf->pitch`. -/
def BP2_DecodeRLE.slices (SRC_BPP DST_BPP biWidth pitch : Nat) :
    Nat → Nat → SDL_IOStream → List Nat → List (List Nat) →
      Except LoadError (SDL_IOStream × List Nat × List (List Nat))
  | 0, _, io, slice, rows => .ok (io, slice, rows)
  | n + 1, i, io, slice, rows =>
    match SDL_ReadU32LE io with
    | none => .error .io
    | some (chunk_len, io1) =>
      let chunk := SDL_ReadIO io1 chunk_len
      if chunk.1.length ≠ chunk_len then .error .io
      else
        match BP2_DecodeRLE.slice SRC_BPP DST_BPP biWidth chunk.1 slice with
        | .error e => .error e
        | .ok slice1 =>
          BP2_DecodeRLE.slices SRC_BPP DST_BPP biWidth pitch n (i + 1) chunk.2 slice1
            (BP2_DecodeRLE.copyRows (biWidth * DST_BPP) (Align4 (biWidth * DST_BPP)) pitch
              (u32 (i * 8)) slice1 8 0 rows)

/-- The trailing partial slice of `BP2_DecodeRLE`, the body of
`if (biHeight % 8 != 0)`: the state is `(io, slice, rows)`, the result the rows
of the surface; `pitch` is `surf->pitch`. -/
def BP2_DecodeRLE.trailer (DST_BPP pitch : Nat) (bp2 : BP2Params) (io : SDL_IOStream)
    (slice : List Nat) (rows : List (List Nat)) : Except LoadError (List (List Nat)) :=
  let dst_pitch := Align4 (bp2.bih.biWidth * DST_BPP)
  if (bp2.bih.biHeight % 8) * dst_pitch ≠ bp2.bp2.extra_slice_count then
    .error (.msg "Malformed trailing data")
  else
    match SDL_ReadU32LE io with
    | none => .error .io
    | some (extra_bytes, io1) =>
      let r := SDL_ReadIO io1 extra_bytes
      if r.1.length ≠ extra_bytes then .error .io
      else if extra_bytes ≠ bp2.bp2.extra_slice_count then .error .io
      else
        let slice1 := memWrite slice 0 r.1
        let extra := bp2.bih.biHeight % 8
        .ok (BP2_DecodeRLE.copyRows (bp2.bih.biWidth * DST_BPP) dst_pitch pitch
          (bp2.bih.biHeight - extra) slice1 extra 0 rows)

/-- `BP2_DecodeRLE<SRC_BPP, DST_BPP>(surf, io, bp2)` up to the flip: the rows
of the surface after the slice loop and the trailing partial slice; `pitch` is
`surf->pitch`.  The scratch `slice` of `dst_pitch * 8` bytes comes from
`MemAlloc` without being cleared; it is taken as zeros here, and every byte
that is copied out of it has been stored before. -/
def BP2_DecodeRLE.decode (SRC_BPP DST_BPP : Nat) (surf : Bitmap) (pitch : Nat)
    (io : SDL_IOStream) (bp2 : BP2Params) : Except LoadError (List (List Nat)) :=
  let dst_pitch := Align4 (bp2.bih.biWidth * DST_BPP)
  let slice := List.replicate (dst_pitch * 8) 0
  match BP2_DecodeRLE.slices SRC_BPP DST_BPP bp2.bih.biWidth pitch bp2.bp2.slice_count 0 io
      slice surf.rows with
  | .error e => .error e
  | .ok (io1, slice1, rows1) =>
    if bp2.bih.biHeight % 8 ≠ 0 then BP2_DecodeRLE.trailer DST_BPP pitch bp2 io1 slice1 rows1
    else .ok rows1

/-- `BP2_DecodeRLE<SRC_BPP, DST_BPP>(surf, io, bp2)`; an error is the `false`
result, `ok` carries the surface, flipped at the end; `pitch` is `surf->pitch`. -/
def BP2_DecodeRLE (SRC_BPP DST_BPP : Nat) (surf : Bitmap) (pitch : Nat) (io : SDL_IOStream)
    (bp2 : BP2Params) : Except LoadError Bitmap :=
  match BP2_DecodeRLE.decode SRC_BPP DST_BPP surf pitch io bp2 with
  | .error e => .error e
  | .ok rows => .ok (SDL_FlipSurface_VERTICAL { surf with rows := rows })

/-- The chunks of the next `n` slices of a stream as the slice loop of
`BP2_DecodeRLE` reads them, a u32 `chunk_len` and `chunk_len` bytes each (the
slice loop without its decoding). -/
def BP2_DecodeRLE.chunks : Nat → SDL_IOStream → Option (List (List Nat) × SDL_IOStream)
  | 0, io => some ([], io)
  | n + 1, io =>
    match SDL_ReadU32LE io with
    | none => none
    | some (chunk_len, io1) =>
      let chunk := SDL_ReadIO io1 chunk_len
      if chunk.1.length ≠ chunk_len then none
      else
        match BP2_DecodeRLE.chunks n chunk.2 with
        | none => none
        | some (cs, io2) => some (chunk.1 :: cs, io2)

/-- `SDL_Color`. -/
structure SDL_Color where
  r : Nat
  g : Nat
  b : Nat
  a : Nat
  deriving DecidableEq, Repr

/-- The pixel formats that `LoadBP2` names. -/
inductive SDL_PixelFormat
  | SDL_PIXELFORMAT_UNKNOWN
  | SDL_PIXELFORMAT_INDEX8
  | SDL_PIXELFORMAT_BGR24
  deriving DecidableEq, Repr

/-- The array `format_map` of `LoadBP2`. -/
def LoadBP2.format_map : List SDL_PixelFormat :=
  [.SDL_PIXELFORMAT_UNKNOWN, .SDL_PIXELFORMAT_INDEX8, .SDL_PIXELFORMAT_BGR24,
   .SDL_PIXELFORMAT_BGR24]

/-- The beginning of `LoadBP2`: the six header fields, the magic check and the
two BMP headers. -/
def LoadBP2.header (src : SDL_IOStream) : Except LoadError (BP2Params × SDL_IOStream) := do
  let (magic, src) ← orFail (SDL_ReadU32LE src)
  let (encoding, src) ← orFail (SDL_ReadU32LE src)
  let (palette_len, src) ← orFail (SDL_ReadU32LE src)
  let (idk, src) ← orFail (SDL_ReadU32LE src)
  let (slice_count, src) ← orFail (SDL_ReadU32LE src)
  let (extra_slice_count, src) ← orFail (SDL_ReadU32LE src)
  let bp2 : BP2 := { magic, encoding, palette_len, idk, slice_count, extra_slice_count }
  if bp2.magic ≠ 999 then .error (.msg "File is not a BP2 image")
  else
    let (bfh, src) ← orFail (LoadBMPFileHeader src)
    let (bih, src) ← orFail (LoadBMPInfoHeader src)
    pure ({ bp2, bfh, bih }, src)

/-- The part `// Palette data` of `LoadBP2`: `none` is the palette pointer left
`NULL` when `palette_len` is 0.  `SDL_CreatePalette` and `SDL_SetPaletteColors`
are SDL calls and are taken to succeed. -/
def LoadBP2.palette (palette_len : Nat) (src : SDL_IOStream) :
    Except LoadError (Option (List SDL_Color) × SDL_IOStream) :=
  if palette_len > 0 then
    if palette_len % 4 ≠ 0 then .error (.msg "Malformed image palette")
    else
      let ncolors := palette_len / 4
      let palette := SDL_ReadIO src palette_len
      if palette.1.length ≠ palette_len then .error .io
      else
        .ok (some ((List.range ncolors).map (fun i =>
          { r := palette.1.getD (i * 4 + 2) 0
            g := palette.1.getD (i * 4 + 1) 0
            b := palette.1.getD (i * 4 + 0) 0
            a := 0xFF })), palette.2)
  else .ok (none, src)

/-- The surface of `LoadBP2` after `SDL_CreateSurface(biWidth, biHeight,
format)` and `SDL_FillSurfaceRect(surf, NULL, 0xFF00FF)` (SDL calls): `height`
rows of `width` pixels, every pixel the value `0xFF00FF` in the surface's
format, one byte for INDEX8 and three for BGR24.  `format` is `none` where the
code reads `format_map` behind its four elements. -/
def LoadBP2.surface (width height : Nat) (format : Option SDL_PixelFormat) : Bitmap :=
  let px : List Nat :=
    match format with
    | some .SDL_PIXELFORMAT_INDEX8 => [0xFF]
    | some .SDL_PIXELFORMAT_BGR24 => [0xFF, 0x00, 0xFF]
    | _ => []
  { width := width
    height := height
    rows := List.replicate height (List.replicate width px).flatten }

/-- `surf->pitch` of the surface of `LoadBP2`: a pixel of the surface takes one
byte for INDEX8 and three for BGR24. -/
def LoadBP2.pitch (width : Nat) (format : Option SDL_PixelFormat) : Nat :=
  match format with
  | some .SDL_PIXELFORMAT_INDEX8 => SDL_Surface.pitch (width * 1)
  | some .SDL_PIXELFORMAT_BGR24 => SDL_Surface.pitch (width * 3)
  | _ => 0

/-- `LoadBP2(bmp, src)`; an error is the `false` result, `ok` carries the
palette and the surface left in `bmp->pal` and `bmp->surf`.  Whether
`SDL_CreateSurface` and `SDL_LockSurface` succeed for the size and format they
are given is decided inside the SDL library and is the parameter `surf_ok`;
`SDL_SetSurfacePalette` and `SDL_FlipSurface` are taken to succeed.  `msg`
carries the format string of `SDL_SetError`. -/
def LoadBP2 (surf_ok : Bool) (src : SDL_IOStream) :
    Except LoadError (Option (List SDL_Color) × Bitmap) := do
  let (bpar, src) ← LoadBP2.header src
  let (pal, src) ← LoadBP2.palette bpar.bp2.palette_len src
  if ¬ surf_ok then .error .io
  else
    let surf := LoadBP2.surface bpar.bih.biWidth bpar.bih.biHeight
      (LoadBP2.format_map.get? bpar.bp2.encoding)
    let pitch := LoadBP2.pitch bpar.bih.biWidth (LoadBP2.format_map.get? bpar.bp2.encoding)
    match bpar.bp2.encoding with
    | 1 => do
      let surf ← BP2_DecodeRLE 1 1 surf pitch src bpar
      pure (pal, surf)
    | 2 => do
      let surf ← BP2_DecodeRLE 3 3 surf pitch src bpar
      pure (pal, surf)
    | 3 => do
      let surf ← BP2_DecodeRLE 1 3 surf pitch src bpar
      pure (pal, surf)
    | _ => .error (.msg "Invalid encoding method: %d")

/-- A BP2 stream: GRAY8, 2 x 12, one slice and a trailer of four rows. -/
def bp2Gray8Example : SDL_IOStream :=
  ⟨u32le 999 ++ u32le 3 ++ u32le 0 ++ u32le 0 ++ u32le 1 ++ u32le 32 ++
    List.replicate 14 0 ++ (u32le 40 ++ u32le 2 ++ u32le 12 ++ List.replicate 28 0) ++
    (u32le 11 ++ [0x05, 0x80, 7, 0x03, 0x00, 1, 2, 3, 0x08, 0x80, 9]) ++
    (u32le 32 ++ (List.range 32).map (fun k => 100 + k)), 0⟩

/-! ## ftformat.cc : BIN/LB5 files -/

/-- `struct PackEntry`; `name` is the string that the transcoder writes to the
entry's name buffer, without its terminating NUL. -/
structure PackEntry where
  off : Nat
  len : Nat
  name : List Nat
  deriving DecidableEq, Repr

/-- The record loop `for (i = 0; i < len && ok; ++i)` of `LoadBinIDX`: the
first argument counts the records still to do, the state is the stream and
the entries `buf[0 .. i - 1]` stored so far.  `name_jis` is the zeroed buffer of
`name_len + 1` bytes after the read (for `name_len = 2^32 - 1` the u32 sum
`name_len + 1` is 0 and the buffer has no room at all; the model does not
follow the code there).  An error is `ok = false`, after which the loop is left,
the entry buffer released and `false` returned. -/
def LoadBinIDX.records (cp932_to_utf8 : List Nat → List Nat) :
    Nat → SDL_IOStream → List PackEntry → Except LoadError (List PackEntry × SDL_IOStream)
  | 0, src, buf => .ok (buf, src)
  | n + 1, src, buf =>
    match SDL_ReadU32LE src with
    | none => .error .io
    | some (name_len, src1) =>
      let r := SDL_ReadIO src1 name_len
      if r.1.length ≠ name_len then .error .io
      else
        let name_jis := r.1 ++ [0]
        match SDL_ReadU32LE r.2 with
        | none => .error .io
        | some (off, src2) =>
          match SDL_ReadU32LE src2 with
          | none => .error .io
          | some (len, src3) =>
            LoadBinIDX.records cp932_to_utf8 n src3
              (buf ++ [{ off := off, len := len, name := cp932_to_utf8 (CString name_jis) }])

/-- `LoadBinIDX(entries, src)`; an error is the `false` result, `ok` carries the
entries and the stream behind the index. -/
def LoadBinIDX (cp932_to_utf8 : List Nat → List Nat) (src : SDL_IOStream) :
    Except LoadError (List PackEntry × SDL_IOStream) :=
  match SDL_ReadU32LE src with
  | none => .error .io
  | some (len, src1) => LoadBinIDX.records cp932_to_utf8 len src1 []

/-- The record loop of `LoadLB5IDX`.  `name_jis` is an array of 15 bytes that is
handed to the transcoder as a C string; when none of the 15 bytes is NUL the
transcoder reads on behind the array, and `after` is what memory holds there.
The seek over the padding byte, `SDL_SeekIO(src, 1, SDL_IO_SEEK_CUR)`, is taken
to succeed. -/
def LoadLB5IDX.records (cp932_to_utf8 : List Nat → List Nat) (after : List Nat) :
    Nat → SDL_IOStream → List PackEntry → Except LoadError (List PackEntry × SDL_IOStream)
  | 0, src, buf => .ok (buf, src)
  | n + 1, src, buf =>
    match SDL_ReadU32LE src with
    | none => .error .io
    | some (off, src1) =>
      match SDL_ReadU32LE src1 with
      | none => .error .io
      | some (len, src2) =>
        let src3 := SDL_SeekIO_CUR src2 1
        let name_jis := SDL_ReadIO src3 15
        if name_jis.1.length ≠ 15 then .error .io
        else
          LoadLB5IDX.records cp932_to_utf8 after n name_jis.2
            (buf ++ [{ off := off, len := len,
                       name := cp932_to_utf8 (CString (name_jis.1 ++ after)) }])

/-- `LoadLB5IDX(entries, src)`. -/
def LoadLB5IDX (cp932_to_utf8 : List Nat → List Nat) (after : List Nat) (src : SDL_IOStream) :
    Except LoadError (List PackEntry × SDL_IOStream) :=
  match SDL_ReadU32LE src with
  | none => .error .io
  | some (len, src1) => LoadLB5IDX.records cp932_to_utf8 after len src1 []

/-- `struct PackFile`. -/
structure PackFile where
  entries : List PackEntry
  lump_file : SDL_IOStream
  deriving DecidableEq, Repr

/-- The path `idx_path` of `OpenPackFile`: a copy of `path` in which
`strncpy(idx_path + path_len - 3, "idx", 3)` has overwritten the last three
characters. -/
def OpenPackFile.idx_path (path : List Char) : List Char :=
  let path_len := path.length
  ((path.set (path_len - 3) 'i').set (path_len - 3 + 1) 'd').set (path_len - 3 + 2) 'x'

/-- `OpenPackFile(pack, path)`; an error is the `false` result, `ok` carries
`*pack`.  `SDL_IOFromFile` is the file system, from a path to the stream over
the file's bytes (`none` when the file cannot be opened); `before` is the byte
in front of `path` (see `Extension`), `after` what lies behind `name_jis` (see
`LoadLB5IDX.records`). -/
def OpenPackFile (cp932_to_utf8 : List Nat → List Nat) (after : List Nat)
    (SDL_IOFromFile : List Char → Option SDL_IOStream) (before : Char) (path : List Char) :
    Except LoadError PackFile :=
  match Extension before path with
  | none => .error (.msg "Invalid file")
  | some ext =>
    match SDL_IOFromFile path with
    | none => .error .io
    | some lump_file =>
      let is_bin := decide (SDL_strcasecmp ext ['b', 'i', 'n'] = 0)
      let is_lb5 := decide (SDL_strcasecmp ext ['l', 'b', '5'] = 0)
      if !is_bin && !is_lb5 then .error (.msg "Invalid file")
      else
        -- Replace extension with .idx
        match SDL_IOFromFile (OpenPackFile.idx_path path) with
        | none => .error .io
        | some idx_io =>
          if is_bin then
            match LoadBinIDX cp932_to_utf8 idx_io with
            | .error e => .error e
            | .ok (entries, _) => .ok { entries := entries, lump_file := lump_file }
          else if is_lb5 then
            match LoadLB5IDX cp932_to_utf8 after idx_io with
            | .error e => .error e
            | .ok (entries, _) => .ok { entries := entries, lump_file := lump_file }
          else .error (.msg "Invalid file")

/-- `PackFile::ReadEntry(entry)`: the buffer returned (`none` is `NULL`) and the
pack afterwards.  The seek to `entry->off`, an offset that is not negative, is
taken to succeed. -/
def PackFile.ReadEntry (pack : PackFile) (entry : PackEntry) : Option (List Nat) × PackFile :=
  let io := SDL_SeekIO_SET pack.lump_file entry.off
  let r := SDL_ReadIO io entry.len
  if r.1.length ≠ entry.len then (none, { pack with lump_file := r.2 })
  else (some r.1, { pack with lump_file := r.2 })

/-- A record of a BIN index as the specification lists it: the CP932 name, the
offset and the length. -/
structure BinRecord where
  name : List Nat
  offset : Nat
  length : Nat
  deriving DecidableEq, Repr

/-- The BIN index format in the specification's words: a u32 count N, then N
records of u32 name_length, name_length bytes of name, u32 offset, u32 length,
all little-endian. -/
def BinIndexBytes (recs : List BinRecord) : List Nat :=
  u32le recs.length ++
    (recs.map (fun r => u32le r.name.length ++ r.name ++ u32le r.offset ++ u32le r.length)).flatten

/-- A record of an LB5 index as the specification lists it: offset, length,
the padding byte and the 15 name bytes. -/
structure LB5Record where
  offset : Nat
  length : Nat
  pad : Nat
  name : List Nat
  deriving DecidableEq, Repr

/-- The LB5 index format in the specification's words: a u32 count N, then N
records of fixed 24 bytes each: u32 offset, u32 length, 1 padding byte, 15 name
bytes. -/
def LB5IndexBytes (recs : List LB5Record) : List Nat :=
  u32le recs.length ++
    (recs.map (fun r => u32le r.offset ++ u32le r.length ++ [r.pad] ++ r.name)).flatten

/-! ## UTF-8 encoding -/

/-- A Unicode scalar value: a code point up to U+10FFFF that is not a
surrogate (U+D800 .. U+DFFF). -/
def IsScalarValue (cp : Nat) : Bool :=
  cp < 0xD800 || (0xE000 ≤ cp && cp < 0x110000)

/-- The UTF-8 encoding of one code point, following the table of RFC 3629,
section 3: one byte below U+0080, two bytes below U+0800, three bytes below
U+10000, four bytes from there on. -/
def utf8Encode (cp : Nat) : List Nat :=
  if cp < 0x80 then [cp]
  else if cp < 0x800 then [0xC0 + cp / 64, 0x80 + cp % 64]
  else if cp < 0x10000 then [0xE0 + cp / 4096, 0x80 + cp / 64 % 64, 0x80 + cp % 64]
  else [0xF0 + cp / 262144, 0x80 + cp / 4096 % 64, 0x80 + cp / 64 % 64, 0x80 + cp % 64]

/-- The UTF-8 encoding of a sequence of code points: the encodings of its
members, one after the other. -/
def utf8EncodeAll (cps : List Nat) : List Nat :=
  (cps.map utf8Encode).flatten

/-! ## ftformat.cc : sizes of the buffers handed to the transcoder -/

/-- Modelled from the spec: `cp932_to_utf8_len(src)` of `thirdparty/thtk_cp932`,
the length of the UTF-8 string that `cp932_to_utf8` makes of the C string
`src`, its terminating NUL not counted (section 4.2: `utf8_length(src)`,
"excluding terminator"). -/
def cp932_to_utf8_len (cp932_to_utf8 : List Nat → List Nat) (src : List Nat) : Nat :=
  (cp932_to_utf8 (CString src)).length

/-- Modelled from the spec: the bytes that `cp932_to_utf8(dst, src)` stores at
`dst`, the UTF-8 string and its terminating NUL (section 4.2: `transcode(src,
dst)` "writing a NUL-terminated UTF-8 result"). -/
def cp932_to_utf8_stored (cp932_to_utf8 : List Nat → List Nat) (src : List Nat) : List Nat :=
  cp932_to_utf8 (CString src) ++ [0]

/-- The size of the buffer that `ShiftToUTF8` allocates for its result:
`MemAllocZ<char>(utf8_len + 1)` with `utf8_len = cp932_to_utf8_len(...)`. -/
def ShiftToUTF8.result_size (cp932_to_utf8 : List Nat → List Nat)
    (shift_jis_string : List Nat) : Nat :=
  cp932_to_utf8_len cp932_to_utf8 shift_jis_string + 1

/-- The size of the buffer that `LoadBinIDX` allocates for `entry->name`:
`MemAllocZ<char>(cp932_to_utf8_len((const char*)name_jis))`. -/
def LoadBinIDX.name_size (cp932_to_utf8 : List Nat → List Nat) (name_jis : List Nat) : Nat :=
  cp932_to_utf8_len cp932_to_utf8 name_jis

/-! ## BP3 : partial tiles -/

/-- The tile pixel `(tx, ty)` of a tile of visible width `chunk_w` as the
specification gives it for a payload of pixels packed contiguously at `bpp`
bits each: the pixel has the number `n = ty * chunk_w + tx` and starts at bit
`n * bpp` of the payload, so that `p`, `p1`, `p2` are the payload bytes from
offset `n * bpp / 8` on and a GRAY4 pixel is the low nibble of its byte for an
even `n`, the high nibble for an odd `n`.  The decoding of the bytes is the one
of the specification's table of tile modes (`BP3TilePixelSpec`, which this
agrees with for `chunk_w = 8`); the result is `(b, g, r)`. -/
def BP3PackedPixelSpec (m base_b base_g base_r : Nat) (payload : List Nat)
    (chunk_w tx ty : Nat) : Nat × Nat × Nat :=
  let bpp := [0, 8, 8, 8, 4, 8, 16, 24].getD m 0
  let n := ty * chunk_w + tx
  let off := n * bpp / 8
  let p := payload.getD off 0
  let p1 := payload.getD (off + 1) 0
  let p2 := payload.getD (off + 2) 0
  match m with
  | 0 => (base_b, base_g, base_r)
  | 1 => (((p &&& 7) + base_b) % 256, (((p >>> 3) &&& 7) + base_g) % 256,
          (((p >>> 6) &&& 3) + base_r) % 256)
  | 2 => (((p &&& 3) + base_b) % 256, (((p >>> 2) &&& 7) + base_g) % 256,
          (((p >>> 5) &&& 7) + base_r) % 256)
  | 3 => (((p &&& 7) + base_b) % 256, (((p >>> 3) &&& 3) + base_g) % 256,
          (((p >>> 5) &&& 7) + base_r) % 256)
  | 4 =>
    let nib := if n % 2 = 0 then p % 16 else p / 16 % 16
    ((nib + base_b) % 256, (nib + base_g) % 256, (nib + base_r) % 256)
  | 5 => (p, p, p)
  | 6 => (((p &&& 0x1F) + base_b) % 256, (((p >>> 5) + 8 * (p1 &&& 3)) + base_g) % 256,
          (((p1 &&& 0x7C) >>> 2) + base_r) % 256)
  | 7 => (p, p1, p2)
  | _ => (0, 0, 0)

/-- A BP3 stream of one GRAY4 tile of odd width: a 3x2 image, mode table
`[4]`, parameters `00 00 00`, payload `21 43 65`, which are the nibbles `1` to
`6` in the order of the pixel numbers (the two BMP headers are zero-filled). -/
def bp3Gray4OddExample : SDL_IOStream :=
  ⟨u32le 0x88888888 ++ u32le 3 ++ u32le 2 ++ u32le 18 ++ List.replicate 54 0 ++ [4] ++
    [0, 0, 0] ++ [0x21, 0x43, 0x65], 0⟩

/-! ## ftformat.cc : BP2 files, the chunk as a buffer in memory -/

/-- The run-length state of `BP2_DecodeRLE` inside one slice with the cursor
and the count kept apart, as the code keeps them: `p` is the memory from the
cursor on, which is what the chunk has left followed by whatever lies behind
the chunk's buffer, and `chunk_len` is the count of bytes that the code takes
the chunk to have left. -/
structure BP2_DecodeRLE.Cursor where
  rrle : Bool
  rlen : Nat
  rval : List Nat
  p : List Nat
  chunk_len : Nat
  deriving DecidableEq, Repr

/-- The loop `while (rlen == 0)` of `BP2_DecodeRLE` on a cursor into memory:
every read is at the cursor (`p[0]`, `p[1]`, `*p`), every check is on
`chunk_len`.  The first argument bounds the number of iterations. -/
def BP2_DecodeRLE.nextRunAt.go (SRC_BPP : Nat) :
    Nat → BP2_DecodeRLE.Cursor → Except LoadError BP2_DecodeRLE.Cursor
  | 0, _ => .error (.msg "Malformed slice")
  | fuel + 1, st =>
    if st.rlen ≠ 0 then .ok st
    else if st.chunk_len < 2 then .error (.msg "Malformed slice")
    else
      let ctrl := st.p.getD 0 0 ||| (st.p.getD 1 0 <<< 8)
      let p := st.p.drop 2
      let chunk_len := st.chunk_len - 2
      if ctrl &&& 0x8000 ≠ 0 then
        -- repeat pixel
        if chunk_len < SRC_BPP then .error (.msg "Malformed slice")
        else
          BP2_DecodeRLE.nextRunAt.go SRC_BPP fuel
            { rrle := true, rlen := ctrl &&& 0x7FFF, rval := p.take SRC_BPP,
              p := p.drop SRC_BPP, chunk_len := chunk_len - SRC_BPP }
      else
        -- read literals
        BP2_DecodeRLE.nextRunAt.go SRC_BPP fuel
          { rrle := false, rlen := ctrl, rval := st.rval, p := p, chunk_len := chunk_len }

/-- The loop `while (rlen == 0)` of `BP2_DecodeRLE` on a cursor into memory;
every iteration takes at least 2 from `chunk_len`. -/
def BP2_DecodeRLE.nextRunAt (SRC_BPP : Nat) (st : BP2_DecodeRLE.Cursor) :
    Except LoadError BP2_DecodeRLE.Cursor :=
  BP2_DecodeRLE.nextRunAt.go SRC_BPP (st.chunk_len + 1) st

/-- The body of the loop `for (y = 0; y < 8; ++y)` on a cursor into memory. -/
def BP2_DecodeRLE.pixelAt (SRC_BPP DST_BPP : Nat) (st : BP2_DecodeRLE.Cursor)
    (slice : List Nat) (col : Nat) : Except LoadError (BP2_DecodeRLE.Cursor × List Nat) :=
  match BP2_DecodeRLE.nextRunAt SRC_BPP st with
  | .error e => .error e
  | .ok st1 =>
    if st1.rrle then
      .ok ({ st1 with rlen := st1.rlen - 1 },
        memWrite slice col (BP2_DecodeRLE.planes SRC_BPP DST_BPP st1.rval))
    else
      if st1.chunk_len < SRC_BPP then .error (.msg "Malformed slice")
      else
        let literal := st1.p.take SRC_BPP
        .ok ({ st1 with rlen := st1.rlen - 1, p := st1.p.drop SRC_BPP,
                        chunk_len := st1.chunk_len - SRC_BPP },
          memWrite slice col (BP2_DecodeRLE.planes SRC_BPP DST_BPP literal))

/-- The loop `for (y = 0; y < 8; ++y)` on a cursor into memory. -/
def BP2_DecodeRLE.columnAt (SRC_BPP DST_BPP dst_pitch : Nat) :
    Nat → Nat → BP2_DecodeRLE.Cursor → List Nat →
      Except LoadError (BP2_DecodeRLE.Cursor × List Nat)
  | 0, _, st, slice => .ok (st, slice)
  | n + 1, col, st, slice =>
    match BP2_DecodeRLE.pixelAt SRC_BPP DST_BPP st slice col with
    | .error e => .error e
    | .ok (st1, slice1) =>
      BP2_DecodeRLE.columnAt SRC_BPP DST_BPP dst_pitch n (col + dst_pitch) st1 slice1

/-- The loop `for (x = 0; x < biWidth; ++x)` on a cursor into memory. -/
def BP2_DecodeRLE.columnsAt (SRC_BPP DST_BPP dst_pitch : Nat) :
    Nat → Nat → BP2_DecodeRLE.Cursor → List Nat →
      Except LoadError (BP2_DecodeRLE.Cursor × List Nat)
  | 0, _, st, slice => .ok (st, slice)
  | n + 1, x, st, slice =>
    match BP2_DecodeRLE.columnAt SRC_BPP DST_BPP dst_pitch 8 (x * DST_BPP) st slice with
    | .error e => .error e
    | .ok (st1, slice1) =>
      BP2_DecodeRLE.columnsAt SRC_BPP DST_BPP dst_pitch n (x + 1) st1 slice1

/-- The run-length decoding of one slice with the chunk as a buffer in memory:
`chunk` is the buffer of `chunk_len` bytes that `MemAlloc` returned and the read
filled, `behind` is the memory that follows the buffer.  The cursor starts at
the buffer and `chunk_len` at its size. -/
def BP2_DecodeRLE.sliceAt (SRC_BPP DST_BPP biWidth : Nat) (chunk behind slice : List Nat) :
    Except LoadError (List Nat) :=
  let dst_pitch := Align4 (biWidth * DST_BPP)
  match BP2_DecodeRLE.columnsAt SRC_BPP DST_BPP dst_pitch biWidth 0
      { rrle := false, rlen := 0, rval := List.replicate SRC_BPP 0, p := chunk ++ behind,
        chunk_len := chunk.length } slice with
  | .error e => .error e
  | .ok (_, slice1) => .ok slice1

/-- What the cursor state stands for when the count is right: the chunk from
the cursor on is the first `chunk_len` bytes of the memory there. -/
def BP2_DecodeRLE.Cursor.run (c : BP2_DecodeRLE.Cursor) : BP2_DecodeRLE.Run :=
  { rrle := c.rrle, rlen := c.rlen, rval := c.rval, p := c.p.take c.chunk_len }

/-! ## ftformat.cc : BP2 files, where the copy loops store -/

/-- The row numbers `first + y` (a `u32`) for which the copy loop of
`BP2_DecodeRLE` stores, `rdst = (u8*)surf->pixels + surf->pitch * (first + y)`:
the first argument counts the rows still to do, the second is `y`.  The store
for a row is made at the `u32` offset `surf->pitch * row`, which is where that
row begins unless the product wraps. -/
def BP2_DecodeRLE.copyRows.dest (first : Nat) : Nat → Nat → List Nat
  | 0, _ => []
  | n + 1, y => u32 (first + y) :: BP2_DecodeRLE.copyRows.dest first n (y + 1)

/-- The row numbers at which the slice loop of `BP2_DecodeRLE` stores when
every one of its slices decodes: for slice `i` those of its copy loop, with
`first = i * 8`.  The first argument counts the slices still to do, the second
is `i`. -/
def BP2_DecodeRLE.slices.dest : Nat → Nat → List Nat
  | 0, _ => []
  | n + 1, i =>
    BP2_DecodeRLE.copyRows.dest (u32 (i * 8)) 8 0 ++ BP2_DecodeRLE.slices.dest n (i + 1)

/-- The number of bytes that the trailing partial slice of `BP2_DecodeRLE`
stores to the scratch `slice` with `SDL_ReadIO(io, slice, extra_bytes)`: what
the read delivers, which is `extra_bytes` when the stream has that much left.
`none` when the code returns before that read.  The comparison of
`extra_bytes` with `extra_slice_count` comes after the read. -/
def BP2_DecodeRLE.trailer.stored (DST_BPP : Nat) (bp2 : BP2Params) (io : SDL_IOStream) :
    Option Nat :=
  let dst_pitch := Align4 (bp2.bih.biWidth * DST_BPP)
  if (bp2.bih.biHeight % 8) * dst_pitch ≠ bp2.bp2.extra_slice_count then none
  else
    match SDL_ReadU32LE io with
    | none => none
    | some (extra_bytes, io1) => some ( SDL_ReadIO io1 extra_bytes).1.length

/-- A BP2 stream whose header announces more slices than the surface has
rows for: INDEX8, 1 x 8, two slices of eight pixels each (`0x11` and `0x22`). -/
def bp2TwoSlicesExample : SDL_IOStream :=
  ⟨u32le 999 ++ u32le 1 ++ u32le 0 ++ u32le 0 ++ u32le 2 ++ u32le 0 ++
    List.replicate 14 0 ++ (u32le 40 ++ u32le 1 ++ u32le 8 ++ List.replicate 28 0) ++
    (u32le 3 ++ [0x08, 0x80, 0x11]) ++ (u32le 3 ++ [0x08, 0x80, 0x22]), 0⟩

/-- A BP2 stream whose trailer announces more bytes than the header: INDEX8,
1 x 1, no slice, `extra_slice_count = 4`, and a trailer with `extra_bytes = 40`
followed by 40 bytes. -/
def bp2LongTrailerExample : SDL_IOStream :=
  ⟨u32le 999 ++ u32le 1 ++ u32le 0 ++ u32le 0 ++ u32le 0 ++ u32le 4 ++
    List.replicate 14 0 ++ (u32le 40 ++ u32le 1 ++ u32le 1 ++ List.replicate 28 0) ++
    (u32le 40 ++ List.replicate 40 0xAA), 0⟩

/-! ## ftformat.cc : BP3 files, the indices of the two buffers -/

/-- The value of `dst` after the row loop that fills `tile_buf`, when none of
its checks fails: the first argument counts the rows still to do, the second
is `dst`. -/
def LoadBP3.readRows.dst (stored_row_bytes pad_per_row : Nat) : Nat → Nat → Nat
  | 0, dst => dst
  | n + 1, dst =>
    let dst1 := if stored_row_bytes ≠ 0 then u32 (dst + stored_row_bytes) else dst
    let dst2 := if pad_per_row ≠ 0 then u32 (dst1 + pad_per_row) else dst1
    LoadBP3.readRows.dst stored_row_bytes pad_per_row n dst2

/-- The parts of `tile_buf` that the row loop stores to, each as (first
index, number of bytes): for every row the `stored_row_bytes` bytes that
`SDL_ReadIO(io, &tile_buf[dst], stored_row_bytes)` delivers and the `pad_per_row`
bytes of `SDL_memset(&tile_buf[dst], 0, pad_per_row)`. -/
def LoadBP3.readRows.stores (stored_row_bytes pad_per_row : Nat) : Nat → Nat → List (Nat × Nat)
  | 0, _ => []
  | n + 1, dst =>
    let dst1 := if stored_row_bytes ≠ 0 then u32 (dst + stored_row_bytes) else dst
    let dst2 := if pad_per_row ≠ 0 then u32 (dst1 + pad_per_row) else dst1
    (if stored_row_bytes ≠ 0 then [(dst, stored_row_bytes)] else []) ++
      (if pad_per_row ≠ 0 then [(dst1, pad_per_row)] else []) ++
      LoadBP3.readRows.stores stored_row_bytes pad_per_row n dst2

/-- The parts of `tile_buf` that the tile loop stores to before it decodes a
tile: `SDL_memset(tile_buf, 0, sizeof(tile_buf))`, the rows, and
`SDL_memset(&tile_buf[dst], 0, total_needed - dst)`. -/
def LoadBP3.readTile.stores (bpp chunk_w chunk_h : Nat) : List (Nat × Nat) :=
  (0, 192) ::
    if bpp > 0 then
      let stored_row_bytes := u32 (bpp * chunk_w) / 8
      let pad_per_row := u32 (bpp + 4294967296 - stored_row_bytes)
      let dst := LoadBP3.readRows.dst stored_row_bytes pad_per_row chunk_h 0
      let total_needed := bpp * 8
      LoadBP3.readRows.stores stored_row_bytes pad_per_row chunk_h 0 ++
        (if dst < total_needed then [(dst, total_needed - dst)] else [])
    else []

/-- The indices of `tile_buf` that the second `switch` of `LoadBP3` reads for
one pixel: none for SOLID, `src_off` for the modes of one byte and for GRAY4,
`src_off + 0` and `src_off + 1` for BGR555, `src_off + 0 .. src_off + 2` for
BGR888. -/
def LoadBP3.decodePixel.reads (mode src_off : Nat) : List Nat :=
  match mode with
  | 0 => []
  | 1 => [src_off]
  | 2 => [src_off]
  | 3 => [src_off]
  | 4 => [src_off]
  | 5 => [src_off]
  | 6 => [src_off + 0, src_off + 1]
  | 7 => [src_off + 0, src_off + 1, src_off + 2]
  | _ => []

/-- The indices of `tile_buf` that the loop `for (tx = 0; tx < 8; ++tx)`
reads: the first argument counts the pixels still to do, the state is
`(tx, src_off)`. -/
def LoadBP3.decodeRow.reads (mode src_step : Nat) : Nat → Nat → Nat → List Nat
  | 0, _, _ => []
  | n + 1, tx, src_off =>
    let src_off1 :=
      if mode = 4 then
        if tx &&& 1 = 1 then src_off + 1 else src_off
      else src_off + src_step
    LoadBP3.decodePixel.reads mode src_off ++
      LoadBP3.decodeRow.reads mode src_step n (tx + 1) src_off1

/-- The indices of `tile_buf` that the loop `for (ty = 0; ty < 8; ++ty)`
reads: the first argument counts the rows still to do, the second is
`src_row_byte_off`. -/
def LoadBP3.decodeRows.reads (mode bpp : Nat) : Nat → Nat → List Nat
  | 0, _ => []
  | n + 1, src_row_byte_off =>
    LoadBP3.decodeRow.reads mode (bpp / 8) 8 0 src_row_byte_off ++
      LoadBP3.decodeRows.reads mode bpp n (src_row_byte_off + bpp)

/-- The indices of `outbuf` that the loop `for (tx = 0; tx < 8; ++tx)` stores
to, `dst_off + 0 .. dst_off + 2` for every pixel: the first argument counts the
pixels still to do, the second is `dst_off`. -/
def LoadBP3.decodeRow.writes : Nat → Nat → List Nat
  | 0, _ => []
  | n + 1, dst_off =>
    [dst_off + 0, dst_off + 1, dst_off + 2] ++ LoadBP3.decodeRow.writes n (dst_off + 3)

/-- The indices of `outbuf` that the loop `for (ty = 0; ty < 8; ++ty)` stores
to: the first argument counts the rows still to do, the second is `ty`. -/
def LoadBP3.decodeRows.writes (tile_base grid_row_bytes : Nat) : Nat → Nat → List Nat
  | 0, _ => []
  | n + 1, ty =>
    LoadBP3.decodeRow.writes 8 (u32 (tile_base + ty * grid_row_bytes)) ++
      LoadBP3.decodeRows.writes tile_base grid_row_bytes n (ty + 1)

/-- The indices of `outbuf` that the decode of tile `i` stores to. -/
def LoadBP3.decodeTile.writes (d : LoadBP3.Dims) (i : Nat) : List Nat :=
  let tile_row_base := u32 (d.grid_row_bytes * 8 * (i / d.tiles_per_row))
  let tile_col_base := u32 (24 * (i % d.tiles_per_row))
  LoadBP3.decodeRows.writes (tile_col_base + tile_row_base) d.grid_row_bytes 8 0

/-- A BP3 stream of 74 bytes whose header announces 8 x 536870920 pixels: the
`u32` product `padded_w * padded_h` is `2^32 + 64`, that is 64, so the stream
holds one tile (SOLID, base colour `01 02 03`). -/
def bp3WrapExample : SDL_IOStream :=
  ⟨u32le 0x88888888 ++ u32le 8 ++ u32le 536870920 ++ u32le 0 ++ List.replicate 54 0 ++ [0] ++
    [1, 2, 3], 0⟩

/-- A BP3 stream of 74 bytes whose header announces 24 x 357913944 pixels: the
`u32` product `padded_w * padded_h` is `2 * 2^32 + 64`, that is 64, so the
stream holds one tile (SOLID, base colour `01 02 03`) and `outbuf` has 192
bytes, while a row of the grid has 72. -/
def bp3OverflowExample : SDL_IOStream :=
  ⟨u32le 0x88888888 ++ u32le 24 ++ u32le 357913944 ++ u32le 0 ++ List.replicate 54 0 ++ [0] ++
    [1, 2, 3], 0⟩

/-- A BP2 stream whose second slice does not fit the surface: INDEX8, 1 x 12,
two slices of eight pixels each (`0x11` and `0x22`) and a trailer of four rows
(`0x33`, at the pitch 4). -/
def bp2OverlapExample : SDL_IOStream :=
  ⟨u32le 999 ++ u32le 1 ++ u32le 0 ++ u32le 0 ++ u32le 2 ++ u32le 16 ++
    List.replicate 14 0 ++ (u32le 40 ++ u32le 1 ++ u32le 12 ++ List.replicate 28 0) ++
    (u32le 3 ++ [0x08, 0x80, 0x11]) ++ (u32le 3 ++ [0x08, 0x80, 0x22]) ++
    (u32le 16 ++ [0x33, 0, 0, 0, 0x33, 0, 0, 0, 0x33, 0, 0, 0, 0x33, 0, 0, 0]), 0⟩

/-! # Theorems -/

/-! ## IsValidUTF8 -/

theorem WellFormedUTF8.nil : WellFormedUTF8 [] := ⟨[], by simp, by simp⟩

theorem WellFormedUTF8.cons_seq {s t : List Nat} (hs : WellFormedSeq s)
    (ht : WellFormedUTF8 t) : WellFormedUTF8 (s ++ t) := by
  obtain ⟨segs, hall, rfl⟩ := ht
  refine ⟨s :: segs, ?_, by simp⟩
  intro x hx
  rcases List.mem_cons.mp hx with rfl | hx
  · exact hs
  · exact hall x hx

theorem IsValidUTF8.cons_of_step_some {p0 : Nat} {rest r : List Nat}
    (h : IsValidUTF8.step p0 rest = some r) : IsValidUTF8 (p0 :: rest) = IsValidUTF8 r := by
  rw [IsValidUTF8]
  split
  · simp_all
  · simp_all

theorem IsValidUTF8.cons_of_step_none {p0 : Nat} {rest : List Nat}
    (h : IsValidUTF8.step p0 rest = none) : IsValidUTF8 (p0 :: rest) = false := by
  rw [IsValidUTF8]
  split
  · rfl
  · simp_all

/-- An iteration continues exactly when it has read one well-formed sequence. -/
theorem IsValidUTF8.step_of_seq {s : List Nat} (t : List Nat) (hs : WellFormedSeq s) :
    ∃ p0 s', s = p0 :: s' ∧ IsValidUTF8.step p0 (s' ++ t) = some t := by
  rcases hs with ⟨a, rfl, h⟩ | ⟨a, b, rfl, h1, h2⟩ | ⟨b, c, rfl, h1, h2⟩ |
    ⟨a, b, c, rfl, h1, h2, h3⟩ | ⟨b, c, rfl, h1, h2⟩ | ⟨a, b, c, rfl, h1, h2, h3⟩ |
    ⟨b, c, d, rfl, h1, h2, h3⟩ | ⟨a, b, c, d, rfl, h1, h2, h3, h4⟩ |
    ⟨b, c, d, rfl, h1, h2, h3⟩
  · exact ⟨a, [], rfl, by simp [IsValidUTF8.step, h]⟩
  · refine ⟨a, [b], rfl, ?_⟩
    have h0 : ¬ a ≤ 0x7F := by omega
    simp only [IsValidUTF8.step, if_neg h0, if_pos (InRange_iff.mpr h1)]
    exact IsValidUTF8.tail1_eq_some.mpr ⟨b, rfl, h2⟩
  · refine ⟨0xE0, [b, c], rfl, ?_⟩
    simp only [IsValidUTF8.step, InRange]
    simp only [Nat.reduceLeDiff, decide_False, decide_True, Bool.and_false, Bool.false_and,
      Bool.false_eq_true, ↓reduceIte, ge_iff_le, Bool.and_self]
    exact IsValidUTF8.tail2_eq_some.mpr ⟨b, c, rfl, h1, h2⟩
  · refine ⟨a, [b, c], rfl, ?_⟩
    have n1 : ¬ InRange a 0xC2 0xDF = true := fun h => by have := InRange_iff.mp h; omega
    simp only [IsValidUTF8.step, if_neg (show ¬ a ≤ 0x7F by omega), if_neg n1,
      if_neg (show ¬ a = 0xE0 by omega), if_pos (InRange_iff.mpr h1)]
    exact IsValidUTF8.tail2_eq_some.mpr ⟨b, c, rfl, h2, h3⟩
  · refine ⟨0xED, [b, c], rfl, ?_⟩
    simp only [IsValidUTF8.step, InRange]
    simp only [Nat.reduceLeDiff, decide_False, decide_True, Bool.and_false, Bool.false_and,
      Bool.false_eq_true, ↓reduceIte, ge_iff_le, Bool.and_self, Nat.reduceEqDiff]
    exact IsValidUTF8.tail2_eq_some.mpr ⟨b, c, rfl, h1, h2⟩
  · refine ⟨a, [b, c], rfl, ?_⟩
    have n1 : ¬ InRange a 0xC2 0xDF = true := fun h => by have := InRange_iff.mp h; omega
    have n2 : ¬ InRange a 0xE1 0xEC = true := fun h => by have := InRange_iff.mp h; omega
    simp only [IsValidUTF8.step, if_neg (show ¬ a ≤ 0x7F by omega), if_neg n1,
      if_neg (show ¬ a = 0xE0 by omega), if_neg n2, if_neg (show ¬ a = 0xED by omega),
      if_pos (InRange_iff.mpr h1)]
    exact IsValidUTF8.tail2_eq_some.mpr ⟨b, c, rfl, h2, h3⟩
  · refine ⟨0xF0, [b, c, d], rfl, ?_⟩
    simp only [IsValidUTF8.step, InRange]
    simp only [Nat.reduceLeDiff, decide_False, decide_True, Bool.and_false, Bool.false_and,
      Bool.false_eq_true, ↓reduceIte, ge_iff_le, Bool.and_self, Nat.reduceEqDiff]
    exact IsValidUTF8.tail3_eq_some.mpr ⟨b, c, d, rfl, h1, h2, h3⟩
  · refine ⟨a, [b, c, d], rfl, ?_⟩
    have n1 : ¬ InRange a 0xC2 0xDF = true := fun h => by have := InRange_iff.mp h; omega
    have n2 : ¬ InRange a 0xE1 0xEC = true := fun h => by have := InRange_iff.mp h; omega
    have n3 : ¬ InRange a 0xEE 0xEF = true := fun h => by have := InRange_iff.mp h; omega
    simp only [IsValidUTF8.step, if_neg (show ¬ a ≤ 0x7F by omega), if_neg n1,
      if_neg (show ¬ a = 0xE0 by omega), if_neg n2, if_neg (show ¬ a = 0xED by omega),
      if_neg n3, if_neg (show ¬ a = 0xF0 by omega), if_pos (InRange_iff.mpr h1)]
    exact IsValidUTF8.tail3_eq_some.mpr ⟨b, c, d, rfl, h2, h3, h4⟩
  · refine ⟨0xF4, [b, c, d], rfl, ?_⟩
    simp only [IsValidUTF8.step, InRange]
    simp only [Nat.reduceLeDiff, decide_False, decide_True, Bool.and_false, Bool.false_and,
      Bool.false_eq_true, ↓reduceIte, ge_iff_le, Bool.and_self, Nat.reduceEqDiff]
    exact IsValidUTF8.tail3_eq_some.mpr ⟨b, c, d, rfl, h1, h2, h3⟩

/-- Conversely, what an iteration has consumed is one well-formed sequence. -/
theorem IsValidUTF8.seq_of_step {p0 : Nat} {rest r : List Nat}
    (h : IsValidUTF8.step p0 rest = some r) :
    ∃ s, WellFormedSeq s ∧ p0 :: rest = s ++ r := by
  rcases IsValidUTF8.step_cases p0 rest with ⟨c, e⟩ | ⟨c, e⟩ | ⟨c, e⟩ | ⟨c, e⟩ | ⟨c, e⟩ |
    ⟨c, e⟩ | ⟨c, e⟩ | ⟨c, e⟩ | ⟨c, e⟩ | ⟨c, e⟩ <;> rw [e] at h
  · simp only [Option.some.injEq] at h; subst h
    exact ⟨[p0], Or.inl ⟨p0, rfl, c⟩, rfl⟩
  · obtain ⟨p1, rfl, h1⟩ := IsValidUTF8.tail1_eq_some.mp h
    exact ⟨[p0, p1], Or.inr (Or.inl ⟨p0, p1, rfl, c, h1⟩), rfl⟩
  · obtain ⟨p1, p2, rfl, h1, h2⟩ := IsValidUTF8.tail2_eq_some.mp h
    subst c
    exact ⟨[0xE0, p1, p2], Or.inr (Or.inr (Or.inl ⟨p1, p2, rfl, h1, h2⟩)), rfl⟩
  · obtain ⟨p1, p2, rfl, h1, h2⟩ := IsValidUTF8.tail2_eq_some.mp h
    exact ⟨[p0, p1, p2],
      Or.inr (Or.inr (Or.inr (Or.inl ⟨p0, p1, p2, rfl, c, h1, h2⟩))), rfl⟩
  · obtain ⟨p1, p2, rfl, h1, h2⟩ := IsValidUTF8.tail2_eq_some.mp h
    subst c
    exact ⟨[0xED, p1, p2],
      Or.inr (Or.inr (Or.inr (Or.inr (Or.inl ⟨p1, p2, rfl, h1, h2⟩)))), rfl⟩
  · obtain ⟨p1, p2, rfl, h1, h2⟩ := IsValidUTF8.tail2_eq_some.mp h
    exact ⟨[p0, p1, p2],
      Or.inr (Or.inr (Or.inr (Or.inr (Or.inr (Or.inl
        ⟨p0, p1, p2, rfl, c, h1, h2⟩))))), rfl⟩
  · obtain ⟨p1, p2, p3, rfl, h1, h2, h3⟩ := IsValidUTF8.tail3_eq_some.mp h
    subst c
    exact ⟨[0xF0, p1, p2, p3],
      Or.inr (Or.inr (Or.inr (Or.inr (Or.inr (Or.inr (Or.inl
        ⟨p1, p2, p3, rfl, h1, h2, h3⟩)))))), rfl⟩
  · obtain ⟨p1, p2, p3, rfl, h1, h2, h3⟩ := IsValidUTF8.tail3_eq_some.mp h
    exact ⟨[p0, p1, p2, p3],
      Or.inr (Or.inr (Or.inr (Or.inr (Or.inr (Or.inr (Or.inr (Or.inl
        ⟨p0, p1, p2, p3, rfl, c, h1, h2, h3⟩))))))), rfl⟩
  · obtain ⟨p1, p2, p3, rfl, h1, h2, h3⟩ := IsValidUTF8.tail3_eq_some.mp h
    subst c
    exact ⟨[0xF4, p1, p2, p3],
      Or.inr (Or.inr (Or.inr (Or.inr (Or.inr (Or.inr (Or.inr (Or.inr
        ⟨p1, p2, p3, rfl, h1, h2, h3⟩))))))), rfl⟩
  · exact absurd h (by simp)

theorem IsValidUTF8.seq_append {s : List Nat} (t : List Nat) (hs : WellFormedSeq s) :
    IsValidUTF8 (s ++ t) = IsValidUTF8 t := by
  obtain ⟨p0, s', rfl, h⟩ := IsValidUTF8.step_of_seq t hs
  exact IsValidUTF8.cons_of_step_some h

theorem IsValidUTF8.wellFormed_append {w : List Nat} (t : List Nat) (hw : WellFormedUTF8 w) :
    IsValidUTF8 (w ++ t) = IsValidUTF8 t := by
  obtain ⟨segs, hall, rfl⟩ := hw
  induction segs with
  | nil => simp
  | cons s segs ih =>
    rw [List.flatten_cons, List.append_assoc,
      IsValidUTF8.seq_append _ (hall s (List.mem_cons_self _ _))]
    exact ih (fun x hx => hall x (List.mem_cons_of_mem _ hx))

theorem IsValidUTF8.wellFormed_of_valid :
    ∀ (n : Nat) (data : List Nat), data.length ≤ n → IsValidUTF8 data = true →
      WellFormedUTF8 data := by
  intro n
  induction n with
  | zero =>
    intro data hlen _
    have : data = [] := List.length_eq_zero.mp (by omega)
    subst this
    exact WellFormedUTF8.nil
  | succ n ih =>
    intro data hlen hv
    match data, hlen, hv with
    | [], _, _ => exact WellFormedUTF8.nil
    | p0 :: rest, hlen, hv =>
      cases hstep : IsValidUTF8.step p0 rest with
      | none => rw [IsValidUTF8.cons_of_step_none hstep] at hv; exact absurd hv (by simp)
      | some r =>
        rw [IsValidUTF8.cons_of_step_some hstep] at hv
        obtain ⟨s, hs, heq⟩ := IsValidUTF8.seq_of_step hstep
        have hr := IsValidUTF8.step_length hstep
        simp only [List.length_cons] at hlen
        rw [heq]
        exact WellFormedUTF8.cons_seq hs (ih r (by omega) hv)

theorem IsValidUTF8.iff_wellFormed (data : List Nat) :
    IsValidUTF8 data = true ↔ WellFormedUTF8 data := by
  constructor
  · exact IsValidUTF8.wellFormed_of_valid data.length data (Nat.le_refl _)
  · intro h
    have := IsValidUTF8.wellFormed_append [] h
    simpa [IsValidUTF8] using this

theorem IsValidUTF8.step_nil {p0 : Nat} (h : ¬ p0 ≤ 0x7F) :
    IsValidUTF8.step p0 [] = none := by
  rcases IsValidUTF8.step_cases p0 [] with ⟨c, e⟩ | ⟨c, e⟩ | ⟨c, e⟩ | ⟨c, e⟩ | ⟨c, e⟩ |
    ⟨c, e⟩ | ⟨c, e⟩ | ⟨c, e⟩ | ⟨c, e⟩ | ⟨c, e⟩ <;> rw [e] <;> first | rfl | omega

theorem IsValidUTF8.step_one {p0 b : Nat} (h : 0xE0 ≤ p0) :
    IsValidUTF8.step p0 [b] = none := by
  rcases IsValidUTF8.step_cases p0 [b] with ⟨c, e⟩ | ⟨c, e⟩ | ⟨c, e⟩ | ⟨c, e⟩ | ⟨c, e⟩ |
    ⟨c, e⟩ | ⟨c, e⟩ | ⟨c, e⟩ | ⟨c, e⟩ | ⟨c, e⟩ <;> rw [e] <;> first | rfl | omega

theorem IsValidUTF8.step_two {p0 b c : Nat} (h : 0xF0 ≤ p0) :
    IsValidUTF8.step p0 [b, c] = none := by
  rcases IsValidUTF8.step_cases p0 [b, c] with ⟨c, e⟩ | ⟨c, e⟩ | ⟨c, e⟩ | ⟨c, e⟩ | ⟨c, e⟩ |
    ⟨c, e⟩ | ⟨c, e⟩ | ⟨c, e⟩ | ⟨c, e⟩ | ⟨c, e⟩ <;> rw [e] <;> first | rfl | omega

/-- A proper, non-empty prefix of a multi-byte sequence is rejected. -/
theorem IsValidUTF8.truncated_seq {s : List Nat} (hs : WellFormedSeq s) {k : Nat}
    (hk0 : 0 < k) (hk : k < s.length) : IsValidUTF8 (s.take k) = false := by
  rcases hs with ⟨a, rfl, h⟩ | ⟨a, b, rfl, h1, h2⟩ | ⟨b, c, rfl, h1, h2⟩ |
    ⟨a, b, c, rfl, h1, h2, h3⟩ | ⟨b, c, rfl, h1, h2⟩ | ⟨a, b, c, rfl, h1, h2, h3⟩ |
    ⟨b, c, d, rfl, h1, h2, h3⟩ | ⟨a, b, c, d, rfl, h1, h2, h3, h4⟩ |
    ⟨b, c, d, rfl, h1, h2, h3⟩
  all_goals simp only [List.length_cons, List.length_nil] at hk
  · omega
  all_goals
    interval_cases k <;> simp only [List.take] <;>
      apply IsValidUTF8.cons_of_step_none <;>
      first
      | exact IsValidUTF8.step_nil (by omega)
      | exact IsValidUTF8.step_one (by omega)
      | exact IsValidUTF8.step_two (by omega)

/-! ## IsValidUTF8 : the validator accepts exactly well-formed UTF-8 -/

/-- C1: `IsValidUTF8` returns true exactly on the spans that are a
concatenation of well-formed UTF-8 sequences of the RFC 3629 table; it rejects
`C0 80`, `C1 BF`, `E0 80 80`, `ED A0 80`, `F4 90 80 80`, and every span that
ends inside a multi-byte sequence (well-formed text followed by a proper,
non-empty part of a multi-byte sequence). -/
theorem IsValidUTF8_iff_RFC3629 :
    (∀ data : List Nat, IsValidUTF8 data = true ↔ WellFormedUTF8 data) ∧
    IsValidUTF8 [0xC0, 0x80] = false ∧
    IsValidUTF8 [0xC1, 0xBF] = false ∧
    IsValidUTF8 [0xE0, 0x80, 0x80] = false ∧
    IsValidUTF8 [0xED, 0xA0, 0x80] = false ∧
    IsValidUTF8 [0xF4, 0x90, 0x80, 0x80] = false ∧
    (∀ (w s : List Nat) (k : Nat), WellFormedUTF8 w → WellFormedSeq s → 0 < k →
      k < s.length → IsValidUTF8 (w ++ s.take k) = false) := by
  refine ⟨IsValidUTF8.iff_wellFormed, ?_, ?_, ?_, ?_, ?_, ?_⟩
  · simp [IsValidUTF8, IsValidUTF8.step, InRange]
  · simp [IsValidUTF8, IsValidUTF8.step, InRange]
  · simp [IsValidUTF8, IsValidUTF8.step, IsValidUTF8.tail2, InRange]
  · simp [IsValidUTF8, IsValidUTF8.step, IsValidUTF8.tail2, InRange]
  · simp [IsValidUTF8, IsValidUTF8.step, IsValidUTF8.tail3, InRange]
  · intro w s k hw hs hk0 hk
    rw [IsValidUTF8.wellFormed_append _ hw]
    exact IsValidUTF8.truncated_seq hs hk0 hk

/-- C1, at the text `a` followed by the first two bytes of the euro sign. -/
theorem IsValidUTF8_iff_RFC3629_witness :
    IsValidUTF8 ([0x61] ++ [0xE2, 0x82, 0xAC].take 2) = false :=
  IsValidUTF8_iff_RFC3629.2.2.2.2.2.2 [0x61] [0xE2, 0x82, 0xAC] 2
    ⟨[[0x61]], by
      intro s hs
      simp only [List.mem_singleton] at hs
      subst hs
      exact Or.inl ⟨0x61, rfl, by decide⟩, by simp⟩
    (Or.inr (Or.inr (Or.inr (Or.inl ⟨0xE2, 0x82, 0xAC, rfl, by decide, by decide, by decide⟩))))
    (by decide) (by decide)

/-! ## WildcardMatch -/

theorem WildcardMatch.loop_total (P S : Nat) :
    ∀ (fuel : Nat) (p s : List Char) (bt : Option (List Char × List Char)),
      p.length ≤ P → s.length ≤ S →
      (∀ star ss, bt = some (star, ss) →
        star.length ≤ P ∧ s.length ≤ ss.length ∧ ss.length ≤ S) →
      WildcardMatch.budget (P + S + 1) S p s bt < fuel →
      ∃ b, WildcardMatch.loop fuel p s bt = some b := by
  intro fuel
  induction fuel with
  | zero => intro p s bt _ _ _ h; omega
  | succ fuel ih =>
    intro p s bt hp hs hbt hm
    cases s with
    | nil => exact ⟨_, rfl⟩
    | cons c s =>
      simp only [WildcardMatch.loop]
      simp only [List.length_cons] at hs
      have htl : p.tail.length ≤ p.length := by simp
      split_ifs with h1 h2
      · apply ih _ _ _ (by omega) (by omega)
        · intro star ss e
          have := hbt star ss e
          simp only [List.length_cons] at this
          omega
        · simp only [WildcardMatch.budget, List.length_cons] at hm ⊢
          omega
      · have hpne : p.tail.length + 1 = p.length := by
          cases p with
          | nil => simp at h2
          | cons a p => simp
        apply ih _ _ _ (by omega) (by simpa using hs)
        · intro star ss e
          simp only [Option.some.injEq, Prod.mk.injEq] at e
          obtain ⟨rfl, rfl⟩ := e
          simp only [List.length_cons]
          omega
        · simp only [WildcardMatch.budget, List.length_cons] at hm ⊢
          have hA : (s.length + 1) * (P + S + 1) ≤
              WildcardMatch.rank S bt * (P + S + 1) := by
            apply Nat.mul_le_mul_right
            cases bt with
            | none => simp only [WildcardMatch.rank]; omega
            | some q =>
              obtain ⟨star, ss⟩ := q
              have := hbt star ss rfl
              simp only [List.length_cons] at this
              simp only [WildcardMatch.rank]
              omega
          simp only [WildcardMatch.rank, List.length_cons]
          omega
      · cases bt with
        | none => exact ⟨false, rfl⟩
        | some q =>
          obtain ⟨star, ss⟩ := q
          simp only
          obtain ⟨h1, h2, h3⟩ := hbt star ss rfl
          simp only [List.length_cons] at h2
          have hstl : star.tail.length ≤ star.length := by simp
          have hss : ss.tail.length + 1 = ss.length := by
            cases ss with
            | nil => simp at h2
            | cons a ss => simp
          apply ih _ _ _ (by omega) (by omega)
          · intro star2 ss2 e
            simp only [Option.some.injEq, Prod.mk.injEq] at e
            obtain ⟨rfl, rfl⟩ := e
            omega
          · simp only [WildcardMatch.budget, WildcardMatch.rank, List.length_cons] at hm ⊢
            have : ss.length * (P + S + 1) =
                ss.tail.length * (P + S + 1) + (P + S + 1) := by
              rw [← hss, Nat.succ_mul]
            omega

/-- The iteration bound of `WildcardMatch` is never reached: the function
returns a result on every pattern and string. -/
theorem WildcardMatch_total (pattern str : List Char) :
    ∃ b, WildcardMatch pattern str = some b := by
  unfold WildcardMatch
  apply WildcardMatch.loop_total pattern.length str.length _ _ _ _ (Nat.le_refl _)
    (Nat.le_refl _)
  · intro star ss e
    exact absurd e (by simp)
  · simp only [WildcardMatch.budget, WildcardMatch.rank]
    have : (str.length + 2) * (pattern.length + str.length + 1) =
        (str.length + 1) * (pattern.length + str.length + 1) +
          (pattern.length + str.length + 1) := by
      rw [show str.length + 2 = (str.length + 1) + 1 from rfl, Nat.succ_mul]
    omega

/-! ## Byte streams -/

theorem SDL_IOStream.read_unread (io : SDL_IOStream) (size : Nat) :
    ( SDL_ReadIO io size).1 = io.unread.take size ∧
      ( SDL_ReadIO io size).2.unread = io.unread.drop size := by
  refine ⟨rfl, ?_⟩
  simp only [ SDL_ReadIO, SDL_IOStream.unread, List.length_take, List.length_drop, List.drop_drop]
  by_cases h : size ≤ io.data.length - io.pos
  · rw [Nat.min_eq_left h, Nat.add_comm]
  · have h1 : io.data.length - io.pos ≤ size := by omega
    rw [Nat.min_eq_right h1]
    rw [List.drop_eq_nil_of_le (by omega), List.drop_eq_nil_of_le (by omega)]

theorem SDL_ReadU8_cons {io : SDL_IOStream} {b : Nat} {l : List Nat}
    (h : io.unread = b :: l) : ∃ io1, SDL_ReadU8 io = some (b, io1) ∧ io1.unread = l := by
  have h2 := (io.read_unread 1).2
  have h1 : ( SDL_ReadIO io 1).1 = [b] := by rw [(io.read_unread 1).1, h]; rfl
  rw [h] at h2
  refine ⟨( SDL_ReadIO io 1).2, ?_, by simpa using h2⟩
  unfold SDL_ReadU8
  generalize SDL_ReadIO io 1 = r at h1
  obtain ⟨g, io1⟩ := r
  simp only at h1
  subst h1
  rfl

theorem SDL_ReadU8_nil {io : SDL_IOStream} (h : io.unread = []) : SDL_ReadU8 io = none := by
  have h1 : ( SDL_ReadIO io 1).1 = [] := by rw [(io.read_unread 1).1, h]; rfl
  unfold SDL_ReadU8
  generalize SDL_ReadIO io 1 = r at h1
  obtain ⟨g, io1⟩ := r
  simp only at h1
  subst h1
  rfl

theorem SDL_ReadU32LE_cons {io : SDL_IOStream} {b0 b1 b2 b3 : Nat} {l : List Nat}
    (h : io.unread = b0 :: b1 :: b2 :: b3 :: l) :
    ∃ io1, SDL_ReadU32LE io = some (b0 + 256 * b1 + 65536 * b2 + 16777216 * b3, io1) ∧
      io1.unread = l := by
  have h2 := (io.read_unread 4).2
  have h1 : ( SDL_ReadIO io 4).1 = [b0, b1, b2, b3] := by rw [(io.read_unread 4).1, h]; rfl
  rw [h] at h2
  refine ⟨( SDL_ReadIO io 4).2, ?_, by simpa using h2⟩
  unfold SDL_ReadU32LE
  generalize SDL_ReadIO io 4 = r at h1
  obtain ⟨g, io1⟩ := r
  simp only at h1
  subst h1
  rfl

theorem SDL_ReadU32LE_short {io : SDL_IOStream} (h : io.unread.length < 4) :
    SDL_ReadU32LE io = none := by
  have h1 : ( SDL_ReadIO io 4).1.length < 4 := by
    rw [(io.read_unread 4).1, List.length_take]; omega
  unfold SDL_ReadU32LE
  generalize SDL_ReadIO io 4 = r at h1
  obtain ⟨g, io1⟩ := r
  simp only at h1
  match g, h1 with
  | [], _ => rfl
  | [_], _ => rfl
  | [_, _], _ => rfl
  | [_, _, _], _ => rfl
  | _ :: _ :: _ :: _ :: _, h1 => simp only [List.length_cons] at h1; omega

/-! ## WildcardMatch, Extension, dispatcher -/

theorem SDL_strcasecmp_eq_zero (str1 str2 : List Char) :
    SDL_strcasecmp str1 str2 = 0 ↔ str1.map Char.toLower = str2.map Char.toLower := by
  unfold SDL_strcasecmp
  split_ifs with h <;> simp [h]

/-- C2: at the pattern `*b` and the string `*ab`, which the glob semantics
matches (the `*` of the pattern stands for `*a`), `WildcardMatch` returns
false: the `*` of the pattern is compared with the `*` of the string as an
ordinary character and is used up before it is remembered. -/
theorem WildcardMatch_star_in_string :
    WildcardMatch ['*', 'b'] ['*', 'a', 'b'] = some false ∧
      GlobMatch ['*', 'b'] ['*', 'a', 'b'] := by
  refine ⟨by decide, ?_⟩
  exact GlobMatch.star_more '*' (GlobMatch.star_more 'a' (GlobMatch.star_none
    (GlobMatch.self 'b' (by decide) (by decide) GlobMatch.nil)))

/-- C3: `WildcardMatch("*", "*a")` is false. -/
theorem WildcardMatch_star_not_universal :
    WildcardMatch ['*'] ['*', 'a'] = some false := by
  decide

/-- C4: on the path `.txt` the result depends on the byte in front of the
string, which `Extension` reads as `path[i - 1]` at `i = 0`: with a `/` there
no extension is returned, with a NUL there the extension is `txt`. -/
theorem Extension_leading_dot :
    Extension '/' ['.', 't', 'x', 't'] = none ∧
      Extension (Char.ofNat 0) ['.', 't', 'x', 't'] = some ['t', 'x', 't'] := by
  decide

/-- C5: `GuessFileTypeForConversion` on data of at least four bytes, by the
extension compared without regard to letter case. -/
theorem GuessFileTypeForConversion_spec (before : Char) (path : List Char)
    (data : List Nat) (hlen : 4 ≤ data.length) :
    GuessFileTypeForConversion before path data =
      match Extension before path with
      | none => FileType.FTYPE_UNKNOWN
      | some ext =>
        if ext.map Char.toLower = ['b', 'i', 'n'] then FileType.FTYPE_BIN
        else if ext.map Char.toLower = ['l', 'b', '5'] then FileType.FTYPE_LB5
        else if ext.map Char.toLower = ['b', 'p', '2'] then FileType.FTYPE_BP2
        else if ext.map Char.toLower = ['b', 'm', 'p'] then
          if data.take 4 = [0x88, 0x88, 0x88, 0x88] then FileType.FTYPE_BP3
          else if data.take 2 = [0x42, 0x4D] then FileType.FTYPE_BMP
          else FileType.FTYPE_UNKNOWN
        else if ext.map Char.toLower = ['t', 'x', 't'] then
          if data.take 1 = [0x01] then FileType.FTYPE_TXT_1997
          else if IsValidUTF8 data = true then FileType.FTYPE_TXT_UTF8
          else FileType.FTYPE_TXT_2006
        else FileType.FTYPE_UNKNOWN := by
  obtain ⟨d0, d1, d2, d3, rest, rfl⟩ :
      ∃ d0 d1 d2 d3 rest, data = d0 :: d1 :: d2 :: d3 :: rest := by
    match data, hlen with
    | d0 :: d1 :: d2 :: d3 :: rest, _ => exact ⟨d0, d1, d2, d3, rest, rfl⟩
    | [], h | [_], h | [_, _], h | [_, _, _], h => simp at h
  unfold GuessFileTypeForConversion
  cases Extension before path with
  | none => rfl
  | some ext =>
    simp only [SDL_strcasecmp_eq_zero, List.map_cons, List.map_nil, List.getD_cons_zero,
      List.getD_cons_succ, List.take_succ_cons, List.take_zero, List.cons.injEq, and_true]
    rfl

/-- C5, at `a/b.TXT` with the data `ABCD`. -/
theorem GuessFileTypeForConversion_spec_witness :
    GuessFileTypeForConversion 'x' ['a', '/', 'b', '.', 'T', 'X', 'T'] [0x41, 0x42, 0x43, 0x44]
      = FileType.FTYPE_TXT_UTF8 := by
  rw [GuessFileTypeForConversion_spec 'x' _ _ (by decide)]
  simp [Extension, Extension.scan, IsDelim, IsValidUTF8, IsValidUTF8.step]

/-! ## TXT decoders -/

theorem xor_FF_xor_FF {b : Nat} (h : b < 256) : ((b ^^^ 0xFF) % 256 ^^^ 0xFF) % 256 = b := by
  interval_cases b <;> rfl

theorem u32le_value {n : Nat} (h : n < 4294967296) :
    n % 256 + 256 * (n / 256 % 256) + 65536 * (n / 65536 % 256) +
      16777216 * (n / 16777216 % 256) = n := by
  omega

theorem CString_append_zero {l : List Nat} (h : ∀ b ∈ l, b ≠ 0) : CString (l ++ [0]) = l := by
  unfold CString
  induction l with
  | nil => simp
  | cons a l ih =>
    have ha : a ≠ 0 := h a (List.mem_cons_self _ _)
    simp only [List.cons_append, List.takeWhile_cons, ha, ne_eq, not_false_eq_true,
      decide_True, ↓reduceIte, List.cons.injEq, true_and]
    exact ih (fun b hb => h b (List.mem_cons_of_mem _ hb))

theorem CString_append_zero_eq (l : List Nat) :
    CString (l ++ [0]) = l.takeWhile (fun b => b ≠ 0) := by
  unfold CString
  induction l with
  | nil => simp
  | cons a l ih =>
    by_cases ha : a = 0
    · simp [ha]
    · simp only [List.cons_append, List.takeWhile_cons, ha, ne_eq, not_false_eq_true,
        decide_True, ↓reduceIte, List.cons.injEq, true_and]
      exact ih

/-- The zeroed buffer of `n + 1` bytes after `n` bytes were stored at its
beginning, where the `u32` sum `n + 1` does not wrap. -/
theorem memWrite_zeroed (l : List Nat) (hl : l.length < 4294967295) :
    memWrite (List.replicate (u32 (l.length + 1)) 0) 0 l = l ++ [0] := by
  have hu : u32 (l.length + 1) = l.length + 1 := Nat.mod_eq_of_lt (by omega)
  rw [hu, memWrite, List.take_zero, List.nil_append, Nat.zero_add, List.drop_replicate,
    Nat.add_sub_cancel_left]
  rfl

theorem DecodeTXT_1997_of_layout (tr : List Nat → List Nat) (io : SDL_IOStream)
    {b0 b1 b2 b3 : Nat} {payload rest : List Nat}
    (h : io.unread = 0x01 :: b0 :: b1 :: b2 :: b3 :: (payload ++ rest))
    (hn : payload.length = b0 + 256 * b1 + 65536 * b2 + 16777216 * b3)
    (hlen : payload.length < 4294967295) :
    DecodeTXT_1997 tr io =
      some (tr ((payload.map (fun b => (b ^^^ 0xFF) % 256)).takeWhile (fun b => b ≠ 0))) := by
  obtain ⟨io1, e1, u1⟩ := SDL_ReadU8_cons h
  obtain ⟨io2, e2, u2⟩ := SDL_ReadU32LE_cons u1
  have hz := memWrite_zeroed (payload.map (fun b => (b ^^^ 0xFF) % 256))
    (by rw [List.length_map]; exact hlen)
  rw [List.length_map] at hz
  unfold DecodeTXT_1997
  rw [e1]
  simp only [ne_eq, not_true_eq_false, ↓reduceIte]
  rw [e2]
  simp only [(io2.read_unread _).1, u2, ← hn, List.take_left', ne_eq, not_true_eq_false,
    ↓reduceIte, ShiftToUTF8, hz, CString_append_zero_eq]

theorem DecodeTXT_1997_layout_of_some (tr : List Nat → List Nat) (io : SDL_IOStream)
    {out : List Nat} (h : DecodeTXT_1997 tr io = some out) :
    ∃ b0 b1 b2 b3 payload rest,
      io.unread = 0x01 :: b0 :: b1 :: b2 :: b3 :: (payload ++ rest) ∧
      payload.length = b0 + 256 * b1 + 65536 * b2 + 16777216 * b3 := by
  match hu : io.unread with
  | [] =>
    rw [DecodeTXT_1997, SDL_ReadU8_nil hu] at h
    exact absurd h (by simp)
  | m :: l =>
    obtain ⟨io1, e1, u1⟩ := SDL_ReadU8_cons hu
    rw [DecodeTXT_1997, e1] at h
    simp only at h
    by_cases hm : m = 1
    · subst hm
      simp only [ne_eq, not_true_eq_false, ↓reduceIte] at h
      match l, u1 with
      | b0 :: b1 :: b2 :: b3 :: l4, u1 =>
        obtain ⟨io2, e2, u2⟩ := SDL_ReadU32LE_cons u1
        rw [e2] at h
        simp only [(io2.read_unread _).1, u2] at h
        split_ifs at h with hl
        simp only [ne_eq, Decidable.not_not] at hl
        refine ⟨b0, b1, b2, b3, l4.take (b0 + 256 * b1 + 65536 * b2 + 16777216 * b3),
          l4.drop (b0 + 256 * b1 + 65536 * b2 + 16777216 * b3), ?_, hl⟩
        rw [List.take_append_drop]
      | [], u1 | [_], u1 | [_, _], u1 | [_, _, _], u1 =>
        rw [SDL_ReadU32LE_short (by rw [u1]; simp)] at h
        exact absurd h (by simp)
    · simp only [ne_eq, hm, not_false_eq_true, ↓reduceIte] at h
      exact absurd h (by simp)

/-- C6 (as amended): where the length field `n` of the stream is not
`0xFFFFFFFF` (there the `u32` size `n + 1` of the buffer is 0), `DecodeTXT_1997`
succeeds exactly when the unread stream is `01`, a little-endian u32 `n` and at
least `n` further bytes; the transcoder is then handed the `n` payload bytes
each XORed with `0xFF`, as a C string, that is up to the first byte that became
`00`; for every payload `P` without a zero byte and of fewer than `2^32 - 1`
bytes the stream `01 ‖ u32le(|P|) ‖ (P XOR 0xFF)` decodes back to `P`; and
`01 05 00 00 00 9E 9D 9C 9B 9A` gives `61 62 63 64 65`. -/
theorem DecodeTXT_1997_spec (tr : List Nat → List Nat) :
    (∀ io : SDL_IOStream,
      (∀ b0 b1 b2 b3 rest, io.unread = 0x01 :: b0 :: b1 :: b2 :: b3 :: rest →
        b0 + 256 * b1 + 65536 * b2 + 16777216 * b3 < 4294967295) →
      ((∃ out, DecodeTXT_1997 tr io = some out) ↔
        ∃ b0 b1 b2 b3 payload rest,
          io.unread = 0x01 :: b0 :: b1 :: b2 :: b3 :: (payload ++ rest) ∧
          payload.length = b0 + 256 * b1 + 65536 * b2 + 16777216 * b3)) ∧
    (∀ (io : SDL_IOStream) (b0 b1 b2 b3 : Nat) (payload rest : List Nat),
      io.unread = 0x01 :: b0 :: b1 :: b2 :: b3 :: (payload ++ rest) →
      payload.length = b0 + 256 * b1 + 65536 * b2 + 16777216 * b3 →
      payload.length < 4294967295 →
      DecodeTXT_1997 tr io =
        some (tr ((payload.map (fun b => (b ^^^ 0xFF) % 256)).takeWhile (fun b => b ≠ 0)))) ∧
    (∀ P : List Nat, (∀ b ∈ P, b < 256 ∧ b ≠ 0) → P.length < 4294967295 →
      DecodeTXT_1997 tr
        ⟨0x01 :: (u32le P.length ++ P.map (fun b => (b ^^^ 0xFF) % 256)), 0⟩ = some (tr P)) ∧
    DecodeTXT_1997 tr ⟨[0x01, 0x05, 0x00, 0x00, 0x00, 0x9E, 0x9D, 0x9C, 0x9B, 0x9A], 0⟩ =
      some (tr [0x61, 0x62, 0x63, 0x64, 0x65]) := by
  refine ⟨?_, ?_, ?_, ?_⟩
  · intro io hsize
    constructor
    · rintro ⟨out, h⟩
      exact DecodeTXT_1997_layout_of_some tr io h
    · rintro ⟨b0, b1, b2, b3, payload, rest, h, hn⟩
      exact ⟨_, DecodeTXT_1997_of_layout tr io h hn (by rw [hn]; exact hsize _ _ _ _ _ h)⟩
  · intro io b0 b1 b2 b3 payload rest h hn hlen
    exact DecodeTXT_1997_of_layout tr io h hn hlen
  · intro P hP hlen
    have hlay : (⟨0x01 :: (u32le P.length ++ P.map (fun b => (b ^^^ 0xFF) % 256)), 0⟩ :
        SDL_IOStream).unread =
        0x01 :: (P.length % 256) :: (P.length / 256 % 256) :: (P.length / 65536 % 256) ::
          (P.length / 16777216 % 256) :: (P.map (fun b => (b ^^^ 0xFF) % 256) ++ []) := by
      simp [SDL_IOStream.unread, u32le]
    rw [DecodeTXT_1997_of_layout tr _ hlay
      (by rw [List.length_map, u32le_value (by omega)]) (by rw [List.length_map]; exact hlen)]
    have hmap : (P.map (fun b => (b ^^^ 0xFF) % 256)).map (fun b => (b ^^^ 0xFF) % 256) = P := by
      rw [List.map_map]
      conv_rhs => rw [← List.map_id P]
      apply List.map_congr_left
      intro b hb
      exact xor_FF_xor_FF (hP b hb).1
    rw [hmap]
    have htw : P.takeWhile (fun b => b ≠ 0) = P := by
      rw [List.takeWhile_eq_self_iff]
      intro b hb
      simpa using (hP b hb).2
    rw [htw]
  · have hlay : (⟨[0x01, 0x05, 0x00, 0x00, 0x00, 0x9E, 0x9D, 0x9C, 0x9B, 0x9A], 0⟩ :
        SDL_IOStream).unread =
        0x01 :: 0x05 :: 0x00 :: 0x00 :: 0x00 :: ([0x9E, 0x9D, 0x9C, 0x9B, 0x9A] ++ []) := rfl
    rw [DecodeTXT_1997_of_layout tr _ hlay rfl (by decide)]
    rfl

/-- C6, at the payload `ab`. -/
theorem DecodeTXT_1997_spec_witness :
    DecodeTXT_1997 id
      ⟨0x01 :: (u32le 2 ++ [0x61, 0x62].map (fun b => (b ^^^ 0xFF) % 256)), 0⟩ =
        some [0x61, 0x62] :=
  (DecodeTXT_1997_spec id).2.2.1 [0x61, 0x62] (by decide) (by decide)

/-- C6 as stated fails for a payload with a zero byte: for `P = 00 61` the
stream is `01 02 00 00 00 FF 9E`, and the transcoder (here the identity, to
show what it is handed) receives the empty string instead of `00 61`. -/
theorem DecodeTXT_1997_zero_byte :
    DecodeTXT_1997 id ⟨0x01 :: (u32le 2 ++ [0x00, 0x61].map (fun b => (b ^^^ 0xFF) % 256)), 0⟩ =
        some [] ∧
      DecodeTXT_1997 id
        ⟨0x01 :: (u32le 2 ++ [0x00, 0x61].map (fun b => (b ^^^ 0xFF) % 256)), 0⟩ ≠
        some [0x00, 0x61] := by
  decide

theorem DecodeTXT_2006.subst_ne_zero {b : Nat} (h : b ≠ 0) (hb : b < 256) :
    DecodeTXT_2006.subst b ≠ 0 := by
  unfold DecodeTXT_2006.subst
  split_ifs <;> omega

/-- C7 (as amended), for lengths below `2^32`, which the `u32` counter of the
substitution loop reaches: with `len = 0` the whole stream is read from offset
0, otherwise `len` bytes from the current position (and the call fails when
fewer are left, for every `len` below `2^64 - 1`, whose buffer size `len + 1` is
not 0); the transcoder is handed the bytes read, each `b > 0x0F`
replaced by `(0x0E - b) mod 256` and each `b <= 0x0F` unchanged, positions
preserved, as a C string, that is up to the first `00` byte of the input; an
input without a zero byte is handed over whole; `10 20 30 0F` becomes
`FE EE DE 0F`. -/
theorem DecodeTXT_2006_spec (tr : List Nat → List Nat) :
    (∀ b : Nat, b < 256 → 0x0F < b →
      ((DecodeTXT_2006.subst b : Nat) : Int) = (0x0E - (b : Int)) % 256) ∧
    (∀ b : Nat, b ≤ 0x0F → DecodeTXT_2006.subst b = b) ∧
    (∀ io : SDL_IOStream, io.data.length < 4294967296 → DecodeTXT_2006 tr io 0 =
      some (tr ((io.data.map DecodeTXT_2006.subst).takeWhile (fun b => b ≠ 0)))) ∧
    (∀ (io : SDL_IOStream) (len : Nat), len ≠ 0 → len < 4294967296 →
      len ≤ io.unread.length →
      DecodeTXT_2006 tr io len =
        some (tr (((io.unread.take len).map DecodeTXT_2006.subst).takeWhile
          (fun b => b ≠ 0)))) ∧
    (∀ (io : SDL_IOStream) (len : Nat), len ≠ 0 → len < 18446744073709551615 →
      io.unread.length < len → DecodeTXT_2006 tr io len = none) ∧
    (∀ input : List Nat, (∀ b ∈ input, b < 256 ∧ b ≠ 0) → input.length < 4294967296 →
      DecodeTXT_2006 tr ⟨input, 0⟩ 0 = some (tr (input.map DecodeTXT_2006.subst))) ∧
    DecodeTXT_2006 tr ⟨[0x10, 0x20, 0x30, 0x0F], 0⟩ 0 = some (tr [0xFE, 0xEE, 0xDE, 0x0F]) := by
  have hzero : ∀ io : SDL_IOStream, DecodeTXT_2006 tr io 0 =
      some (tr ((io.data.map DecodeTXT_2006.subst).takeWhile (fun b => b ≠ 0))) := by
    intro io
    simp only [DecodeTXT_2006, ↓reduceIte, (SDL_IOStream.read_unread _ _).1, SDL_SeekIO_SET,
      SDL_SeekIO_END, SDL_TellIO, SDL_IOStream.unread, List.drop_zero, List.take_length,
      ne_eq, not_true_eq_false, ShiftToUTF8, CString_append_zero_eq]
  refine ⟨?_, ?_, fun io _ => hzero io, ?_, ?_, ?_, ?_⟩
  · intro b hb h
    unfold DecodeTXT_2006.subst
    rw [if_pos h]
    omega
  · intro b hb
    unfold DecodeTXT_2006.subst
    rw [if_neg (by omega)]
  · intro io len hlen _ hle
    simp only [DecodeTXT_2006, hlen, ↓reduceIte, (SDL_IOStream.read_unread _ _).1,
      List.length_take, Nat.min_eq_left hle, ne_eq, not_true_eq_false, ShiftToUTF8,
      CString_append_zero_eq]
  · intro io len hlen _ hlt
    simp only [DecodeTXT_2006, hlen, ↓reduceIte, (SDL_IOStream.read_unread _ _).1,
      List.length_take, Nat.min_eq_right (Nat.le_of_lt hlt), ne_eq]
    rw [if_pos (by omega)]
  · intro input hin _
    rw [hzero]
    have htw : (input.map DecodeTXT_2006.subst).takeWhile (fun b => b ≠ 0) =
        input.map DecodeTXT_2006.subst := by
      rw [List.takeWhile_eq_self_iff]
      intro b hb
      obtain ⟨a, ha, rfl⟩ := List.mem_map.mp hb
      simpa using DecodeTXT_2006.subst_ne_zero (hin a ha).2 (hin a ha).1
    rw [htw]
  · rw [hzero]
    rfl

/-- C7, at the two bytes `20 30` read from position 1 of `10 20 30 0F`. -/
theorem DecodeTXT_2006_spec_witness :
    DecodeTXT_2006 id ⟨[0x10, 0x20, 0x30, 0x0F], 1⟩ 2 = some [0xEE, 0xDE] :=
  (DecodeTXT_2006_spec id).2.2.2.1 ⟨[0x10, 0x20, 0x30, 0x0F], 1⟩ 2 (by decide) (by decide)
    (by decide)

/-- C7 as stated fails for an input with a zero byte: for the input `00 10`
the transcoder (here the identity) receives the empty string instead of
`00 FE`. -/
theorem DecodeTXT_2006_zero_byte :
    DecodeTXT_2006 id ⟨[0x00, 0x10], 0⟩ 0 = some [] ∧
      DecodeTXT_2006 id ⟨[0x00, 0x10], 0⟩ 0 ≠ some [0x00, 0xFE] := by
  decide

/-! ## BP3 : the tile decode loops -/

theorem getD_set_self {l : List Nat} {i : Nat} (a d : Nat) (h : i < l.length) :
    (l.set i a).getD i d = a := by
  rw [List.getD_eq_getElem?_getD, List.getElem?_set_self h]
  rfl

theorem getD_set_ne {l : List Nat} {i j : Nat} (a d : Nat) (h : i ≠ j) :
    (l.set i a).getD j d = l.getD j d := by
  rw [List.getD_eq_getElem?_getD, List.getD_eq_getElem?_getD, List.getElem?_set_ne h]

theorem LoadBP3.srcCol_succ (mode src_step src0 tx : Nat) :
    (if mode = 4 then
        if tx &&& 1 = 1 then src0 + LoadBP3.srcCol mode src_step tx + 1
        else src0 + LoadBP3.srcCol mode src_step tx
      else src0 + LoadBP3.srcCol mode src_step tx + src_step) =
      src0 + LoadBP3.srcCol mode src_step (tx + 1) := by
  have hand : tx &&& 1 = tx % 2 := Nat.and_pow_two_sub_one_eq_mod tx 1
  unfold LoadBP3.srcCol
  by_cases hm : mode = 4
  · simp only [hm, ↓reduceIte, hand]
    split_ifs with h <;> omega
  · simp only [hm, ↓reduceIte, Nat.add_mul, Nat.one_mul]
    omega

theorem LoadBP3.decodeRow_length (mode src_step bb bg br : Nat) (tb : List Nat) :
    ∀ (n tx dst src : Nat) (out : List Nat),
      (LoadBP3.decodeRow mode src_step bb bg br tb n tx dst src out).length = out.length := by
  intro n
  induction n with
  | zero => intro tx dst src out; rfl
  | succ n ih =>
    intro tx dst src out
    rw [LoadBP3.decodeRow, ih]
    split <;> simp

theorem LoadBP3.decodeRow_frame (mode src_step bb bg br : Nat) (tb : List Nat) :
    ∀ (n tx dst src : Nat) (out : List Nat) (idx : Nat),
      (idx < dst ∨ dst + 3 * n ≤ idx) →
      (LoadBP3.decodeRow mode src_step bb bg br tb n tx dst src out).getD idx 0 =
        out.getD idx 0 := by
  intro n
  induction n with
  | zero => intro tx dst src out idx _; rfl
  | succ n ih =>
    intro tx dst src out idx h
    rw [LoadBP3.decodeRow, ih _ _ _ _ _ (by omega)]
    split
    · rw [getD_set_ne _ _ (by omega), getD_set_ne _ _ (by omega), getD_set_ne _ _ (by omega)]
    · rfl

theorem LoadBP3.decodeRow_value (mode src_step bb bg br : Nat) (tb : List Nat) (src0 : Nat) :
    ∀ (n tx dst src : Nat) (out : List Nat),
      src = src0 + LoadBP3.srcCol mode src_step tx →
      dst + 3 * n ≤ out.length →
      ∀ (t : Nat) (b g r : Nat), t < n →
        LoadBP3.decodePixel mode bb bg br tb
          (src0 + LoadBP3.srcCol mode src_step (tx + t)) (tx + t) = some (b, g, r) →
        (LoadBP3.decodeRow mode src_step bb bg br tb n tx dst src out).getD (dst + 3 * t) 0 = b ∧
        (LoadBP3.decodeRow mode src_step bb bg br tb n tx dst src out).getD (dst + 3 * t + 1) 0
          = g ∧
        (LoadBP3.decodeRow mode src_step bb bg br tb n tx dst src out).getD (dst + 3 * t + 2) 0
          = r := by
  intro n
  induction n with
  | zero => intro tx dst src out _ _ t b g r ht; omega
  | succ n ih =>
    intro tx dst src out hsrc hlen t b g r ht hpx
    rw [LoadBP3.decodeRow]
    have hnext : (if mode = 4 then if tx &&& 1 = 1 then src + 1 else src else src + src_step) =
        src0 + LoadBP3.srcCol mode src_step (tx + 1) := by
      rw [hsrc]; exact LoadBP3.srcCol_succ mode src_step src0 tx
    cases t with
    | zero =>
      simp only [Nat.add_zero, Nat.mul_zero] at hpx ⊢
      rw [← hsrc] at hpx
      rw [hpx]
      simp only
      rw [LoadBP3.decodeRow_frame _ _ _ _ _ _ _ _ _ _ _ _ (Or.inl (by omega)),
        LoadBP3.decodeRow_frame _ _ _ _ _ _ _ _ _ _ _ _ (Or.inl (by omega)),
        LoadBP3.decodeRow_frame _ _ _ _ _ _ _ _ _ _ _ _ (Or.inl (by omega))]
      refine ⟨?_, ?_, ?_⟩
      · rw [getD_set_ne _ _ (by omega), getD_set_ne _ _ (by omega),
          getD_set_self _ _ (by omega)]
      · rw [getD_set_ne _ _ (by omega), getD_set_self _ _ (by simp; omega)]
      · rw [getD_set_self _ _ (by simp; omega)]
    | succ t =>
      have hpx' : LoadBP3.decodePixel mode bb bg br tb
          (src0 + LoadBP3.srcCol mode src_step (tx + 1 + t)) (tx + 1 + t) = some (b, g, r) := by
        rw [show tx + 1 + t = tx + (t + 1) by omega]; exact hpx
      have key := ih (tx + 1) (dst + 3)
        (if mode = 4 then if tx &&& 1 = 1 then src + 1 else src else src + src_step)
        (match LoadBP3.decodePixel mode bb bg br tb src tx with
          | some (b, g, r) => ((out.set (dst + 0) b).set (dst + 1) g).set (dst + 2) r
          | none => out)
        hnext (by split <;> first | (simp only [List.length_set]; omega) | omega) t b g r
        (by omega) hpx'
      rw [show dst + 3 * (t + 1) = dst + 3 + 3 * t by omega]
      exact key

theorem u32_of_lt {x : Nat} (h : x < 4294967296) : u32 x = x := Nat.mod_eq_of_lt h

theorem LoadBP3.srcCol_zero (mode src_step : Nat) : LoadBP3.srcCol mode src_step 0 = 0 := by
  unfold LoadBP3.srcCol
  split_ifs <;> simp

theorem LoadBP3.decodeRows_length (mode bpp bb bg br : Nat) (tb : List Nat)
    (tile_base grb : Nat) :
    ∀ (n ty srb : Nat) (out : List Nat),
      (LoadBP3.decodeRows mode bpp bb bg br tb tile_base grb n ty srb out).length =
        out.length := by
  intro n
  induction n with
  | zero => intro ty srb out; rfl
  | succ n ih =>
    intro ty srb out
    rw [LoadBP3.decodeRows, ih, LoadBP3.decodeRow_length]

theorem LoadBP3.decodeRows_frame (mode bpp bb bg br : Nat) (tb : List Nat)
    (tile_base grb : Nat) :
    ∀ (n ty srb : Nat) (out : List Nat), out.length < 4294967296 →
      (∀ r, r < n → tile_base + (ty + r) * grb + 24 ≤ out.length) →
      ∀ idx : Nat,
        (∀ r, r < n → idx < tile_base + (ty + r) * grb ∨ tile_base + (ty + r) * grb + 24 ≤ idx) →
        (LoadBP3.decodeRows mode bpp bb bg br tb tile_base grb n ty srb out).getD idx 0 =
          out.getD idx 0 := by
  intro n
  induction n with
  | zero => intro ty srb out _ _ idx _; rfl
  | succ n ih =>
    intro ty srb out hsz hb idx hidx
    have hb0 := hb 0 (by omega)
    have h0 := hidx 0 (by omega)
    simp only [Nat.add_zero] at hb0 h0
    have e : ∀ r, (ty + 1 + r) * grb = (ty + (r + 1)) * grb := by
      intro r; rw [show ty + 1 + r = ty + (r + 1) by omega]
    rw [LoadBP3.decodeRows, ih]
    · rw [u32_of_lt (by omega)]
      exact LoadBP3.decodeRow_frame _ _ _ _ _ _ _ _ _ _ _ _ (by omega)
    · rw [LoadBP3.decodeRow_length]; exact hsz
    · intro r hr
      rw [LoadBP3.decodeRow_length, e]
      exact hb (r + 1) (by omega)
    · intro r hr
      rw [e]
      exact hidx (r + 1) (by omega)

theorem LoadBP3.decodeRows_value (mode bpp bb bg br : Nat) (tb : List Nat)
    (tile_base grb : Nat) (hgrb : 24 ≤ grb) :
    ∀ (n ty srb : Nat) (out : List Nat), out.length < 4294967296 →
      (∀ r, r < n → tile_base + (ty + r) * grb + 24 ≤ out.length) →
      ∀ (r t : Nat) (b g c : Nat), r < n → t < 8 →
        LoadBP3.decodePixel mode bb bg br tb
          (srb + r * bpp + LoadBP3.srcCol mode (bpp / 8) t) t = some (b, g, c) →
        (LoadBP3.decodeRows mode bpp bb bg br tb tile_base grb n ty srb out).getD
            (tile_base + (ty + r) * grb + 3 * t) 0 = b ∧
        (LoadBP3.decodeRows mode bpp bb bg br tb tile_base grb n ty srb out).getD
            (tile_base + (ty + r) * grb + 3 * t + 1) 0 = g ∧
        (LoadBP3.decodeRows mode bpp bb bg br tb tile_base grb n ty srb out).getD
            (tile_base + (ty + r) * grb + 3 * t + 2) 0 = c := by
  intro n
  induction n with
  | zero => intro ty srb out _ _ r t b g c hr; omega
  | succ n ih =>
    intro ty srb out hsz hb r t b g c hr ht hpx
    have hb0 := hb 0 (by omega)
    simp only [Nat.add_zero] at hb0
    have e : ∀ r, (ty + 1 + r) * grb = (ty + (r + 1)) * grb := by
      intro r; rw [show ty + 1 + r = ty + (r + 1) by omega]
    have e2 : ∀ r, (ty + (r + 1)) * grb = ty * grb + grb + r * grb := by
      intro r; ring
    have hb' : ∀ r, r < n → tile_base + (ty + 1 + r) * grb + 24 ≤
        (LoadBP3.decodeRow mode (bpp / 8) bb bg br tb 8 0 (u32 (tile_base + ty * grb)) srb
          out).length := by
      intro r hr
      rw [LoadBP3.decodeRow_length, e]
      exact hb (r + 1) (by omega)
    rw [LoadBP3.decodeRows]
    cases r with
    | zero =>
      simp only [Nat.add_zero, Nat.zero_mul] at hpx ⊢
      have hfr : ∀ k, k < 3 →
          (LoadBP3.decodeRows mode bpp bb bg br tb tile_base grb n (ty + 1) (srb + bpp)
            (LoadBP3.decodeRow mode (bpp / 8) bb bg br tb 8 0 (u32 (tile_base + ty * grb)) srb
              out)).getD (tile_base + ty * grb + 3 * t + k) 0 =
          (LoadBP3.decodeRow mode (bpp / 8) bb bg br tb 8 0 (u32 (tile_base + ty * grb)) srb
              out).getD (tile_base + ty * grb + 3 * t + k) 0 := by
        intro k hk
        apply LoadBP3.decodeRows_frame _ _ _ _ _ _ _ _ _ _ _ _
          (by rw [LoadBP3.decodeRow_length]; exact hsz) hb'
        intro r hr
        left
        rw [e, e2]
        omega
      have h0 := hfr 0 (by omega)
      have h1 := hfr 1 (by omega)
      have h2 := hfr 2 (by omega)
      simp only [Nat.add_zero] at h0
      rw [h0, h1, h2]
      rw [u32_of_lt (by omega)]
      have hv := LoadBP3.decodeRow_value mode (bpp / 8) bb bg br tb srb 8 0
        (tile_base + ty * grb) srb out (by rw [LoadBP3.srcCol_zero]; rfl) (by omega)
        t b g c ht (by simpa using hpx)
      exact hv
    | succ r =>
      have hpx' : LoadBP3.decodePixel mode bb bg br tb
          (srb + bpp + r * bpp + LoadBP3.srcCol mode (bpp / 8) t) t = some (b, g, c) := by
        rw [show srb + bpp + r * bpp = srb + (r + 1) * bpp by rw [Nat.succ_mul]; omega]
        exact hpx
      have key := ih (ty + 1) (srb + bpp) _
        (by rw [LoadBP3.decodeRow_length]; exact hsz) hb' r t b g c (by omega) ht hpx'
      rw [e] at key
      exact key

/-! ## BP3 : reading a full tile -/

theorem memWrite_length {buf : List Nat} {off : Nat} {bytes : List Nat}
    (h : off + bytes.length ≤ buf.length) : (memWrite buf off bytes).length = buf.length := by
  simp only [memWrite, List.length_append, List.length_take, List.length_drop]
  omega

theorem memWrite_getD {buf : List Nat} {off : Nat} {bytes : List Nat}
    (h : off + bytes.length ≤ buf.length) (j : Nat) :
    (memWrite buf off bytes).getD j 0 =
      if off ≤ j ∧ j < off + bytes.length then bytes.getD (j - off) 0 else buf.getD j 0 := by
  simp only [memWrite, List.getD_eq_getElem?_getD, List.append_assoc]
  by_cases h1 : j < off
  · rw [List.getElem?_append_left (by simp only [List.length_take]; omega),
      List.getElem?_take_of_lt h1, if_neg (by omega)]
  · rw [List.getElem?_append_right (by simp only [List.length_take]; omega)]
    simp only [List.length_take, Nat.min_eq_left (show off ≤ buf.length by omega)]
    by_cases h2 : j < off + bytes.length
    · rw [List.getElem?_append_left (by omega), if_pos ⟨by omega, h2⟩]
    · rw [List.getElem?_append_right (by omega), List.getElem?_drop, if_neg (by omega)]
      congr 2
      omega

theorem getD_take {l : List Nat} {n j : Nat} (h : j < n) : (l.take n).getD j 0 = l.getD j 0 := by
  rw [List.getD_eq_getElem?_getD, List.getD_eq_getElem?_getD, List.getElem?_take_of_lt h]

theorem getD_drop (l : List Nat) (n j : Nat) : (l.drop n).getD j 0 = l.getD (n + j) 0 := by
  rw [List.getD_eq_getElem?_getD, List.getD_eq_getElem?_getD, List.getElem?_drop]

/-- Rows of `stored_row_bytes` bytes without padding land in the scratch one
after the other: `n` rows copy the next `n * stored_row_bytes` stream bytes. -/
theorem LoadBP3.readRows_unpadded (srb : Nat) (hsrb : srb ≠ 0) :
    ∀ (n dst : Nat) (tb : List Nat) (io : SDL_IOStream),
      tb.length = 192 → dst + n * srb ≤ 192 → n * srb ≤ io.unread.length →
      ∃ tb', LoadBP3.readRows srb 0 n dst tb io =
          .ok (dst + n * srb, tb', ⟨io.data, io.pos + n * srb⟩) ∧
        tb'.length = 192 ∧
        ∀ j, tb'.getD j 0 =
          if dst ≤ j ∧ j < dst + n * srb then io.unread.getD (j - dst) 0 else tb.getD j 0 := by
  intro n
  induction n with
  | zero =>
    intro dst tb io htb _ _
    refine ⟨tb, by simp [LoadBP3.readRows], htb, ?_⟩
    intro j
    rw [if_neg (by omega)]
  | succ n ih =>
    intro dst tb io htb hdst hio
    have hmul : (n + 1) * srb = n * srb + srb := Nat.succ_mul n srb
    have hread : ( SDL_ReadIO io srb).1.length = srb := by
      rw [(io.read_unread srb).1, List.length_take]; omega
    have hw : dst + ( SDL_ReadIO io srb).1.length ≤ tb.length := by rw [hread]; omega
    obtain ⟨tb', hrows, hlen', hget⟩ := ih (dst + srb) (memWrite tb dst ( SDL_ReadIO io srb).1)
      ( SDL_ReadIO io srb).2 (by rw [memWrite_length hw]; exact htb) (by omega)
      (by rw [(io.read_unread srb).2, List.length_drop]; omega)
    have hd : ( SDL_ReadIO io srb).2.data = io.data := rfl
    have hp : ( SDL_ReadIO io srb).2.pos = io.pos + srb := by
      show io.pos + ( SDL_ReadIO io srb).1.length = io.pos + srb
      rw [hread]
    rw [hd, hp] at hrows
    refine ⟨tb', ?_, hlen', ?_⟩
    · rw [LoadBP3.readRows]
      simp only [ne_eq, hsrb, not_false_eq_true, ↓reduceIte, hread, not_true_eq_false]
      rw [u32_of_lt (by omega), if_neg (by omega)]
      simp only
      rw [hrows]
      have ha : dst + srb + n * srb = dst + (n + 1) * srb := by omega
      have hb : io.pos + srb + n * srb = io.pos + (n + 1) * srb := by omega
      rw [ha, hb]
    · intro j
      rw [hget j, memWrite_getD hw, hread, (io.read_unread srb).2, (io.read_unread srb).1,
        getD_drop]
      by_cases h1 : dst + srb ≤ j ∧ j < dst + srb + n * srb
      · rw [if_pos h1, if_pos (by omega)]
        congr 1
        omega
      · rw [if_neg h1]
        by_cases h2 : dst ≤ j ∧ j < dst + srb
        · rw [if_pos h2, if_pos (by omega), getD_take (by omega)]
        · rw [if_neg h2, if_neg (by omega)]

theorem LoadBP3.readTile_solid (chunk_w chunk_h : Nat) (io : SDL_IOStream) :
    LoadBP3.readTile 0 chunk_w chunk_h io = .ok (List.replicate 192 0, io) := by
  simp [LoadBP3.readTile]

/-- A full tile: the scratch receives the `8 * bpp` payload bytes in order and
the stream ends up right behind them. -/
theorem LoadBP3.readTile_full {bpp : Nat} (h0 : 0 < bpp) (h24 : bpp ≤ 24) (io : SDL_IOStream)
    (hio : 8 * bpp ≤ io.unread.length) :
    ∃ tb, LoadBP3.readTile bpp 8 8 io = .ok (tb, ⟨io.data, io.pos + 8 * bpp⟩) ∧
      tb.length = 192 ∧
      ∀ j, tb.getD j 0 = if j < 8 * bpp then io.unread.getD j 0 else 0 := by
  obtain ⟨tb, hrows, hlen, hget⟩ := LoadBP3.readRows_unpadded bpp (by omega) 8 0
    (List.replicate 192 0) io (List.length_replicate _ _) (by omega) (by omega)
  refine ⟨tb, ?_, hlen, ?_⟩
  · have hsrb : u32 (bpp * 8) / 8 = bpp := by rw [u32_of_lt (by omega)]; omega
    have hpad : u32 (bpp + 4294967296 - bpp) = 0 := by
      rw [show bpp + 4294967296 - bpp = 4294967296 by omega]; rfl
    simp only [LoadBP3.readTile, h0, ↓reduceIte, hsrb, hpad, hrows, SDL_TellIO, SDL_SeekIO_SET,
      gt_iff_lt]
    rw [if_neg (by omega), if_neg (by omega)]
    have : bpp * 8 * 8 / 8 = 8 * bpp := by omega
    rw [this]
  · intro j
    rw [hget j]
    by_cases hj : j < 8 * bpp
    · rw [if_pos ⟨by omega, by omega⟩, if_pos hj]; rfl
    · rw [if_neg (by omega), if_neg hj, List.getD_eq_getElem?_getD]
      by_cases hj2 : j < 192
      · rw [List.getElem?_replicate_of_lt hj2]; rfl
      · rw [List.getElem?_eq_none (by rw [List.length_replicate]; omega)]; rfl

theorem and_255 (x : Nat) : x &&& 255 = x % 256 := Nat.and_pow_two_sub_one_eq_mod x 8

theorem and_15 (x : Nat) : x &&& 15 = x % 16 := Nat.and_pow_two_sub_one_eq_mod x 4

theorem and_1 (x : Nat) : x &&& 1 = x % 2 := Nat.and_pow_two_sub_one_eq_mod x 1

theorem LoadBP3.srcCol_of_ne {mode : Nat} (h : mode ≠ 4) (src_step t : Nat) :
    LoadBP3.srcCol mode src_step t = t * src_step := by
  unfold LoadBP3.srcCol
  rw [if_neg h]

theorem LoadBP3.srcCol_four (src_step t : Nat) : LoadBP3.srcCol 4 src_step t = t / 2 := by
  unfold LoadBP3.srcCol
  rw [if_pos rfl]

/-- On a scratch that holds the payload of a full tile, the second `switch` of
`LoadBP3` yields the pixel of the specification's table. -/
theorem LoadBP3.decodePixel_full {m bpp : Nat} (hbpp : LoadBP3.bpp m = some bpp)
    (bb bg br : Nat) (tb payload : List Nat)
    (htb : ∀ j, j < 8 * bpp → tb.getD j 0 = payload.getD j 0) (tx ty : Nat) (htx : tx < 8)
    (hty : ty < 8) :
    LoadBP3.decodePixel m bb bg br tb (0 + ty * bpp + LoadBP3.srcCol m (bpp / 8) tx) tx =
      some (BP3TilePixelSpec m bb bg br payload tx ty) := by
  have hm : m < 8 := by
    by_contra hcon
    have : LoadBP3.bpp m = none := by
      unfold LoadBP3.bpp
      split <;> first | omega | rfl
    rw [this] at hbpp
    exact absurd hbpp (by simp)
  interval_cases m <;> simp only [LoadBP3.bpp, Option.some.injEq] at hbpp <;> subst hbpp
  · rfl
  · have hoff : 0 + ty * 8 + LoadBP3.srcCol 1 (8 / 8) tx = 8 * ty + tx := by
      rw [LoadBP3.srcCol_of_ne (by decide)]; omega
    have hoff' : (8 * ty + tx) * 8 / 8 = 8 * ty + tx := by omega
    rw [hoff]
    simp only [LoadBP3.decodePixel, BP3TilePixelSpec, and_255, Nat.shiftRight_zero,
      List.getD_cons_succ, List.getD_cons_zero, hoff']
    rw [htb _ (by omega)]
  · have hoff : 0 + ty * 8 + LoadBP3.srcCol 2 (8 / 8) tx = 8 * ty + tx := by
      rw [LoadBP3.srcCol_of_ne (by decide)]; omega
    have hoff' : (8 * ty + tx) * 8 / 8 = 8 * ty + tx := by omega
    rw [hoff]
    simp only [LoadBP3.decodePixel, BP3TilePixelSpec, and_255, Nat.shiftRight_zero,
      List.getD_cons_succ, List.getD_cons_zero, hoff']
    rw [htb _ (by omega)]
  · have hoff : 0 + ty * 8 + LoadBP3.srcCol 3 (8 / 8) tx = 8 * ty + tx := by
      rw [LoadBP3.srcCol_of_ne (by decide)]; omega
    have hoff' : (8 * ty + tx) * 8 / 8 = 8 * ty + tx := by omega
    rw [hoff]
    simp only [LoadBP3.decodePixel, BP3TilePixelSpec, and_255, Nat.shiftRight_zero,
      List.getD_cons_succ, List.getD_cons_zero, hoff']
    rw [htb _ (by omega)]
  · have hoff : 0 + ty * 4 + LoadBP3.srcCol 4 (4 / 8) tx = (8 * ty + tx) / 2 := by
      rw [LoadBP3.srcCol_four]; omega
    have hoff' : (8 * ty + tx) * 4 / 8 = (8 * ty + tx) / 2 := by omega
    have hsh : ∀ p : Nat, p >>> 4 = p / 16 := fun p => Nat.shiftRight_eq_div_pow p 4
    rw [hoff]
    simp only [LoadBP3.decodePixel, BP3TilePixelSpec, and_255, and_15, and_1, hsh,
      List.getD_cons_succ, List.getD_cons_zero, hoff']
    rw [htb _ (by omega)]
    have hpar : tx % 2 = 0 ∨ tx % 2 = 1 := by omega
    rcases hpar with h | h <;> simp [h]
  · have hoff : 0 + ty * 8 + LoadBP3.srcCol 5 (8 / 8) tx = 8 * ty + tx := by
      rw [LoadBP3.srcCol_of_ne (by decide)]; omega
    have hoff' : (8 * ty + tx) * 8 / 8 = 8 * ty + tx := by omega
    rw [hoff]
    simp only [LoadBP3.decodePixel, BP3TilePixelSpec, List.getD_cons_succ,
      List.getD_cons_zero, hoff']
    rw [htb _ (by omega)]
  · have hoff : 0 + ty * 16 + LoadBP3.srcCol 6 (16 / 8) tx = (8 * ty + tx) * 2 := by
      rw [LoadBP3.srcCol_of_ne (by decide)]; omega
    have hoff' : (8 * ty + tx) * 16 / 8 = (8 * ty + tx) * 2 := by omega
    rw [hoff]
    simp only [LoadBP3.decodePixel, BP3TilePixelSpec, List.getD_cons_succ,
      List.getD_cons_zero, hoff', Nat.add_zero]
    rw [htb _ (by omega), htb _ (by omega)]
  · have hoff : 0 + ty * 24 + LoadBP3.srcCol 7 (24 / 8) tx = (8 * ty + tx) * 3 := by
      rw [LoadBP3.srcCol_of_ne (by decide)]; omega
    have hoff' : (8 * ty + tx) * 24 / 8 = (8 * ty + tx) * 3 := by omega
    rw [hoff]
    simp only [LoadBP3.decodePixel, BP3TilePixelSpec, List.getD_cons_succ,
      List.getD_cons_zero, hoff', Nat.add_zero]
    rw [htb _ (by omega), htb _ (by omega), htb _ (by omega)]

/-- C8: a full 8x8 tile of mode `m` in `0..7` (`LoadBP3.bpp m = some bpp`) and
base colour `(bb, bg, br)`, stored in the next `8 * bpp` bytes of the stream:
the tile is read without error and the three bytes that the decode loops store
for the tile pixel `(tx, ty)`, at `tile_base + ty * grid_row_bytes + 3 * tx`,
are the `(b, g, r)` of the specification's table computed from the payload. -/
theorem LoadBP3_full_tile_pixel (m bpp bb bg br : Nat) (hbpp : LoadBP3.bpp m = some bpp)
    (io : SDL_IOStream) (hio : 8 * bpp ≤ io.unread.length)
    (tile_base grb : Nat) (out : List Nat) (hgrb : 24 ≤ grb) (hsz : out.length < 4294967296)
    (hfit : tile_base + 7 * grb + 24 ≤ out.length) (tx ty : Nat) (htx : tx < 8) (hty : ty < 8) :
    ∃ tb, LoadBP3.readTile bpp 8 8 io = .ok (tb, ⟨io.data, io.pos + 8 * bpp⟩) ∧
      (LoadBP3.decodeRows m bpp bb bg br tb tile_base grb 8 0 0 out).getD
          (tile_base + ty * grb + 3 * tx) 0 =
        (BP3TilePixelSpec m bb bg br (io.unread.take (8 * bpp)) tx ty).1 ∧
      (LoadBP3.decodeRows m bpp bb bg br tb tile_base grb 8 0 0 out).getD
          (tile_base + ty * grb + 3 * tx + 1) 0 =
        (BP3TilePixelSpec m bb bg br (io.unread.take (8 * bpp)) tx ty).2.1 ∧
      (LoadBP3.decodeRows m bpp bb bg br tb tile_base grb 8 0 0 out).getD
          (tile_base + ty * grb + 3 * tx + 2) 0 =
        (BP3TilePixelSpec m bb bg br (io.unread.take (8 * bpp)) tx ty).2.2 := by
  have h24 : bpp ≤ 24 := by
    unfold LoadBP3.bpp at hbpp
    split at hbpp <;>
      first
      | (simp only [Option.some.injEq] at hbpp; omega)
      | exact absurd hbpp (by simp)
  have hbound : ∀ r, r < 8 → tile_base + (0 + r) * grb + 24 ≤ out.length := by
    intro r hr
    have : (0 + r) * grb ≤ 7 * grb := Nat.mul_le_mul_right _ (by omega)
    omega
  have hval : ∀ tb : List Nat,
      (∀ j, j < 8 * bpp → tb.getD j 0 = (io.unread.take (8 * bpp)).getD j 0) →
      (LoadBP3.decodeRows m bpp bb bg br tb tile_base grb 8 0 0 out).getD
          (tile_base + ty * grb + 3 * tx) 0 =
        (BP3TilePixelSpec m bb bg br (io.unread.take (8 * bpp)) tx ty).1 ∧
      (LoadBP3.decodeRows m bpp bb bg br tb tile_base grb 8 0 0 out).getD
          (tile_base + ty * grb + 3 * tx + 1) 0 =
        (BP3TilePixelSpec m bb bg br (io.unread.take (8 * bpp)) tx ty).2.1 ∧
      (LoadBP3.decodeRows m bpp bb bg br tb tile_base grb 8 0 0 out).getD
          (tile_base + ty * grb + 3 * tx + 2) 0 =
        (BP3TilePixelSpec m bb bg br (io.unread.take (8 * bpp)) tx ty).2.2 := by
    intro tb htb
    have key := LoadBP3.decodeRows_value m bpp bb bg br tb tile_base grb hgrb 8 0 0 out hsz
      hbound ty tx _ _ _ hty htx
      (LoadBP3.decodePixel_full hbpp bb bg br tb (io.unread.take (8 * bpp)) htb tx ty htx hty)
    simpa only [Nat.zero_add] using key
  by_cases h0 : bpp = 0
  · subst h0
    exact ⟨List.replicate 192 0, LoadBP3.readTile_solid 8 8 io,
      hval _ (fun j hj => absurd hj (by omega))⟩
  · obtain ⟨tb, hread, _, hget⟩ := LoadBP3.readTile_full (by omega) h24 io hio
    refine ⟨tb, hread, hval tb ?_⟩
    intro j hj
    rw [hget j, if_pos hj, getD_take hj]

/-- C8, at the GRAY8 tile with payload `0..63` and the pixel `(3, 2)`. -/
theorem LoadBP3_full_tile_pixel_witness :
    ∃ tb, LoadBP3.readTile 8 8 8 ⟨List.range 64, 0⟩ = .ok (tb, ⟨List.range 64, 0 + 8 * 8⟩) ∧
      (LoadBP3.decodeRows 5 8 0 0 0 tb 0 24 8 0 0 (List.replicate 192 0)).getD
          (0 + 2 * 24 + 3 * 3) 0 =
        (BP3TilePixelSpec 5 0 0 0 ((⟨List.range 64, 0⟩ : SDL_IOStream).unread.take (8 * 8)) 3
          2).1 ∧
      (LoadBP3.decodeRows 5 8 0 0 0 tb 0 24 8 0 0 (List.replicate 192 0)).getD
          (0 + 2 * 24 + 3 * 3 + 1) 0 =
        (BP3TilePixelSpec 5 0 0 0 ((⟨List.range 64, 0⟩ : SDL_IOStream).unread.take (8 * 8)) 3
          2).2.1 ∧
      (LoadBP3.decodeRows 5 8 0 0 0 tb 0 24 8 0 0 (List.replicate 192 0)).getD
          (0 + 2 * 24 + 3 * 3 + 2) 0 =
        (BP3TilePixelSpec 5 0 0 0 ((⟨List.range 64, 0⟩ : SDL_IOStream).unread.take (8 * 8)) 3
          2).2.2 :=
  LoadBP3_full_tile_pixel 5 8 0 0 0 rfl ⟨List.range 64, 0⟩ (by decide) 0 24
    (List.replicate 192 0) (by decide) (by rw [List.length_replicate]; decide)
    (by rw [List.length_replicate]) 3 2 (by decide) (by decide)

/-! ## BP3 : the tile loop -/

theorem LoadBP3.decodeTile_eq (d : LoadBP3.Dims) (mode_tab param_tab : List Nat)
    (i bpp : Nat) (tb out : List Nat) (hsz : out.length < 4294967296)
    (hfit : LoadBP3.tileBase d i + 7 * d.grid_row_bytes + 24 ≤ out.length) :
    LoadBP3.decodeTile d mode_tab param_tab i bpp tb out =
      LoadBP3.decodeRows (mode_tab.getD i 0) bpp (param_tab.getD (3 * i + 0) 0)
        (param_tab.getD (3 * i + 1) 0) (param_tab.getD (3 * i + 2) 0) tb
        (LoadBP3.tileBase d i) d.grid_row_bytes 8 0 0 out := by
  unfold LoadBP3.tileBase at hfit ⊢
  unfold LoadBP3.decodeTile
  simp only
  rw [u32_of_lt (by omega), u32_of_lt (by omega)]

theorem LoadBP3.decodeTile_length (d : LoadBP3.Dims) (mode_tab param_tab : List Nat)
    (i bpp : Nat) (tb out : List Nat) :
    (LoadBP3.decodeTile d mode_tab param_tab i bpp tb out).length = out.length := by
  unfold LoadBP3.decodeTile
  exact LoadBP3.decodeRows_length _ _ _ _ _ _ _ _ _ _ _ _

theorem LoadBP3.tile_rows_fit (d : LoadBP3.Dims) (i : Nat) {len : Nat}
    (hfit : LoadBP3.tileBase d i + 7 * d.grid_row_bytes + 24 ≤ len) :
    ∀ r, r < 8 → LoadBP3.tileBase d i + (0 + r) * d.grid_row_bytes + 24 ≤ len := by
  intro r hr
  have : (0 + r) * d.grid_row_bytes ≤ 7 * d.grid_row_bytes :=
    Nat.mul_le_mul_right _ (by omega)
  omega

theorem LoadBP3.decodeTile_frame (d : LoadBP3.Dims) (mode_tab param_tab : List Nat)
    (i bpp : Nat) (tb out : List Nat) (hsz : out.length < 4294967296)
    (hfit : LoadBP3.tileBase d i + 7 * d.grid_row_bytes + 24 ≤ out.length) (idx : Nat)
    (hidx : ∀ ty, ty < 8 → idx < LoadBP3.tileBase d i + ty * d.grid_row_bytes ∨
      LoadBP3.tileBase d i + ty * d.grid_row_bytes + 24 ≤ idx) :
    (LoadBP3.decodeTile d mode_tab param_tab i bpp tb out).getD idx 0 = out.getD idx 0 := by
  rw [LoadBP3.decodeTile_eq d mode_tab param_tab i bpp tb out hsz hfit]
  apply LoadBP3.decodeRows_frame _ _ _ _ _ _ _ _ _ _ _ _ hsz (LoadBP3.tile_rows_fit d i hfit)
  intro r hr
  rw [Nat.zero_add]
  exact hidx r hr

theorem LoadBP3.decodeTile_value (d : LoadBP3.Dims) (mode_tab param_tab : List Nat)
    (i bpp : Nat) (tb out : List Nat) (h24 : 24 ≤ d.grid_row_bytes)
    (hsz : out.length < 4294967296)
    (hfit : LoadBP3.tileBase d i + 7 * d.grid_row_bytes + 24 ≤ out.length)
    (tx ty : Nat) (htx : tx < 8) (hty : ty < 8) (px : Nat × Nat × Nat)
    (hpx : LoadBP3.decodePixel (mode_tab.getD i 0) (param_tab.getD (3 * i + 0) 0)
      (param_tab.getD (3 * i + 1) 0) (param_tab.getD (3 * i + 2) 0) tb
      (0 + ty * bpp + LoadBP3.srcCol (mode_tab.getD i 0) (bpp / 8) tx) tx = some px)
    (k : Nat) (hk : k < 3) :
    (LoadBP3.decodeTile d mode_tab param_tab i bpp tb out).getD
      (LoadBP3.tileBase d i + ty * d.grid_row_bytes + 3 * tx + k) 0 = channel px k := by
  rw [LoadBP3.decodeTile_eq d mode_tab param_tab i bpp tb out hsz hfit]
  obtain ⟨b, g, c⟩ := px
  have key := LoadBP3.decodeRows_value _ bpp _ _ _ tb (LoadBP3.tileBase d i) d.grid_row_bytes
    h24 8 0 0 out hsz (LoadBP3.tile_rows_fit d i hfit) ty tx b g c hty htx hpx
  simp only [Nat.zero_add] at key
  interval_cases k
  · exact key.1
  · exact key.2.1
  · exact key.2.2

/-- The tiles lie side by side in the grid: a byte of tile `a` is outside every
row of another tile `b`. -/
theorem LoadBP3.tiles_disjoint (d : LoadBP3.Dims)
    (hg : d.grid_row_bytes = 24 * d.tiles_per_row) (a b : Nat) (hab : a ≠ b)
    (tx ty k ty' : Nat) (htx : tx < 8) (hty : ty < 8) (hk : k < 3) (hty' : ty' < 8)
    (htpr : 0 < d.tiles_per_row) :
    LoadBP3.tileBase d a + ty * d.grid_row_bytes + 3 * tx + k <
        LoadBP3.tileBase d b + ty' * d.grid_row_bytes ∨
      LoadBP3.tileBase d b + ty' * d.grid_row_bytes + 24 ≤
        LoadBP3.tileBase d a + ty * d.grid_row_bytes + 3 * tx + k := by
  unfold LoadBP3.tileBase
  have hca : a % d.tiles_per_row < d.tiles_per_row := Nat.mod_lt _ htpr
  have hcb : b % d.tiles_per_row < d.tiles_per_row := Nat.mod_lt _ htpr
  have ha := Nat.div_add_mod a d.tiles_per_row
  have hb := Nat.div_add_mod b d.tiles_per_row
  generalize a % d.tiles_per_row = ca at *
  generalize b % d.tiles_per_row = cb at *
  generalize a / d.tiles_per_row = ra at *
  generalize b / d.tiles_per_row = rb at *
  generalize d.grid_row_bytes = G at *
  generalize d.tiles_per_row = T at *
  subst hg
  -- grid rows of the two bytes
  have e1 : 24 * T * 8 * ra + ty * (24 * T) = (8 * ra + ty) * (24 * T) := by ring
  have e2 : 24 * T * 8 * rb + ty' * (24 * T) = (8 * rb + ty') * (24 * T) := by ring
  rcases Nat.lt_trichotomy (8 * ra + ty) (8 * rb + ty') with h | h | h
  · left
    have : (8 * ra + ty + 1) * (24 * T) ≤ (8 * rb + ty') * (24 * T) :=
      Nat.mul_le_mul_right _ h
    have e3 : (8 * ra + ty + 1) * (24 * T) = (8 * ra + ty) * (24 * T) + 24 * T := by ring
    omega
  · have hr : ra = rb := by omega
    have ht : ty = ty' := by omega
    subst hr ht
    have hc : ca ≠ cb := by
      intro hc
      subst hc
      exact hab (by rw [← ha, ← hb])
    rcases Nat.lt_or_gt_of_ne hc with h | h
    · left; omega
    · right; omega
  · right
    have : (8 * rb + ty' + 1) * (24 * T) ≤ (8 * ra + ty) * (24 * T) :=
      Nat.mul_le_mul_right _ h
    have e3 : (8 * rb + ty' + 1) * (24 * T) = (8 * rb + ty') * (24 * T) + 24 * T := by ring
    omega

/-- A tile of the grid of `R` tile rows fits into the grid. -/
theorem LoadBP3.tile_fits (d : LoadBP3.Dims) (hg : d.grid_row_bytes = 24 * d.tiles_per_row)
    (R i : Nat) (hi : i < d.tiles_per_row * R) :
    LoadBP3.tileBase d i + 7 * d.grid_row_bytes + 24 ≤ d.grid_row_bytes * (8 * R) := by
  unfold LoadBP3.tileBase
  have htpr : 0 < d.tiles_per_row := by
    rcases Nat.eq_zero_or_pos d.tiles_per_row with h | h
    · rw [h, Nat.zero_mul] at hi; omega
    · exact h
  have hc : i % d.tiles_per_row < d.tiles_per_row := Nat.mod_lt _ htpr
  have hr : i / d.tiles_per_row < R := Nat.div_lt_of_lt_mul hi
  generalize i % d.tiles_per_row = c at *
  generalize i / d.tiles_per_row = r at *
  generalize d.grid_row_bytes = G at *
  generalize d.tiles_per_row = T at *
  subst hg
  have h1 : 24 * T * (8 * (r + 1)) ≤ 24 * T * (8 * R) :=
    Nat.mul_le_mul_left _ (by omega)
  have e1 : 24 * T * (8 * (r + 1)) = 24 * T * 8 * r + 8 * (24 * T) := by ring
  omega

/-- What the tile loop leaves in the grid: every tile that it has decoded sits
at its place, and the bytes outside those tiles are untouched. -/
theorem LoadBP3.tileLoop_spec (d : LoadBP3.Dims) (mode_tab param_tab : List Nat)
    (hg : d.grid_row_bytes = 24 * d.tiles_per_row) (R : Nat) :
    ∀ (n i : Nat) (io : SDL_IOStream) (out : List Nat) (io' : SDL_IOStream)
      (out' : List Nat),
      i + n ≤ d.tiles_per_row * R → out.length = d.grid_row_bytes * (8 * R) →
      out.length < 4294967296 →
      LoadBP3.tileLoop d mode_tab param_tab n i io out = .ok (io', out') →
      ∃ tbs, LoadBP3.tileBufs d mode_tab n i io = .ok tbs ∧ tbs.length = n ∧
        out'.length = out.length ∧
        (∀ j, j < n → ∃ bpp, LoadBP3.bpp (mode_tab.getD (i + j) 0) = some bpp) ∧
        (∀ (j tx ty k : Nat) (px : Nat × Nat × Nat), j < n → tx < 8 → ty < 8 → k < 3 →
          LoadBP3.decodePixel (mode_tab.getD (i + j) 0) (param_tab.getD (3 * (i + j) + 0) 0)
            (param_tab.getD (3 * (i + j) + 1) 0) (param_tab.getD (3 * (i + j) + 2) 0)
            (tbs.getD j [])
            (0 + ty * (LoadBP3.bpp (mode_tab.getD (i + j) 0)).getD 0 +
              LoadBP3.srcCol (mode_tab.getD (i + j) 0)
                ((LoadBP3.bpp (mode_tab.getD (i + j) 0)).getD 0 / 8) tx) tx = some px →
          out'.getD (LoadBP3.tileBase d (i + j) + ty * d.grid_row_bytes + 3 * tx + k) 0 =
            channel px k) ∧
        (∀ idx : Nat,
          (∀ j ty, j < n → ty < 8 →
            idx < LoadBP3.tileBase d (i + j) + ty * d.grid_row_bytes ∨
              LoadBP3.tileBase d (i + j) + ty * d.grid_row_bytes + 24 ≤ idx) →
          out'.getD idx 0 = out.getD idx 0) := by
  intro n
  induction n with
  | zero =>
    intro i io out io' out' _ _ _ h
    simp only [LoadBP3.tileLoop, Except.ok.injEq, Prod.mk.injEq] at h
    obtain ⟨_, rfl⟩ := h
    exact ⟨[], rfl, rfl, rfl, fun j hj => absurd hj (by omega),
      fun j tx ty k px hj => absurd hj (by omega), fun idx _ => rfl⟩
  | succ n ih =>
    intro i io out io' out' hin hlen hsz h
    rw [LoadBP3.tileLoop] at h
    cases hb : LoadBP3.bpp (mode_tab.getD i 0) with
    | none => rw [hb] at h; exact absurd h (by simp)
    | some bpp =>
      rw [hb] at h
      simp only at h
      cases hr : LoadBP3.readTile bpp (LoadBP3.chunk_w d i) (LoadBP3.chunk_h d i) io with
      | error e => rw [hr] at h; exact absurd h (by simp)
      | ok v =>
        obtain ⟨tb, io1⟩ := v
        rw [hr] at h
        simp only at h
        have htpr : 0 < d.tiles_per_row := by
          rcases Nat.eq_zero_or_pos d.tiles_per_row with hz | hz
          · rw [hz, Nat.zero_mul] at hin; omega
          · exact hz
        have h24 : 24 ≤ d.grid_row_bytes := by omega
        have hfit : LoadBP3.tileBase d i + 7 * d.grid_row_bytes + 24 ≤ out.length := by
          rw [hlen]; exact LoadBP3.tile_fits d hg R i (by omega)
        have hlen1 := LoadBP3.decodeTile_length d mode_tab param_tab i bpp tb out
        obtain ⟨tbs, htbs, htl, hol, hmodes, hval, hframe⟩ := ih (i + 1) io1
          (LoadBP3.decodeTile d mode_tab param_tab i bpp tb out) io' out' (by omega)
          (by rw [hlen1]; exact hlen) (by rw [hlen1]; exact hsz) h
        refine ⟨tb :: tbs, ?_, by simp [htl], by rw [hol, hlen1], ?_, ?_, ?_⟩
        · rw [LoadBP3.tileBufs, hb]
          simp only
          rw [hr]
          simp only
          rw [htbs]
        · intro j hj
          cases j with
          | zero => exact ⟨bpp, hb⟩
          | succ j =>
            have := hmodes j (by omega)
            rw [show i + 1 + j = i + (j + 1) by omega] at this
            exact this
        · intro j tx ty k px hj htx hty hk hpx
          cases j with
          | zero =>
            simp only [Nat.add_zero, List.getD_cons_zero, hb, Option.getD_some] at hpx ⊢
            rw [hframe]
            · exact LoadBP3.decodeTile_value d mode_tab param_tab i bpp tb out h24 hsz hfit
                tx ty htx hty px hpx k hk
            · intro j' ty' hj' hty'
              exact LoadBP3.tiles_disjoint d hg i (i + 1 + j') (by omega) tx ty k ty' htx hty
                hk hty' htpr
          | succ j =>
            simp only [List.getD_cons_succ] at hpx
            have := hval j tx ty k px (by omega) htx hty hk
              (by rw [show i + 1 + j = i + (j + 1) by omega]; exact hpx)
            rw [show i + 1 + j = i + (j + 1) by omega] at this
            exact this
        · intro idx hidx
          rw [hframe idx]
          · apply LoadBP3.decodeTile_frame d mode_tab param_tab i bpp tb out hsz hfit
            intro ty hty
            have := hidx 0 ty (by omega) hty
            simpa only [Nat.add_zero] using this
          · intro j ty hj hty
            have := hidx (j + 1) ty (by omega) hty
            rw [show i + (j + 1) = i + 1 + j by omega] at this
            exact this

/-! ## BP3 : sizes, crop and flip -/

theorem Align8_mod (x : Nat) : Align8 x % 8 = 0 := by
  unfold Align8 u32
  simp only
  split_ifs <;> omega

theorem u32_le (x : Nat) : u32 x ≤ x := Nat.mod_le _ _

theorem getD_reverse_of_lt {α : Type} (l : List α) (d : α) {r : Nat} (h : r < l.length) :
    l.reverse.getD r d = l.getD (l.length - 1 - r) d := by
  rw [List.getD_eq_getElem?_getD, List.getD_eq_getElem?_getD, List.getElem?_reverse h]

theorem Align8_spec {x : Nat} (hx : x + 8 ≤ 4294967296) :
    Align8 x % 8 = 0 ∧ x ≤ Align8 x ∧ Align8 x < x + 8 := by
  unfold Align8
  simp only
  split_ifs with h
  · rw [u32_of_lt (by omega)]; omega
  · omega

/-- The header-derived sizes when the padded grid fits a `u32`. -/
theorem LoadBP3.dims_spec (w h : Nat) (hno : 3 * (w + 8) * (h + 8) ≤ 4294967296) :
    (LoadBP3.dims w h).width = w ∧ (LoadBP3.dims w h).height = h ∧
    (LoadBP3.dims w h).padded_w = Align8 w ∧ (LoadBP3.dims w h).padded_h = Align8 h ∧
    (LoadBP3.dims w h).padded_w = 8 * (LoadBP3.dims w h).tiles_per_row ∧
    (LoadBP3.dims w h).padded_h = 8 * ((LoadBP3.dims w h).padded_h / 8) ∧
    w ≤ (LoadBP3.dims w h).padded_w ∧ h ≤ (LoadBP3.dims w h).padded_h ∧
    (LoadBP3.dims w h).grid_row_bytes = 24 * (LoadBP3.dims w h).tiles_per_row ∧
    (LoadBP3.dims w h).num_tiles =
      (LoadBP3.dims w h).tiles_per_row * ((LoadBP3.dims w h).padded_h / 8) ∧
    u32 ((LoadBP3.dims w h).padded_w * (LoadBP3.dims w h).padded_h * 3) =
      (LoadBP3.dims w h).grid_row_bytes * (8 * ((LoadBP3.dims w h).padded_h / 8)) ∧
    (LoadBP3.dims w h).grid_row_bytes * (8 * ((LoadBP3.dims w h).padded_h / 8)) <
      4294967296 := by
  have h1 : (w + 8) * 8 ≤ (w + 8) * (h + 8) := Nat.mul_le_mul_left _ (by omega)
  have h2 : 8 * (h + 8) ≤ (w + 8) * (h + 8) := Nat.mul_le_mul_right _ (by omega)
  have h3 : 3 * (w + 8) * (h + 8) = 3 * ((w + 8) * (h + 8)) := Nat.mul_assoc _ _ _
  obtain ⟨aw0, aw1, aw2⟩ := Align8_spec (x := w) (by omega)
  obtain ⟨ah0, ah1, ah2⟩ := Align8_spec (x := h) (by omega)
  have hprod : Align8 w * Align8 h < (w + 8) * (h + 8) :=
    Nat.mul_lt_mul'' aw2 ah2
  simp only [LoadBP3.dims]
  generalize Align8 w = pw at *
  generalize Align8 h = ph at *
  obtain ⟨T, rfl⟩ : ∃ T, pw = 8 * T := ⟨pw / 8, by omega⟩
  obtain ⟨R, rfl⟩ : ∃ R, ph = 8 * R := ⟨ph / 8, by omega⟩
  have e1 : 8 * T * (8 * R) = 64 * (T * R) := by ring
  have e2 : 8 * T * (8 * R) * 3 = 24 * T * (8 * R) := by ring
  have e3 : 24 * T * (8 * R) = 3 * (64 * (T * R)) := by ring
  have hT : 8 * T / 8 = T := by omega
  have hR : 8 * R / 8 = R := by omega
  rw [hT, hR]
  refine ⟨trivial, trivial, trivial, trivial, rfl, rfl, aw1, ah1, ?_, ?_, ?_, ?_⟩
  · rw [u32_of_lt (by omega)]; omega
  · rw [u32_of_lt (by omega), e1]; omega
  · rw [u32_of_lt (by omega), u32_of_lt (by omega), e2]
    congr 1
    omega
  · rw [u32_of_lt (by omega)]
    have : 3 * (8 * T) = 24 * T := by omega
    rw [this]
    omega

theorem surfaceWrite.row_length (off : Nat) (bytes : List Nat) (base : Nat) :
    ∀ (row : List Nat) (col : Nat), (surfaceWrite.row off bytes base col row).length = row.length := by
  intro row
  induction row with
  | nil => intro col; rfl
  | cons b row ih => intro col; simp only [surfaceWrite.row, List.length_cons, ih]

theorem surfaceWrite.row_outside (off : Nat) (bytes : List Nat) (base : Nat) :
    ∀ (row : List Nat) (col : Nat),
      base + col + row.length ≤ off ∨ off + bytes.length ≤ base + col →
      surfaceWrite.row off bytes base col row = row := by
  intro row
  induction row with
  | nil => intro col _; rfl
  | cons b row ih =>
    intro col h
    simp only [List.length_cons] at h
    rw [surfaceWrite.row, if_neg (by omega), ih (col + 1) (by omega)]

theorem surfaceWrite.row_at (off : Nat) (bytes : List Nat) :
    ∀ (row : List Nat) (col : Nat),
      surfaceWrite.row off bytes off col row =
        (bytes.drop col).take row.length ++ row.drop (bytes.length - col) := by
  intro row
  induction row with
  | nil => intro col; simp [surfaceWrite.row]
  | cons b row ih =>
    intro col
    rw [surfaceWrite.row, ih (col + 1)]
    by_cases hc : col < bytes.length
    · rw [if_pos ⟨by omega, by omega⟩, Nat.add_sub_cancel_left]
      have h1 : bytes.drop col = bytes.getD col 0 :: bytes.drop (col + 1) := by
        rw [List.getD_eq_getElem _ _ hc]
        exact List.drop_eq_getElem_cons hc
      have h2 : bytes.length - col = (bytes.length - (col + 1)) + 1 := by omega
      rw [h1, h2, List.length_cons, List.take_succ_cons, List.drop_succ_cons, List.cons_append]
    · rw [if_neg (by omega)]
      have h1 : bytes.drop col = [] := List.drop_eq_nil_of_le (by omega)
      have h2 : bytes.drop (col + 1) = [] := List.drop_eq_nil_of_le (by omega)
      have h3 : bytes.length - col = 0 := by omega
      have h4 : bytes.length - (col + 1) = 0 := by omega
      rw [h1, h2, h3, h4]
      simp

theorem surfaceWrite.rows_length (pitch off : Nat) (bytes : List Nat) :
    ∀ (rows : List (List Nat)) (q : Nat),
      (surfaceWrite.rows pitch off bytes q rows).length = rows.length := by
  intro rows
  induction rows with
  | nil => intro q; rfl
  | cons row rows ih => intro q; simp only [surfaceWrite.rows, List.length_cons, ih]

theorem surfaceWrite_length (pitch : Nat) (rows : List (List Nat)) (off : Nat) (bytes : List Nat) :
    (surfaceWrite pitch rows off bytes).length = rows.length :=
  surfaceWrite.rows_length pitch off bytes rows 0

theorem surfaceWrite.rows_row_length (pitch off : Nat) (bytes : List Nat) (L : Nat) :
    ∀ (rows : List (List Nat)) (q : Nat), (∀ row ∈ rows, row.length = L) →
      ∀ row ∈ surfaceWrite.rows pitch off bytes q rows, row.length = L := by
  intro rows
  induction rows with
  | nil => intro q _ row h; simp [surfaceWrite.rows] at h
  | cons r rows ih =>
    intro q hL row h
    simp only [surfaceWrite.rows, List.mem_cons] at h
    rcases h with h | h
    · rw [h, surfaceWrite.row_length]
      exact hL r (List.mem_cons_self _ _)
    · exact ih (q + 1) (fun x hx => hL x (List.mem_cons_of_mem _ hx)) row h

theorem surfaceWrite_row_length (pitch : Nat) (rows : List (List Nat)) (off : Nat)
    (bytes : List Nat) (L : Nat) (hL : ∀ row ∈ rows, row.length = L) :
    ∀ row ∈ surfaceWrite pitch rows off bytes, row.length = L :=
  surfaceWrite.rows_row_length pitch off bytes L rows 0 hL

/-- A store at the beginning of row `r`, of no more bytes than a row holds:
row `r` receives the bytes and the other rows stay as they are; a row outside
the surface receives nothing. -/
theorem surfaceWrite.rows_getD (pitch r : Nat) (bytes : List Nat) (L : Nat)
    (hb : bytes.length ≤ L) (hp : L ≤ pitch) :
    ∀ (rows : List (List Nat)) (q k : Nat), (∀ row ∈ rows, row.length = L) →
      (surfaceWrite.rows pitch (pitch * r) bytes q rows).getD k [] =
        if q + k = r ∧ k < rows.length then bytes ++ (rows.getD k []).drop bytes.length
        else rows.getD k [] := by
  intro rows
  induction rows with
  | nil =>
    intro q k _
    simp [surfaceWrite.rows]
  | cons row rows ih =>
    intro q k hL
    have hrow : row.length = L := hL row (List.mem_cons_self _ _)
    cases k with
    | zero =>
      simp only [surfaceWrite.rows, List.getD_cons_zero, Nat.add_zero, List.length_cons,
        Nat.zero_lt_succ, and_true]
      by_cases hq : q = r
      · subst hq
        rw [if_pos rfl, Nat.mul_comm, surfaceWrite.row_at, List.drop_zero, Nat.sub_zero,
          List.take_of_length_le (by omega)]
      · rw [if_neg hq]
        apply surfaceWrite.row_outside
        rcases Nat.lt_or_gt_of_ne hq with h | h
        · left
          have : (q + 1) * pitch ≤ r * pitch := Nat.mul_le_mul_right _ h
          rw [Nat.succ_mul] at this
          rw [Nat.mul_comm pitch r]
          omega
        · right
          have : (r + 1) * pitch ≤ q * pitch := Nat.mul_le_mul_right _ h
          rw [Nat.succ_mul] at this
          rw [Nat.mul_comm pitch r]
          omega
    | succ k =>
      simp only [surfaceWrite.rows, List.getD_cons_succ, List.length_cons]
      rw [ih (q + 1) k (fun x hx => hL x (List.mem_cons_of_mem _ hx))]
      have e : q + 1 + k = q + (k + 1) := by omega
      rw [e]
      by_cases hc : q + (k + 1) = r ∧ k < rows.length
      · rw [if_pos hc, if_pos ⟨hc.1, by omega⟩]
      · rw [if_neg hc, if_neg (by intro h; exact hc ⟨h.1, by omega⟩)]

theorem surfaceWrite_getD (pitch r : Nat) (bytes : List Nat) (L : Nat) (rows : List (List Nat))
    (hb : bytes.length ≤ L) (hp : L ≤ pitch) (hL : ∀ row ∈ rows, row.length = L) (k : Nat) :
    (surfaceWrite pitch rows (pitch * r) bytes).getD k [] =
      if k = r ∧ k < rows.length then bytes ++ (rows.getD k []).drop bytes.length
      else rows.getD k [] := by
  have := surfaceWrite.rows_getD pitch r bytes L hb hp rows 0 k hL
  rw [Nat.zero_add] at this
  exact this


theorem getD_replicate_zero (m i : Nat) : (List.replicate m 0).getD i 0 = 0 := by
  by_cases h : i < m
  · rw [List.getD_eq_getElem _ _ (by rw [List.length_replicate]; exact h),
      List.getElem_replicate]
  · rw [List.getD_eq_default _ _ (by rw [List.length_replicate]; omega)]

/-- The bytes of a row that was zero before the first `n` bytes of `l` were
stored at its beginning, of which `l` may hold fewer. -/
theorem getD_take_pad (l : List Nat) (n j : Nat) (hj : j < n) :
    (l.take n ++ (List.replicate n 0).drop (l.take n).length).getD j 0 = l.getD j 0 := by
  by_cases h : j < (l.take n).length
  · rw [List.getD_append _ _ _ _ h, getD_take hj]
  · rw [List.getD_append_right _ _ _ _ (by omega)]
    have h1 : l.length ≤ j := by
      rw [List.length_take] at h
      omega
    rw [List.getD_eq_default _ _ h1, List.drop_replicate, getD_replicate_zero]

/-- The copy loop of `LoadBP3` in a surface whose rows begin less than `2^32`
bytes behind its first byte: row `y` receives the bytes of row `y` of the
grid. -/
theorem LoadBP3.cropRows_spec (d : LoadBP3.Dims) (pitch : Nat) (outbuf : List Nat)
    (hp : d.width * 3 ≤ pitch) :
    ∀ (n y : Nat) (rows : List (List Nat)), (∀ row ∈ rows, row.length = d.width * 3) →
      y + n ≤ rows.length → (∀ r, r < y + n → pitch * r < 4294967296) →
      (LoadBP3.cropRows d pitch outbuf n y rows).length = rows.length ∧
      (∀ r, r < y ∨ y + n ≤ r →
        (LoadBP3.cropRows d pitch outbuf n y rows).getD r [] = rows.getD r []) ∧
      (∀ k, k < n →
        (LoadBP3.cropRows d pitch outbuf n y rows).getD (y + k) [] =
          (outbuf.drop ((y + k) * d.grid_row_bytes)).take (d.width * 3) ++
            (rows.getD (y + k) []).drop
              ((outbuf.drop ((y + k) * d.grid_row_bytes)).take (d.width * 3)).length) := by
  intro n
  induction n with
  | zero =>
    intro y rows _ _ _
    exact ⟨rfl, fun _ _ => rfl, fun k hk => absurd hk (by omega)⟩
  | succ n ih =>
    intro y rows hL hfit hw
    have hu : u32 (y * pitch) = pitch * y := by
      rw [Nat.mul_comm]
      exact u32_of_lt (hw y (by omega))
    have hbl : ((outbuf.drop (y * d.grid_row_bytes)).take (d.width * 3)).length ≤ d.width * 3 := by
      rw [List.length_take]
      exact Nat.min_le_left _ _
    have hg := surfaceWrite_getD pitch y
      ((outbuf.drop (y * d.grid_row_bytes)).take (d.width * 3)) (d.width * 3) rows hbl hp hL
    obtain ⟨h1, h2, h3⟩ := ih (y + 1)
      (surfaceWrite pitch rows (pitch * y)
        ((outbuf.drop (y * d.grid_row_bytes)).take (d.width * 3)))
      (surfaceWrite_row_length _ _ _ _ _ hL) (by rw [surfaceWrite_length]; omega)
      (fun r hr => hw r (by omega))
    rw [surfaceWrite_length] at h1
    simp only [LoadBP3.cropRows, hu]
    refine ⟨h1, ?_, ?_⟩
    · intro r hr
      rw [h2 r (by omega), hg r, if_neg (by omega)]
    · intro k hk
      cases k with
      | zero =>
        simp only [Nat.add_zero]
        rw [h2 _ (by omega), hg y, if_pos ⟨rfl, by omega⟩]
      | succ k =>
        have := h3 k (by omega)
        rw [show y + (k + 1) = y + 1 + k by omega, this, hg (y + 1 + k), if_neg (by omega)]

theorem Align4_mono_of_dvd {x m : Nat} (hx : x ≤ m) (hm : m % 4 = 0) : Align4 x ≤ m := by
  unfold Align4
  omega

/-- The bitmap after crop and flip, where every row of the surface begins less
than `2^32` bytes behind its first byte. -/
theorem LoadBP3.crop_flip_spec (d : LoadBP3.Dims) (outbuf : List Nat)
    (hw : SDL_Surface.pitch (d.width * 3) * (d.height - 1) < 4294967296) :
    (SDL_FlipSurface_VERTICAL (LoadBP3.crop d outbuf)).width = d.width ∧
    (SDL_FlipSurface_VERTICAL (LoadBP3.crop d outbuf)).height = d.height ∧
    (SDL_FlipSurface_VERTICAL (LoadBP3.crop d outbuf)).rows.length = d.height ∧
    ∀ x y k, x < d.width → y < d.height → k < 3 →
      (SDL_FlipSurface_VERTICAL (LoadBP3.crop d outbuf)).pixel x y k =
        LoadBP3.gridPixel d outbuf x (d.height - 1 - y) k := by
  have hp : d.width * 3 ≤ SDL_Surface.pitch (d.width * 3) := by
    unfold SDL_Surface.pitch Align4
    omega
  obtain ⟨c1, _, c3⟩ := LoadBP3.cropRows_spec d (SDL_Surface.pitch (d.width * 3)) outbuf hp
    d.height 0 (List.replicate d.height (List.replicate (d.width * 3) 0))
    (fun row hr => by rw [(List.mem_replicate.1 hr).2, List.length_replicate])
    (by rw [List.length_replicate]; omega)
    (fun r hr => Nat.lt_of_le_of_lt (Nat.mul_le_mul_left _ (by omega)) hw)
  rw [List.length_replicate] at c1
  refine ⟨rfl, rfl, by simp only [SDL_FlipSurface_VERTICAL, LoadBP3.crop,
    List.length_reverse]; exact c1, ?_⟩
  intro x y k hx hy hk
  simp only [Bitmap.pixel, SDL_FlipSurface_VERTICAL, LoadBP3.crop, LoadBP3.gridPixel]
  rw [getD_reverse_of_lt _ _ (by rw [c1]; exact hy), c1]
  have := c3 (d.height - 1 - y) (by omega)
  rw [Nat.zero_add] at this
  rw [this]
  have hrow : (List.replicate d.height (List.replicate (d.width * 3) 0)).getD
      (d.height - 1 - y) [] = List.replicate (d.width * 3) 0 := by
    rw [List.getD_eq_getElem _ _ (by rw [List.length_replicate]; omega), List.getElem_replicate]
  rw [hrow, getD_take_pad _ _ _ (by omega), getD_drop]
  congr 1
  omega

theorem LoadBP3.decodePixel_isSome {mode bpp : Nat} (h : LoadBP3.bpp mode = some bpp)
    (bb bg br : Nat) (tb : List Nat) (src_off tx : Nat) :
    ∃ px, LoadBP3.decodePixel mode bb bg br tb src_off tx = some px := by
  have hm : mode < 8 := by
    by_contra hcon
    have : LoadBP3.bpp mode = none := by
      unfold LoadBP3.bpp
      split <;> first | omega | rfl
    rw [this] at h
    exact absurd h (by simp)
  interval_cases mode <;> exact ⟨_, rfl⟩

theorem LoadBP3.grid_ok {io : SDL_IOStream} {d : LoadBP3.Dims} {outbuf : List Nat}
    (h : LoadBP3.grid io = .ok (d, outbuf)) :
    ∃ bp3 io1 mode_tab param_tab io2 io3,
      LoadBP3.header io = .ok (bp3, io1) ∧ d = LoadBP3.dims bp3.width bp3.height ∧
      LoadBP3.tables d io1 = .ok (mode_tab, param_tab, io2) ∧
      LoadBP3.tileLoop d mode_tab param_tab d.num_tiles 0 io2
        (List.replicate (u32 (d.padded_w * d.padded_h * 3)) 0) = .ok (io3, outbuf) := by
  unfold LoadBP3.grid at h
  cases hh : LoadBP3.header io with
  | error e => rw [hh] at h; exact absurd h (by simp [bind, Except.bind])
  | ok v =>
    obtain ⟨bp3, io1⟩ := v
    rw [hh] at h
    simp only [bind, Except.bind] at h
    cases ht : LoadBP3.tables (LoadBP3.dims bp3.width bp3.height) io1 with
    | error e => rw [ht] at h; exact absurd h (by simp)
    | ok v =>
      obtain ⟨mode_tab, param_tab, io2⟩ := v
      rw [ht] at h
      simp only at h
      cases hl : LoadBP3.tileLoop (LoadBP3.dims bp3.width bp3.height) mode_tab param_tab
          (LoadBP3.dims bp3.width bp3.height).num_tiles 0 io2
          (List.replicate (u32 ((LoadBP3.dims bp3.width bp3.height).padded_w *
            (LoadBP3.dims bp3.width bp3.height).padded_h * 3)) 0) with
      | error e => rw [hl] at h; exact absurd h (by simp)
      | ok v =>
        obtain ⟨io3, out⟩ := v
        rw [hl] at h
        simp only [pure, Except.pure, Except.ok.injEq, Prod.mk.injEq] at h
        obtain ⟨rfl, rfl⟩ := h
        exact ⟨bp3, io1, mode_tab, param_tab, io2, io3, rfl, rfl, ht, hl⟩

theorem LoadBP3.ok_iff_grid {io : SDL_IOStream} {bmp : Bitmap} (h : LoadBP3 io = .ok bmp) :
    ∃ d outbuf, LoadBP3.grid io = .ok (d, outbuf) ∧
      bmp = SDL_FlipSurface_VERTICAL (LoadBP3.crop d outbuf) := by
  unfold LoadBP3 at h
  cases hg : LoadBP3.grid io with
  | error e => rw [hg] at h; exact absurd h (by simp [bind, Except.bind])
  | ok v =>
    obtain ⟨d, outbuf⟩ := v
    rw [hg] at h
    simp only [bind, Except.bind, pure, Except.pure, Except.ok.injEq] at h
    exact ⟨d, outbuf, rfl, h.symm⟩

/-- The header-derived sizes where none of the `u32` sizes of `LoadBP3` wraps:
neither the padding of the width and of the height nor the byte count `3 *
padded_w * padded_h` of the grid. -/
theorem LoadBP3.dims_fit (w h : Nat) (hw : w ≤ Align8 w) (hh : h ≤ Align8 h) (h0 : 0 < h)
    (hno : 3 * Align8 w * Align8 h < 4294967296) :
    (LoadBP3.dims w h).padded_w = 8 * (LoadBP3.dims w h).tiles_per_row ∧
    (LoadBP3.dims w h).padded_h = 8 * ((LoadBP3.dims w h).padded_h / 8) ∧
    w ≤ (LoadBP3.dims w h).padded_w ∧ h ≤ (LoadBP3.dims w h).padded_h ∧
    (LoadBP3.dims w h).grid_row_bytes = 24 * (LoadBP3.dims w h).tiles_per_row ∧
    (LoadBP3.dims w h).num_tiles =
      (LoadBP3.dims w h).tiles_per_row * ((LoadBP3.dims w h).padded_h / 8) ∧
    u32 ((LoadBP3.dims w h).padded_w * (LoadBP3.dims w h).padded_h * 3) =
      (LoadBP3.dims w h).grid_row_bytes * (8 * ((LoadBP3.dims w h).padded_h / 8)) ∧
    (LoadBP3.dims w h).grid_row_bytes * (8 * ((LoadBP3.dims w h).padded_h / 8)) <
      4294967296 := by
  have aw0 := Align8_mod w
  have ah0 := Align8_mod h
  simp only [LoadBP3.dims]
  generalize Align8 w = pw at *
  generalize Align8 h = ph at *
  obtain ⟨T, rfl⟩ : ∃ T, pw = 8 * T := ⟨pw / 8, by omega⟩
  obtain ⟨R, rfl⟩ : ∃ R, ph = 8 * R := ⟨ph / 8, by omega⟩
  obtain ⟨R', rfl⟩ : ∃ R', R = R' + 1 := ⟨R - 1, by omega⟩
  have e0 : 3 * (8 * T) * (8 * (R' + 1)) = 192 * (T * R') + 192 * T := by ring
  have e1 : 8 * T * (8 * (R' + 1)) = 64 * (T * R') + 64 * T := by ring
  have e2 : 8 * T * (8 * (R' + 1)) * 3 = 192 * (T * R') + 192 * T := by ring
  have e3 : 24 * T * (8 * (R' + 1)) = 192 * (T * R') + 192 * T := by ring
  have e4 : T * (R' + 1) = T * R' + T := by ring
  have hT : 8 * T / 8 = T := by omega
  have hR : 8 * (R' + 1) / 8 = R' + 1 := by omega
  rw [hT, hR]
  have hg : u32 (3 * (8 * T)) = 24 * T := by rw [u32_of_lt (by omega)]; omega
  refine ⟨rfl, rfl, hw, hh, hg, ?_, ?_, ?_⟩
  · rw [u32_of_lt (by omega), e1, e4]; omega
  · rw [u32_of_lt (by omega), hg, e2, e3]
  · rw [hg, e3]; omega

set_option maxRecDepth 100000 in
/-- C10: for a bitmap that `LoadBP3` returns where none of the loader's `u32`
sizes wraps (the padding of the width and of the height, and the byte count `3 *
padded_w * padded_h` of the grid): its width and height are the header's fields;
its pixel `(x, y)` is the pixel `(x, height - 1 - y)` of the padded grid; and the
grid pixel `(8 * c + tx, 8 * r + ty)` is the pixel `(tx, ty)` of tile number
`r * tiles_per_row + c`, with `tiles_per_row = Align8(width) / 8`.  For the 8x8
GRAY8 tile with payload `0..63` every channel of the pixel `(x, y)` is
`(7 - y) * 8 + x`.  Where a size wraps the loader goes on all the same: the
stream `bp3WrapExample` of 74 bytes, with the header 8 x 536870920, is accepted
with a single tile and a grid of 192 bytes, of which 8 rows, while the bitmap
has 536870920 rows, which take 67108865 tiles, and the copy loop reads every
row from the eighth on behind the end of the grid. -/
theorem LoadBP3_bitmap_layout :
    (∀ (io : SDL_IOStream) (bmp : Bitmap), LoadBP3 io = .ok bmp →
      bmp.width ≤ Align8 bmp.width → bmp.height ≤ Align8 bmp.height →
      3 * Align8 bmp.width * Align8 bmp.height < 4294967296 →
      ∃ bp3 io1 mode_tab param_tab io2 tbs d outbuf,
        LoadBP3.header io = .ok (bp3, io1) ∧ d = LoadBP3.dims bp3.width bp3.height ∧
        LoadBP3.tables d io1 = .ok (mode_tab, param_tab, io2) ∧
        LoadBP3.tileBufs d mode_tab d.num_tiles 0 io2 = .ok tbs ∧
        LoadBP3.grid io = .ok (d, outbuf) ∧
        bmp.width = bp3.width ∧ bmp.height = bp3.height ∧ bmp.rows.length = bp3.height ∧
        d.tiles_per_row = Align8 bp3.width / 8 ∧
        (∀ x y k, x < bmp.width → y < bmp.height → k < 3 →
          bmp.pixel x y k = LoadBP3.gridPixel d outbuf x (bmp.height - 1 - y) k) ∧
        (∀ c r tx ty k, c < d.tiles_per_row → r < d.padded_h / 8 → tx < 8 → ty < 8 → k < 3 →
          ∃ px, LoadBP3.tilePixel mode_tab param_tab tbs (r * d.tiles_per_row + c) tx ty =
              some px ∧
            LoadBP3.gridPixel d outbuf (8 * c + tx) (8 * r + ty) k = channel px k)) ∧
    (∃ bmp0, LoadBP3 bp3Gray8Example = .ok bmp0 ∧ bmp0.width = 8 ∧ bmp0.height = 8 ∧
      ∀ x < 8, ∀ y < 8, ∀ k < 3, bmp0.pixel x y k = (7 - y) * 8 + x) ∧
    (∃ bp3 io1 io2 d outbuf bmp,
      LoadBP3.header bp3WrapExample = .ok (bp3, io1) ∧
      bp3.width = 8 ∧ bp3.height = 536870920 ∧ d = LoadBP3.dims 8 536870920 ∧
      d.padded_w = 8 ∧ d.padded_h = 536870920 ∧ d.padded_w * d.padded_h = 4294967296 + 64 ∧
      d.tiles_per_row = 1 ∧ d.num_tiles = 1 ∧ d.grid_row_bytes = 24 ∧
      d.tiles_per_row * (d.padded_h / 8) = 67108865 ∧
      LoadBP3.tables d io1 = .ok ([0], [1, 2, 3], io2) ∧
      LoadBP3.grid bp3WrapExample = .ok (d, outbuf) ∧ outbuf.length = 192 ∧
      LoadBP3 bp3WrapExample = .ok bmp ∧ bmp.width = 8 ∧ bmp.height = 536870920 ∧
      ∀ y, 8 ≤ y → outbuf.length ≤ y * d.grid_row_bytes) := by
  refine ⟨?_, ⟨bp3Gray8Expected, by rfl, rfl, rfl, by decide⟩, ?_⟩
  · intro io bmp h hwfit hhfit hno
    obtain ⟨d, outbuf, hgrid, rfl⟩ := LoadBP3.ok_iff_grid h
    obtain ⟨bp3, io1, mode_tab, param_tab, io2, io3, hhdr, hd, htab, hloop⟩ :=
      LoadBP3.grid_ok hgrid
    have hw : d.width = bp3.width := by rw [hd]; rfl
    have hh : d.height = bp3.height := by rw [hd]; rfl
    have cw : (SDL_FlipSurface_VERTICAL (LoadBP3.crop d outbuf)).width = d.width := rfl
    have ch : (SDL_FlipSurface_VERTICAL (LoadBP3.crop d outbuf)).height = d.height := rfl
    rw [cw, hw] at hwfit hno
    rw [ch, hh] at hhfit hno
    have aw0 := Align8_mod bp3.width
    have ah0 := Align8_mod bp3.height
    have hpitch : SDL_Surface.pitch (d.width * 3) * (d.height - 1) < 4294967296 := by
      rw [hw, hh]
      have h1 : SDL_Surface.pitch (bp3.width * 3) ≤ 3 * Align8 bp3.width :=
        Align4_mono_of_dvd (by omega) (by omega)
      have h2 : SDL_Surface.pitch (bp3.width * 3) * (bp3.height - 1) ≤
          3 * Align8 bp3.width * Align8 bp3.height := Nat.mul_le_mul h1 (by omega)
      omega
    obtain ⟨_, _, hcl, hcp⟩ := LoadBP3.crop_flip_spec d outbuf hpitch
    have htpr : d.tiles_per_row = Align8 bp3.width / 8 := by rw [hd]; rfl
    by_cases h0 : bp3.height = 0
    · have hph : d.padded_h = 0 := by
        rw [hd]
        show Align8 bp3.height = 0
        rw [h0]
        rfl
      have hnt : d.num_tiles = 0 := by
        rw [hd]
        show u32 (Align8 bp3.width * Align8 bp3.height) / 64 = 0
        rw [h0]
        show u32 (Align8 bp3.width * 0) / 64 = 0
        rw [Nat.mul_zero]
        rfl
      refine ⟨bp3, io1, mode_tab, param_tab, io2, [], d, outbuf, hhdr, hd, htab,
        by rw [hnt]; rfl, hgrid, by rw [cw, hw], by rw [ch, hh], by rw [hcl, hh], htpr, ?_, ?_⟩
      · intro x y k hx hy hk
        rw [cw] at hx
        rw [ch] at hy ⊢
        exact hcp x y k hx hy hk
      · intro c r tx ty k _ hr
        rw [hph] at hr
        exact absurd hr (by omega)
    · obtain ⟨dT, dR, dwle, dhle, dg, dn, dlen, dsz⟩ :=
        LoadBP3.dims_fit bp3.width bp3.height hwfit hhfit (by omega) hno
      rw [← hd] at dT dR dwle dhle dg dn dlen dsz
      have hrl : (List.replicate (u32 (d.padded_w * d.padded_h * 3)) 0).length =
          d.grid_row_bytes * (8 * (d.padded_h / 8)) := by
        rw [List.length_replicate, dlen]
      obtain ⟨tbs, htbs, _, _, hmodes, hval, _⟩ :=
        LoadBP3.tileLoop_spec d mode_tab param_tab dg
          (d.padded_h / 8) d.num_tiles 0 io2 _ io3 outbuf (by rw [Nat.zero_add, dn]) hrl
          (by rw [hrl]; exact dsz) hloop
      refine ⟨bp3, io1, mode_tab, param_tab, io2, tbs, d, outbuf, hhdr, hd, htab, htbs, hgrid,
        by rw [cw, hw], by rw [ch, hh], by rw [hcl, hh], htpr, ?_, ?_⟩
      · intro x y k hx hy hk
        rw [cw] at hx
        rw [ch] at hy ⊢
        exact hcp x y k hx hy hk
      · intro c r tx ty k hc hr htx hty hk
        have hj : r * d.tiles_per_row + c < d.num_tiles := by
          rw [dn]
          have : (r + 1) * d.tiles_per_row ≤ (d.padded_h / 8) * d.tiles_per_row :=
            Nat.mul_le_mul_right _ hr
          rw [Nat.succ_mul] at this
          rw [Nat.mul_comm d.tiles_per_row]
          omega
        obtain ⟨bpp, hbpp⟩ := hmodes _ hj
        rw [Nat.zero_add] at hbpp
        obtain ⟨px, hpx⟩ := LoadBP3.decodePixel_isSome hbpp
          (param_tab.getD (3 * (r * d.tiles_per_row + c) + 0) 0)
          (param_tab.getD (3 * (r * d.tiles_per_row + c) + 1) 0)
          (param_tab.getD (3 * (r * d.tiles_per_row + c) + 2) 0)
          (tbs.getD (r * d.tiles_per_row + c) [])
          (0 + ty * (LoadBP3.bpp (mode_tab.getD (r * d.tiles_per_row + c) 0)).getD 0 +
            LoadBP3.srcCol (mode_tab.getD (r * d.tiles_per_row + c) 0)
              ((LoadBP3.bpp (mode_tab.getD (r * d.tiles_per_row + c) 0)).getD 0 / 8) tx) tx
        refine ⟨px, hpx, ?_⟩
        have key := hval (r * d.tiles_per_row + c) tx ty k px hj htx hty hk
          (by rw [Nat.zero_add]; exact hpx)
        rw [Nat.zero_add] at key
        rw [← key]
        unfold LoadBP3.gridPixel LoadBP3.tileBase
        have hmod : (r * d.tiles_per_row + c) % d.tiles_per_row = c := by
          rw [Nat.mul_comm, Nat.mul_add_mod, Nat.mod_eq_of_lt hc]
        have hdiv : (r * d.tiles_per_row + c) / d.tiles_per_row = r := by
          rw [Nat.mul_comm, Nat.mul_add_div (by omega), Nat.div_eq_of_lt hc, Nat.add_zero]
        rw [hmod, hdiv]
        congr 1
        ring
  · obtain ⟨outbuf, hg, hlen⟩ : ∃ outbuf, LoadBP3.grid bp3WrapExample =
        .ok (LoadBP3.dims 8 536870920, outbuf) ∧ outbuf.length = 192 :=
      ⟨(List.replicate 64 [1, 2, 3]).flatten, by rfl, by rfl⟩
    refine ⟨_, _, _, LoadBP3.dims 8 536870920, outbuf,
      SDL_FlipSurface_VERTICAL (LoadBP3.crop (LoadBP3.dims 8 536870920) outbuf),
      by rfl, by rfl, by rfl, rfl, by rfl, by rfl, by rfl, by rfl, by rfl, by rfl, by rfl, by rfl,
      hg, hlen, ?_, rfl, rfl, ?_⟩
    · unfold LoadBP3
      rw [hg]
      rfl
    · intro y hy
      rw [hlen]
      show 192 ≤ y * 24
      omega

set_option maxRecDepth 100000 in
/-- C10, at the 8x8 GRAY8 image of scenario 5. -/
theorem LoadBP3_bitmap_layout_witness :
    ∃ bp3 io1, LoadBP3.header bp3Gray8Example = .ok (bp3, io1) ∧
      bp3Gray8Expected.width = bp3.width ∧ bp3Gray8Expected.height = bp3.height := by
  obtain ⟨bp3, io1, _, _, _, _, _, _, hh, _, _, _, _, hw, hht, _⟩ :=
    LoadBP3_bitmap_layout.1 bp3Gray8Example bp3Gray8Expected (by rfl) (by decide) (by decide)
      (by decide)
  exact ⟨bp3, io1, hh, hw, hht⟩

/-! ## BP2 : run-length decoding of a slice -/

theorem u16le_value {c0 c1 : Nat} (h0 : c0 < 256) : c0 ||| (c1 <<< 8) = c0 + 256 * c1 := by
  rw [Nat.or_comm, Nat.shiftLeft_eq, Nat.mul_comm c1, ← Nat.mul_add_lt_is_or (i := 8) h0 c1]
  omega

theorem and_32768 (c : Nat) : c &&& 32768 = if c.testBit 15 then 32768 else 0 := by
  have key : c &&& 2 ^ 15 = if c.testBit 15 then 2 ^ 15 else 0 := by
    apply Nat.eq_of_testBit_eq
    intro i
    rw [Nat.testBit_and, Nat.testBit_two_pow]
    by_cases h : c.testBit 15 = true
    · rw [if_pos h, Nat.testBit_two_pow]
      by_cases hi : 15 = i
      · subst hi; simp [h]
      · simp [hi]
    · rw [if_neg h, Nat.zero_testBit]
      by_cases hi : 15 = i
      · subst hi; simp [h]
      · simp [hi]
  exact key

theorem bit15_iff {c : Nat} (hc : c < 65536) : c &&& 0x8000 ≠ 0 ↔ 32768 ≤ c := by
  rw [and_32768, Nat.testBit_to_div_mod]
  constructor
  · intro h
    by_contra hlt
    apply h
    rw [if_neg]
    simp only [decide_eq_true_eq]
    omega
  · intro h
    rw [if_pos]
    · omega
    · simp only [decide_eq_true_eq]
      omega

theorem and_32767 (c : Nat) : c &&& 0x7FFF = c % 32768 := Nat.and_pow_two_sub_one_eq_mod c 15

theorem BP2_DecodeRLE.nextRun.go_bound (SRC_BPP : Nat) :
    ∀ (fuel fuel' : Nat) (st : BP2_DecodeRLE.Run), st.p.length < fuel → st.p.length < fuel' →
      BP2_DecodeRLE.nextRun.go SRC_BPP fuel st = BP2_DecodeRLE.nextRun.go SRC_BPP fuel' st := by
  intro fuel
  induction fuel with
  | zero => intro fuel' st h; omega
  | succ fuel ih =>
    intro fuel' st h h'
    cases fuel' with
    | zero => omega
    | succ fuel' =>
      simp only [BP2_DecodeRLE.nextRun.go]
      split_ifs with h1 h2 h3 h4
      · rfl
      · rfl
      · rfl
      · exact ih fuel' _ (by simp only [List.length_drop]; omega)
          (by simp only [List.length_drop]; omega)
      · exact ih fuel' _ (by simp only [List.length_drop]; omega)
          (by simp only [List.length_drop]; omega)

/-- One iteration of `while (rlen == 0)`, with the loop itself for what
follows: the bound on the iterations plays no part. -/
theorem BP2_DecodeRLE.nextRun_unfold (SRC_BPP : Nat) (st : BP2_DecodeRLE.Run) :
    BP2_DecodeRLE.nextRun SRC_BPP st =
      if st.rlen ≠ 0 then .ok st
      else if st.p.length < 2 then .error (.msg "Malformed slice")
      else
        if (st.p.getD 0 0 ||| (st.p.getD 1 0 <<< 8)) &&& 0x8000 ≠ 0 then
          if (st.p.drop 2).length < SRC_BPP then .error (.msg "Malformed slice")
          else
            BP2_DecodeRLE.nextRun SRC_BPP
              { rrle := true, rlen := (st.p.getD 0 0 ||| (st.p.getD 1 0 <<< 8)) &&& 0x7FFF,
                rval := (st.p.drop 2).take SRC_BPP, p := (st.p.drop 2).drop SRC_BPP }
        else
          BP2_DecodeRLE.nextRun SRC_BPP
            { rrle := false, rlen := st.p.getD 0 0 ||| (st.p.getD 1 0 <<< 8), rval := st.rval,
              p := st.p.drop 2 } := by
  conv_lhs => rw [BP2_DecodeRLE.nextRun, BP2_DecodeRLE.nextRun.go]
  dsimp only
  split_ifs with h1 h2 h3 h4
  · rfl
  · rfl
  · rfl
  · unfold BP2_DecodeRLE.nextRun
    exact BP2_DecodeRLE.nextRun.go_bound SRC_BPP _ _ _ (by simp only [List.length_drop]; omega)
      (by simp only [List.length_drop]; omega)
  · unfold BP2_DecodeRLE.nextRun
    exact BP2_DecodeRLE.nextRun.go_bound SRC_BPP _ _ _ (by simp only [List.length_drop]; omega)
      (by simp only [List.length_drop]; omega)

theorem BP2RunExpansion.go_enough (bpp : Nat) :
    ∀ (fuel fuel' : Nat) (p : List Nat), p.length ≤ fuel → p.length ≤ fuel' →
      BP2RunExpansion.go bpp fuel p = BP2RunExpansion.go bpp fuel' p := by
  intro fuel
  induction fuel with
  | zero =>
    intro fuel' p h _
    have : p = [] := List.length_eq_zero.mp (by omega)
    subst this
    cases fuel' <;> rfl
  | succ fuel ih =>
    intro fuel' p h h'
    match p, h, h' with
    | [], _, _ => cases fuel' <;> rfl
    | [_], _, _ => cases fuel' <;> rfl
    | c0 :: c1 :: rest, h, h' =>
      cases fuel' with
      | zero => simp at h'
      | succ fuel' =>
        simp only [List.length_cons] at h h'
        simp only [BP2RunExpansion.go]
        split_ifs with h1 h2 h3
        · rfl
        · rw [ih fuel' _ (by simp only [List.length_drop]; omega)
            (by simp only [List.length_drop]; omega)]
        · rfl
        · rw [ih fuel' _ (by simp only [List.length_drop]; omega)
            (by simp only [List.length_drop]; omega)]

theorem BP2RunExpansion.short (bpp : Nat) {p : List Nat} (h : p.length < 2) :
    BP2RunExpansion bpp p = [] := by
  unfold BP2RunExpansion
  match p, h with
  | [], _ => rfl
  | [_], _ => rfl

theorem BP2RunExpansion.cons_cons (bpp c0 c1 : Nat) (rest : List Nat) :
    BP2RunExpansion bpp (c0 :: c1 :: rest) =
      if 32768 ≤ c0 + 256 * c1 then
        if rest.length < bpp then []
        else
          List.replicate ((c0 + 256 * c1) % 32768) (rest.take bpp) ++
            BP2RunExpansion bpp (rest.drop bpp)
      else
        if rest.length < (c0 + 256 * c1) * bpp then
          BP2RunExpansion.literals bpp (c0 + 256 * c1) rest
        else
          BP2RunExpansion.literals bpp (c0 + 256 * c1) rest ++
            BP2RunExpansion bpp (rest.drop ((c0 + 256 * c1) * bpp)) := by
  unfold BP2RunExpansion
  simp only [List.length_cons, BP2RunExpansion.go]
  split_ifs with h1 h2 h3
  · rfl
  · rw [BP2RunExpansion.go_enough bpp _ (rest.drop bpp).length _
      (by simp only [List.length_drop]; omega) (Nat.le_refl _)]
  · rfl
  · rw [BP2RunExpansion.go_enough bpp _ (rest.drop ((c0 + 256 * c1) * bpp)).length _
      (by simp only [List.length_drop]; omega) (Nat.le_refl _)]

theorem BP2_DecodeRLE.pending_of_rlen_zero (bpp : Nat) {st : BP2_DecodeRLE.Run}
    (h : st.rlen = 0) : BP2_DecodeRLE.pending bpp st = BP2RunExpansion bpp st.p := by
  unfold BP2_DecodeRLE.pending
  rw [h]
  split_ifs with h1 h2
  · rfl
  · simp at h2
  · simp [BP2RunExpansion.literals]

/-- The loop `while (rlen == 0)` opens the next run that is not empty, and what
the state stands for stays the same. -/
theorem BP2_DecodeRLE.nextRun_pending (bpp : Nat) :
    ∀ (n : Nat) (st : BP2_DecodeRLE.Run), st.p.length ≤ n → (∀ b ∈ st.p, b < 256) →
      BP2_DecodeRLE.pending bpp st ≠ [] →
      ∃ st', BP2_DecodeRLE.nextRun bpp st = .ok st' ∧ 0 < st'.rlen ∧
        BP2_DecodeRLE.pending bpp st' = BP2_DecodeRLE.pending bpp st ∧
        (∀ b ∈ st'.p, b < 256) := by
  intro n
  induction n using Nat.strong_induction_on with
  | _ n ih =>
    intro st hn hb hne
    rw [BP2_DecodeRLE.nextRun_unfold]
    by_cases hr : st.rlen ≠ 0
    · rw [if_pos hr]
      exact ⟨st, rfl, by omega, rfl, hb⟩
    · rw [if_neg hr]
      have hr0 : st.rlen = 0 := by omega
      have hpe := BP2_DecodeRLE.pending_of_rlen_zero bpp hr0
      rw [hpe] at hne ⊢
      have h2 : ¬ st.p.length < 2 := fun h => hne (BP2RunExpansion.short bpp h)
      rw [if_neg h2]
      obtain ⟨c0, c1, rest, hp⟩ : ∃ c0 c1 rest, st.p = c0 :: c1 :: rest := by
        match hq : st.p with
        | [] => rw [hq] at h2; simp at h2
        | [_] => rw [hq] at h2; simp at h2
        | c0 :: c1 :: rest => exact ⟨c0, c1, rest, rfl⟩
      have hc0 : c0 < 256 := hb c0 (by rw [hp]; simp)
      have hc1 : c1 < 256 := hb c1 (by rw [hp]; simp)
      have hrest : ∀ b ∈ rest, b < 256 := fun b hbm => hb b (by rw [hp]; simp [hbm])
      have hctrl : st.p.getD 0 0 ||| (st.p.getD 1 0 <<< 8) = c0 + 256 * c1 := by
        rw [hp]; exact u16le_value hc0
      have hdrop : st.p.drop 2 = rest := by rw [hp]; rfl
      rw [hctrl, hdrop, and_32767]
      rw [hp, BP2RunExpansion.cons_cons] at hne ⊢
      have hlen : rest.length + 2 ≤ n := by rw [hp] at hn; simpa using hn
      by_cases h15 : 32768 ≤ c0 + 256 * c1
      · rw [if_pos ((bit15_iff (by omega)).mpr h15)]
        rw [if_pos h15] at hne ⊢
        by_cases hshort : rest.length < bpp
        · rw [if_pos hshort] at hne; exact absurd rfl hne
        · rw [if_neg hshort] at hne ⊢
          have hpend : BP2_DecodeRLE.pending bpp
              { rrle := true, rlen := (c0 + 256 * c1) % 32768, rval := rest.take bpp,
                p := rest.drop bpp } =
              List.replicate ((c0 + 256 * c1) % 32768) (rest.take bpp) ++
                BP2RunExpansion bpp (rest.drop bpp) := by
            simp [BP2_DecodeRLE.pending]
          obtain ⟨st', h1, h2', h3, h4⟩ := ih (rest.drop bpp).length
            (by simp only [List.length_drop]; omega)
            { rrle := true, rlen := (c0 + 256 * c1) % 32768, rval := rest.take bpp,
              p := rest.drop bpp } (Nat.le_refl _)
            (fun b hbm => hrest b (List.mem_of_mem_drop hbm)) (by rw [hpend]; exact hne)
          exact ⟨st', h1, h2', by rw [h3, hpend, if_neg hshort], h4⟩
      · rw [if_neg (fun h => h15 ((bit15_iff (by omega)).mp h))]
        rw [if_neg h15] at hne ⊢
        have hpend : BP2_DecodeRLE.pending bpp
            { rrle := false, rlen := c0 + 256 * c1, rval := st.rval, p := rest } =
            if rest.length < (c0 + 256 * c1) * bpp then
              BP2RunExpansion.literals bpp (c0 + 256 * c1) rest
            else
              BP2RunExpansion.literals bpp (c0 + 256 * c1) rest ++
                BP2RunExpansion bpp (rest.drop ((c0 + 256 * c1) * bpp)) := by
          simp [BP2_DecodeRLE.pending]
        obtain ⟨st', h1, h2', h3, h4⟩ := ih rest.length (by omega)
          { rrle := false, rlen := c0 + 256 * c1, rval := st.rval, p := rest } (Nat.le_refl _)
          hrest (by rw [hpend]; exact hne)
        exact ⟨st', h1, h2', by rw [h3, hpend], h4⟩

/-- One pixel step takes the first pending pixel and stores its planes. -/
theorem BP2_DecodeRLE.pixel_pending (SRC_BPP DST_BPP : Nat)
    (st : BP2_DecodeRLE.Run) (slice : List Nat) (col : Nat) (px : List Nat)
    (tl : List (List Nat)) (hb : ∀ b ∈ st.p, b < 256)
    (hpend : BP2_DecodeRLE.pending SRC_BPP st = px :: tl) :
    ∃ st', BP2_DecodeRLE.pixel SRC_BPP DST_BPP st slice col =
        .ok (st', memWrite slice col (BP2_DecodeRLE.planes SRC_BPP DST_BPP px)) ∧
      BP2_DecodeRLE.pending SRC_BPP st' = tl ∧ (∀ b ∈ st'.p, b < 256) := by
  obtain ⟨st1, h1, hpos, hp1, hb1⟩ := BP2_DecodeRLE.nextRun_pending SRC_BPP st.p.length st
    (Nat.le_refl _) hb (by rw [hpend]; simp)
  rw [hpend] at hp1
  unfold BP2_DecodeRLE.pixel
  rw [h1]
  simp only
  obtain ⟨n, hn⟩ : ∃ n, st1.rlen = n + 1 := ⟨st1.rlen - 1, by omega⟩
  by_cases hrr : st1.rrle = true
  · rw [if_pos hrr]
    unfold BP2_DecodeRLE.pending at hp1
    rw [if_pos hrr, hn, List.replicate_succ, List.cons_append] at hp1
    simp only [List.cons.injEq] at hp1
    obtain ⟨rfl, htl⟩ := hp1
    refine ⟨_, rfl, ?_, hb1⟩
    unfold BP2_DecodeRLE.pending
    simp only [hrr, ↓reduceIte, hn, Nat.add_sub_cancel]
    exact htl
  · rw [if_neg hrr]
    unfold BP2_DecodeRLE.pending at hp1
    rw [if_neg hrr, hn] at hp1
    have hmul : (n + 1) * SRC_BPP = n * SRC_BPP + SRC_BPP := Nat.succ_mul _ _
    have hge : ¬ st1.p.length < SRC_BPP := by
      intro hlt
      rw [if_pos (by omega)] at hp1
      simp only [BP2RunExpansion.literals, hlt, ↓reduceIte] at hp1
      exact absurd hp1 (by simp)
    rw [if_neg hge]
    simp only [BP2RunExpansion.literals, hge, ↓reduceIte] at hp1
    have hpt : px = st1.p.take SRC_BPP ∧
        tl = (if st1.p.length < (n + 1) * SRC_BPP then
            BP2RunExpansion.literals SRC_BPP n (st1.p.drop SRC_BPP)
          else
            BP2RunExpansion.literals SRC_BPP n (st1.p.drop SRC_BPP) ++
              BP2RunExpansion SRC_BPP (st1.p.drop ((n + 1) * SRC_BPP))) := by
      split_ifs at hp1 ⊢ with hc
      · simp only [List.cons.injEq] at hp1
        exact ⟨hp1.1.symm, hp1.2.symm⟩
      · simp only [List.cons_append, List.cons.injEq] at hp1
        exact ⟨hp1.1.symm, hp1.2.symm⟩
    obtain ⟨rfl, rfl⟩ := hpt
    refine ⟨_, rfl, ?_, fun b hbm => hb1 b (List.mem_of_mem_drop hbm)⟩
    unfold BP2_DecodeRLE.pending
    simp only [hrr, Bool.false_eq_true, ↓reduceIte, hn, Nat.add_sub_cancel, List.length_drop,
      List.drop_drop]
    have hcond : (st1.p.length - SRC_BPP < n * SRC_BPP) ↔
        (st1.p.length < (n + 1) * SRC_BPP) := by omega
    have hdd : SRC_BPP + n * SRC_BPP = (n + 1) * SRC_BPP := by omega
    simp only [hcond, hdd]

theorem BP2_DecodeRLE.planes_length (SRC_BPP DST_BPP : Nat) (v : List Nat) :
    (BP2_DecodeRLE.planes SRC_BPP DST_BPP v).length = DST_BPP := by
  simp [BP2_DecodeRLE.planes]

theorem BP2_DecodeRLE.planes_getD (SRC_BPP DST_BPP : Nat) (v : List Nat) {plane : Nat}
    (h : plane < DST_BPP) :
    (BP2_DecodeRLE.planes SRC_BPP DST_BPP v).getD plane 0 = v.getD (plane % SRC_BPP) 0 := by
  unfold BP2_DecodeRLE.planes
  rw [List.getD_eq_getElem?_getD, List.getElem?_map, List.getElem?_range h]
  rfl

/-- The loop over `y`: `n` pending pixels go to `col`, `col + dst_pitch`, ... -/
theorem BP2_DecodeRLE.column_spec (SRC_BPP DST_BPP dst_pitch : Nat)
    (hDP : DST_BPP ≤ dst_pitch) :
    ∀ (n col : Nat) (st : BP2_DecodeRLE.Run) (slice : List Nat) (pxs tl : List (List Nat)),
      (∀ b ∈ st.p, b < 256) → BP2_DecodeRLE.pending SRC_BPP st = pxs ++ tl → pxs.length = n →
      (∀ r, r < n → col + r * dst_pitch + DST_BPP ≤ slice.length) →
      ∃ st' slice', BP2_DecodeRLE.column SRC_BPP DST_BPP dst_pitch n col st slice =
          .ok (st', slice') ∧
        (∀ b ∈ st'.p, b < 256) ∧ BP2_DecodeRLE.pending SRC_BPP st' = tl ∧
        slice'.length = slice.length ∧
        (∀ idx, (∀ r, r < n → idx < col + r * dst_pitch ∨ col + r * dst_pitch + DST_BPP ≤ idx) →
          slice'.getD idx 0 = slice.getD idx 0) ∧
        (∀ r plane, r < n → plane < DST_BPP →
          slice'.getD (col + r * dst_pitch + plane) 0 =
            (pxs.getD r []).getD (plane % SRC_BPP) 0) := by
  intro n
  induction n with
  | zero =>
    intro col st slice pxs tl hb hpend hlen _
    have : pxs = [] := List.length_eq_zero.mp hlen
    subst this
    exact ⟨st, slice, rfl, hb, by simpa using hpend, rfl, fun _ _ => rfl,
      fun r plane hr => absurd hr (by omega)⟩
  | succ n ih =>
    intro col st slice pxs tl hb hpend hlen hfit
    obtain ⟨px, pxs', rfl⟩ : ∃ px pxs', pxs = px :: pxs' := by
      cases pxs with
      | nil => simp at hlen
      | cons px pxs' => exact ⟨px, pxs', rfl⟩
    simp only [List.length_cons, Nat.add_right_cancel_iff] at hlen
    obtain ⟨st1, hpix, hpend1, hb1⟩ := BP2_DecodeRLE.pixel_pending SRC_BPP DST_BPP st slice col
      px (pxs' ++ tl) hb (by simpa using hpend)
    have hfit0 := hfit 0 (by omega)
    simp only [Nat.zero_mul, Nat.add_zero] at hfit0
    have hw : col + (BP2_DecodeRLE.planes SRC_BPP DST_BPP px).length ≤ slice.length := by
      rw [BP2_DecodeRLE.planes_length]; exact hfit0
    have hl1 := memWrite_length hw
    have esucc : ∀ r, (r + 1) * dst_pitch = r * dst_pitch + dst_pitch := fun r =>
      Nat.succ_mul r dst_pitch
    obtain ⟨st', slice', hcol, hb', hpend', hlen', hframe, hval⟩ := ih (col + dst_pitch) st1
      (memWrite slice col (BP2_DecodeRLE.planes SRC_BPP DST_BPP px)) pxs' tl hb1 hpend1 hlen
      (by
        intro r hr
        have := hfit (r + 1) (by omega)
        rw [esucc] at this
        rw [hl1]
        omega)
    refine ⟨st', slice', ?_, hb', hpend', by rw [hlen', hl1], ?_, ?_⟩
    · rw [BP2_DecodeRLE.column, hpix]
      exact hcol
    · intro idx hidx
      rw [hframe idx, memWrite_getD hw, BP2_DecodeRLE.planes_length, if_neg]
      · have := hidx 0 (by omega)
        simp only [Nat.zero_mul, Nat.add_zero] at this
        omega
      · intro r hr
        have := hidx (r + 1) (by omega)
        rw [esucc] at this
        omega
    · intro r plane hr hplane
      cases r with
      | zero =>
        simp only [Nat.zero_mul, Nat.add_zero, List.getD_cons_zero]
        rw [hframe, memWrite_getD hw, BP2_DecodeRLE.planes_length,
          if_pos ⟨by omega, by omega⟩, Nat.add_sub_cancel_left,
          BP2_DecodeRLE.planes_getD _ _ _ hplane]
        intro r hr
        left
        omega
      | succ r =>
        simp only [List.getD_cons_succ]
        have := hval r plane (by omega) hplane
        rw [esucc]
        rw [show col + (r * dst_pitch + dst_pitch) + plane =
          col + dst_pitch + r * dst_pitch + plane by omega]
        exact this

theorem getD_take_of_lt {α : Type} {l : List α} {n j : Nat} (d : α) (h : j < n) :
    (l.take n).getD j d = l.getD j d := by
  rw [List.getD_eq_getElem?_getD, List.getD_eq_getElem?_getD, List.getElem?_take_of_lt h]

theorem getD_drop_add {α : Type} (l : List α) (n j : Nat) (d : α) :
    (l.drop n).getD j d = l.getD (n + j) d := by
  rw [List.getD_eq_getElem?_getD, List.getD_eq_getElem?_getD, List.getElem?_drop]

/-- A byte of column `x` lies outside the pixel `(x', r')` of a later column. -/
theorem BP2_DecodeRLE.columns_disjoint {DST_BPP dst_pitch W x x' r r' plane : Nat}
    (hWP : W * DST_BPP ≤ dst_pitch) (hx : x < x') (hx' : x' < W) (hplane : plane < DST_BPP) :
    x * DST_BPP + r * dst_pitch + plane < x' * DST_BPP + r' * dst_pitch ∨
      x' * DST_BPP + r' * dst_pitch + DST_BPP ≤ x * DST_BPP + r * dst_pitch + plane := by
  have h1 : (x + 1) * DST_BPP ≤ x' * DST_BPP := Nat.mul_le_mul_right _ hx
  have h2 : (x' + 1) * DST_BPP ≤ W * DST_BPP := Nat.mul_le_mul_right _ hx'
  rw [Nat.succ_mul] at h1 h2
  rcases Nat.lt_trichotomy r r' with h | h | h
  · left
    have : (r + 1) * dst_pitch ≤ r' * dst_pitch := Nat.mul_le_mul_right _ h
    rw [Nat.succ_mul] at this
    omega
  · subst h
    left
    omega
  · right
    have : (r' + 1) * dst_pitch ≤ r * dst_pitch := Nat.mul_le_mul_right _ h
    rw [Nat.succ_mul] at this
    omega

/-- The loop over `x`: the pending pixels fill the columns `x, x + 1, ...`, eight
to a column, top to bottom. -/
theorem BP2_DecodeRLE.columns_spec (SRC_BPP DST_BPP dst_pitch W : Nat)
    (hWP : W * DST_BPP ≤ dst_pitch) :
    ∀ (n x : Nat) (st : BP2_DecodeRLE.Run) (slice : List Nat) (pxs tl : List (List Nat)),
      x + n ≤ W → (∀ b ∈ st.p, b < 256) → BP2_DecodeRLE.pending SRC_BPP st = pxs ++ tl →
      pxs.length = 8 * n → slice.length = dst_pitch * 8 →
      ∃ st' slice', BP2_DecodeRLE.columns SRC_BPP DST_BPP dst_pitch n x st slice =
          .ok (st', slice') ∧
        BP2_DecodeRLE.pending SRC_BPP st' = tl ∧ slice'.length = slice.length ∧
        (∀ idx, (∀ c r, c < n → r < 8 → idx < (x + c) * DST_BPP + r * dst_pitch ∨
            (x + c) * DST_BPP + r * dst_pitch + DST_BPP ≤ idx) →
          slice'.getD idx 0 = slice.getD idx 0) ∧
        (∀ c r plane, c < n → r < 8 → plane < DST_BPP →
          slice'.getD ((x + c) * DST_BPP + r * dst_pitch + plane) 0 =
            (pxs.getD (8 * c + r) []).getD (plane % SRC_BPP) 0) := by
  intro n
  induction n with
  | zero =>
    intro x st slice pxs tl _ hb hpend hlen _
    have : pxs = [] := List.length_eq_zero.mp (by omega)
    subst this
    exact ⟨st, slice, rfl, by simpa using hpend, rfl, fun _ _ => rfl,
      fun c r plane hc => absurd hc (by omega)⟩
  | succ n ih =>
    intro x st slice pxs tl hxn hb hpend hlen hsl
    have hx1 : (x + 1) * DST_BPP ≤ W * DST_BPP := Nat.mul_le_mul_right _ (by omega)
    rw [Nat.succ_mul] at hx1
    have hDP : DST_BPP ≤ dst_pitch := by omega
    have hsplit : pxs = pxs.take 8 ++ pxs.drop 8 := (List.take_append_drop 8 pxs).symm
    have hfit : ∀ r, r < 8 → x * DST_BPP + r * dst_pitch + DST_BPP ≤ slice.length := by
      intro r hr
      have : (r + 1) * dst_pitch ≤ 8 * dst_pitch := Nat.mul_le_mul_right _ (by omega)
      rw [Nat.succ_mul] at this
      rw [hsl]
      omega
    obtain ⟨st1, slice1, hcol, hb1, hpend1, hlen1, hframe1, hval1⟩ :=
      BP2_DecodeRLE.column_spec SRC_BPP DST_BPP dst_pitch hDP 8 (x * DST_BPP) st slice
        (pxs.take 8) (pxs.drop 8 ++ tl) hb
        (by rw [← List.append_assoc, ← hsplit]; exact hpend)
        (by rw [List.length_take]; omega) hfit
    obtain ⟨st', slice', hcols, hpend', hlen', hframe, hval⟩ := ih (x + 1) st1 slice1
      (pxs.drop 8) tl (by omega) hb1 hpend1 (by rw [List.length_drop]; omega)
      (by rw [hlen1]; exact hsl)
    refine ⟨st', slice', ?_, hpend', by rw [hlen', hlen1], ?_, ?_⟩
    · rw [BP2_DecodeRLE.columns, hcol]
      exact hcols
    · intro idx hidx
      rw [hframe idx, hframe1 idx]
      · intro r hr
        have := hidx 0 r (by omega) hr
        simpa only [Nat.add_zero] using this
      · intro c r hc hr
        have := hidx (c + 1) r (by omega) hr
        rw [show x + (c + 1) = x + 1 + c by omega] at this
        exact this
    · intro c r plane hc hr hplane
      cases c with
      | zero =>
        simp only [Nat.add_zero, Nat.mul_zero, Nat.zero_add]
        rw [hframe, hval1 r plane hr hplane, getD_take_of_lt _ hr]
        · intro c' r' hc' hr'
          exact BP2_DecodeRLE.columns_disjoint hWP (by omega) (by omega) hplane
      | succ c =>
        have := hval c r plane (by omega) hr hplane
        rw [show x + (c + 1) = x + 1 + c by omega, this, getD_drop_add,
          show 8 + (8 * c + r) = 8 * (c + 1) + r by omega]

theorem Align4_ge (x : Nat) : x ≤ Align4 x := by
  unfold Align4
  omega

/-- C9: a slice of width `biWidth` whose chunk (bytes below 256) expands to at
least `8 * biWidth` pixels is decoded without error, and the pixel stored at
column `x`, row `y` of the slice scratch (offset `x * DST_BPP + y * dst_pitch`)
is the pixel number `8 * x + y` of the run expansion of the chunk, its source
bytes repeated over the `DST_BPP` planes (`plane % SRC_BPP`); with
`SRC_BPP = 1` every plane is the single source byte.  The example is a GRAY8
slice of width 2. -/
theorem BP2_DecodeRLE_slice_spec (SRC_BPP DST_BPP biWidth : Nat) (chunk slice : List Nat)
    (hbytes : ∀ b ∈ chunk, b < 256)
    (hslice : slice.length = Align4 (biWidth * DST_BPP) * 8)
    (henough : 8 * biWidth ≤ (BP2RunExpansion SRC_BPP chunk).length) :
    (∃ slice1, BP2_DecodeRLE.slice SRC_BPP DST_BPP biWidth chunk slice = .ok slice1 ∧
      slice1.length = slice.length ∧
      (∀ x y plane, x < biWidth → y < 8 → plane < DST_BPP →
        slice1.getD (x * DST_BPP + y * Align4 (biWidth * DST_BPP) + plane) 0 =
          ((BP2RunExpansion SRC_BPP chunk).getD (8 * x + y) []).getD (plane % SRC_BPP) 0) ∧
      (SRC_BPP = 1 → ∀ x y plane, x < biWidth → y < 8 → plane < DST_BPP →
        slice1.getD (x * DST_BPP + y * Align4 (biWidth * DST_BPP) + plane) 0 =
          ((BP2RunExpansion SRC_BPP chunk).getD (8 * x + y) []).getD 0 0)) ∧
    BP2_DecodeRLE.slice 1 3 2 [0x05, 0x80, 7, 0x03, 0x00, 1, 2, 3, 0x08, 0x80, 9]
        (List.replicate 64 0) = Except.ok
      [7, 7, 7, 9, 9, 9, 0, 0, 7, 7, 7, 9, 9, 9, 0, 0, 7, 7, 7, 9, 9, 9, 0, 0,
       7, 7, 7, 9, 9, 9, 0, 0, 7, 7, 7, 9, 9, 9, 0, 0, 1, 1, 1, 9, 9, 9, 0, 0,
       2, 2, 2, 9, 9, 9, 0, 0, 3, 3, 3, 9, 9, 9, 0, 0] := by
  refine ⟨?_, by rfl⟩
  have hpend0 : BP2_DecodeRLE.pending SRC_BPP
      { rrle := false, rlen := 0, rval := List.replicate SRC_BPP 0, p := chunk } =
      (BP2RunExpansion SRC_BPP chunk).take (8 * biWidth) ++
        (BP2RunExpansion SRC_BPP chunk).drop (8 * biWidth) := by
    rw [List.take_append_drop]
    exact BP2_DecodeRLE.pending_of_rlen_zero SRC_BPP rfl
  obtain ⟨st', slice1, hcols, _, hlen, _, hval⟩ :=
    BP2_DecodeRLE.columns_spec SRC_BPP DST_BPP (Align4 (biWidth * DST_BPP)) biWidth
      (Align4_ge _) biWidth 0
      { rrle := false, rlen := 0, rval := List.replicate SRC_BPP 0, p := chunk } slice
      ((BP2RunExpansion SRC_BPP chunk).take (8 * biWidth))
      ((BP2RunExpansion SRC_BPP chunk).drop (8 * biWidth)) (by omega) hbytes hpend0
      (by rw [List.length_take]; omega) hslice
  have hpix : ∀ x y plane, x < biWidth → y < 8 → plane < DST_BPP →
      slice1.getD (x * DST_BPP + y * Align4 (biWidth * DST_BPP) + plane) 0 =
        ((BP2RunExpansion SRC_BPP chunk).getD (8 * x + y) []).getD (plane % SRC_BPP) 0 := by
    intro x y plane hx hy hplane
    have := hval x y plane hx hy hplane
    rw [Nat.zero_add, getD_take_of_lt _ (by omega)] at this
    exact this
  refine ⟨slice1, ?_, hlen, hpix, ?_⟩
  · unfold BP2_DecodeRLE.slice
    simp only
    rw [hcols]
  · intro h1 x y plane hx hy hplane
    rw [hpix x y plane hx hy hplane, h1, Nat.mod_one]

/-- C9, at the GRAY8 slice of width 2 of the example. -/
theorem BP2_DecodeRLE_slice_spec_witness :
    ∃ slice1, BP2_DecodeRLE.slice 1 3 2 [0x05, 0x80, 7, 0x03, 0x00, 1, 2, 3, 0x08, 0x80, 9]
        (List.replicate 64 0) = .ok slice1 ∧
      slice1.getD (1 * 3 + 5 * Align4 (2 * 3) + 2) 0 = 9 := by
  obtain ⟨⟨slice1, h1, _, h2, _⟩, _⟩ := BP2_DecodeRLE_slice_spec 1 3 2
    [0x05, 0x80, 7, 0x03, 0x00, 1, 2, 3, 0x08, 0x80, 9] (List.replicate 64 0)
    (by decide) (by rw [List.length_replicate]; rfl) (by decide)
  exact ⟨slice1, h1, by rw [h2 1 5 2 (by decide) (by decide) (by decide)]; rfl⟩

/-! ## Byte streams : what a read leaves behind -/

theorem SDL_ReadU32LE_some {io io1 : SDL_IOStream} {v : Nat}
    (h : SDL_ReadU32LE io = some (v, io1)) :
    ∃ b0 b1 b2 b3 l, io.unread = b0 :: b1 :: b2 :: b3 :: l ∧
      v = b0 + 256 * b1 + 65536 * b2 + 16777216 * b3 ∧ io1.unread = l ∧
      io1.data = io.data := by
  have hd : ( SDL_ReadIO io 4).2.data = io.data := rfl
  match hu : io.unread with
  | b0 :: b1 :: b2 :: b3 :: l =>
    have h1 : ( SDL_ReadIO io 4).1 = [b0, b1, b2, b3] := by rw [(io.read_unread 4).1, hu]; rfl
    have h2 := (io.read_unread 4).2
    rw [hu] at h2
    unfold SDL_ReadU32LE at h
    generalize SDL_ReadIO io 4 = r at h1 h2 hd h
    obtain ⟨g, io2⟩ := r
    simp only at h1 h2 hd
    subst h1
    simp only [Option.some.injEq, Prod.mk.injEq] at h
    obtain ⟨rfl, rfl⟩ := h
    exact ⟨b0, b1, b2, b3, l, rfl, rfl, by simpa using h2, hd⟩
  | [] | [_] | [_, _] | [_, _, _] =>
    rw [SDL_ReadU32LE_short (by rw [hu]; simp)] at h
    cases h

theorem SDL_IOStream.mem_data_of_mem_unread {io : SDL_IOStream} {b : Nat}
    (h : b ∈ io.unread) : b ∈ io.data :=
  List.mem_of_mem_drop h

/-- A u32 read from a stream of bytes is below `2^32` and leaves the data as it is. -/
theorem SDL_ReadU32LE_bound {io io1 : SDL_IOStream} {v : Nat}
    (h : SDL_ReadU32LE io = some (v, io1)) :
    io1.data = io.data ∧ ((∀ b ∈ io.data, b < 256) → v < 4294967296) := by
  obtain ⟨b0, b1, b2, b3, l, hu, rfl, _, hd⟩ := SDL_ReadU32LE_some h
  refine ⟨hd, fun hb => ?_⟩
  have m : ∀ b ∈ io.unread, b < 256 := fun b hm => hb b (SDL_IOStream.mem_data_of_mem_unread hm)
  rw [hu] at m
  have h0 := m b0 (by simp)
  have h1 := m b1 (by simp)
  have h2 := m b2 (by simp)
  have h3 := m b3 (by simp)
  omega

theorem SDL_ReadU8_data {io io1 : SDL_IOStream} {v : Nat}
    (h : SDL_ReadU8 io = some (v, io1)) : io1.data = io.data := by
  have hd : ( SDL_ReadIO io 1).2.data = io.data := rfl
  unfold SDL_ReadU8 at h
  generalize SDL_ReadIO io 1 = r at hd h
  obtain ⟨g, io2⟩ := r
  match g, h with
  | [b], h =>
    simp only [Option.some.injEq, Prod.mk.injEq] at h
    obtain ⟨_, rfl⟩ := h
    exact hd

theorem SDL_ReadU16LE_data {io io1 : SDL_IOStream} {v : Nat}
    (h : SDL_ReadU16LE io = some (v, io1)) : io1.data = io.data := by
  have hd : ( SDL_ReadIO io 2).2.data = io.data := rfl
  unfold SDL_ReadU16LE at h
  generalize SDL_ReadIO io 2 = r at hd h
  obtain ⟨g, io2⟩ := r
  match g, h with
  | [b0, b1], h =>
    simp only [Option.some.injEq, Prod.mk.injEq] at h
    obtain ⟨_, rfl⟩ := h
    exact hd

theorem LoadBMPFileHeader_data {io io1 : SDL_IOStream} {bfh : BMP_FileHeader}
    (h : LoadBMPFileHeader io = some (bfh, io1)) : io1.data = io.data := by
  unfold LoadBMPFileHeader at h
  simp only [Option.bind_eq_bind, Option.bind_eq_some, Prod.exists, Option.pure_def,
    Option.some.injEq, Prod.mk.injEq] at h
  obtain ⟨_, s1, h1, _, s2, h2, _, s3, h3, _, s4, h4, _, s5, h5, _, s6, h6, _, rfl⟩ := h
  rw [SDL_ReadU32LE_bound h6 |>.1, SDL_ReadU16LE_data h5, SDL_ReadU16LE_data h4,
    SDL_ReadU32LE_bound h3 |>.1, SDL_ReadU8_data h2, SDL_ReadU8_data h1]

theorem LoadBMPInfoHeader_bound {io io1 : SDL_IOStream} {bih : BMP_InfoHeader}
    (h : LoadBMPInfoHeader io = some (bih, io1)) :
    io1.data = io.data ∧
      ((∀ b ∈ io.data, b < 256) → bih.biWidth < 4294967296 ∧ bih.biHeight < 4294967296) := by
  unfold LoadBMPInfoHeader at h
  simp only [Option.bind_eq_bind, Option.bind_eq_some, Prod.exists, Option.pure_def,
    Option.some.injEq, Prod.mk.injEq] at h
  obtain ⟨_, s1, h1, w, s2, h2, ht, s3, h3, _, s4, h4, _, s5, h5, _, s6, h6, _, s7, h7,
    _, s8, h8, _, s9, h9, _, s10, h10, _, s11, h11, rfl, rfl⟩ := h
  have d1 := (SDL_ReadU32LE_bound h1).1
  have d2 := (SDL_ReadU32LE_bound h2).1
  have d3 := (SDL_ReadU32LE_bound h3).1
  refine ⟨?_, fun hb => ⟨(SDL_ReadU32LE_bound h2).2 (by rw [d1]; exact hb),
    (SDL_ReadU32LE_bound h3).2 (by rw [d2, d1]; exact hb)⟩⟩
  rw [SDL_ReadU32LE_bound h11 |>.1, SDL_ReadU32LE_bound h10 |>.1, SDL_ReadU32LE_bound h9 |>.1,
    SDL_ReadU32LE_bound h8 |>.1, SDL_ReadU32LE_bound h7 |>.1, SDL_ReadU32LE_bound h6 |>.1,
    SDL_ReadU16LE_data h5, SDL_ReadU16LE_data h4, d3, d2, d1]

/-! ## BP2 : the header -/

theorem Except.bind_ok_iff {ε α β : Type} (x : Except ε α) (f : α → Except ε β) (b : β) :
    (x >>= f) = .ok b ↔ ∃ a, x = .ok a ∧ f a = .ok b := by
  cases x <;> simp [bind, Except.bind]

theorem orFail_ok_iff {α : Type} (x : Option α) (a : α) : orFail x = .ok a ↔ x = some a := by
  cases x <;> simp [orFail]

/-- A header that `LoadBP2` accepts: the magic is 999, the stream data are the
same, and the fields read from bytes are below `2^32`. -/
theorem LoadBP2.header_ok {src src1 : SDL_IOStream} {bpar : BP2Params}
    (h : LoadBP2.header src = .ok (bpar, src1)) :
    src1.data = src.data ∧ bpar.bp2.magic = 999 ∧
      ((∀ b ∈ src.data, b < 256) →
        bpar.bih.biWidth < 4294967296 ∧ bpar.bih.biHeight < 4294967296 ∧
        bpar.bp2.slice_count < 4294967296) := by
  unfold LoadBP2.header at h
  simp only [Except.bind_ok_iff, orFail_ok_iff, Prod.exists] at h
  obtain ⟨magic, s1, h1, encoding, s2, h2, palette_len, s3, h3, idk, s4, h4, slice_count, s5, h5,
    extra, s6, h6, h⟩ := h
  split_ifs at h with hm
  simp only [Except.bind_ok_iff, orFail_ok_iff, Prod.exists, pure, Except.pure, Except.ok.injEq,
    Prod.mk.injEq] at h
  obtain ⟨bfh, s7, h7, bih, s8, h8, rfl, rfl⟩ := h
  have d1 := (SDL_ReadU32LE_bound h1).1
  have d2 := (SDL_ReadU32LE_bound h2).1
  have d3 := (SDL_ReadU32LE_bound h3).1
  have d4 := (SDL_ReadU32LE_bound h4).1
  have d5 := (SDL_ReadU32LE_bound h5).1
  have d6 := (SDL_ReadU32LE_bound h6).1
  have d7 := LoadBMPFileHeader_data h7
  have d8 := (LoadBMPInfoHeader_bound h8).1
  refine ⟨by rw [d8, d7, d6, d5, d4, d3, d2, d1], by simpa using hm, fun hb => ?_⟩
  have b8 := (LoadBMPInfoHeader_bound h8).2 (by rw [d7, d6, d5, d4, d3, d2, d1]; exact hb)
  exact ⟨b8.1, b8.2, (SDL_ReadU32LE_bound h5).2 (by rw [d4, d3, d2, d1]; exact hb)⟩

/-! ## BP2 : a slice that decodes -/

/-- Where nothing is pending, the loop `while (rlen == 0)` fails, or it leaves a
literal run open whose next pixel is not complete. -/
theorem BP2_DecodeRLE.nextRun_exhausted (bpp : Nat) :
    ∀ (n : Nat) (st : BP2_DecodeRLE.Run), st.p.length ≤ n → (∀ b ∈ st.p, b < 256) →
      BP2_DecodeRLE.pending bpp st = [] →
      BP2_DecodeRLE.nextRun bpp st = .error (.msg "Malformed slice") ∨
        ∃ st', BP2_DecodeRLE.nextRun bpp st = .ok st' ∧ st'.rrle = false ∧
          st'.p.length < bpp := by
  intro n
  induction n using Nat.strong_induction_on with
  | _ n ih =>
    intro st hn hb hnil
    rw [BP2_DecodeRLE.nextRun_unfold]
    by_cases hr : st.rlen ≠ 0
    · rw [if_pos hr]
      right
      refine ⟨st, rfl, ?_⟩
      obtain ⟨k, hk⟩ : ∃ k, st.rlen = k + 1 := ⟨st.rlen - 1, by omega⟩
      unfold BP2_DecodeRLE.pending at hnil
      by_cases hrr : st.rrle = true
      · rw [if_pos hrr, hk, List.replicate_succ] at hnil
        simp at hnil
      · rw [if_neg hrr, hk] at hnil
        refine ⟨by simpa using hrr, ?_⟩
        by_contra hge
        simp only [BP2RunExpansion.literals, hge, ↓reduceIte] at hnil
        split_ifs at hnil
        simp at hnil
    · rw [if_neg hr]
      have hr0 : st.rlen = 0 := by omega
      rw [BP2_DecodeRLE.pending_of_rlen_zero bpp hr0] at hnil
      by_cases h2 : st.p.length < 2
      · rw [if_pos h2]
        exact Or.inl rfl
      · rw [if_neg h2]
        obtain ⟨c0, c1, rest, hp⟩ : ∃ c0 c1 rest, st.p = c0 :: c1 :: rest := by
          match hq : st.p with
          | [] => rw [hq] at h2; simp at h2
          | [_] => rw [hq] at h2; simp at h2
          | c0 :: c1 :: rest => exact ⟨c0, c1, rest, rfl⟩
        have hc0 : c0 < 256 := hb c0 (by rw [hp]; simp)
        have hc1 : c1 < 256 := hb c1 (by rw [hp]; simp)
        have hrest : ∀ b ∈ rest, b < 256 := fun b hbm => hb b (by rw [hp]; simp [hbm])
        have hctrl : st.p.getD 0 0 ||| (st.p.getD 1 0 <<< 8) = c0 + 256 * c1 := by
          rw [hp]; exact u16le_value hc0
        have hdrop : st.p.drop 2 = rest := by rw [hp]; rfl
        rw [hctrl, hdrop, and_32767]
        rw [hp, BP2RunExpansion.cons_cons] at hnil
        have hlen : rest.length + 2 ≤ n := by rw [hp] at hn; simpa using hn
        by_cases h15 : 32768 ≤ c0 + 256 * c1
        · rw [if_pos ((bit15_iff (by omega)).mpr h15)]
          rw [if_pos h15] at hnil
          by_cases hshort : rest.length < bpp
          · rw [if_pos hshort]
            exact Or.inl rfl
          · rw [if_neg hshort] at hnil ⊢
            exact ih (rest.drop bpp).length (by simp only [List.length_drop]; omega)
              { rrle := true, rlen := (c0 + 256 * c1) % 32768, rval := rest.take bpp,
                p := rest.drop bpp } (Nat.le_refl _)
              (fun b hbm => hrest b (List.mem_of_mem_drop hbm))
              (by simpa [BP2_DecodeRLE.pending] using hnil)
        · rw [if_neg (fun h => h15 ((bit15_iff (by omega)).mp h))]
          rw [if_neg h15] at hnil
          exact ih rest.length (by omega)
            { rrle := false, rlen := c0 + 256 * c1, rval := st.rval, p := rest } (Nat.le_refl _)
            hrest (by simpa [BP2_DecodeRLE.pending] using hnil)

/-- Where nothing is pending, the pixel step fails with "Malformed slice". -/
theorem BP2_DecodeRLE.pixel_exhausted (SRC_BPP DST_BPP : Nat) (st : BP2_DecodeRLE.Run)
    (slice : List Nat) (col : Nat) (hb : ∀ b ∈ st.p, b < 256)
    (hnil : BP2_DecodeRLE.pending SRC_BPP st = []) :
    BP2_DecodeRLE.pixel SRC_BPP DST_BPP st slice col = .error (.msg "Malformed slice") := by
  unfold BP2_DecodeRLE.pixel
  rcases BP2_DecodeRLE.nextRun_exhausted SRC_BPP st.p.length st (Nat.le_refl _) hb hnil with
    h | ⟨st', h, hrr, hlen⟩
  · rw [h]
  · rw [h]
    simp only [hrr, Bool.false_eq_true, ↓reduceIte, hlen]

/-- A pixel step that succeeds has taken the first pending pixel. -/
theorem BP2_DecodeRLE.pixel_ok (SRC_BPP DST_BPP : Nat) (st : BP2_DecodeRLE.Run)
    (slice : List Nat) (col : Nat) (hb : ∀ b ∈ st.p, b < 256)
    {st1 : BP2_DecodeRLE.Run} {slice1 : List Nat}
    (h : BP2_DecodeRLE.pixel SRC_BPP DST_BPP st slice col = .ok (st1, slice1)) :
    ∃ px, BP2_DecodeRLE.pending SRC_BPP st = px :: BP2_DecodeRLE.pending SRC_BPP st1 ∧
      slice1 = memWrite slice col (BP2_DecodeRLE.planes SRC_BPP DST_BPP px) ∧
      (∀ b ∈ st1.p, b < 256) := by
  cases hp : BP2_DecodeRLE.pending SRC_BPP st with
  | nil =>
    rw [BP2_DecodeRLE.pixel_exhausted SRC_BPP DST_BPP st slice col hb hp] at h
    cases h
  | cons px tl =>
    obtain ⟨st', h1, h2, h3⟩ := BP2_DecodeRLE.pixel_pending SRC_BPP DST_BPP st slice col px tl
      hb hp
    rw [h1] at h
    simp only [Except.ok.injEq, Prod.mk.injEq] at h
    obtain ⟨rfl, rfl⟩ := h
    exact ⟨px, by rw [h2], rfl, h3⟩

/-- A column loop that succeeds has taken `n` pending pixels. -/
theorem BP2_DecodeRLE.column_ok (SRC_BPP DST_BPP dst_pitch : Nat) :
    ∀ (n col : Nat) (st : BP2_DecodeRLE.Run) (slice : List Nat) (st' : BP2_DecodeRLE.Run)
      (slice' : List Nat), (∀ b ∈ st.p, b < 256) →
      BP2_DecodeRLE.column SRC_BPP DST_BPP dst_pitch n col st slice = .ok (st', slice') →
      ∃ pxs, pxs.length = n ∧
        BP2_DecodeRLE.pending SRC_BPP st = pxs ++ BP2_DecodeRLE.pending SRC_BPP st' ∧
        (∀ b ∈ st'.p, b < 256) := by
  intro n
  induction n with
  | zero =>
    intro col st slice st' slice' hb h
    simp only [BP2_DecodeRLE.column, Except.ok.injEq, Prod.mk.injEq] at h
    obtain ⟨rfl, rfl⟩ := h
    exact ⟨[], rfl, rfl, hb⟩
  | succ n ih =>
    intro col st slice st' slice' hb h
    rw [BP2_DecodeRLE.column] at h
    cases hpx : BP2_DecodeRLE.pixel SRC_BPP DST_BPP st slice col with
    | error e => rw [hpx] at h; cases h
    | ok r =>
      obtain ⟨st1, slice1⟩ := r
      rw [hpx] at h
      simp only at h
      obtain ⟨px, hp1, _, hb1⟩ := BP2_DecodeRLE.pixel_ok SRC_BPP DST_BPP st slice col hb hpx
      obtain ⟨pxs, hl, hp2, hb2⟩ := ih _ st1 slice1 st' slice' hb1 h
      exact ⟨px :: pxs, by simp [hl], by rw [hp1, hp2]; rfl, hb2⟩

/-- A loop over the columns that succeeds has taken `8 * n` pending pixels. -/
theorem BP2_DecodeRLE.columns_ok (SRC_BPP DST_BPP dst_pitch : Nat) :
    ∀ (n x : Nat) (st : BP2_DecodeRLE.Run) (slice : List Nat) (st' : BP2_DecodeRLE.Run)
      (slice' : List Nat), (∀ b ∈ st.p, b < 256) →
      BP2_DecodeRLE.columns SRC_BPP DST_BPP dst_pitch n x st slice = .ok (st', slice') →
      ∃ pxs, pxs.length = 8 * n ∧
        BP2_DecodeRLE.pending SRC_BPP st = pxs ++ BP2_DecodeRLE.pending SRC_BPP st' ∧
        (∀ b ∈ st'.p, b < 256) := by
  intro n
  induction n with
  | zero =>
    intro x st slice st' slice' hb h
    simp only [BP2_DecodeRLE.columns, Except.ok.injEq, Prod.mk.injEq] at h
    obtain ⟨rfl, rfl⟩ := h
    exact ⟨[], rfl, rfl, hb⟩
  | succ n ih =>
    intro x st slice st' slice' hb h
    rw [BP2_DecodeRLE.columns] at h
    cases hc : BP2_DecodeRLE.column SRC_BPP DST_BPP dst_pitch 8 (x * DST_BPP) st slice with
    | error e => rw [hc] at h; cases h
    | ok r =>
      obtain ⟨st1, slice1⟩ := r
      rw [hc] at h
      simp only at h
      obtain ⟨pxs1, hl1, hp1, hb1⟩ := BP2_DecodeRLE.column_ok SRC_BPP DST_BPP dst_pitch 8 _ st
        slice st1 slice1 hb hc
      obtain ⟨pxs, hl, hp2, hb2⟩ := ih _ st1 slice1 st' slice' hb1 h
      exact ⟨pxs1 ++ pxs, by rw [List.length_append, hl1, hl]; omega,
        by rw [hp1, hp2, List.append_assoc], hb2⟩

/-- A slice that decodes had enough data: the run expansion of its chunk has at
least `8 * biWidth` pixels. -/
theorem BP2_DecodeRLE.slice_ok (SRC_BPP DST_BPP biWidth : Nat) (chunk slice : List Nat)
    (hbytes : ∀ b ∈ chunk, b < 256) {slice1 : List Nat}
    (h : BP2_DecodeRLE.slice SRC_BPP DST_BPP biWidth chunk slice = .ok slice1) :
    8 * biWidth ≤ (BP2RunExpansion SRC_BPP chunk).length := by
  unfold BP2_DecodeRLE.slice at h
  simp only at h
  cases hc : BP2_DecodeRLE.columns SRC_BPP DST_BPP (Align4 (biWidth * DST_BPP)) biWidth 0
      { rrle := false, rlen := 0, rval := List.replicate SRC_BPP 0, p := chunk } slice with
  | error e => rw [hc] at h; cases h
  | ok r =>
    obtain ⟨st', slice'⟩ := r
    obtain ⟨pxs, hl, hp, _⟩ := BP2_DecodeRLE.columns_ok SRC_BPP DST_BPP _ biWidth 0 _ slice st'
      slice' hbytes hc
    rw [BP2_DecodeRLE.pending_of_rlen_zero SRC_BPP rfl] at hp
    simp only at hp
    rw [hp, List.length_append, hl]
    omega

/-- The pixels of a slice that decodes: column `x`, row `y` of the scratch holds
pixel number `8 * x + y` of the run expansion of the chunk. -/
theorem BP2_DecodeRLE.slice_pixels (SRC_BPP DST_BPP biWidth : Nat) (chunk slice : List Nat)
    (hbytes : ∀ b ∈ chunk, b < 256)
    (hslice : slice.length = Align4 (biWidth * DST_BPP) * 8) {slice1 : List Nat}
    (h : BP2_DecodeRLE.slice SRC_BPP DST_BPP biWidth chunk slice = .ok slice1) :
    slice1.length = slice.length ∧
      ∀ x y plane, x < biWidth → y < 8 → plane < DST_BPP →
        slice1.getD (x * DST_BPP + y * Align4 (biWidth * DST_BPP) + plane) 0 =
          ((BP2RunExpansion SRC_BPP chunk).getD (8 * x + y) []).getD (plane % SRC_BPP) 0 := by
  have henough := BP2_DecodeRLE.slice_ok SRC_BPP DST_BPP biWidth chunk slice hbytes h
  have hpend0 : BP2_DecodeRLE.pending SRC_BPP
      { rrle := false, rlen := 0, rval := List.replicate SRC_BPP 0, p := chunk } =
      (BP2RunExpansion SRC_BPP chunk).take (8 * biWidth) ++
        (BP2RunExpansion SRC_BPP chunk).drop (8 * biWidth) := by
    rw [List.take_append_drop]
    exact BP2_DecodeRLE.pending_of_rlen_zero SRC_BPP rfl
  obtain ⟨st', slice2, hcols, _, hlen, _, hval⟩ :=
    BP2_DecodeRLE.columns_spec SRC_BPP DST_BPP (Align4 (biWidth * DST_BPP)) biWidth
      (Align4_ge _) biWidth 0
      { rrle := false, rlen := 0, rval := List.replicate SRC_BPP 0, p := chunk } slice
      ((BP2RunExpansion SRC_BPP chunk).take (8 * biWidth))
      ((BP2RunExpansion SRC_BPP chunk).drop (8 * biWidth)) (by omega) hbytes hpend0
      (by rw [List.length_take]; omega) hslice
  unfold BP2_DecodeRLE.slice at h
  simp only at h
  rw [hcols] at h
  simp only [Except.ok.injEq] at h
  subst h
  refine ⟨hlen, ?_⟩
  intro x y plane hx hy hplane
  have := hval x y plane hx hy hplane
  rw [Nat.zero_add, getD_take_of_lt _ (by omega)] at this
  exact this

/-! ## BP2 : the slice loop -/

theorem getD_set_eq_of_lt {α : Type} {l : List α} {i : Nat} (a d : α) (h : i < l.length) :
    (l.set i a).getD i d = a := by
  rw [List.getD_eq_getElem?_getD, List.getElem?_set_self h]
  rfl

theorem getD_set_of_ne {α : Type} {l : List α} {i j : Nat} (a d : α) (h : i ≠ j) :
    (l.set i a).getD j d = l.getD j d := by
  rw [List.getD_eq_getElem?_getD, List.getD_eq_getElem?_getD, List.getElem?_set_ne h]

theorem SDL_ReadIO_data (io : SDL_IOStream) (size : Nat) : ( SDL_ReadIO io size).2.data = io.data :=
  rfl

theorem SDL_ReadIO_bytes {io : SDL_IOStream} (size : Nat) (hb : ∀ b ∈ io.data, b < 256) :
    ∀ b ∈ ( SDL_ReadIO io size).1, b < 256 := by
  intro b hm
  rw [(io.read_unread size).1] at hm
  exact hb b (SDL_IOStream.mem_data_of_mem_unread (List.mem_of_mem_take hm))

/-- The copy loop where the `u32` offset of row `first + y + k` is that of row
`base + y + k` of the surface, for every `k < n`: these `n` rows of the surface
receive the rows of the scratch, and the other rows stay as they are. -/
theorem BP2_DecodeRLE.copyRows_at (row_bytes dst_pitch pitch first base : Nat) (slice : List Nat)
    (hd : row_bytes ≤ dst_pitch) (hp : row_bytes ≤ pitch) :
    ∀ (n y : Nat) (rows : List (List Nat)), (∀ row ∈ rows, row.length = row_bytes) →
      base + y + n ≤ rows.length → dst_pitch * (y + n) ≤ slice.length →
      (∀ k, k < n → u32 (pitch * u32 (first + (y + k))) = pitch * (base + (y + k))) →
      (BP2_DecodeRLE.copyRows row_bytes dst_pitch pitch first slice n y rows).length =
        rows.length ∧
      (∀ r, r < base + y ∨ base + y + n ≤ r →
        (BP2_DecodeRLE.copyRows row_bytes dst_pitch pitch first slice n y rows).getD r [] =
          rows.getD r []) ∧
      (∀ k, k < n →
        (BP2_DecodeRLE.copyRows row_bytes dst_pitch pitch first slice n y rows).getD
            (base + y + k) [] =
          (slice.drop (dst_pitch * (y + k))).take row_bytes) := by
  intro n
  induction n with
  | zero =>
    intro y rows _ _ _ _
    exact ⟨rfl, fun _ _ => rfl, fun k hk => absurd hk (by omega)⟩
  | succ n ih =>
    intro y rows hL hfit hs hw
    have hu := hw 0 (by omega)
    rw [Nat.add_zero] at hu
    have hbl : ((slice.drop (dst_pitch * y)).take row_bytes).length = row_bytes := by
      have : dst_pitch * (y + 1) ≤ dst_pitch * (y + (n + 1)) := Nat.mul_le_mul_left _ (by omega)
      rw [Nat.mul_succ] at this
      rw [List.length_take, List.length_drop]
      omega
    have hg := surfaceWrite_getD pitch (base + y)
      ((slice.drop (dst_pitch * y)).take row_bytes) row_bytes rows (by omega) hp hL
    obtain ⟨h1, h2, h3⟩ := ih (y + 1)
      (surfaceWrite pitch rows (pitch * (base + y))
        ((slice.drop (dst_pitch * y)).take row_bytes))
      (surfaceWrite_row_length _ _ _ _ _ hL) (by rw [surfaceWrite_length]; omega)
      (by rw [show y + 1 + n = y + (n + 1) by omega]; exact hs)
      (fun k hk => by
        have := hw (k + 1) (by omega)
        rw [show y + (k + 1) = y + 1 + k by omega] at this
        exact this)
    rw [surfaceWrite_length] at h1
    simp only [BP2_DecodeRLE.copyRows, hu]
    refine ⟨h1, ?_, ?_⟩
    · intro r hr
      rw [h2 r (by omega), hg r, if_neg (by omega)]
    · intro k hk
      cases k with
      | zero =>
        simp only [Nat.add_zero]
        have hrow : (rows.getD (base + y) []).length = row_bytes := by
          rw [List.getD_eq_getElem _ _ (by omega)]
          exact hL _ (List.getElem_mem _)
        rw [h2 _ (by omega), hg (base + y), if_pos ⟨rfl, by omega⟩, hbl,
          List.drop_eq_nil_of_le (Nat.le_of_eq hrow), List.append_nil]
      | succ k =>
        have := h3 k (by omega)
        rw [show base + y + (k + 1) = base + (y + 1) + k by omega,
          show y + (k + 1) = y + 1 + k by omega]
        exact this

/-- The copy loop in a surface whose rows `first + y .. first + y + n - 1` begin
less than `2^32` bytes behind its first byte: it stores `n` rows of the scratch
at the rows `first + y`, `first + y + 1`, ... of the surface and leaves the
other rows as they are. -/
theorem BP2_DecodeRLE.copyRows_spec (row_bytes dst_pitch pitch first : Nat) (slice : List Nat)
    (hd : row_bytes ≤ dst_pitch) (hp : row_bytes ≤ pitch) :
    ∀ (n y : Nat) (rows : List (List Nat)), (∀ row ∈ rows, row.length = row_bytes) →
      first + y + n ≤ rows.length → rows.length ≤ 4294967296 →
      dst_pitch * (y + n) ≤ slice.length →
      (∀ r, r < first + y + n → pitch * r < 4294967296) →
      (BP2_DecodeRLE.copyRows row_bytes dst_pitch pitch first slice n y rows).length =
        rows.length ∧
      (∀ r, r < first + y ∨ first + y + n ≤ r →
        (BP2_DecodeRLE.copyRows row_bytes dst_pitch pitch first slice n y rows).getD r [] =
          rows.getD r []) ∧
      (∀ k, k < n →
        (BP2_DecodeRLE.copyRows row_bytes dst_pitch pitch first slice n y rows).getD
            (first + y + k) [] =
          (slice.drop (dst_pitch * (y + k))).take row_bytes) := by
  intro n y rows hL hfit hlen hs hw
  refine BP2_DecodeRLE.copyRows_at row_bytes dst_pitch pitch first first slice hd hp n y rows hL
    hfit hs ?_
  intro k hk
  rw [u32_of_lt (show first + (y + k) < 4294967296 by omega)]
  exact u32_of_lt (hw _ (by omega))

theorem BP2_DecodeRLE.copyRows_length (row_bytes dst_pitch pitch first : Nat)
    (slice : List Nat) :
    ∀ (n y : Nat) (rows : List (List Nat)),
      (BP2_DecodeRLE.copyRows row_bytes dst_pitch pitch first slice n y rows).length =
        rows.length := by
  intro n
  induction n with
  | zero => intro y rows; rfl
  | succ n ih =>
    intro y rows
    rw [BP2_DecodeRLE.copyRows, ih, surfaceWrite_length]

theorem BP2_DecodeRLE.copyRows_row_length (row_bytes dst_pitch pitch first : Nat)
    (slice : List Nat) (L : Nat) :
    ∀ (n y : Nat) (rows : List (List Nat)), (∀ row ∈ rows, row.length = L) →
      ∀ row ∈ BP2_DecodeRLE.copyRows row_bytes dst_pitch pitch first slice n y rows,
        row.length = L := by
  intro n
  induction n with
  | zero => intro y rows hL; exact hL
  | succ n ih =>
    intro y rows hL
    rw [BP2_DecodeRLE.copyRows]
    exact ih (y + 1) _ (surfaceWrite_row_length _ _ _ _ _ hL)

/-- The slice loop in a surface whose rows up to `8 * (i + n) - 1` begin less
than `2^32` bytes behind its first byte: slice `i + j` supplies the rows
`8 * (i + j) .. 8 * (i + j) + 7` of the surface, pixel `(x, y)` of the slice being
pixel number `8 * x + y` of the run expansion of the slice's chunk; the other
rows stay as they are. -/
theorem BP2_DecodeRLE.slices_spec (SRC_BPP DST_BPP biWidth pitch : Nat)
    (hp : biWidth * DST_BPP ≤ pitch) :
    ∀ (n i : Nat) (io : SDL_IOStream) (slice : List Nat) (rows : List (List Nat))
      (io' : SDL_IOStream) (slice' : List Nat) (rows' : List (List Nat)),
      (∀ b ∈ io.data, b < 256) → slice.length = Align4 (biWidth * DST_BPP) * 8 →
      (∀ row ∈ rows, row.length = biWidth * DST_BPP) →
      8 * (i + n) ≤ rows.length → rows.length ≤ 4294967296 →
      (∀ r, r < 8 * (i + n) → pitch * r < 4294967296) →
      BP2_DecodeRLE.slices SRC_BPP DST_BPP biWidth pitch n i io slice rows =
        .ok (io', slice', rows') →
      ∃ chunks, BP2_DecodeRLE.chunks n io = some (chunks, io') ∧ io'.data = io.data ∧
        slice'.length = slice.length ∧ rows'.length = rows.length ∧
        (∀ r, r < 8 * i ∨ 8 * (i + n) ≤ r → rows'.getD r [] = rows.getD r []) ∧
        (∀ j y x plane, j < n → y < 8 → x < biWidth → plane < DST_BPP →
          (rows'.getD (8 * (i + j) + y) []).getD (x * DST_BPP + plane) 0 =
            ((BP2RunExpansion SRC_BPP (chunks.getD j [])).getD (8 * x + y) []).getD
              (plane % SRC_BPP) 0) := by
  intro n
  induction n with
  | zero =>
    intro i io slice rows io' slice' rows' _ _ _ _ _ _ h
    simp only [BP2_DecodeRLE.slices, Except.ok.injEq, Prod.mk.injEq] at h
    obtain ⟨rfl, rfl, rfl⟩ := h
    exact ⟨[], rfl, rfl, rfl, rfl, fun _ _ => rfl, fun j y x plane hj => absurd hj (by omega)⟩
  | succ n ih =>
    intro i io slice rows io' slice' rows' hb hsl hL hfit hlen hw h
    rw [BP2_DecodeRLE.slices] at h
    cases hr : SDL_ReadU32LE io with
    | none => rw [hr] at h; cases h
    | some v =>
      obtain ⟨chunk_len, io1⟩ := v
      rw [hr] at h
      simp only at h
      have hd1 := (SDL_ReadU32LE_bound hr).1
      have hb1 : ∀ b ∈ io1.data, b < 256 := by rw [hd1]; exact hb
      by_cases hcl : ( SDL_ReadIO io1 chunk_len).1.length ≠ chunk_len
      · rw [if_pos hcl] at h; cases h
      · rw [if_neg hcl] at h
        cases hs : BP2_DecodeRLE.slice SRC_BPP DST_BPP biWidth ( SDL_ReadIO io1 chunk_len).1
            slice with
        | error e => rw [hs] at h; cases h
        | ok slice1 =>
          rw [hs] at h
          simp only at h
          have hu : u32 (i * 8) = i * 8 := u32_of_lt (by omega)
          rw [hu] at h
          obtain ⟨hl1, hpix⟩ := BP2_DecodeRLE.slice_pixels SRC_BPP DST_BPP biWidth _ slice
            (SDL_ReadIO_bytes chunk_len hb1) hsl hs
          obtain ⟨c1, c2, c3⟩ := BP2_DecodeRLE.copyRows_spec (biWidth * DST_BPP)
            (Align4 (biWidth * DST_BPP)) pitch (i * 8) slice1 (Align4_ge _) hp 8 0 rows hL
            (by omega) hlen (by rw [hl1, hsl]) (fun r hr => hw r (by omega))
          obtain ⟨chunks, e1, e2, e3, e4, e5, e6⟩ := ih (i + 1) ( SDL_ReadIO io1 chunk_len).2
            slice1 _ io' slice' rows' (by rw [SDL_ReadIO_data]; exact hb1) (by rw [hl1, hsl])
            (BP2_DecodeRLE.copyRows_row_length _ _ _ _ _ _ _ _ _ hL)
            (by rw [c1]; omega) (by rw [c1]; exact hlen) (fun r hr => hw r (by omega)) h
          refine ⟨( SDL_ReadIO io1 chunk_len).1 :: chunks, ?_, ?_, by rw [e3, hl1],
            by rw [e4, c1], ?_, ?_⟩
          · rw [BP2_DecodeRLE.chunks, hr]
            simp only [hcl, ↓reduceIte, e1]
          · rw [e2, SDL_ReadIO_data, hd1]
          · intro r hr'
            rw [e5 r (by omega), c2 r (by omega)]
          · intro j y x plane hj hy hx hplane
            cases j with
            | zero =>
              rw [Nat.add_zero, e5 _ (by omega)]
              have := c3 y hy
              rw [show i * 8 + 0 + y = 8 * i + y by omega] at this
              rw [this, List.getD_cons_zero]
              have hxd : (x + 1) * DST_BPP ≤ biWidth * DST_BPP := Nat.mul_le_mul_right _ hx
              rw [Nat.succ_mul] at hxd
              rw [getD_take_of_lt _ (by omega), getD_drop_add, ← hpix x y plane hx hy hplane]
              congr 1
              rw [Nat.zero_add, Nat.mul_comm _ y]
              omega
            | succ j =>
              have := e6 j y x plane (by omega) hy hx hplane
              rw [show 8 * (i + (j + 1)) + y = 8 * (i + 1 + j) + y by omega, this,
                List.getD_cons_succ]

/-! ## BP2 : `BP2_DecodeRLE` and `LoadBP2` -/

/-- The slice loop keeps the number of rows of the surface and the length of
its rows, whatever the rows it stores at. -/
theorem BP2_DecodeRLE.slices_length (SRC_BPP DST_BPP biWidth pitch : Nat) :
    ∀ (n i : Nat) (io : SDL_IOStream) (slice : List Nat) (rows : List (List Nat))
      (io' : SDL_IOStream) (slice' : List Nat) (rows' : List (List Nat)),
      BP2_DecodeRLE.slices SRC_BPP DST_BPP biWidth pitch n i io slice rows =
        .ok (io', slice', rows') →
      rows'.length = rows.length ∧
        ∀ L, (∀ row ∈ rows, row.length = L) → ∀ row ∈ rows', row.length = L := by
  intro n
  induction n with
  | zero =>
    intro i io slice rows io' slice' rows' h
    simp only [BP2_DecodeRLE.slices, Except.ok.injEq, Prod.mk.injEq] at h
    rw [← h.2.2]
    exact ⟨rfl, fun _ hL => hL⟩
  | succ n ih =>
    intro i io slice rows io' slice' rows' h
    rw [BP2_DecodeRLE.slices] at h
    cases hr : SDL_ReadU32LE io with
    | none => rw [hr] at h; cases h
    | some v =>
      obtain ⟨chunk_len, io1⟩ := v
      rw [hr] at h
      simp only at h
      by_cases hcl : ( SDL_ReadIO io1 chunk_len).1.length ≠ chunk_len
      · rw [if_pos hcl] at h; cases h
      · rw [if_neg hcl] at h
        cases hs : BP2_DecodeRLE.slice SRC_BPP DST_BPP biWidth ( SDL_ReadIO io1 chunk_len).1
            slice with
        | error e => rw [hs] at h; cases h
        | ok slice1 =>
          rw [hs] at h
          simp only at h
          obtain ⟨h1, h2⟩ := ih _ _ _ _ _ _ _ h
          refine ⟨by rw [h1, BP2_DecodeRLE.copyRows_length], fun L hL => ?_⟩
          exact h2 L (BP2_DecodeRLE.copyRows_row_length _ _ _ _ _ _ _ _ _ hL)

/-- A trailing partial slice that is accepted: the u32 `extra_bytes` read from
the stream equals the header's `extra_slice_count` and `(biHeight % 8) *
dst_pitch`, that many bytes follow it, and they are copied row by row, at the
pitch `dst_pitch`, by the copy loop with `first = biHeight - biHeight % 8`. -/
theorem BP2_DecodeRLE.trailer_ok {DST_BPP pitch : Nat} {bp2 : BP2Params} {io : SDL_IOStream}
    {slice : List Nat} {rows rows2 : List (List Nat)}
    (h : BP2_DecodeRLE.trailer DST_BPP pitch bp2 io slice rows = .ok rows2) :
    ∃ io1, SDL_ReadU32LE io = some (bp2.bp2.extra_slice_count, io1) ∧
      (bp2.bih.biHeight % 8) * Align4 (bp2.bih.biWidth * DST_BPP) = bp2.bp2.extra_slice_count ∧
      ( SDL_ReadIO io1 bp2.bp2.extra_slice_count).1.length = bp2.bp2.extra_slice_count ∧
      rows2 = BP2_DecodeRLE.copyRows (bp2.bih.biWidth * DST_BPP)
        (Align4 (bp2.bih.biWidth * DST_BPP)) pitch (bp2.bih.biHeight - bp2.bih.biHeight % 8)
        (memWrite slice 0 ( SDL_ReadIO io1 bp2.bp2.extra_slice_count).1)
        (bp2.bih.biHeight % 8) 0 rows := by
  unfold BP2_DecodeRLE.trailer at h
  simp only at h
  split_ifs at h with h1
  cases hr : SDL_ReadU32LE io with
  | none => rw [hr] at h; cases h
  | some v =>
    obtain ⟨extra_bytes, io1⟩ := v
    rw [hr] at h
    simp only at h
    split_ifs at h with h2 h3
    simp only [ne_eq, Decidable.not_not] at h1 h2 h3
    subst h3
    simp only [Except.ok.injEq] at h
    exact ⟨io1, rfl, h1, h2, h.symm⟩

theorem BP2_DecodeRLE.decode_ok {SRC_BPP DST_BPP pitch : Nat} {surf : Bitmap}
    {io : SDL_IOStream} {bp2 : BP2Params} {decoded : List (List Nat)}
    (h : BP2_DecodeRLE.decode SRC_BPP DST_BPP surf pitch io bp2 = .ok decoded) :
    ∃ io1 slice1 rows1,
      BP2_DecodeRLE.slices SRC_BPP DST_BPP bp2.bih.biWidth pitch bp2.bp2.slice_count 0 io
        (List.replicate (Align4 (bp2.bih.biWidth * DST_BPP) * 8) 0) surf.rows =
        .ok (io1, slice1, rows1) ∧
      (bp2.bih.biHeight % 8 ≠ 0 →
        BP2_DecodeRLE.trailer DST_BPP pitch bp2 io1 slice1 rows1 = .ok decoded) ∧
      (bp2.bih.biHeight % 8 = 0 → decoded = rows1) := by
  unfold BP2_DecodeRLE.decode at h
  simp only at h
  cases hs : BP2_DecodeRLE.slices SRC_BPP DST_BPP bp2.bih.biWidth pitch bp2.bp2.slice_count 0 io
      (List.replicate (Align4 (bp2.bih.biWidth * DST_BPP) * 8) 0) surf.rows with
  | error e => rw [hs] at h; cases h
  | ok v =>
    obtain ⟨io1, slice1, rows1⟩ := v
    rw [hs] at h
    simp only at h
    refine ⟨io1, slice1, rows1, rfl, ?_, ?_⟩
    · intro hne
      rw [if_pos hne] at h
      exact h
    · intro he
      rw [if_neg (by omega)] at h
      simp only [Except.ok.injEq] at h
      exact h.symm

theorem BP2_DecodeRLE.ok_iff_decode {SRC_BPP DST_BPP pitch : Nat} {surf : Bitmap}
    {io : SDL_IOStream} {bp2 : BP2Params} {bmp : Bitmap}
    (h : BP2_DecodeRLE SRC_BPP DST_BPP surf pitch io bp2 = .ok bmp) :
    ∃ decoded, BP2_DecodeRLE.decode SRC_BPP DST_BPP surf pitch io bp2 = .ok decoded ∧
      bmp = SDL_FlipSurface_VERTICAL { surf with rows := decoded } := by
  unfold BP2_DecodeRLE at h
  cases hd : BP2_DecodeRLE.decode SRC_BPP DST_BPP surf pitch io bp2 with
  | error e => rw [hd] at h; cases h
  | ok decoded =>
    rw [hd] at h
    simp only [Except.ok.injEq] at h
    exact ⟨decoded, rfl, h.symm⟩

theorem LoadBP2.palette_ok {palette_len : Nat} {src src2 : SDL_IOStream}
    {pal : Option (List SDL_Color)}
    (h : LoadBP2.palette palette_len src = .ok (pal, src2)) : src2.data = src.data := by
  unfold LoadBP2.palette at h
  simp only at h
  split_ifs at h with h1 h2 h3
  · simp only [Except.ok.injEq, Prod.mk.injEq] at h
    rw [← h.2]
    rfl
  · simp only [Except.ok.injEq, Prod.mk.injEq] at h
    rw [← h.2]

/-- A successful `LoadBP2`: the header and the palette were read, SDL made the
surface, the encoding is 1, 2 or 3 and `BP2_DecodeRLE` with the encoding's
`SRC_BPP` and `DST_BPP` gave the bitmap. -/
theorem LoadBP2.loaded_inv {surf_ok : Bool} {src : SDL_IOStream} {pal : Option (List SDL_Color)}
    {bmp : Bitmap} (h : LoadBP2 surf_ok src = .ok (pal, bmp)) :
    ∃ bpar src1 src2 SRC_BPP DST_BPP,
      LoadBP2.header src = .ok (bpar, src1) ∧
      LoadBP2.palette bpar.bp2.palette_len src1 = .ok (pal, src2) ∧ surf_ok = true ∧
      ((bpar.bp2.encoding = 1 ∧ SRC_BPP = 1 ∧ DST_BPP = 1) ∨
        (bpar.bp2.encoding = 2 ∧ SRC_BPP = 3 ∧ DST_BPP = 3) ∨
        (bpar.bp2.encoding = 3 ∧ SRC_BPP = 1 ∧ DST_BPP = 3)) ∧
      BP2_DecodeRLE SRC_BPP DST_BPP
        (LoadBP2.surface bpar.bih.biWidth bpar.bih.biHeight
          (LoadBP2.format_map.get? bpar.bp2.encoding))
        (LoadBP2.pitch bpar.bih.biWidth (LoadBP2.format_map.get? bpar.bp2.encoding))
        src2 bpar = .ok bmp := by
  unfold LoadBP2 at h
  simp only [Except.bind_ok_iff, Prod.exists] at h
  obtain ⟨bpar, src1, hh, pal', src2, hp, h⟩ := h
  split_ifs at h with hs
  simp only [Bool.not_eq_true, Bool.not_eq_false] at hs
  split at h
  · simp only [Except.bind_ok_iff, pure, Except.pure, Except.ok.injEq, Prod.mk.injEq] at h
    obtain ⟨surf, hd, rfl, rfl⟩ := h
    exact ⟨bpar, src1, src2, 1, 1, hh, hp, hs, Or.inl ⟨by assumption, rfl, rfl⟩, hd⟩
  · simp only [Except.bind_ok_iff, pure, Except.pure, Except.ok.injEq, Prod.mk.injEq] at h
    obtain ⟨surf, hd, rfl, rfl⟩ := h
    exact ⟨bpar, src1, src2, 3, 3, hh, hp, hs, Or.inr (Or.inl ⟨by assumption, rfl, rfl⟩), hd⟩
  · simp only [Except.bind_ok_iff, pure, Except.pure, Except.ok.injEq, Prod.mk.injEq] at h
    obtain ⟨surf, hd, rfl, rfl⟩ := h
    exact ⟨bpar, src1, src2, 1, 3, hh, hp, hs, Or.inr (Or.inr ⟨by assumption, rfl, rfl⟩), hd⟩
  · cases h

theorem LoadBP2.surface_rows (width height : Nat) (format : Option SDL_PixelFormat) :
    (LoadBP2.surface width height format).rows.length = height := by
  simp [LoadBP2.surface]

/-- The surface of an encoding 1, 2 or 3: its rows hold `width * DST_BPP` bytes
and its pitch is `Align4 (width * DST_BPP)`, the `dst_pitch` of
`BP2_DecodeRLE`. -/
theorem LoadBP2.surface_format {encoding SRC_BPP DST_BPP : Nat}
    (henc : (encoding = 1 ∧ SRC_BPP = 1 ∧ DST_BPP = 1) ∨
      (encoding = 2 ∧ SRC_BPP = 3 ∧ DST_BPP = 3) ∨ (encoding = 3 ∧ SRC_BPP = 1 ∧ DST_BPP = 3))
    (width height : Nat) :
    LoadBP2.pitch width (LoadBP2.format_map.get? encoding) = Align4 (width * DST_BPP) ∧
    ∀ row ∈ (LoadBP2.surface width height (LoadBP2.format_map.get? encoding)).rows,
      row.length = width * DST_BPP := by
  have hlen : ∀ (px : List Nat), ((List.replicate width px).flatten).length =
      width * px.length := by
    intro px
    induction width with
    | zero => simp
    | succ w ih =>
      rw [List.replicate_succ, List.flatten_cons, List.length_append, ih]
      ring
  rcases henc with ⟨rfl, _, rfl⟩ | ⟨rfl, _, rfl⟩ | ⟨rfl, _, rfl⟩
  · refine ⟨rfl, ?_⟩
    intro row hr
    simp only [LoadBP2.surface, LoadBP2.format_map, List.get?] at hr
    rw [(List.mem_replicate.1 hr).2, hlen]
    rfl
  · refine ⟨rfl, ?_⟩
    intro row hr
    simp only [LoadBP2.surface, LoadBP2.format_map, List.get?] at hr
    rw [(List.mem_replicate.1 hr).2, hlen]
    rfl
  · refine ⟨rfl, ?_⟩
    intro row hr
    simp only [LoadBP2.surface, LoadBP2.format_map, List.get?] at hr
    rw [(List.mem_replicate.1 hr).2, hlen]
    rfl

theorem memWrite_zero_ge (slice raw : List Nat) : raw.length ≤ (memWrite slice 0 raw).length := by
  simp only [memWrite, List.take_zero, List.nil_append, List.length_append]
  omega

/-- Where every row of the surface begins less than `2^32` bytes behind its
first byte, so does every row up to a given one. -/
theorem pitch_rows_lt {pitch H : Nat} (h : pitch * (H - 1) < 4294967296) {r : Nat} (hr : r < H) :
    pitch * r < 4294967296 :=
  Nat.lt_of_le_of_lt (Nat.mul_le_mul_left _ (by omega)) h

/-! ## BP2 : slices and flip of a decoded image -/

set_option maxRecDepth 100000 in
/-- C11: for every BP2 stream (of bytes) that `LoadBP2` decodes successfully, the
bitmap has the width and height of the BMP info header and its rows are the
decoded rows (the rows after the slice loop and the trailer) in reverse order,
output row `r` being decoded row `height - 1 - r`.  Where the slices fit in the
surface (`8 * slice_count <= height`) and every row of the surface begins less
than `2^32` bytes behind its first byte (`pitch * (height - 1) < 2^32`, so that
no `u32` offset `surf->pitch * row` wraps), slice `i` supplies the decoded rows
`8 * i .. 8 * i + 7`: the pixel at column `x` of decoded row `8 * i + y` is pixel
number `8 * x + y` of the run expansion of the `i`-th chunk of the stream.
Nothing in the code compares `slice_count` with the height: the INDEX8 image
`bp2OverlapExample` of 1 x 12 pixels with two slices and a trailer of four rows
is decoded without error, the copy loop of its second slice stores at the rows
8 to 15 of a surface of 12 rows, and the rows 8 to 11 are the trailer's in the
end, so that the pixel `0x22` of the second slice is in no row of the
bitmap. -/
theorem LoadBP2_slice_rows :
    (∀ (surf_ok : Bool) (src : SDL_IOStream) (pal : Option (List SDL_Color)) (bmp : Bitmap),
      (∀ b ∈ src.data, b < 256) → LoadBP2 surf_ok src = .ok (pal, bmp) →
      ∃ bpar src1 src2 SRC_BPP DST_BPP chunks src3 decoded,
        LoadBP2.header src = .ok (bpar, src1) ∧
        LoadBP2.palette bpar.bp2.palette_len src1 = .ok (pal, src2) ∧
        ((bpar.bp2.encoding = 1 ∧ SRC_BPP = 1 ∧ DST_BPP = 1) ∨
          (bpar.bp2.encoding = 2 ∧ SRC_BPP = 3 ∧ DST_BPP = 3) ∨
          (bpar.bp2.encoding = 3 ∧ SRC_BPP = 1 ∧ DST_BPP = 3)) ∧
        LoadBP2.pitch bpar.bih.biWidth (LoadBP2.format_map.get? bpar.bp2.encoding) =
          Align4 (bpar.bih.biWidth * DST_BPP) ∧
        BP2_DecodeRLE.decode SRC_BPP DST_BPP
          (LoadBP2.surface bpar.bih.biWidth bpar.bih.biHeight
            (LoadBP2.format_map.get? bpar.bp2.encoding))
          (Align4 (bpar.bih.biWidth * DST_BPP)) src2 bpar = .ok decoded ∧
        bmp.width = bpar.bih.biWidth ∧ bmp.height = bpar.bih.biHeight ∧
        bmp.rows.length = bpar.bih.biHeight ∧ decoded.length = bpar.bih.biHeight ∧
        (∀ r, r < bpar.bih.biHeight →
          bmp.rows.getD r [] = decoded.getD (bpar.bih.biHeight - 1 - r) []) ∧
        (8 * bpar.bp2.slice_count ≤ bpar.bih.biHeight →
          Align4 (bpar.bih.biWidth * DST_BPP) * (bpar.bih.biHeight - 1) < 4294967296 →
          BP2_DecodeRLE.chunks bpar.bp2.slice_count src2 = some (chunks, src3) ∧
          ∀ i y x plane, i < bpar.bp2.slice_count → y < 8 → x < bpar.bih.biWidth →
            plane < DST_BPP →
            (decoded.getD (8 * i + y) []).getD (x * DST_BPP + plane) 0 =
              ((BP2RunExpansion SRC_BPP (chunks.getD i [])).getD (8 * x + y) []).getD
                (plane % SRC_BPP) 0)) ∧
    (LoadBP2 true bp2OverlapExample =
        .ok (none, ⟨1, 12, [[0x33], [0x33], [0x33], [0x33], [0x11], [0x11], [0x11], [0x11],
          [0x11], [0x11], [0x11], [0x11]]⟩) ∧
      (∃ bpar src1, LoadBP2.header bp2OverlapExample = .ok (bpar, src1) ∧
        bpar.bp2.encoding = 1 ∧ bpar.bih.biWidth = 1 ∧ bpar.bih.biHeight = 12 ∧
        bpar.bp2.slice_count = 2 ∧ bpar.bp2.palette_len = 0 ∧
        ∃ src3, BP2_DecodeRLE.chunks 2 src1 =
          some ([[0x08, 0x80, 0x11], [0x08, 0x80, 0x22]], src3)) ∧
      BP2RunExpansion 1 [0x08, 0x80, 0x22] =
        [[0x22], [0x22], [0x22], [0x22], [0x22], [0x22], [0x22], [0x22]] ∧
      BP2_DecodeRLE.slices.dest 2 0 = [0, 1, 2, 3, 4, 5, 6, 7, 8, 9, 10, 11, 12, 13, 14, 15] ∧
      ∀ row ∈ [[0x33], [0x33], [0x33], [0x33], [0x11], [0x11], [0x11], [0x11],
          [0x11], [0x11], [0x11], [0x11]], (0x22 : Nat) ∉ row) := by
  refine ⟨?_, by rfl, ⟨_, _, by rfl, by rfl, by rfl, by rfl, by rfl, by rfl, _, by rfl⟩, by rfl,
    by decide, by decide⟩
  intro surf_ok src pal bmp hbytes h
  obtain ⟨bpar, src1, src2, SRC_BPP, DST_BPP, hh, hp, _, henc, hd⟩ := LoadBP2.loaded_inv h
  obtain ⟨hpitch, hrowlen⟩ := LoadBP2.surface_format henc bpar.bih.biWidth bpar.bih.biHeight
  rw [hpitch] at hd
  obtain ⟨decoded, hdec, rfl⟩ := BP2_DecodeRLE.ok_iff_decode hd
  obtain ⟨io1, slice1, rows1, hsl, htr, hnt⟩ := BP2_DecodeRLE.decode_ok hdec
  obtain ⟨hd1, _, hbound⟩ := LoadBP2.header_ok hh
  obtain ⟨_, hH, _⟩ := hbound hbytes
  have hd2 := LoadBP2.palette_ok hp
  have hb2 : ∀ b ∈ src2.data, b < 256 := by rw [hd2, hd1]; exact hbytes
  have hrows0 := LoadBP2.surface_rows bpar.bih.biWidth bpar.bih.biHeight
    (LoadBP2.format_map.get? bpar.bp2.encoding)
  obtain ⟨hl1', hrl1⟩ := BP2_DecodeRLE.slices_length _ _ _ _ _ _ _ _ _ _ _ _ hsl
  have hl1 : rows1.length = bpar.bih.biHeight := by rw [hl1', hrows0]
  have hmod : bpar.bih.biHeight % 8 ≤ bpar.bih.biHeight := Nat.mod_le _ _
  have hdl : decoded.length = bpar.bih.biHeight := by
    by_cases hm : bpar.bih.biHeight % 8 = 0
    · rw [hnt hm]
      exact hl1
    · obtain ⟨io2, _, _, _, hrows2⟩ := BP2_DecodeRLE.trailer_ok (htr hm)
      rw [hrows2, BP2_DecodeRLE.copyRows_length, hl1]
  -- the trailer leaves the rows below `biHeight - biHeight % 8` as they are
  have hdecoded : Align4 (bpar.bih.biWidth * DST_BPP) * (bpar.bih.biHeight - 1) < 4294967296 →
      ∀ r, r < bpar.bih.biHeight - bpar.bih.biHeight % 8 →
        decoded.getD r [] = rows1.getD r [] := by
    intro hw
    by_cases hm : bpar.bih.biHeight % 8 = 0
    · rw [hnt hm]
      exact fun _ _ => rfl
    · obtain ⟨io2, _, hcnt, hread, hrows2⟩ := BP2_DecodeRLE.trailer_ok (htr hm)
      obtain ⟨_, c2, _⟩ := BP2_DecodeRLE.copyRows_spec (bpar.bih.biWidth * DST_BPP)
        (Align4 (bpar.bih.biWidth * DST_BPP)) (Align4 (bpar.bih.biWidth * DST_BPP))
        (bpar.bih.biHeight - bpar.bih.biHeight % 8)
        (memWrite slice1 0 ( SDL_ReadIO io2 bpar.bp2.extra_slice_count).1)
        (Align4_ge _) (Align4_ge _) (bpar.bih.biHeight % 8) 0 rows1
        (hrl1 _ hrowlen) (by omega) (by omega)
        (by
          have := memWrite_zero_ge slice1 ( SDL_ReadIO io2 bpar.bp2.extra_slice_count).1
          rw [hread] at this
          rw [Nat.zero_add, Nat.mul_comm, hcnt]
          exact this)
        (fun r hr => pitch_rows_lt hw (by omega))
      rw [hrows2]
      exact fun r hr => c2 r (by omega)
  have hflip : ∀ r, r < bpar.bih.biHeight →
      (SDL_FlipSurface_VERTICAL
        { LoadBP2.surface bpar.bih.biWidth bpar.bih.biHeight
            (LoadBP2.format_map.get? bpar.bp2.encoding) with rows := decoded }).rows.getD r [] =
        decoded.getD (bpar.bih.biHeight - 1 - r) [] := by
    intro r hr
    simp only [SDL_FlipSurface_VERTICAL]
    rw [getD_reverse_of_lt _ _ (by rw [hdl]; exact hr), hdl]
  have hrl : (SDL_FlipSurface_VERTICAL
        { LoadBP2.surface bpar.bih.biWidth bpar.bih.biHeight
            (LoadBP2.format_map.get? bpar.bp2.encoding) with rows := decoded }).rows.length =
        bpar.bih.biHeight := by
    simp only [SDL_FlipSurface_VERTICAL, List.length_reverse]
    exact hdl
  refine ⟨bpar, src1, src2, SRC_BPP, DST_BPP, ?_⟩
  by_cases hfit : 8 * bpar.bp2.slice_count ≤ bpar.bih.biHeight ∧
      Align4 (bpar.bih.biWidth * DST_BPP) * (bpar.bih.biHeight - 1) < 4294967296
  · obtain ⟨hfit, hw⟩ := hfit
    obtain ⟨chunks, hch, _, _, _, _, hpix⟩ := BP2_DecodeRLE.slices_spec SRC_BPP DST_BPP
      bpar.bih.biWidth (Align4 (bpar.bih.biWidth * DST_BPP)) (Align4_ge _)
      bpar.bp2.slice_count 0 src2 _ _ io1 slice1 rows1 hb2
      (by rw [List.length_replicate]) hrowlen (by rw [hrows0]; omega) (by rw [hrows0]; omega)
      (fun r hr => pitch_rows_lt hw (by omega)) hsl
    refine ⟨chunks, io1, decoded, hh, hp, henc, hpitch, hdec, rfl, rfl, hrl, hdl, hflip, ?_⟩
    intro _ _
    refine ⟨hch, ?_⟩
    intro i y x plane hi hy hx hplane
    have := hpix i y x plane hi hy hx hplane
    rw [Nat.zero_add] at this
    rw [hdecoded hw _ (by omega), this]
  · refine ⟨[], src2, decoded, hh, hp, henc, hpitch, hdec, rfl, rfl, hrl, hdl, hflip, ?_⟩
    intro hc hw
    exact absurd ⟨hc, hw⟩ hfit

set_option maxRecDepth 100000 in
/-- C11, at the GRAY8 image of `bp2Gray8Example` (2 x 12, one slice and a
trailer of four rows): the pixel in column 0 of the bottom row of the bitmap is
the first pixel of the run expansion of the slice's chunk. -/
theorem LoadBP2_slice_rows_witness :
    ∃ (bmp : Bitmap) (decoded : List (List Nat)), LoadBP2 true bp2Gray8Example = .ok (none, bmp) ∧ bmp.height = 12 ∧
      bmp.rows.getD 11 [] = decoded.getD 0 [] ∧
      (decoded.getD 0 []).getD 0 0 =
        ((BP2RunExpansion 1 [0x05, 0x80, 7, 0x03, 0x00, 1, 2, 3, 0x08, 0x80, 9]).getD 0 []).getD
          0 0 := by
  have hload : LoadBP2 true bp2Gray8Example = .ok (none,
      { width := 2, height := 12,
        rows := [[124, 125, 126, 127, 128, 129], [116, 117, 118, 119, 120, 121],
          [108, 109, 110, 111, 112, 113], [100, 101, 102, 103, 104, 105],
          [3, 3, 3, 9, 9, 9], [2, 2, 2, 9, 9, 9], [1, 1, 1, 9, 9, 9], [7, 7, 7, 9, 9, 9],
          [7, 7, 7, 9, 9, 9], [7, 7, 7, 9, 9, 9], [7, 7, 7, 9, 9, 9], [7, 7, 7, 9, 9, 9]] }) := by
    rfl
  obtain ⟨bpar, src1, src2, SRC_BPP, DST_BPP, chunks, src3, decoded, hh, hp, henc, _, hdec, hw,
    hht, hrl, hdl, hflip, hsl⟩ := LoadBP2_slice_rows.1 true bp2Gray8Example none _ (by decide) hload
  have hh' : LoadBP2.header bp2Gray8Example = .ok
      ({ bp2 := { magic := 999, encoding := 3, palette_len := 0, idk := 0, slice_count := 1,
                  extra_slice_count := 32 },
         bfh := { bfType0 := 0, bfType1 := 0, bfSize := 0, bfReserved1 := 0, bfReserved2 := 0,
                  bfOffBits := 0 },
         bih := { biSize := 40, biWidth := 2, biHeight := 12, biPlanes := 0, biBitCount := 0,
                  biCompression := 0, biSizeImage := 0, biXPelsPerMeter := 0,
                  biYPelsPerMeter := 0, biClrUsed := 0, biClrImportant := 0 } },
        ⟨bp2Gray8Example.data, 78⟩) := by
    rfl
  rw [hh'] at hh
  simp only [Except.ok.injEq, Prod.mk.injEq] at hh
  obtain ⟨rfl, rfl⟩ := hh
  simp only at henc hflip hsl hp
  have hp' : LoadBP2.palette 0 ⟨bp2Gray8Example.data, 78⟩ = .ok (none, ⟨bp2Gray8Example.data, 78⟩) :=
    rfl
  rw [hp'] at hp
  simp only [Except.ok.injEq, Prod.mk.injEq, true_and] at hp
  subst hp
  obtain ⟨hS, hD⟩ : SRC_BPP = 1 ∧ DST_BPP = 3 := by
    rcases henc with ⟨h1, _⟩ | ⟨h1, _⟩ | ⟨_, h2, h3⟩
    · exact absurd h1 (by decide)
    · exact absurd h1 (by decide)
    · exact ⟨h2, h3⟩
  subst hS hD
  obtain ⟨hch, hpix⟩ := hsl (by decide) (by decide)
  have hch' : BP2_DecodeRLE.chunks 1 ⟨bp2Gray8Example.data, 78⟩ =
      some ([[0x05, 0x80, 7, 0x03, 0x00, 1, 2, 3, 0x08, 0x80, 9]],
        ⟨bp2Gray8Example.data, 93⟩) := by
    rfl
  rw [hch'] at hch
  simp only [Option.some.injEq, Prod.mk.injEq] at hch
  obtain ⟨rfl, _⟩ := hch
  refine ⟨_, decoded, hload, rfl, hflip 11 (by decide), ?_⟩
  exact hpix 0 0 0 0 (by decide) (by decide) (by decide) (by decide)

/-! ## Byte streams : reads in terms of data and position -/

theorem SDL_IOStream.unread_advance (io : SDL_IOStream) (n : Nat) :
    (⟨io.data, io.pos + n⟩ : SDL_IOStream).unread = io.unread.drop n := by
  simp only [SDL_IOStream.unread, List.drop_drop]

theorem SDL_IOStream.unread_length (io : SDL_IOStream) :
    io.unread.length = io.data.length - io.pos := by
  simp only [SDL_IOStream.unread, List.length_drop]

/-- A read delivers all `size` bytes exactly when that many are left. -/
theorem SDL_ReadIO_length_iff (io : SDL_IOStream) (size : Nat) :
    ( SDL_ReadIO io size).1.length = size ↔ size ≤ io.data.length - io.pos := by
  rw [(io.read_unread size).1, List.length_take, io.unread_length]
  omega

/-- A read of `size` bytes where that many are left. -/
theorem SDL_ReadIO_of_le {io : SDL_IOStream} {size : Nat} (h : size ≤ io.data.length - io.pos) :
    SDL_ReadIO io size = (io.unread.take size, ⟨io.data, io.pos + size⟩) := by
  simp only [ SDL_ReadIO, List.length_take, io.unread_length, Nat.min_eq_left h]

/-- A u32 read that succeeds: four bytes were left, the stream has advanced by
four, and the value is that of the four bytes. -/
theorem SDL_ReadU32LE_eq_some {io io1 : SDL_IOStream} {v : Nat}
    (h : SDL_ReadU32LE io = some (v, io1)) :
    4 ≤ io.data.length - io.pos ∧ io1 = ⟨io.data, io.pos + 4⟩ ∧
      ∃ b0 b1 b2 b3, io.unread.take 4 = [b0, b1, b2, b3] ∧
        v = b0 + 256 * b1 + 65536 * b2 + 16777216 * b3 := by
  by_cases hl : 4 ≤ io.data.length - io.pos
  · refine ⟨hl, ?_⟩
    unfold SDL_ReadU32LE at h
    rw [SDL_ReadIO_of_le hl] at h
    match ht : io.unread.take 4, h with
    | [b0, b1, b2, b3], h =>
      simp only [Option.some.injEq, Prod.mk.injEq] at h
      exact ⟨h.2.symm, b0, b1, b2, b3, rfl, h.1.symm⟩
  · rw [SDL_ReadU32LE_short (by rw [io.unread_length]; omega)] at h
    cases h

/-- A u32 read where the next four bytes are known. -/
theorem SDL_ReadU32LE_of_take {io : SDL_IOStream} {b0 b1 b2 b3 : Nat}
    (h : io.unread.take 4 = [b0, b1, b2, b3]) :
    SDL_ReadU32LE io =
      some (b0 + 256 * b1 + 65536 * b2 + 16777216 * b3, ⟨io.data, io.pos + 4⟩) := by
  have hl : 4 ≤ io.data.length - io.pos := by
    have := congrArg List.length h
    rw [List.length_take, io.unread_length] at this
    simp only [List.length_cons, List.length_nil] at this
    omega
  unfold SDL_ReadU32LE
  rw [SDL_ReadIO_of_le hl, h]

/-- A u32 read in front of which the stream holds the little-endian bytes of `v`. -/
theorem SDL_ReadU32LE_u32le {io : SDL_IOStream} {v : Nat} {l : List Nat}
    (h : io.unread = u32le v ++ l) (hv : v < 4294967296) :
    SDL_ReadU32LE io = some (v, ⟨io.data, io.pos + 4⟩) := by
  have ht : io.unread.take 4 = [v % 256, v / 256 % 256, v / 65536 % 256, v / 16777216 % 256] := by
    rw [h]; rfl
  rw [SDL_ReadU32LE_of_take ht, u32le_value hv]

theorem u32le_length (v : Nat) : (u32le v).length = 4 := rfl

/-- The bytes from `pos` on, `n` of them, are the same in a stream and in any
extension of it, as long as they lie inside the stream. -/
theorem take_drop_append_of_le {data : List Nat} (t : List Nat) {pos n : Nat}
    (h : n ≤ data.length - pos) (hn : 0 < n) :
    ((data ++ t).drop pos).take n = (data.drop pos).take n := by
  rw [List.drop_append_of_le_length (by omega), List.take_append_of_le_length]
  rw [List.length_drop]
  exact h

/-- Appending bytes to the data of a stream does not change a u32 read that
succeeds. -/
theorem SDL_ReadU32LE_append {data : List Nat} {pos v : Nat} {io1 : SDL_IOStream}
    (h : SDL_ReadU32LE ⟨data, pos⟩ = some (v, io1)) (t : List Nat) :
    SDL_ReadU32LE ⟨data ++ t, pos⟩ = some (v, ⟨data ++ t, pos + 4⟩) := by
  obtain ⟨hl, _, b0, b1, b2, b3, ht, rfl⟩ := SDL_ReadU32LE_eq_some h
  simp only [SDL_IOStream.unread] at ht
  apply SDL_ReadU32LE_of_take
  simp only [SDL_IOStream.unread]
  rw [take_drop_append_of_le t hl (by omega), ht]

/-- Appending bytes to the data of a stream does not change a read that
delivers all its bytes. -/
theorem SDL_ReadIO_append {data : List Nat} {pos size : Nat}
    (h : ( SDL_ReadIO ⟨data, pos⟩ size).1.length = size) (t : List Nat) :
    ( SDL_ReadIO ⟨data ++ t, pos⟩ size).1 = ( SDL_ReadIO ⟨data, pos⟩ size).1 ∧
      ( SDL_ReadIO ⟨data ++ t, pos⟩ size).1.length = size := by
  have hl := (SDL_ReadIO_length_iff _ _).mp h
  simp only at hl
  have key : ( SDL_ReadIO ⟨data ++ t, pos⟩ size).1 = ( SDL_ReadIO ⟨data, pos⟩ size).1 := by
    rw [(SDL_IOStream.read_unread _ _).1, (SDL_IOStream.read_unread _ _).1]
    simp only [SDL_IOStream.unread]
    by_cases hn : 0 < size
    · exact take_drop_append_of_le t hl hn
    · have : size = 0 := by omega
      subst this
      rfl
  exact ⟨key, by rw [key]; exact h⟩

/-! ## BIN index : `LoadBinIDX` -/

theorem SDL_ReadU32LE_prefix {io : SDL_IOStream} {v : Nat} {l : List Nat}
    (h : io.unread = u32le v ++ l) (hv : v < 4294967296) :
    ∃ io1, SDL_ReadU32LE io = some (v, io1) ∧ io1.unread = l ∧ io1.data = io.data ∧
      io1.pos = io.pos + 4 := by
  refine ⟨⟨io.data, io.pos + 4⟩, SDL_ReadU32LE_u32le h hv, ?_, rfl, rfl⟩
  rw [io.unread_advance, h]
  rfl

theorem SDL_ReadIO_prefix {io : SDL_IOStream} {bytes l : List Nat}
    (h : io.unread = bytes ++ l) :
    ( SDL_ReadIO io bytes.length).1 = bytes ∧ ( SDL_ReadIO io bytes.length).2.unread = l ∧
      ( SDL_ReadIO io bytes.length).2.data = io.data ∧
      ( SDL_ReadIO io bytes.length).2.pos = io.pos + bytes.length := by
  have hl : bytes.length ≤ io.data.length - io.pos := by
    rw [← io.unread_length, h, List.length_append]
    omega
  rw [SDL_ReadIO_of_le hl]
  refine ⟨?_, ?_, rfl, rfl⟩
  · simp only [h, List.take_left']
  · simp only [io.unread_advance, h, List.drop_left']

/-- The bytes of one record of a BIN index. -/
theorem BinIndexBytes_cons (r : BinRecord) (rs : List BinRecord) :
    ((r :: rs).map (fun r => u32le r.name.length ++ r.name ++ u32le r.offset ++
        u32le r.length)).flatten =
      u32le r.name.length ++ (r.name ++ (u32le r.offset ++ (u32le r.length ++
        (rs.map (fun r => u32le r.name.length ++ r.name ++ u32le r.offset ++
          u32le r.length)).flatten))) := by
  simp only [List.map_cons, List.flatten_cons, List.append_assoc]

/-- The record loop of `LoadBinIDX` on the records of a well-formed index: one
entry per record, in order, behind the entries already stored. -/
theorem LoadBinIDX.records_of_index (tr : List Nat → List Nat) :
    ∀ (recs : List BinRecord) (src : SDL_IOStream) (buf : List PackEntry) (rest : List Nat),
      src.unread = (recs.map (fun r => u32le r.name.length ++ r.name ++ u32le r.offset ++
        u32le r.length)).flatten ++ rest →
      (∀ r ∈ recs, r.name.length < 4294967296 ∧ r.offset < 4294967296 ∧
        r.length < 4294967296) →
      ∃ src', LoadBinIDX.records tr recs.length src buf =
          .ok (buf ++ recs.map (fun r =>
            { off := r.offset, len := r.length,
              name := tr (r.name.takeWhile (fun b => b ≠ 0)) }), src') ∧
        src'.unread = rest ∧ src'.data = src.data ∧
        src'.pos = src.pos + ((recs.map (fun r => u32le r.name.length ++ r.name ++
          u32le r.offset ++ u32le r.length)).flatten).length := by
  intro recs
  induction recs with
  | nil =>
    intro src buf rest h _
    exact ⟨src, by simp [LoadBinIDX.records], by simpa using h, rfl, rfl⟩
  | cons r rs ih =>
    intro src buf rest h hr
    obtain ⟨hn, ho, hl⟩ := hr r (List.mem_cons_self _ _)
    rw [BinIndexBytes_cons, List.append_assoc] at h
    obtain ⟨s1, e1, u1, d1, p1⟩ := SDL_ReadU32LE_prefix h hn
    rw [List.append_assoc] at u1
    obtain ⟨e2, u2, d2, p2⟩ := SDL_ReadIO_prefix u1
    rw [List.append_assoc] at u2
    obtain ⟨s3, e3, u3, d3, p3⟩ := SDL_ReadU32LE_prefix u2 ho
    rw [List.append_assoc] at u3
    obtain ⟨s4, e4, u4, d4, p4⟩ := SDL_ReadU32LE_prefix u3 hl
    obtain ⟨src', e5, u5, d5, p5⟩ := ih s4
      (buf ++ [{ off := r.offset, len := r.length,
                 name := tr (r.name.takeWhile (fun b => b ≠ 0)) }]) rest u4
      (fun r' hr' => hr r' (List.mem_cons_of_mem _ hr'))
    refine ⟨src', ?_, u5, by rw [d5, d4, d3, d2, d1], ?_⟩
    · rw [List.length_cons, LoadBinIDX.records, e1]
      simp only [e2, ne_eq, not_true_eq_false, ↓reduceIte, e3, e4, CString_append_zero_eq]
      rw [e5]
      simp only [List.map_cons, List.append_assoc, List.singleton_append]
    · rw [p5, p4, p3, p2, p1, BinIndexBytes_cons]
      simp only [List.length_append, u32le_length]
      omega

/-- `LoadBinIDX` on a well-formed index followed by any bytes. -/
theorem LoadBinIDX_of_records (tr : List Nat → List Nat) (recs : List BinRecord)
    (rest : List Nat) (hN : recs.length < 4294967296)
    (hr : ∀ r ∈ recs, r.name.length < 4294967296 ∧ r.offset < 4294967296 ∧
      r.length < 4294967296) :
    LoadBinIDX tr ⟨BinIndexBytes recs ++ rest, 0⟩ =
      .ok (recs.map (fun r =>
        { off := r.offset, len := r.length, name := tr (r.name.takeWhile (fun b => b ≠ 0)) }),
        ⟨BinIndexBytes recs ++ rest, (BinIndexBytes recs).length⟩) := by
  have h0 : (⟨BinIndexBytes recs ++ rest, 0⟩ : SDL_IOStream).unread =
      u32le recs.length ++ ((recs.map (fun r => u32le r.name.length ++ r.name ++
        u32le r.offset ++ u32le r.length)).flatten ++ rest) := by
    simp only [SDL_IOStream.unread, List.drop_zero, BinIndexBytes, List.append_assoc]
  obtain ⟨s1, e1, u1, d1, p1⟩ := SDL_ReadU32LE_prefix h0 hN
  obtain ⟨src', e2, _, d2, p2⟩ := LoadBinIDX.records_of_index tr recs s1 [] rest u1 hr
  unfold LoadBinIDX
  rw [e1]
  simp only
  rw [e2, List.nil_append]
  have : src' = ⟨BinIndexBytes recs ++ rest, (BinIndexBytes recs).length⟩ := by
    cases src' with
    | mk data pos =>
      simp only at d2 p2
      rw [d2, d1, p2, p1]
      simp only [BinIndexBytes, List.length_append, u32le_length, Nat.zero_add]
  rw [this]

/-- C12 (as amended): on a well-formed BIN index (a u32 count `N`, then `N`
records of u32 name_length, the name bytes, u32 offset, u32 length; names
shorter than `2^32 - 1` bytes), followed by any bytes, `LoadBinIDX` succeeds
and returns exactly one entry per record in the order of the file, with the
record's offset and length, duplicates included; the name of an entry is the
transcoding of the record's name bytes taken as a C string, that is of the
bytes before the first `00` byte (of all of them when none is `00`); the stream
is left behind the last record; `N = 0` gives the empty directory. -/
theorem LoadBinIDX_spec (tr : List Nat → List Nat) (recs : List BinRecord) (rest : List Nat)
    (hN : recs.length < 4294967296)
    (hr : ∀ r ∈ recs, r.name.length + 1 < 4294967296 ∧ r.offset < 4294967296 ∧
      r.length < 4294967296) :
    LoadBinIDX tr ⟨BinIndexBytes recs ++ rest, 0⟩ =
      .ok (recs.map (fun r =>
        { off := r.offset, len := r.length, name := tr (r.name.takeWhile (fun b => b ≠ 0)) }),
        ⟨BinIndexBytes recs ++ rest, (BinIndexBytes recs).length⟩) ∧
    ((∀ r ∈ recs, ∀ b ∈ r.name, b ≠ 0) →
      LoadBinIDX tr ⟨BinIndexBytes recs ++ rest, 0⟩ =
        .ok (recs.map (fun r => { off := r.offset, len := r.length, name := tr r.name }),
          ⟨BinIndexBytes recs ++ rest, (BinIndexBytes recs).length⟩)) ∧
    LoadBinIDX tr ⟨BinIndexBytes [] ++ rest, 0⟩ = .ok ([], ⟨BinIndexBytes [] ++ rest, 4⟩) := by
  have hr' : ∀ r ∈ recs, r.name.length < 4294967296 ∧ r.offset < 4294967296 ∧
      r.length < 4294967296 := fun r hm => ⟨by have := (hr r hm).1; omega, (hr r hm).2⟩
  have key := LoadBinIDX_of_records tr recs rest hN hr'
  refine ⟨key, ?_, ?_⟩
  · intro hnz
    rw [key]
    simp only [Except.ok.injEq, Prod.mk.injEq, and_true]
    apply List.map_congr_left
    intro r hm
    have htw : r.name.takeWhile (fun b => b ≠ 0) = r.name := by
      rw [List.takeWhile_eq_self_iff]
      intro b hb
      simpa using hnz r hm b hb
    rw [htw]
  · exact LoadBinIDX_of_records tr [] rest (by decide) (by simp)

/-- C12, at the index of scenario 6: one entry `TEST.TXT`, offset 0, length 5. -/
theorem LoadBinIDX_spec_witness :
    LoadBinIDX id
        ⟨BinIndexBytes [⟨[0x54, 0x45, 0x53, 0x54, 0x2E, 0x54, 0x58, 0x54], 0, 5⟩] ++ [], 0⟩ =
      .ok ([{ off := 0, len := 5, name := [0x54, 0x45, 0x53, 0x54, 0x2E, 0x54, 0x58, 0x54] }],
        ⟨BinIndexBytes [⟨[0x54, 0x45, 0x53, 0x54, 0x2E, 0x54, 0x58, 0x54], 0, 5⟩] ++ [], 24⟩) :=
  (LoadBinIDX_spec id [⟨[0x54, 0x45, 0x53, 0x54, 0x2E, 0x54, 0x58, 0x54], 0, 5⟩] []
    (by decide) (by decide)).2.1 (by decide)

/-- C12 as stated fails for a name with a zero byte: for the record with the
name bytes `41 00 42` the entry's name is the transcoding of `41` (the
transcoder is the identity here, to show what it is handed), not of
`41 00 42`. -/
theorem LoadBinIDX_name_with_zero :
    LoadBinIDX id ⟨BinIndexBytes [⟨[0x41, 0x00, 0x42], 0, 5⟩], 0⟩ =
        .ok ([{ off := 0, len := 5, name := [0x41] }],
          ⟨BinIndexBytes [⟨[0x41, 0x00, 0x42], 0, 5⟩], 19⟩) ∧
      LoadBinIDX id ⟨BinIndexBytes [⟨[0x41, 0x00, 0x42], 0, 5⟩], 0⟩ ≠
        .ok ([{ off := 0, len := 5, name := id [0x41, 0x00, 0x42] }],
          ⟨BinIndexBytes [⟨[0x41, 0x00, 0x42], 0, 5⟩], 19⟩) := by
  have h : LoadBinIDX id ⟨BinIndexBytes [⟨[0x41, 0x00, 0x42], 0, 5⟩], 0⟩ =
      .ok ([{ off := 0, len := 5, name := [0x41] }],
        ⟨BinIndexBytes [⟨[0x41, 0x00, 0x42], 0, 5⟩], 19⟩) := by
    rfl
  refine ⟨h, ?_⟩
  rw [h]
  intro hc
  simp at hc

/-! ## LB5 index : `LoadLB5IDX` -/

theorem LB5IndexBytes_cons (r : LB5Record) (rs : List LB5Record) :
    ((r :: rs).map (fun r => u32le r.offset ++ u32le r.length ++ [r.pad] ++ r.name)).flatten =
      u32le r.offset ++ (u32le r.length ++ (r.pad :: (r.name ++
        (rs.map (fun r => u32le r.offset ++ u32le r.length ++ [r.pad] ++ r.name)).flatten))) := by
  simp only [List.map_cons, List.flatten_cons, List.append_assoc, List.singleton_append]
  rfl

theorem LB5IndexBytes_records_length (recs : List LB5Record)
    (h : ∀ r ∈ recs, r.name.length = 15) :
    ((recs.map (fun r => u32le r.offset ++ u32le r.length ++ [r.pad] ++ r.name)).flatten).length =
      24 * recs.length := by
  induction recs with
  | nil => rfl
  | cons r rs ih =>
    rw [LB5IndexBytes_cons]
    simp only [List.length_append, List.length_cons, u32le_length,
      h r (List.mem_cons_self _ _), ih (fun r' hr' => h r' (List.mem_cons_of_mem _ hr'))]
    omega

/-- The record loop of `LoadLB5IDX` on records of 24 bytes: one entry per
record, in order; the name is the transcoding of the C string that starts at
the record's 15 name bytes and runs on into `after`. -/
theorem LoadLB5IDX.records_of_lb5 (tr : List Nat → List Nat) (after : List Nat) :
    ∀ (recs : List LB5Record) (src : SDL_IOStream) (buf : List PackEntry) (rest : List Nat),
      src.unread = (recs.map (fun r => u32le r.offset ++ u32le r.length ++ [r.pad] ++
        r.name)).flatten ++ rest →
      (∀ r ∈ recs, r.name.length = 15 ∧ r.offset < 4294967296 ∧ r.length < 4294967296) →
      ∃ src', LoadLB5IDX.records tr after recs.length src buf =
          .ok (buf ++ recs.map (fun r =>
            { off := r.offset, len := r.length, name := tr (CString (r.name ++ after)) }),
            src') ∧
        src'.unread = rest ∧ src'.data = src.data ∧ src'.pos = src.pos + 24 * recs.length := by
  intro recs
  induction recs with
  | nil =>
    intro src buf rest h _
    exact ⟨src, by simp [LoadLB5IDX.records], by simpa using h, rfl, rfl⟩
  | cons r rs ih =>
    intro src buf rest h hr
    obtain ⟨hn, ho, hl⟩ := hr r (List.mem_cons_self _ _)
    rw [LB5IndexBytes_cons, List.append_assoc] at h
    obtain ⟨s1, e1, u1, d1, p1⟩ := SDL_ReadU32LE_prefix h ho
    rw [List.append_assoc] at u1
    obtain ⟨s2, e2, u2, d2, p2⟩ := SDL_ReadU32LE_prefix u1 hl
    have u3 : (SDL_SeekIO_CUR s2 1).unread = r.name ++
        ((rs.map (fun r => u32le r.offset ++ u32le r.length ++ [r.pad] ++ r.name)).flatten ++
          rest) := by
      have := s2.unread_advance 1
      rw [u2] at this
      simpa using this
    obtain ⟨e4, u4, d4, p4⟩ := SDL_ReadIO_prefix u3
    rw [hn] at e4 u4 d4 p4
    obtain ⟨src', e5, u5, d5, p5⟩ := ih ( SDL_ReadIO (SDL_SeekIO_CUR s2 1) 15).2
      (buf ++ [{ off := r.offset, len := r.length, name := tr (CString (r.name ++ after)) }])
      rest u4 (fun r' hr' => hr r' (List.mem_cons_of_mem _ hr'))
    refine ⟨src', ?_, u5, ?_, ?_⟩
    · rw [List.length_cons, LoadLB5IDX.records, e1]
      simp only [e2, e4, hn, ne_eq, not_true_eq_false, ↓reduceIte]
      rw [e5]
      simp only [List.map_cons, List.append_assoc, List.singleton_append]
    · rw [d5, d4]
      show s2.data = src.data
      rw [d2, d1]
    · rw [p5, p4]
      show s2.pos + 1 + 15 + 24 * rs.length = src.pos + 24 * (rs.length + 1)
      rw [p2, p1]
      omega

/-- `LoadLB5IDX` on an index of `N` records of 24 bytes followed by any bytes:
it consumes `4 + 24 * N` bytes. -/
theorem LoadLB5IDX_of_records (tr : List Nat → List Nat) (after : List Nat)
    (recs : List LB5Record) (rest : List Nat) (hN : recs.length < 4294967296)
    (hr : ∀ r ∈ recs, r.name.length = 15 ∧ r.offset < 4294967296 ∧ r.length < 4294967296) :
    LoadLB5IDX tr after ⟨LB5IndexBytes recs ++ rest, 0⟩ =
      .ok (recs.map (fun r =>
        { off := r.offset, len := r.length, name := tr (CString (r.name ++ after)) }),
        ⟨LB5IndexBytes recs ++ rest, 4 + 24 * recs.length⟩) := by
  have h0 : (⟨LB5IndexBytes recs ++ rest, 0⟩ : SDL_IOStream).unread =
      u32le recs.length ++ ((recs.map (fun r => u32le r.offset ++ u32le r.length ++ [r.pad] ++
        r.name)).flatten ++ rest) := by
    simp only [SDL_IOStream.unread, List.drop_zero, LB5IndexBytes, List.append_assoc]
  obtain ⟨s1, e1, u1, d1, p1⟩ := SDL_ReadU32LE_prefix h0 hN
  obtain ⟨src', e2, _, d2, p2⟩ := LoadLB5IDX.records_of_lb5 tr after recs s1 [] rest u1 hr
  unfold LoadLB5IDX
  rw [e1]
  simp only
  rw [e2, List.nil_append]
  have : src' = ⟨LB5IndexBytes recs ++ rest, 4 + 24 * recs.length⟩ := by
    cases src' with
    | mk data pos =>
      simp only at d2 p2
      rw [d2, d1, p2, p1]
  rw [this]

theorem CString_append_of_zero_mem {name : List Nat} (after : List Nat) (h : 0 ∈ name) :
    CString (name ++ after) = name.takeWhile (fun b => b ≠ 0) := by
  unfold CString
  induction name with
  | nil => simp at h
  | cons a l ih =>
    by_cases ha : a = 0
    · simp [ha]
    · have hl : 0 ∈ l := by
        rcases List.mem_cons.mp h with h0 | h0
        · exact absurd h0.symm ha
        · exact h0
      simp only [List.cons_append, List.takeWhile_cons, ha, ne_eq, not_false_eq_true,
        decide_True, ↓reduceIte, List.cons.injEq, true_and]
      exact ih hl

/-- C13: on an index of `N` records of 24 bytes `LoadLB5IDX` succeeds, consumes
`4 + 24 * N` bytes and returns one entry per record in order, with the record's
offset and length, the padding byte skipped; the name is the transcoding of the
C string at the record's name bytes.  Where one of the 15 bytes is `00` that is
the name bytes before the first `00`.  Where none is, the C string runs on behind
the 15-byte array `name_jis` into whatever memory holds there (`after`): for the
name `ABCDEFGHIJKLMNO` followed in memory by `21 00` the entry's name has 16
bytes (the transcoder is the identity here). -/
theorem LoadLB5IDX_name_overrun :
    (∀ (tr : List Nat → List Nat) (after : List Nat) (recs : List LB5Record) (rest : List Nat),
      recs.length < 4294967296 →
      (∀ r ∈ recs, r.name.length = 15 ∧ r.offset < 4294967296 ∧ r.length < 4294967296) →
      LoadLB5IDX tr after ⟨LB5IndexBytes recs ++ rest, 0⟩ =
        .ok (recs.map (fun r =>
          { off := r.offset, len := r.length, name := tr (CString (r.name ++ after)) }),
          ⟨LB5IndexBytes recs ++ rest, 4 + 24 * recs.length⟩)) ∧
    (∀ name after : List Nat, 0 ∈ name →
      CString (name ++ after) = name.takeWhile (fun b => b ≠ 0)) ∧
    LoadLB5IDX id [0x21, 0x00]
        ⟨LB5IndexBytes [⟨3, 5, 0, [0x41, 0x42, 0x43, 0x44, 0x45, 0x46, 0x47, 0x48, 0x49, 0x4A,
          0x4B, 0x4C, 0x4D, 0x4E, 0x4F]⟩], 0⟩ =
      .ok ([{ off := 3, len := 5,
              name := [0x41, 0x42, 0x43, 0x44, 0x45, 0x46, 0x47, 0x48, 0x49, 0x4A, 0x4B, 0x4C,
                0x4D, 0x4E, 0x4F, 0x21] }],
        ⟨LB5IndexBytes [⟨3, 5, 0, [0x41, 0x42, 0x43, 0x44, 0x45, 0x46, 0x47, 0x48, 0x49, 0x4A,
          0x4B, 0x4C, 0x4D, 0x4E, 0x4F]⟩], 28⟩) := by
  refine ⟨?_, ?_, by rfl⟩
  · intro tr after recs rest hN hr
    exact LoadLB5IDX_of_records tr after recs rest hN hr
  · intro name after h
    exact CString_append_of_zero_mem after h

/-- C13, at a record whose name `AB` is padded with NULs: the name is `AB`
whatever lies behind the array. -/
theorem LoadLB5IDX_name_overrun_witness :
    LoadLB5IDX id [0x21, 0x00]
        ⟨LB5IndexBytes [⟨3, 5, 0, [0x41, 0x42, 0, 0, 0, 0, 0, 0, 0, 0, 0, 0, 0, 0, 0]⟩] ++ [], 0⟩ =
      .ok ([{ off := 3, len := 5, name := [0x41, 0x42] }],
        ⟨LB5IndexBytes [⟨3, 5, 0, [0x41, 0x42, 0, 0, 0, 0, 0, 0, 0, 0, 0, 0, 0, 0, 0]⟩] ++ [],
          28⟩) :=
  LoadLB5IDX_name_overrun.1 id [0x21, 0x00]
    [⟨3, 5, 0, [0x41, 0x42, 0, 0, 0, 0, 0, 0, 0, 0, 0, 0, 0, 0, 0]⟩] [] (by decide) (by decide)

/-! ## BIN and LB5 index : truncated input -/

/-- A read that delivers all its bytes, in terms of data and position, for the
stream and for every extension of its data. -/
theorem SDL_ReadIO_full {data : List Nat} {pos size : Nat}
    (h : ( SDL_ReadIO ⟨data, pos⟩ size).1.length = size) :
    size ≤ data.length - pos ∧
      ∀ t, SDL_ReadIO ⟨data ++ t, pos⟩ size =
        (( SDL_ReadIO ⟨data, pos⟩ size).1, ⟨data ++ t, pos + size⟩) := by
  have hl := (SDL_ReadIO_length_iff _ _).mp h
  simp only at hl
  refine ⟨hl, fun t => ?_⟩
  have hl' : size ≤ (data ++ t).length - pos := by
    rw [List.length_append]; omega
  have h1 := @SDL_ReadIO_of_le ⟨data ++ t, pos⟩ size hl'
  rw [h1, ← (SDL_ReadIO_append h t).1, (SDL_IOStream.read_unread _ _).1]

theorem SDL_ReadU32LE_mk_some {data : List Nat} {pos v : Nat} {io1 : SDL_IOStream}
    (h : SDL_ReadU32LE ⟨data, pos⟩ = some (v, io1)) :
    4 ≤ data.length - pos ∧ io1 = ⟨data, pos + 4⟩ :=
  ⟨(SDL_ReadU32LE_eq_some h).1, (SDL_ReadU32LE_eq_some h).2.1⟩

theorem LoadBinIDX.records_fail (tr : List Nat → List Nat) :
    ∀ (n : Nat) (src : SDL_IOStream) (buf : List PackEntry) (e : LoadError),
      LoadBinIDX.records tr n src buf = .error e → e = .io := by
  intro n
  induction n with
  | zero => intro src buf e h; simp [LoadBinIDX.records] at h
  | succ n ih =>
    intro src buf e h
    rw [LoadBinIDX.records] at h
    split at h
    · simp only [Except.error.injEq] at h; exact h.symm
    · simp only at h
      split_ifs at h
      · simp only [Except.error.injEq] at h; exact h.symm
      · split at h
        · simp only [Except.error.injEq] at h; exact h.symm
        · split at h
          · simp only [Except.error.injEq] at h; exact h.symm
          · exact ih _ _ _ h

theorem LoadLB5IDX.records_lb5_fail (tr : List Nat → List Nat) (after : List Nat) :
    ∀ (n : Nat) (src : SDL_IOStream) (buf : List PackEntry) (e : LoadError),
      LoadLB5IDX.records tr after n src buf = .error e → e = .io := by
  intro n
  induction n with
  | zero => intro src buf e h; simp [LoadLB5IDX.records] at h
  | succ n ih =>
    intro src buf e h
    rw [LoadLB5IDX.records] at h
    split at h
    · simp only [Except.error.injEq] at h; exact h.symm
    · split at h
      · simp only [Except.error.injEq] at h; exact h.symm
      · simp only at h
        split_ifs at h
        · simp only [Except.error.injEq] at h; exact h.symm
        · exact ih _ _ _ h

/-- A record loop of `LoadBinIDX` that succeeds has stayed inside the data, and
it does the same on every extension of the data. -/
theorem LoadBinIDX.records_extend (tr : List Nat → List Nat) :
    ∀ (n : Nat) (data : List Nat) (pos : Nat) (buf es : List PackEntry) (src' : SDL_IOStream),
      pos ≤ data.length →
      LoadBinIDX.records tr n ⟨data, pos⟩ buf = .ok (es, src') →
      ∃ pos', src' = ⟨data, pos'⟩ ∧ pos' ≤ data.length ∧
        ∀ t, LoadBinIDX.records tr n ⟨data ++ t, pos⟩ buf = .ok (es, ⟨data ++ t, pos'⟩) := by
  intro n
  induction n with
  | zero =>
    intro data pos buf es src' hp h
    simp only [LoadBinIDX.records, Except.ok.injEq, Prod.mk.injEq] at h
    obtain ⟨rfl, rfl⟩ := h
    exact ⟨pos, rfl, hp, fun t => rfl⟩
  | succ n ih =>
    intro data pos buf es src' hp h
    rw [LoadBinIDX.records] at h
    cases h1 : SDL_ReadU32LE ⟨data, pos⟩ with
    | none => rw [h1] at h; cases h
    | some v1 =>
      obtain ⟨name_len, s1⟩ := v1
      rw [h1] at h
      simp only at h
      obtain ⟨hl1, rfl⟩ := SDL_ReadU32LE_mk_some h1
      by_cases hn : ( SDL_ReadIO ⟨data, pos + 4⟩ name_len).1.length ≠ name_len
      · rw [if_pos hn] at h; cases h
      · rw [if_neg hn] at h
        simp only [ne_eq, Decidable.not_not] at hn
        obtain ⟨hl2, hext2⟩ := SDL_ReadIO_full hn
        have e2 := hext2 []
        rw [List.append_nil] at e2
        rw [e2] at h
        simp only at h
        cases h3 : SDL_ReadU32LE ⟨data, pos + 4 + name_len⟩ with
        | none => rw [h3] at h; cases h
        | some v3 =>
          obtain ⟨off, s3⟩ := v3
          rw [h3] at h
          simp only at h
          obtain ⟨hl3, rfl⟩ := SDL_ReadU32LE_mk_some h3
          cases h4 : SDL_ReadU32LE ⟨data, pos + 4 + name_len + 4⟩ with
          | none => rw [h4] at h; cases h
          | some v4 =>
            obtain ⟨len, s4⟩ := v4
            rw [h4] at h
            simp only at h
            obtain ⟨hl4, rfl⟩ := SDL_ReadU32LE_mk_some h4
            obtain ⟨pos', rfl, hp', hext⟩ := ih data _ _ es src' (by omega) h
            refine ⟨pos', rfl, hp', fun t => ?_⟩
            rw [LoadBinIDX.records, SDL_ReadU32LE_append h1 t]
            simp only [hext2 t, hn, ne_eq, not_true_eq_false, ↓reduceIte,
              SDL_ReadU32LE_append h3 t, SDL_ReadU32LE_append h4 t]
            exact hext t

/-- `LoadBinIDX` that succeeds has stayed inside the data, and it does the same
on every extension of the data. -/
theorem LoadBinIDX_append (tr : List Nat → List Nat) {data : List Nat} {es : List PackEntry}
    {src' : SDL_IOStream} (h : LoadBinIDX tr ⟨data, 0⟩ = .ok (es, src')) :
    ∃ pos', src' = ⟨data, pos'⟩ ∧ pos' ≤ data.length ∧
      ∀ t, LoadBinIDX tr ⟨data ++ t, 0⟩ = .ok (es, ⟨data ++ t, pos'⟩) := by
  unfold LoadBinIDX at h
  cases h1 : SDL_ReadU32LE ⟨data, 0⟩ with
  | none => rw [h1] at h; cases h
  | some v1 =>
    obtain ⟨len, s1⟩ := v1
    rw [h1] at h
    simp only at h
    obtain ⟨hl1, rfl⟩ := SDL_ReadU32LE_mk_some h1
    obtain ⟨pos', rfl, hp', hext⟩ := LoadBinIDX.records_extend tr len data _ [] es src'
      (by omega) h
    refine ⟨pos', rfl, hp', fun t => ?_⟩
    unfold LoadBinIDX
    rw [SDL_ReadU32LE_append h1 t]
    exact hext t

theorem LoadBinIDX_error (tr : List Nat → List Nat) {src : SDL_IOStream} {e : LoadError}
    (h : LoadBinIDX tr src = .error e) : e = .io := by
  unfold LoadBinIDX at h
  split at h
  · simp only [Except.error.injEq] at h; exact h.symm
  · exact LoadBinIDX.records_fail tr _ _ _ _ h

/-- A record loop of `LoadLB5IDX` that succeeds has stayed inside the data, and
it does the same on every extension of the data. -/
theorem LoadLB5IDX.records_lb5_extend (tr : List Nat → List Nat) (after : List Nat) :
    ∀ (n : Nat) (data : List Nat) (pos : Nat) (buf es : List PackEntry) (src' : SDL_IOStream),
      pos ≤ data.length →
      LoadLB5IDX.records tr after n ⟨data, pos⟩ buf = .ok (es, src') →
      ∃ pos', src' = ⟨data, pos'⟩ ∧ pos' ≤ data.length ∧
        ∀ t, LoadLB5IDX.records tr after n ⟨data ++ t, pos⟩ buf =
          .ok (es, ⟨data ++ t, pos'⟩) := by
  intro n
  induction n with
  | zero =>
    intro data pos buf es src' hp h
    simp only [LoadLB5IDX.records, Except.ok.injEq, Prod.mk.injEq] at h
    obtain ⟨rfl, rfl⟩ := h
    exact ⟨pos, rfl, hp, fun t => rfl⟩
  | succ n ih =>
    intro data pos buf es src' hp h
    rw [LoadLB5IDX.records] at h
    cases h1 : SDL_ReadU32LE ⟨data, pos⟩ with
    | none => rw [h1] at h; cases h
    | some v1 =>
      obtain ⟨off, s1⟩ := v1
      rw [h1] at h
      simp only at h
      obtain ⟨hl1, rfl⟩ := SDL_ReadU32LE_mk_some h1
      cases h2 : SDL_ReadU32LE ⟨data, pos + 4⟩ with
      | none => rw [h2] at h; cases h
      | some v2 =>
        obtain ⟨len, s2⟩ := v2
        rw [h2] at h
        simp only at h
        obtain ⟨hl2, rfl⟩ := SDL_ReadU32LE_mk_some h2
        have hseek : ∀ d : List Nat, SDL_SeekIO_CUR ⟨d, pos + 4 + 4⟩ 1 = ⟨d, pos + 4 + 4 + 1⟩ :=
          fun _ => rfl
        rw [hseek] at h
        by_cases hn : ( SDL_ReadIO ⟨data, pos + 4 + 4 + 1⟩ 15).1.length ≠ 15
        · rw [if_pos hn] at h; cases h
        · rw [if_neg hn] at h
          simp only [ne_eq, Decidable.not_not] at hn
          obtain ⟨hl3, hext3⟩ := SDL_ReadIO_full hn
          have e3 := hext3 []
          rw [List.append_nil] at e3
          rw [e3] at h
          simp only at h
          obtain ⟨pos', rfl, hp', hext⟩ := ih data _ _ es src' (by omega) h
          refine ⟨pos', rfl, hp', fun t => ?_⟩
          rw [LoadLB5IDX.records, SDL_ReadU32LE_append h1 t]
          simp only [SDL_ReadU32LE_append h2 t, hseek, hext3 t, hn, ne_eq, not_true_eq_false,
            ↓reduceIte]
          exact hext t

theorem LoadLB5IDX_append (tr : List Nat → List Nat) (after : List Nat) {data : List Nat}
    {es : List PackEntry} {src' : SDL_IOStream}
    (h : LoadLB5IDX tr after ⟨data, 0⟩ = .ok (es, src')) :
    ∃ pos', src' = ⟨data, pos'⟩ ∧ pos' ≤ data.length ∧
      ∀ t, LoadLB5IDX tr after ⟨data ++ t, 0⟩ = .ok (es, ⟨data ++ t, pos'⟩) := by
  unfold LoadLB5IDX at h
  cases h1 : SDL_ReadU32LE ⟨data, 0⟩ with
  | none => rw [h1] at h; cases h
  | some v1 =>
    obtain ⟨len, s1⟩ := v1
    rw [h1] at h
    simp only at h
    obtain ⟨hl1, rfl⟩ := SDL_ReadU32LE_mk_some h1
    obtain ⟨pos', rfl, hp', hext⟩ := LoadLB5IDX.records_lb5_extend tr after len data _ [] es src'
      (by omega) h
    refine ⟨pos', rfl, hp', fun t => ?_⟩
    unfold LoadLB5IDX
    rw [SDL_ReadU32LE_append h1 t]
    exact hext t

theorem LoadLB5IDX_error (tr : List Nat → List Nat) (after : List Nat) {src : SDL_IOStream}
    {e : LoadError} (h : LoadLB5IDX tr after src = .error e) : e = .io := by
  unfold LoadLB5IDX at h
  split at h
  · simp only [Except.error.injEq] at h; exact h.symm
  · exact LoadLB5IDX.records_lb5_fail tr after _ _ _ _ h

/-- C14: an index cut short fails.  Where the bytes of a stream are a proper
beginning of a well-formed BIN index, or of an LB5 index of `N` records of 24
bytes (they end inside the count field or before the last declared record is
complete), `LoadBinIDX` and `LoadLB5IDX` return `false` through a failed read
and hand no entries back, the complete records included. -/
theorem index_truncated (tr : List Nat → List Nat) (after : List Nat) :
    (∀ (recs : List BinRecord) (k : Nat), recs.length < 4294967296 →
      (∀ r ∈ recs, r.name.length + 1 < 4294967296 ∧ r.offset < 4294967296 ∧
        r.length < 4294967296) →
      k < (BinIndexBytes recs).length →
      LoadBinIDX tr ⟨(BinIndexBytes recs).take k, 0⟩ = .error .io) ∧
    (∀ (recs : List LB5Record) (k : Nat), recs.length < 4294967296 →
      (∀ r ∈ recs, r.name.length = 15 ∧ r.offset < 4294967296 ∧ r.length < 4294967296) →
      k < (LB5IndexBytes recs).length →
      LoadLB5IDX tr after ⟨(LB5IndexBytes recs).take k, 0⟩ = .error .io) := by
  constructor
  · intro recs k hN hr hk
    cases h : LoadBinIDX tr ⟨(BinIndexBytes recs).take k, 0⟩ with
    | error e => rw [LoadBinIDX_error tr h]
    | ok v =>
      exfalso
      obtain ⟨es, src'⟩ := v
      obtain ⟨pos', _, hp', hext⟩ := LoadBinIDX_append tr h
      have h1 := hext ((BinIndexBytes recs).drop k)
      rw [List.take_append_drop] at h1
      have h2 := LoadBinIDX_of_records tr recs [] hN
        (fun r hm => ⟨by have := (hr r hm).1; omega, (hr r hm).2⟩)
      rw [List.append_nil, h1] at h2
      simp only [Except.ok.injEq, Prod.mk.injEq, SDL_IOStream.mk.injEq, true_and] at h2
      rw [List.length_take] at hp'
      omega
  · intro recs k hN hr hk
    cases h : LoadLB5IDX tr after ⟨(LB5IndexBytes recs).take k, 0⟩ with
    | error e => rw [LoadLB5IDX_error tr after h]
    | ok v =>
      exfalso
      obtain ⟨es, src'⟩ := v
      obtain ⟨pos', _, hp', hext⟩ := LoadLB5IDX_append tr after h
      have h1 := hext ((LB5IndexBytes recs).drop k)
      rw [List.take_append_drop] at h1
      have h2 := LoadLB5IDX_of_records tr after recs [] hN hr
      rw [List.append_nil, h1] at h2
      simp only [Except.ok.injEq, Prod.mk.injEq, SDL_IOStream.mk.injEq, true_and] at h2
      rw [List.length_take] at hp'
      have hlen : (LB5IndexBytes recs).length = 4 + 24 * recs.length := by
        unfold LB5IndexBytes
        rw [List.length_append, u32le_length,
          LB5IndexBytes_records_length recs (fun r hm => (hr r hm).1)]
      omega

/-- C14, at the index of scenario 6 cut after 20 of its 24 bytes (the record's
length field is missing) and at an LB5 index of one record cut after 27 of its 28
bytes. -/
theorem index_truncated_witness :
    LoadBinIDX id ⟨(BinIndexBytes
        [⟨[0x54, 0x45, 0x53, 0x54, 0x2E, 0x54, 0x58, 0x54], 0, 5⟩]).take 20, 0⟩ = .error .io ∧
      LoadLB5IDX id [] ⟨(LB5IndexBytes
        [⟨3, 5, 0, [0x41, 0x42, 0, 0, 0, 0, 0, 0, 0, 0, 0, 0, 0, 0, 0]⟩]).take 27, 0⟩ =
        .error .io :=
  ⟨(index_truncated id []).1 [⟨[0x54, 0x45, 0x53, 0x54, 0x2E, 0x54, 0x58, 0x54], 0, 5⟩] 20
      (by decide) (by decide) (by decide),
    (index_truncated id []).2 [⟨3, 5, 0, [0x41, 0x42, 0, 0, 0, 0, 0, 0, 0, 0, 0, 0, 0, 0, 0]⟩] 27
      (by decide) (by decide) (by decide)⟩

/-! ## Pack files : `PackFile::ReadEntry` and `OpenPackFile` -/

/-- `ReadEntry` returns a buffer exactly when `len` bytes are left from `off` on. -/
theorem PackFile.ReadEntry_isSome (pack : PackFile) (entry : PackEntry) :
    (∃ buf, (pack.ReadEntry entry).1 = some buf) ↔
      entry.len ≤ pack.lump_file.data.length - entry.off := by
  have hiff := SDL_ReadIO_length_iff (SDL_SeekIO_SET pack.lump_file entry.off) entry.len
  simp only [SDL_SeekIO_SET] at hiff
  unfold PackFile.ReadEntry
  simp only [SDL_SeekIO_SET]
  constructor
  · rintro ⟨buf, h⟩
    split_ifs at h with hl
    simp only [ne_eq, Decidable.not_not] at hl
    exact hiff.mp hl
  · intro h
    rw [if_neg (by simpa using hiff.mpr h)]
    exact ⟨_, rfl⟩

/-- C15: for every pack (lump body `L` = the data of its lump stream) and every
entry, `ReadEntry` returns exactly the bytes `L[off .. off + len)` when
`off + len <= |L|`, returns no buffer when fewer than `len` bytes are left from
`off` on, and in both cases leaves the directory and the lump's bytes as they
are (the entry is passed by `const` pointer and is not part of the result). -/
theorem PackFile.ReadEntry_spec (pack : PackFile) (entry : PackEntry) :
    (entry.off + entry.len ≤ pack.lump_file.data.length →
      (pack.ReadEntry entry).1 = some ((pack.lump_file.data.drop entry.off).take entry.len) ∧
        ((pack.lump_file.data.drop entry.off).take entry.len).length = entry.len) ∧
    (pack.lump_file.data.length - entry.off < entry.len → (pack.ReadEntry entry).1 = none) ∧
    (pack.ReadEntry entry).2.entries = pack.entries ∧
    (pack.ReadEntry entry).2.lump_file.data = pack.lump_file.data := by
  have hiff := SDL_ReadIO_length_iff (SDL_SeekIO_SET pack.lump_file entry.off) entry.len
  simp only [SDL_SeekIO_SET] at hiff
  refine ⟨?_, ?_, ?_, ?_⟩
  · intro h
    have hl : entry.len ≤ pack.lump_file.data.length - entry.off := by omega
    refine ⟨?_, by rw [List.length_take, List.length_drop]; omega⟩
    unfold PackFile.ReadEntry
    simp only [SDL_SeekIO_SET]
    rw [if_neg (by simpa using hiff.mpr hl)]
    simp only [(SDL_IOStream.read_unread _ _).1, SDL_IOStream.unread]
  · intro h
    unfold PackFile.ReadEntry
    simp only [SDL_SeekIO_SET]
    rw [if_pos (by rw [ne_eq, hiff]; omega)]
  · unfold PackFile.ReadEntry
    simp only
    split_ifs <;> rfl
  · unfold PackFile.ReadEntry
    simp only
    split_ifs <;> rfl

/-- C15, at the lump `hello` of scenario 6 and its entry at offset 0 of length 5. -/
theorem PackFile.ReadEntry_spec_witness :
    (PackFile.ReadEntry ⟨[], ⟨[0x68, 0x65, 0x6C, 0x6C, 0x6F], 3⟩⟩
        ⟨0, 5, [0x54, 0x45, 0x53, 0x54, 0x2E, 0x54, 0x58, 0x54]⟩).1 =
      some [0x68, 0x65, 0x6C, 0x6C, 0x6F] :=
  ((PackFile.ReadEntry_spec ⟨[], ⟨[0x68, 0x65, 0x6C, 0x6C, 0x6F], 3⟩⟩
    ⟨0, 5, [0x54, 0x45, 0x53, 0x54, 0x2E, 0x54, 0x58, 0x54]⟩).1 (by decide)).1

/-- What the scan of `Extension` returns is what it started with or the part of
the path behind one of its dots. -/
theorem Extension.scan_suffix :
    ∀ (path : List Char) (prev : Char) (end_part : Option (List Char)) (e : List Char),
      Extension.scan prev end_part path = some e →
      end_part = some e ∨ ∃ stem, path = stem ++ '.' :: e := by
  intro path
  induction path with
  | nil =>
    intro prev end_part e h
    exact Or.inl h
  | cons c rest ih =>
    intro prev end_part e h
    rw [Extension.scan] at h
    rcases ih c _ e h with h1 | ⟨stem, h1⟩
    · split_ifs at h1 with hc
      · simp only [Option.some.injEq] at h1
        exact Or.inr ⟨[], by rw [hc.1, h1]; rfl⟩
      · exact Or.inl h1
    · exact Or.inr ⟨c :: stem, by rw [h1]; rfl⟩

/-- An extension that `Extension` returns is the part of the path behind a dot. -/
theorem Extension.suffix {before : Char} {path ext : List Char}
    (h : Extension before path = some ext) : ∃ stem, path = stem ++ '.' :: ext := by
  unfold Extension at h
  cases hs : Extension.scan before none path with
  | none => rw [hs] at h; cases h
  | some e =>
    rw [hs] at h
    simp only at h
    split_ifs at h
    simp only [Option.some.injEq] at h
    subst h
    rcases Extension.scan_suffix path before none e hs with h1 | h1
    · cases h1
    · exact h1

/-- Overwriting the last three characters of `stem.ext`, `ext` of three
characters, with `idx`. -/
theorem OpenPackFile.idx_path_eq (stem ext : List Char) (h : ext.length = 3) :
    OpenPackFile.idx_path (stem ++ '.' :: ext) = stem ++ ['.', 'i', 'd', 'x'] := by
  obtain ⟨e0, e1, e2, rfl⟩ : ∃ e0 e1 e2, ext = [e0, e1, e2] := by
    match ext, h with
    | [e0, e1, e2], _ => exact ⟨e0, e1, e2, rfl⟩
  unfold OpenPackFile.idx_path
  have hl : (stem ++ ['.', e0, e1, e2]).length - 3 = stem.length + 1 := by
    simp only [List.length_append, List.length_cons, List.length_nil]
    omega
  simp only [hl]
  rw [List.set_append_right _ _ (by omega), List.set_append_right _ _ (by omega),
    List.set_append_right _ _ (by omega)]
  have a1 : stem.length + 1 - stem.length = 1 := by omega
  have a2 : stem.length + 1 + 1 - stem.length = 2 := by omega
  have a3 : stem.length + 1 + 2 - stem.length = 3 := by omega
  rw [a1, a2, a3]
  rfl

theorem SDL_strcasecmp_bin (ext : List Char) :
    SDL_strcasecmp ext ['b', 'i', 'n'] = 0 ↔ ext.map Char.toLower = ['b', 'i', 'n'] := by
  rw [SDL_strcasecmp_eq_zero]
  rfl

theorem SDL_strcasecmp_lb5 (ext : List Char) :
    SDL_strcasecmp ext ['l', 'b', '5'] = 0 ↔ ext.map Char.toLower = ['l', 'b', '5'] := by
  rw [SDL_strcasecmp_eq_zero]
  rfl

/-- C16 (as amended): for a path whose `Extension` is `bin` or `lb5` in any
letter case, the index path that `OpenPackFile` opens is the path with its last
three characters replaced by `idx`, which is the stem followed by `.idx`; the
lump is opened first, under the path itself; the index is parsed by
`LoadBinIDX` for `bin` and by `LoadLB5IDX` for `lb5`.  A path without an
extension fails with "Invalid file".  A path with any other extension fails
too: with "Invalid file" when the path can be opened as a file, and with the
plain failure of `SDL_IOFromFile` when it cannot. -/
theorem OpenPackFile_index_path (tr : List Nat → List Nat) (after : List Nat)
    (files : List Char → Option SDL_IOStream) (before : Char) (path : List Char) :
    (∀ ext, Extension before path = some ext → ext.map Char.toLower = ['b', 'i', 'n'] →
      ∃ stem, path = stem ++ '.' :: ext ∧
        OpenPackFile.idx_path path = stem ++ ['.', 'i', 'd', 'x'] ∧
        OpenPackFile tr after files before path =
          match files path with
          | none => .error .io
          | some lump_file =>
            match files (stem ++ ['.', 'i', 'd', 'x']) with
            | none => .error .io
            | some idx_io =>
              match LoadBinIDX tr idx_io with
              | .error e => .error e
              | .ok (entries, _) => .ok { entries := entries, lump_file := lump_file }) ∧
    (∀ ext, Extension before path = some ext → ext.map Char.toLower = ['l', 'b', '5'] →
      ∃ stem, path = stem ++ '.' :: ext ∧
        OpenPackFile.idx_path path = stem ++ ['.', 'i', 'd', 'x'] ∧
        OpenPackFile tr after files before path =
          match files path with
          | none => .error .io
          | some lump_file =>
            match files (stem ++ ['.', 'i', 'd', 'x']) with
            | none => .error .io
            | some idx_io =>
              match LoadLB5IDX tr after idx_io with
              | .error e => .error e
              | .ok (entries, _) => .ok { entries := entries, lump_file := lump_file }) ∧
    (Extension before path = none →
      OpenPackFile tr after files before path = .error (.msg "Invalid file")) ∧
    (∀ ext, Extension before path = some ext → ext.map Char.toLower ≠ ['b', 'i', 'n'] →
      ext.map Char.toLower ≠ ['l', 'b', '5'] →
      OpenPackFile tr after files before path =
        match files path with
        | none => .error .io
        | some _ => .error (.msg "Invalid file")) := by
  refine ⟨?_, ?_, ?_, ?_⟩
  · intro ext he hb
    obtain ⟨stem, hp⟩ := Extension.suffix he
    have hlen : ext.length = 3 := by
      have := congrArg List.length hb
      simpa using this
    have hidx : OpenPackFile.idx_path path = stem ++ ['.', 'i', 'd', 'x'] := by
      rw [hp]; exact OpenPackFile.idx_path_eq stem ext hlen
    refine ⟨stem, hp, hidx, ?_⟩
    unfold OpenPackFile
    rw [he]
    simp only [hidx, (SDL_strcasecmp_bin ext).mpr hb, decide_True, Bool.not_true,
      Bool.false_and, Bool.false_eq_true, ↓reduceIte]
  · intro ext he hb
    obtain ⟨stem, hp⟩ := Extension.suffix he
    have hlen : ext.length = 3 := by
      have := congrArg List.length hb
      simpa using this
    have hidx : OpenPackFile.idx_path path = stem ++ ['.', 'i', 'd', 'x'] := by
      rw [hp]; exact OpenPackFile.idx_path_eq stem ext hlen
    have hnb : ¬ SDL_strcasecmp ext ['b', 'i', 'n'] = 0 := by
      rw [SDL_strcasecmp_bin, hb]
      decide
    refine ⟨stem, hp, hidx, ?_⟩
    unfold OpenPackFile
    rw [he]
    simp only [hidx, (SDL_strcasecmp_lb5 ext).mpr hb, hnb, decide_True, decide_False,
      Bool.not_true, Bool.and_false, Bool.false_eq_true, ↓reduceIte]
  · intro he
    unfold OpenPackFile
    rw [he]
  · intro ext he hb hl
    have hnb : ¬ SDL_strcasecmp ext ['b', 'i', 'n'] = 0 := by
      rw [SDL_strcasecmp_bin]; exact hb
    have hnl : ¬ SDL_strcasecmp ext ['l', 'b', '5'] = 0 := by
      rw [SDL_strcasecmp_lb5]; exact hl
    unfold OpenPackFile
    rw [he]
    simp only [hnb, hnl, decide_False, Bool.not_false, Bool.and_self, ↓reduceIte]

/-- C16, at the path `dir/a.BIN`: the index is looked up under `dir/a.idx`. -/
theorem OpenPackFile_index_path_witness :
    ∃ stem, ['d', 'i', 'r', '/', 'a', '.', 'B', 'I', 'N'] = stem ++ '.' :: ['B', 'I', 'N'] ∧
      OpenPackFile.idx_path ['d', 'i', 'r', '/', 'a', '.', 'B', 'I', 'N'] =
        stem ++ ['.', 'i', 'd', 'x'] := by
  obtain ⟨stem, h1, h2, _⟩ := (OpenPackFile_index_path id [] (fun _ => none) 'x'
    ['d', 'i', 'r', '/', 'a', '.', 'B', 'I', 'N']).1 ['B', 'I', 'N'] (by decide) (by decide)
  exact ⟨stem, h1, h2⟩

/-- C16 as stated fails for a path with another extension that cannot be opened
as a file: `a.txt` in an empty file system gives the plain failure of
`SDL_IOFromFile`, not "Invalid file". -/
theorem OpenPackFile_other_extension :
    Extension 'x' ['a', '.', 't', 'x', 't'] = some ['t', 'x', 't'] ∧
      OpenPackFile id [] (fun _ => none) 'x' ['a', '.', 't', 'x', 't'] = .error .io ∧
      OpenPackFile id [] (fun _ => none) 'x' ['a', '.', 't', 'x', 't'] ≠
        .error (.msg "Invalid file") := by
  have h : OpenPackFile id [] (fun _ => none) 'x' ['a', '.', 't', 'x', 't'] = .error .io := by
    rfl
  refine ⟨by decide, h, ?_⟩
  rw [h]
  intro hc
  cases hc

/-- An archive that opens: both files exist, the directory is what the index
parser returns for the index file, and the lump is the file under `path`. -/
theorem OpenPackFile.opened_inv {tr : List Nat → List Nat} {after : List Nat}
    {files : List Char → Option SDL_IOStream} {before : Char} {path : List Char} {pack : PackFile}
    (h : OpenPackFile tr after files before path = .ok pack) :
    ∃ idx_io src', files path = some pack.lump_file ∧
      files (OpenPackFile.idx_path path) = some idx_io ∧
      (LoadBinIDX tr idx_io = .ok (pack.entries, src') ∨
        LoadLB5IDX tr after idx_io = .ok (pack.entries, src')) := by
  unfold OpenPackFile at h
  cases he : Extension before path with
  | none => rw [he] at h; cases h
  | some ext =>
    rw [he] at h
    simp only at h
    cases hf : files path with
    | none => rw [hf] at h; cases h
    | some lump_file =>
      rw [hf] at h
      simp only at h
      cases hi : files (OpenPackFile.idx_path path) with
      | none =>
        rw [hi] at h
        simp only at h
        split_ifs at h
      | some idx_io =>
        rw [hi] at h
        simp only at h
        by_cases hb : SDL_strcasecmp ext ['b', 'i', 'n'] = 0
        · simp only [hb, decide_True, Bool.not_true, Bool.false_and, Bool.false_eq_true,
            ↓reduceIte] at h
          cases hl : LoadBinIDX tr idx_io with
          | error e => rw [hl] at h; cases h
          | ok v =>
            obtain ⟨entries, src'⟩ := v
            rw [hl] at h
            simp only [Except.ok.injEq] at h
            subst h
            exact ⟨idx_io, src', rfl, rfl, Or.inl hl⟩
        · by_cases hl5 : SDL_strcasecmp ext ['l', 'b', '5'] = 0
          · simp only [hb, hl5, decide_True, decide_False, Bool.not_true, Bool.and_false,
              Bool.false_eq_true, ↓reduceIte] at h
            cases hl : LoadLB5IDX tr after idx_io with
            | error e => rw [hl] at h; cases h
            | ok v =>
              obtain ⟨entries, src'⟩ := v
              rw [hl] at h
              simp only [Except.ok.injEq] at h
              subst h
              exact ⟨idx_io, src', rfl, rfl, Or.inr hl⟩
          · simp only [hb, hl5, decide_False, Bool.not_false, Bool.and_self, ↓reduceIte] at h
            cases h

/-- C17 as stated fails: the archive `a.bin` with a lump of five bytes and a BIN
index of one entry at offset 0 of length 100 opens successfully, and its entry
does not lie within the lump body. -/
theorem OpenPackFile_entry_outside_lump :
    OpenPackFile id []
        (fun p =>
          if p = ['a', '.', 'b', 'i', 'n'] then some ⟨[0x68, 0x65, 0x6C, 0x6C, 0x6F], 0⟩
          else if p = ['a', '.', 'i', 'd', 'x'] then some ⟨BinIndexBytes [⟨[0x54], 0, 100⟩], 0⟩
          else none) 'x' ['a', '.', 'b', 'i', 'n'] =
      .ok { entries := [{ off := 0, len := 100, name := [0x54] }],
            lump_file := ⟨[0x68, 0x65, 0x6C, 0x6C, 0x6F], 0⟩ } ∧
      ¬ (0 + 100 ≤ [0x68, 0x65, 0x6C, 0x6C, 0x6F].length) := by
  refine ⟨by rfl, by decide⟩

/-- C17 (as amended): `OpenPackFile` returns the directory that the index parser
reads from the index file, whatever the lump holds; it does not compare an
entry with the size of the lump.  Whether an entry lies within the lump body
shows when it is read: for every entry of the directory `ReadEntry` returns a
buffer if and only if `len` bytes are left in the lump from `off` on, that is
`off + len <= size` or `len = 0`.  The example is scenario 6. -/
theorem OpenPackFile_entries_unchecked (tr : List Nat → List Nat) (after : List Nat)
    (files : List Char → Option SDL_IOStream) (before : Char) (path : List Char)
    (pack : PackFile) (h : OpenPackFile tr after files before path = .ok pack) :
    (∃ idx_io src', files path = some pack.lump_file ∧
      files (OpenPackFile.idx_path path) = some idx_io ∧
      (LoadBinIDX tr idx_io = .ok (pack.entries, src') ∨
        LoadLB5IDX tr after idx_io = .ok (pack.entries, src'))) ∧
    ∀ entry ∈ pack.entries,
      ((∃ buf, (pack.ReadEntry entry).1 = some buf) ↔
        (entry.off + entry.len ≤ pack.lump_file.data.length ∨ entry.len = 0)) := by
  refine ⟨OpenPackFile.opened_inv h, ?_⟩
  intro entry _
  rw [PackFile.ReadEntry_isSome]
  omega

/-- C17, at the archive of scenario 6: the entry `TEST.TXT` at offset 0 of
length 5 in the lump `hello` can be read. -/
theorem OpenPackFile_entries_unchecked_witness :
    ∃ buf, (PackFile.ReadEntry
        { entries := [{ off := 0, len := 5,
                        name := [0x54, 0x45, 0x53, 0x54, 0x2E, 0x54, 0x58, 0x54] }],
          lump_file := ⟨[0x68, 0x65, 0x6C, 0x6C, 0x6F], 0⟩ }
        { off := 0, len := 5, name := [0x54, 0x45, 0x53, 0x54, 0x2E, 0x54, 0x58, 0x54] }).1 =
      some buf :=
  ((OpenPackFile_entries_unchecked id []
    (fun p =>
      if p = ['a', '.', 'b', 'i', 'n'] then some ⟨[0x68, 0x65, 0x6C, 0x6C, 0x6F], 0⟩
      else if p = ['a', '.', 'i', 'd', 'x'] then
        some ⟨BinIndexBytes [⟨[0x54, 0x45, 0x53, 0x54, 0x2E, 0x54, 0x58, 0x54], 0, 5⟩], 0⟩
      else none) 'x' ['a', '.', 'b', 'i', 'n']
    { entries := [{ off := 0, len := 5,
                    name := [0x54, 0x45, 0x53, 0x54, 0x2E, 0x54, 0x58, 0x54] }],
      lump_file := ⟨[0x68, 0x65, 0x6C, 0x6C, 0x6F], 0⟩ } (by rfl)).2
    { off := 0, len := 5, name := [0x54, 0x45, 0x53, 0x54, 0x2E, 0x54, 0x58, 0x54] }
    (by simp)).mpr (Or.inl (by decide))

/-! ## BP2 and BP3 : errors of the header and of the tables -/

/-- A u32 read where at least four bytes are left. -/
theorem SDL_ReadU32LE_of_length (io : SDL_IOStream) (h : 4 ≤ io.unread.length) :
    ∃ v io1, SDL_ReadU32LE io = some (v, io1) ∧ io1.unread = io.unread.drop 4 ∧
      (∀ b0 b1 b2 b3 l, io.unread = b0 :: b1 :: b2 :: b3 :: l →
        v = b0 + 256 * b1 + 65536 * b2 + 16777216 * b3) := by
  match hu : io.unread, h with
  | b0 :: b1 :: b2 :: b3 :: l, _ =>
    obtain ⟨io1, e1, u1⟩ := SDL_ReadU32LE_cons hu
    refine ⟨_, io1, e1, by rw [u1]; rfl, ?_⟩
    intro c0 c1 c2 c3 l' hc
    simp only [List.cons.injEq] at hc
    obtain ⟨rfl, rfl, rfl, rfl, _⟩ := hc
    rfl

/-- The six header fields of `LoadBP2` on a stream of at least 24 bytes whose
first u32 is not 999. -/
theorem LoadBP2.header_not_999 {src : SDL_IOStream} {b0 b1 b2 b3 : Nat} {rest : List Nat}
    (h : src.unread = b0 :: b1 :: b2 :: b3 :: rest) (hlen : 20 ≤ rest.length)
    (hm : b0 + 256 * b1 + 65536 * b2 + 16777216 * b3 ≠ 999) :
    LoadBP2.header src = .error (.msg "File is not a BP2 image") := by
  obtain ⟨v1, s1, e1, u1, hv1⟩ := SDL_ReadU32LE_of_length src
    (by rw [h]; simp only [List.length_cons]; omega)
  have hl1 : s1.unread.length = rest.length := by rw [u1, h]; rfl
  obtain ⟨v2, s2, e2, u2, _⟩ := SDL_ReadU32LE_of_length s1 (by omega)
  have hl2 : s2.unread.length = rest.length - 4 := by rw [u2, List.length_drop, hl1]
  obtain ⟨v3, s3, e3, u3, _⟩ := SDL_ReadU32LE_of_length s2 (by omega)
  have hl3 : s3.unread.length = rest.length - 8 := by rw [u3, List.length_drop, hl2]; omega
  obtain ⟨v4, s4, e4, u4, _⟩ := SDL_ReadU32LE_of_length s3 (by omega)
  have hl4 : s4.unread.length = rest.length - 12 := by rw [u4, List.length_drop, hl3]; omega
  obtain ⟨v5, s5, e5, u5, _⟩ := SDL_ReadU32LE_of_length s4 (by omega)
  have hl5 : s5.unread.length = rest.length - 16 := by rw [u5, List.length_drop, hl4]; omega
  obtain ⟨v6, s6, e6, u6, _⟩ := SDL_ReadU32LE_of_length s5 (by omega)
  have hv : v1 ≠ 999 := by rw [hv1 _ _ _ _ _ h]; exact hm
  simp only [LoadBP2.header, e1, e2, e3, e4, e5, e6, orFail, bind, Except.bind, ne_eq, hv,
    not_false_eq_true, ↓reduceIte]

/-- The four header fields of `LoadBP3` on a stream of at least 16 bytes whose
first u32 is not `0x88888888`. -/
theorem LoadBP3.header_not_88888888 {io : SDL_IOStream} {b0 b1 b2 b3 : Nat} {rest : List Nat}
    (h : io.unread = b0 :: b1 :: b2 :: b3 :: rest) (hlen : 12 ≤ rest.length)
    (hm : b0 + 256 * b1 + 65536 * b2 + 16777216 * b3 ≠ 0x88888888) :
    LoadBP3.header io = .error (.msg "Invalid file") := by
  obtain ⟨v1, s1, e1, u1, hv1⟩ := SDL_ReadU32LE_of_length io
    (by rw [h]; simp only [List.length_cons]; omega)
  have hl1 : s1.unread.length = rest.length := by rw [u1, h]; rfl
  obtain ⟨v2, s2, e2, u2, _⟩ := SDL_ReadU32LE_of_length s1 (by omega)
  have hl2 : s2.unread.length = rest.length - 4 := by rw [u2, List.length_drop, hl1]
  obtain ⟨v3, s3, e3, u3, _⟩ := SDL_ReadU32LE_of_length s2 (by omega)
  have hl3 : s3.unread.length = rest.length - 8 := by rw [u3, List.length_drop, hl2]; omega
  obtain ⟨v4, s4, e4, u4, _⟩ := SDL_ReadU32LE_of_length s3 (by omega)
  have hv : v1 ≠ 0x88888888 := by rw [hv1 _ _ _ _ _ h]; exact hm
  simp only [LoadBP3.header, e1, e2, e3, e4, orFail, bind, Except.bind, ne_eq, hv,
    not_false_eq_true, ↓reduceIte]

/-- C18: `LoadBP2` fails with "File is not a BP2 image" on every stream of at
least 24 bytes whose first little-endian u32 is not 999, and `LoadBP3` fails
with "Invalid file" on every stream of at least 16 bytes whose first
little-endian u32 is not `0x88888888`, whatever the rest of the stream holds. -/
theorem bad_magic (io : SDL_IOStream) (b0 b1 b2 b3 : Nat) (rest : List Nat)
    (h : io.unread = b0 :: b1 :: b2 :: b3 :: rest) :
    (∀ surf_ok : Bool, 20 ≤ rest.length →
      b0 + 256 * b1 + 65536 * b2 + 16777216 * b3 ≠ 999 →
      LoadBP2 surf_ok io = .error (.msg "File is not a BP2 image")) ∧
    (12 ≤ rest.length → b0 + 256 * b1 + 65536 * b2 + 16777216 * b3 ≠ 0x88888888 →
      LoadBP3 io = .error (.msg "Invalid file")) := by
  constructor
  · intro surf_ok hlen hm
    unfold LoadBP2
    rw [LoadBP2.header_not_999 h hlen hm]
    rfl
  · intro hlen hm
    unfold LoadBP3 LoadBP3.grid
    rw [LoadBP3.header_not_88888888 h hlen hm]
    rfl

/-- C18, at 24 zero bytes for `LoadBP2` and at the 16 bytes of a BP2 header's
beginning for `LoadBP3`. -/
theorem bad_magic_witness :
    LoadBP2 true ⟨List.replicate 24 0, 0⟩ = .error (.msg "File is not a BP2 image") ∧
      LoadBP3 ⟨u32le 999 ++ List.replicate 12 0, 0⟩ = .error (.msg "Invalid file") :=
  ⟨(bad_magic ⟨List.replicate 24 0, 0⟩ 0 0 0 0 (List.replicate 20 0) rfl).1 true
      (by decide) (by decide),
    (bad_magic ⟨u32le 999 ++ List.replicate 12 0, 0⟩ 231 3 0 0 (List.replicate 12 0)
      (by decide)).2
      (by decide) (by decide)⟩

theorem LoadBP3.bpp_none {mode : Nat} (h : 7 < mode) : LoadBP3.bpp mode = none := by
  obtain ⟨k, rfl⟩ : ∃ k, mode = k + 8 := ⟨mode - 8, by omega⟩
  rfl

/-- The tile loop fails when one of the tiles it is to do has a mode above 7: at
that tile with "Invalid tile mode", or before it. -/
theorem LoadBP3.tileLoop_bad_mode (d : LoadBP3.Dims) (mode_tab param_tab : List Nat) :
    ∀ (n i0 : Nat) (io : SDL_IOStream) (outbuf : List Nat),
      (∃ i, i0 ≤ i ∧ i < i0 + n ∧ 7 < mode_tab.getD i 0) →
      ∃ e, LoadBP3.tileLoop d mode_tab param_tab n i0 io outbuf = .error e := by
  intro n
  induction n with
  | zero =>
    rintro i0 io outbuf ⟨i, h1, h2, _⟩
    omega
  | succ n ih =>
    rintro i0 io outbuf ⟨i, h1, h2, h3⟩
    rw [LoadBP3.tileLoop]
    cases hb : LoadBP3.bpp (mode_tab.getD i0 0) with
    | none => exact ⟨_, rfl⟩
    | some bpp =>
      simp only
      cases hr : LoadBP3.readTile bpp (LoadBP3.chunk_w d i0) (LoadBP3.chunk_h d i0) io with
      | error e => exact ⟨e, rfl⟩
      | ok v =>
        obtain ⟨tile_buf, io1⟩ := v
        simp only
        have hne : i ≠ i0 := by
          rintro rfl
          rw [LoadBP3.bpp_none h3] at hb
          cases hb
        exact ih (i0 + 1) io1 _ ⟨i, by omega, by omega, h3⟩

/-- C20: for a BP3 stream with a valid header and complete mode and parameter
tables, if a byte of the mode table is greater than 7 then `LoadBP3` fails and
returns no bitmap; where the byte is that of tile 0 the failure is "Invalid
tile mode". -/
theorem LoadBP3_bad_mode (io io1 io2 : SDL_IOStream) (bp3 : BP3) (mode_tab param_tab : List Nat)
    (hh : LoadBP3.header io = .ok (bp3, io1))
    (ht : LoadBP3.tables (LoadBP3.dims bp3.width bp3.height) io1 =
      .ok (mode_tab, param_tab, io2))
    (hbad : ∃ i, i < (LoadBP3.dims bp3.width bp3.height).num_tiles ∧ 7 < mode_tab.getD i 0) :
    (∃ e, LoadBP3 io = .error e) ∧
      (0 < (LoadBP3.dims bp3.width bp3.height).num_tiles → 7 < mode_tab.getD 0 0 →
        LoadBP3 io = .error (.msg "Invalid tile mode")) := by
  constructor
  · obtain ⟨i, hi, hm⟩ := hbad
    obtain ⟨e, he⟩ := LoadBP3.tileLoop_bad_mode (LoadBP3.dims bp3.width bp3.height) mode_tab
      param_tab (LoadBP3.dims bp3.width bp3.height).num_tiles 0 io2
      (List.replicate (u32 ((LoadBP3.dims bp3.width bp3.height).padded_w *
        (LoadBP3.dims bp3.width bp3.height).padded_h * 3)) 0)
      ⟨i, by omega, by omega, hm⟩
    refine ⟨e, ?_⟩
    unfold LoadBP3 LoadBP3.grid
    rw [hh]
    simp only [bind, Except.bind]
    rw [ht]
    simp only
    rw [he]
  · intro hpos hm
    obtain ⟨n, hn⟩ : ∃ n, (LoadBP3.dims bp3.width bp3.height).num_tiles = n + 1 :=
      ⟨(LoadBP3.dims bp3.width bp3.height).num_tiles - 1, by omega⟩
    unfold LoadBP3 LoadBP3.grid
    rw [hh]
    simp only [bind, Except.bind]
    rw [ht]
    simp only
    rw [hn, LoadBP3.tileLoop, LoadBP3.bpp_none hm]

/-- C20, at an 8x8 image whose only tile has mode 9. -/
theorem LoadBP3_bad_mode_witness :
    ∃ e, LoadBP3 ⟨u32le 0x88888888 ++ u32le 8 ++ u32le 8 ++ u32le 192 ++ List.replicate 54 0 ++
        [9] ++ [0, 0, 0] ++ List.range 64, 0⟩ = .error e :=
  (LoadBP3_bad_mode
    ⟨u32le 0x88888888 ++ u32le 8 ++ u32le 8 ++ u32le 192 ++ List.replicate 54 0 ++
      [9] ++ [0, 0, 0] ++ List.range 64, 0⟩
    ⟨u32le 0x88888888 ++ u32le 8 ++ u32le 8 ++ u32le 192 ++ List.replicate 54 0 ++
      [9] ++ [0, 0, 0] ++ List.range 64, 70⟩
    ⟨u32le 0x88888888 ++ u32le 8 ++ u32le 8 ++ u32le 192 ++ List.replicate 54 0 ++
      [9] ++ [0, 0, 0] ++ List.range 64, 74⟩
    ⟨0x88888888, 8, 8, 192⟩ [9] [0, 0, 0] (by rfl) (by rfl) ⟨0, by decide, by decide⟩).1

/-! ## IsValidUTF8 : encoded text is accepted -/

theorem utf8Encode_wellFormed {cp : Nat} (h : IsScalarValue cp = true) :
    WellFormedSeq (utf8Encode cp) := by
  simp only [IsScalarValue, Bool.or_eq_true, Bool.and_eq_true, decide_eq_true_eq] at h
  unfold utf8Encode WellFormedSeq
  split_ifs with h1 h2 h3
  · exact Or.inl ⟨cp, rfl, by omega⟩
  · exact Or.inr (Or.inl ⟨_, _, rfl, by omega⟩)
  · by_cases ha : cp / 4096 = 0
    · exact Or.inr (Or.inr (Or.inl ⟨0x80 + cp / 64 % 64, 0x80 + cp % 64, by rw [ha],
        by omega⟩))
    · by_cases hb : cp / 4096 = 13
      · exact Or.inr (Or.inr (Or.inr (Or.inr (Or.inl ⟨0x80 + cp / 64 % 64, 0x80 + cp % 64,
          by rw [hb], by omega⟩))))
      · by_cases hc : cp / 4096 ≤ 12
        · exact Or.inr (Or.inr (Or.inr (Or.inl ⟨_, _, _, rfl, by omega⟩)))
        · exact Or.inr (Or.inr (Or.inr (Or.inr (Or.inr (Or.inl ⟨_, _, _, rfl, by omega⟩)))))
  · by_cases ha : cp / 262144 = 0
    · exact Or.inr (Or.inr (Or.inr (Or.inr (Or.inr (Or.inr (Or.inl
        ⟨0x80 + cp / 4096 % 64, 0x80 + cp / 64 % 64, 0x80 + cp % 64, by rw [ha],
          by omega⟩))))))
    · by_cases hb : cp / 262144 = 4
      · exact Or.inr (Or.inr (Or.inr (Or.inr (Or.inr (Or.inr (Or.inr (Or.inr
          ⟨0x80 + cp / 4096 % 64, 0x80 + cp / 64 % 64, 0x80 + cp % 64, by rw [hb],
            by omega⟩)))))))
      · exact Or.inr (Or.inr (Or.inr (Or.inr (Or.inr (Or.inr (Or.inr (Or.inl
          ⟨_, _, _, _, rfl, by omega⟩)))))))

/-- C23: `IsValidUTF8` returns true on the UTF-8 encoding of every sequence of
Unicode scalar values. -/
theorem IsValidUTF8_encoded (cps : List Nat) (h : ∀ cp ∈ cps, IsScalarValue cp = true) :
    IsValidUTF8 (utf8EncodeAll cps) = true := by
  rw [IsValidUTF8.iff_wellFormed]
  refine ⟨cps.map utf8Encode, ?_, rfl⟩
  intro s hs
  obtain ⟨cp, hcp, rfl⟩ := List.mem_map.1 hs
  exact utf8Encode_wellFormed (h cp hcp)

/-- C23, at the text `a`, `é`, `€`, U+10348 and U+10FFFF. -/
theorem IsValidUTF8_encoded_witness :
    utf8EncodeAll [0x61, 0xE9, 0x20AC, 0x10348, 0x10FFFF] =
        [0x61, 0xC3, 0xA9, 0xE2, 0x82, 0xAC, 0xF0, 0x90, 0x8D, 0x88, 0xF4, 0x8F, 0xBF, 0xBF] ∧
      IsValidUTF8 (utf8EncodeAll [0x61, 0xE9, 0x20AC, 0x10348, 0x10FFFF]) = true :=
  ⟨by decide, IsValidUTF8_encoded [0x61, 0xE9, 0x20AC, 0x10348, 0x10FFFF] (by decide)⟩

/-! ## WildcardMatch : patterns without wildcards -/

theorem WildcardMatch.loop_literal :
    ∀ (s p : List Char) (fuel : Nat), s.length < fuel → '*' ∉ p → '?' ∉ p →
      WildcardMatch.loop fuel p s none = some (decide (p = s)) := by
  intro s
  induction s with
  | nil =>
    intro p fuel hf hst hq
    obtain ⟨k, rfl⟩ : ∃ k, fuel = k + 1 := ⟨fuel - 1, by simp at hf; omega⟩
    cases p with
    | nil => rfl
    | cons a p =>
      have ha : a ≠ '*' := fun e => hst (by simp [e])
      simp [WildcardMatch.loop, List.dropWhile, ha]
  | cons c s ih =>
    intro p fuel hf hst hq
    obtain ⟨k, rfl⟩ : ∃ k, fuel = k + 1 := ⟨fuel - 1, by simp at hf; omega⟩
    simp only [List.length_cons, Nat.add_lt_add_iff_right] at hf
    cases p with
    | nil => simp [WildcardMatch.loop]
    | cons a p =>
      have ha : a ≠ '*' := fun e => hst (by simp [e])
      have hb : a ≠ '?' := fun e => hq (by simp [e])
      have hst2 : '*' ∉ p := fun e => hst (List.mem_cons_of_mem _ e)
      have hq2 : '?' ∉ p := fun e => hq (List.mem_cons_of_mem _ e)
      simp only [WildcardMatch.loop, List.head?_cons, Option.some.injEq, hb, ha, false_or,
        List.tail_cons, if_false]
      by_cases hac : a = c
      · subst hac
        simp only [if_true]
        rw [ih p k hf hst2 hq2]
        simp
      · simp [hac]

/-- C24: for a pattern that contains neither `*` nor `?`, `WildcardMatch`
returns true exactly when the string equals the pattern, and false
otherwise. -/
theorem WildcardMatch_literal (p s : List Char) (hstar : '*' ∉ p) (hq : '?' ∉ p) :
    WildcardMatch p s = some (decide (p = s)) ∧
      (WildcardMatch p s = some true ↔ p = s) := by
  have h : WildcardMatch p s = some (decide (p = s)) := by
    unfold WildcardMatch
    apply WildcardMatch.loop_literal _ _ _ _ hstar hq
    have : s.length + 2 ≤ (s.length + 2) * (p.length + s.length + 1) :=
      Nat.le_mul_of_pos_right _ (by omega)
    omega
  refine ⟨h, ?_⟩
  rw [h]
  simp

/-- C24, at the pattern `a.b` with the strings `a.b` and `a.bc`. -/
theorem WildcardMatch_literal_witness :
    WildcardMatch ['a', '.', 'b'] ['a', '.', 'b'] = some true ∧
      WildcardMatch ['a', '.', 'b'] ['a', '.', 'b', 'c'] = some false :=
  ⟨(WildcardMatch_literal ['a', '.', 'b'] ['a', '.', 'b'] (by decide) (by decide)).1,
    (WildcardMatch_literal ['a', '.', 'b'] ['a', '.', 'b', 'c'] (by decide) (by decide)).1⟩

/-! ## Extension : the last dot of a path -/

theorem Extension.scan_no_dot :
    ∀ (e : List Char) (prev : Char) (end_part : Option (List Char)), '.' ∉ e →
      Extension.scan prev end_part e = end_part := by
  intro e
  induction e with
  | nil => intro prev end_part _; rfl
  | cons c e ih =>
    intro prev end_part h
    have hc : c ≠ '.' := fun e => h (by simp [e])
    have he : '.' ∉ e := fun x => h (List.mem_cons_of_mem _ x)
    simp only [Extension.scan, hc, false_and, if_false]
    exact ih c end_part he

theorem Extension.scan_append :
    ∀ (l1 : List Char) (prev : Char) (end_part : Option (List Char)) (l2 : List Char),
      ∃ end_part1, Extension.scan prev end_part (l1 ++ l2) =
        Extension.scan (l1.getLast?.getD prev) end_part1 l2 := by
  intro l1
  induction l1 with
  | nil => intro prev end_part l2; exact ⟨end_part, rfl⟩
  | cons c l1 ih =>
    intro prev end_part l2
    obtain ⟨ep, h⟩ := ih c (if c = '.' ∧ ¬ IsDelim prev then some (l1 ++ l2) else end_part) l2
    refine ⟨ep, ?_⟩
    rw [List.cons_append, Extension.scan, h]
    congr 1
    cases l1 with
    | nil => rfl
    | cons d l1 =>
      simp only [List.getLast?_cons_cons, List.getLast?_eq_getLast _ (List.cons_ne_nil d l1),
        Option.getD_some]

theorem Extension.scan_stem_dot (before : Char) (stem e : List Char) (hne : stem ≠ [])
    (hlast : ∀ c, stem.getLast? = some c → IsDelim c = false) (hdot : '.' ∉ e) :
    Extension.scan before none (stem ++ '.' :: e) = some e := by
  obtain ⟨ep, h⟩ := Extension.scan_append stem before none ('.' :: e)
  rw [h]
  obtain ⟨c, hc⟩ : ∃ c, stem.getLast? = some c := by
    cases hl : stem.getLast? with
    | none => exact absurd (List.getLast?_eq_none_iff.1 hl) hne
    | some c => exact ⟨c, rfl⟩
  have hd := hlast c hc
  simp only [hc, Option.getD_some, Extension.scan, hd, true_and, Bool.false_eq_true,
    not_false_eq_true, if_true]
  exact Extension.scan_no_dot e '.' (some e) hdot

/-- C25: for a non-empty stem that does not end in a path separator and an
extension `e` that contains no `.` and no path separator, `Extension` returns
exactly `e` on `stem ++ "." ++ e`, whatever byte lies in front of the path. -/
theorem Extension_of_stem (before : Char) (stem e : List Char) (hne : stem ≠ [])
    (hlast : ∀ c, stem.getLast? = some c → IsDelim c = false) (hdot : '.' ∉ e)
    (hsep : ∀ c ∈ e, IsDelim c = false) :
    Extension before (stem ++ ['.'] ++ e) = some e := by
  unfold Extension
  rw [List.append_assoc, List.singleton_append,
    Extension.scan_stem_dot before stem e hne hlast hdot]
  have : e.any IsDelim = false := by
    rw [List.any_eq_false]
    intro c hc
    simp [hsep c hc]
  simp [this]

/-- C25, at `dir/Readme.TXT`, where the case of the extension is kept. -/
theorem Extension_of_stem_witness :
    Extension '/' (['d', 'i', 'r', '/', 'R', 'e', 'a', 'd', 'm', 'e'] ++ ['.'] ++ ['T', 'X', 'T']) =
      some ['T', 'X', 'T'] :=
  Extension_of_stem '/' ['d', 'i', 'r', '/', 'R', 'e', 'a', 'd', 'm', 'e'] ['T', 'X', 'T']
    (by decide) (by decide) (by decide) (by decide)

/-! ## Extension : the byte in front of the path -/

theorem Extension.scan_before (b1 b2 : Char) (end_part : Option (List Char))
    (path : List Char) (h : path.head? ≠ some '.') :
    Extension.scan b1 end_part path = Extension.scan b2 end_part path := by
  cases path with
  | nil => rfl
  | cons c rest =>
    have hc : c ≠ '.' := fun e => h (by simp [e])
    simp only [Extension.scan, hc, false_and, if_false]

/-- C28: on a path that starts with a dot, `Extension` reads the byte in front
of the path: on `'.' :: rest`, where `rest` holds no dot and no separator, the
result is `NULL` when that byte is `/` and `rest` when it is any other byte.
On every other path the byte in front has no influence. -/
theorem Extension_reads_before (rest : List Char) (hdot : '.' ∉ rest)
    (hsep : ∀ c ∈ rest, IsDelim c = false) :
    Extension '/' ('.' :: rest) = none ∧
      (∀ b, b ≠ '/' → Extension b ('.' :: rest) = some rest) ∧
      (∀ b1 b2 path, path.head? ≠ some '.' → Extension b1 path = Extension b2 path) := by
  refine ⟨?_, ?_, ?_⟩
  · simp only [Extension, Extension.scan]
    rw [Extension.scan_no_dot rest _ _ hdot]
    simp [IsDelim]
  · intro b hb
    simp only [Extension, Extension.scan]
    rw [Extension.scan_no_dot rest _ _ hdot]
    have : rest.any IsDelim = false := by
      rw [List.any_eq_false]
      intro c hc
      simp [hsep c hc]
    simp [IsDelim, hb, this]
  · intro b1 b2 path h
    simp only [Extension]
    rw [Extension.scan_before b1 b2 none path h]

/-- C28, at the path `.bin`. -/
theorem Extension_reads_before_witness :
    Extension '/' ['.', 'b', 'i', 'n'] = none ∧
      Extension 'a' ['.', 'b', 'i', 'n'] = some ['b', 'i', 'n'] :=
  ⟨(Extension_reads_before ['b', 'i', 'n'] (by decide) (by decide)).1,
    (Extension_reads_before ['b', 'i', 'n'] (by decide) (by decide)).2.1 'a' (by decide)⟩

/-! ## BIN index : the size of the name buffer -/

/-- C30: the buffer that `LoadBinIDX` allocates for the entry name has the
size of the transcoded name without its terminator, one byte less than what
the transcoder stores and one byte less than what `ShiftToUTF8` allocates for
the same string; for the name `A` it has 1 byte and 2 bytes are stored. -/
theorem LoadBinIDX_name_size (cp932_to_utf8 : List Nat → List Nat) (name_jis : List Nat) :
    LoadBinIDX.name_size cp932_to_utf8 name_jis + 1 =
        (cp932_to_utf8_stored cp932_to_utf8 name_jis).length ∧
      LoadBinIDX.name_size cp932_to_utf8 name_jis <
        (cp932_to_utf8_stored cp932_to_utf8 name_jis).length ∧
      ShiftToUTF8.result_size cp932_to_utf8 name_jis =
        (cp932_to_utf8_stored cp932_to_utf8 name_jis).length ∧
      LoadBinIDX.name_size id [0x41, 0] = 1 ∧
      cp932_to_utf8_stored id [0x41, 0] = [0x41, 0] := by
  refine ⟨?_, ?_, ?_, by decide, by decide⟩ <;>
    simp [LoadBinIDX.name_size, ShiftToUTF8.result_size, cp932_to_utf8_stored,
      cp932_to_utf8_len]

/-! ## BP3 : reading a partial tile -/

/-- The rows of a tile land in the scratch at a stride of `srb + pad` bytes:
the first `srb` bytes of scratch row `r` are the stream bytes from `r * srb` on,
the other `pad` bytes are zero.  The stream advances by `n * srb`. -/
theorem LoadBP3.readRows_padded (srb pad : Nat) :
    ∀ (n dst : Nat) (tb : List Nat) (io : SDL_IOStream),
      tb.length = 192 → dst + n * (srb + pad) ≤ 192 → n * srb ≤ io.unread.length →
      ∃ tb', LoadBP3.readRows srb pad n dst tb io =
          .ok (dst + n * (srb + pad), tb', ⟨io.data, io.pos + n * srb⟩) ∧
        tb'.length = 192 ∧
        (∀ j, j < dst → tb'.getD j 0 = tb.getD j 0) ∧
        (∀ j, dst + n * (srb + pad) ≤ j → tb'.getD j 0 = tb.getD j 0) ∧
        ∀ r c, r < n → c < srb + pad →
          tb'.getD (dst + r * (srb + pad) + c) 0 =
            if c < srb then io.unread.getD (r * srb + c) 0 else 0 := by
  intro n
  induction n with
  | zero =>
    intro dst tb io htb _ _
    refine ⟨tb, by simp [LoadBP3.readRows], htb, fun _ _ => rfl, fun _ _ => rfl, ?_⟩
    intro r c hr
    omega
  | succ n ih =>
    intro dst tb io htb hdst hio
    have hmul : (n + 1) * (srb + pad) = n * (srb + pad) + (srb + pad) := Nat.succ_mul _ _
    have hmul2 : (n + 1) * srb = n * srb + srb := Nat.succ_mul _ _
    have hread : ( SDL_ReadIO io srb).1.length = srb := by
      rw [(io.read_unread srb).1, List.length_take]; omega
    have hw : dst + ( SDL_ReadIO io srb).1.length ≤ tb.length := by rw [hread]; omega
    have hd : ( SDL_ReadIO io srb).2.data = io.data := rfl
    have hp : ( SDL_ReadIO io srb).2.pos = io.pos + srb := by
      show io.pos + ( SDL_ReadIO io srb).1.length = io.pos + srb
      rw [hread]
    -- the scratch after the row's bytes and its padding
    have hlen1 : (memWrite tb dst ( SDL_ReadIO io srb).1).length = 192 := by
      rw [memWrite_length hw]; exact htb
    have hw2 : dst + srb + (List.replicate pad 0).length ≤
        (memWrite tb dst ( SDL_ReadIO io srb).1).length := by
      rw [hlen1, List.length_replicate]; omega
    have hlen2 : (memWrite (memWrite tb dst ( SDL_ReadIO io srb).1) (dst + srb)
        (List.replicate pad 0)).length = 192 := by
      rw [memWrite_length hw2]; exact hlen1
    obtain ⟨tb', hrows, hlen', hlo, hhi, hget⟩ := ih (dst + srb + pad)
      (memWrite (memWrite tb dst ( SDL_ReadIO io srb).1) (dst + srb) (List.replicate pad 0))
      ( SDL_ReadIO io srb).2 hlen2 (by omega)
      (by rw [(io.read_unread srb).2, List.length_drop]; omega)
    rw [hd, hp] at hrows
    have hfirst : ∀ j, (memWrite (memWrite tb dst ( SDL_ReadIO io srb).1) (dst + srb)
        (List.replicate pad 0)).getD j 0 =
          if dst + srb ≤ j ∧ j < dst + srb + pad then 0
          else if dst ≤ j ∧ j < dst + srb then io.unread.getD (j - dst) 0
          else tb.getD j 0 := by
      intro j
      rw [memWrite_getD hw2, List.length_replicate, memWrite_getD hw, hread,
        (io.read_unread srb).1]
      by_cases h1 : dst + srb ≤ j ∧ j < dst + srb + pad
      · rw [if_pos h1, if_pos h1, List.getD_eq_getElem?_getD,
          List.getElem?_replicate_of_lt (by omega)]
        rfl
      · rw [if_neg h1, if_neg h1]
        by_cases h2 : dst ≤ j ∧ j < dst + srb
        · rw [if_pos h2, if_pos h2, getD_take (by omega)]
        · rw [if_neg h2, if_neg h2]
    refine ⟨tb', ?_, hlen', ?_, ?_, ?_⟩
    · rw [LoadBP3.readRows]
      by_cases hs : srb = 0
      · subst hs
        by_cases hpd : pad = 0
        · subst hpd
          simp only [ne_eq, not_true_eq_false, ↓reduceIte]
          have e0 : SDL_ReadIO io 0 = ([], io) := rfl
          have e1 : memWrite (memWrite tb dst ( SDL_ReadIO io 0).1) (dst + 0)
              (List.replicate 0 0) = tb := by
            simp [memWrite, SDL_ReadIO]
          rw [e1, e0] at hrows
          simp only [Nat.add_zero, Nat.mul_zero] at hrows ⊢
          rw [hrows]
        · simp only [ne_eq, not_true_eq_false, ↓reduceIte, hpd, not_false_eq_true]
          rw [u32_of_lt (by omega), if_neg (by omega)]
          have e0 : SDL_ReadIO io 0 = ([], io) := rfl
          have e1 : memWrite tb dst ( SDL_ReadIO io 0).1 = tb := by
            simp [memWrite, SDL_ReadIO]
          rw [e1, e0] at hrows
          simp only [Nat.add_zero, Nat.zero_add, Nat.mul_zero] at hrows ⊢
          rw [hrows]
          have ha : dst + pad + n * pad = dst + (n + 1) * pad := by
            rw [Nat.succ_mul]; omega
          rw [ha]
      · simp only [ne_eq, hs, not_false_eq_true, ↓reduceIte, hread, not_true_eq_false]
        rw [u32_of_lt (by omega), if_neg (by omega)]
        simp only
        by_cases hpd : pad = 0
        · subst hpd
          simp only [ne_eq, not_true_eq_false, ↓reduceIte]
          have e1 : memWrite (memWrite tb dst ( SDL_ReadIO io srb).1) (dst + srb)
              (List.replicate 0 0) = memWrite tb dst ( SDL_ReadIO io srb).1 := by
            rw [List.replicate_zero]
            simp only [memWrite, List.append_nil, List.length_nil, Nat.add_zero]
            exact List.take_append_drop _ _
          rw [e1] at hrows
          simp only [Nat.add_zero] at hrows ⊢
          rw [hrows]
          have ha : dst + srb + n * srb = dst + (n + 1) * srb := by omega
          have hb : io.pos + srb + n * srb = io.pos + (n + 1) * srb := by omega
          rw [ha, hb]
        · simp only [ne_eq, hpd, not_false_eq_true, ↓reduceIte]
          rw [u32_of_lt (by omega), if_neg (by omega), hrows]
          have ha : dst + srb + pad + n * (srb + pad) = dst + (n + 1) * (srb + pad) := by omega
          have hb : io.pos + srb + n * srb = io.pos + (n + 1) * srb := by omega
          rw [ha, hb]
    · intro j hj
      rw [hlo j (by omega), hfirst j, if_neg (by omega), if_neg (by omega)]
    · intro j hj
      rw [hhi j (by omega), hfirst j, if_neg (by omega), if_neg (by omega)]
    · intro r c hr hc
      cases r with
      | zero =>
        simp only [Nat.zero_mul, Nat.add_zero, Nat.zero_add]
        rw [hlo _ (by omega), hfirst]
        by_cases h1 : c < srb
        · rw [if_neg (by omega), if_pos (by omega), if_pos h1]
          congr 1
          omega
        · rw [if_pos (by omega), if_neg h1]
      | succ r =>
        have hg := hget r c (by omega) hc
        have e1 : dst + (r + 1) * (srb + pad) + c = dst + srb + pad + r * (srb + pad) + c := by
          rw [Nat.succ_mul]; omega
        rw [e1, hg, (io.read_unread srb).2, getD_drop]
        have e2 : srb + (r * srb + c) = (r + 1) * srb + c := by
          rw [Nat.succ_mul]; omega
        rw [e2]

theorem LoadBP3.bpp_cases {m bpp : Nat} (h : LoadBP3.bpp m = some bpp) :
    (m = 0 ∧ bpp = 0) ∨ (m = 4 ∧ bpp = 4) ∨
      ((m = 1 ∨ m = 2 ∨ m = 3 ∨ m = 5) ∧ bpp = 8) ∨ (m = 6 ∧ bpp = 16) ∨
      (m = 7 ∧ bpp = 24) := by
  have hm : m < 8 := by
    by_contra hcon
    rw [LoadBP3.bpp_none (by omega)] at h
    exact absurd h (by simp)
  interval_cases m <;> simp only [LoadBP3.bpp, Option.some.injEq] at h <;> subst h <;> simp

theorem LoadBP3.stored_rows_le (x ch : Nat) : ch * (x / 8) ≤ x * ch / 8 := by
  rw [Nat.le_div_iff_mul_le (by omega)]
  have : x / 8 * 8 ≤ x := Nat.div_mul_le_self x 8
  calc ch * (x / 8) * 8 = ch * (x / 8 * 8) := Nat.mul_assoc _ _ _
    _ ≤ ch * x := Nat.mul_le_mul_left _ this
    _ = x * ch := Nat.mul_comm _ _

/-- A tile of visible extent `chunk_w x chunk_h`: the tile is read without
error, the stream ends up `bpp * chunk_w * chunk_h / 8` bytes further, and row
`r` of the scratch (`bpp` bytes) starts with the `bpp * chunk_w / 8` stream bytes
from `r * (bpp * chunk_w / 8)` on and is zero behind them. -/
theorem LoadBP3.readTile_edge {bpp cw ch : Nat} (h0 : 0 < bpp) (h24 : bpp ≤ 24)
    (hcw : cw ≤ 8) (hch : ch ≤ 8) (io : SDL_IOStream)
    (hio : bpp * cw * ch / 8 ≤ io.unread.length) :
    ∃ tb, LoadBP3.readTile bpp cw ch io =
        .ok (tb, ⟨io.data, io.pos + bpp * cw * ch / 8⟩) ∧
      tb.length = 192 ∧
      ∀ r c, r < ch → c < bpp →
        tb.getD (r * bpp + c) 0 =
          if c < bpp * cw / 8 then io.unread.getD (r * (bpp * cw / 8) + c) 0 else 0 := by
  have hx : bpp * cw ≤ 192 := by
    calc bpp * cw ≤ 24 * 8 := Nat.mul_le_mul h24 hcw
      _ = 192 := rfl
  have hsrbu : u32 (bpp * cw) / 8 = bpp * cw / 8 := by rw [u32_of_lt (by omega)]
  have hle : bpp * cw / 8 ≤ bpp := by
    have : bpp * cw ≤ bpp * 8 := Nat.mul_le_mul_left _ hcw
    omega
  generalize hsrb : bpp * cw / 8 = srb at *
  have hpad : u32 (bpp + 4294967296 - srb) = bpp - srb := by
    unfold u32
    omega
  have hsum : srb + (bpp - srb) = bpp := by omega
  have hrows8 : ch * bpp ≤ 192 := by
    calc ch * bpp ≤ 8 * 24 := Nat.mul_le_mul hch h24
      _ = 192 := rfl
  have hst := LoadBP3.stored_rows_le (bpp * cw) ch
  rw [hsrb] at hst
  obtain ⟨tb, hrows, hlen, _, _, hget⟩ := LoadBP3.readRows_padded srb (bpp - srb) ch 0
    (List.replicate 192 0) io (List.length_replicate _ _) (by rw [hsum]; omega) (by omega)
  rw [hsum] at hrows hget
  rw [Nat.zero_add] at hrows
  have hw : ch * bpp + (List.replicate (bpp * 8 - ch * bpp) 0).length ≤ tb.length := by
    rw [List.length_replicate, hlen]
    have : ch * bpp ≤ 8 * bpp := Nat.mul_le_mul_right _ hch
    omega
  refine ⟨if ch * bpp < bpp * 8 then memWrite tb (ch * bpp)
      (List.replicate (bpp * 8 - ch * bpp) 0) else tb, ?_, ?_, ?_⟩
  · unfold LoadBP3.readTile
    simp only [gt_iff_lt, h0, ↓reduceIte, hsrbu, hpad, hrows, SDL_TellIO, SDL_SeekIO_SET]
    rw [if_neg (by omega)]
  · split_ifs
    · rw [memWrite_length hw]; exact hlen
    · exact hlen
  · intro r c hr hc
    have hidx : r * bpp + c < ch * bpp := by
      have : (r + 1) * bpp ≤ ch * bpp := Nat.mul_le_mul_right _ hr
      rw [Nat.succ_mul] at this
      omega
    have hg := hget r c hr hc
    rw [Nat.zero_add] at hg
    split_ifs with h1 h2
    · rw [memWrite_getD hw, if_neg (by omega), hg, if_pos h2]
    · rw [memWrite_getD hw, if_neg (by omega), hg, if_neg h2]
    · rw [hg, if_pos ‹_›]
    · rw [hg, if_neg ‹_›]

/-- On a scratch whose rows start with the rows of a contiguously packed
payload (`srb` bytes per row, a whole number of bytes), the second `switch` of
`LoadBP3` yields the pixel that the specification gives for the packed
payload. -/
theorem LoadBP3.decodePixel_edge {m bpp : Nat} (hbpp : LoadBP3.bpp m = some bpp)
    (bb bg br : Nat) (tb payload : List Nat) (cw ch srb : Nat) (hs : 8 * srb = bpp * cw)
    (htb : ∀ r c, r < ch → c < srb → tb.getD (r * bpp + c) 0 = payload.getD (r * srb + c) 0)
    (tx ty : Nat) (htx : tx < cw) (hty : ty < ch) :
    LoadBP3.decodePixel m bb bg br tb (0 + ty * bpp + LoadBP3.srcCol m (bpp / 8) tx) tx =
      some (BP3PackedPixelSpec m bb bg br payload cw tx ty) := by
  rcases LoadBP3.bpp_cases hbpp with ⟨rfl, rfl⟩ | ⟨rfl, rfl⟩ | ⟨hm, rfl⟩ | ⟨rfl, rfl⟩ |
    ⟨rfl, rfl⟩
  · rfl
  · -- GRAY4, an even number of pixels per row
    have hcw : cw = 2 * srb := by omega
    subst hcw
    have hoff : 0 + ty * 4 + LoadBP3.srcCol 4 (4 / 8) tx = ty * 4 + tx / 2 := by
      rw [LoadBP3.srcCol_four]; omega
    have hmul : ty * (2 * srb) = 2 * (ty * srb) := by ring
    have hoff2 : (ty * (2 * srb) + tx) * 4 / 8 = ty * srb + tx / 2 := by
      rw [hmul]; omega
    have hpar : (ty * (2 * srb) + tx) % 2 = tx % 2 := by
      rw [hmul]; omega
    have hsh : ∀ p : Nat, p >>> 4 = p / 16 := fun p => Nat.shiftRight_eq_div_pow p 4
    rw [hoff]
    simp only [LoadBP3.decodePixel, BP3PackedPixelSpec, and_255, and_15, and_1, hsh,
      List.getD_cons_succ, List.getD_cons_zero, hoff2, hpar]
    rw [htb ty (tx / 2) hty (by omega)]
    have h2 : tx % 2 = 0 ∨ tx % 2 = 1 := by omega
    rcases h2 with h | h <;> simp [h]
  · have hcw : srb = cw := by omega
    subst hcw
    have hne : m ≠ 4 := by omega
    have hoff : 0 + ty * 8 + LoadBP3.srcCol m (8 / 8) tx = ty * 8 + tx := by
      rw [LoadBP3.srcCol_of_ne hne]; omega
    have hoff2 : (ty * srb + tx) * 8 / 8 = ty * srb + tx := by omega
    rw [hoff]
    rcases hm with rfl | rfl | rfl | rfl <;>
      (simp only [LoadBP3.decodePixel, BP3PackedPixelSpec, and_255, Nat.shiftRight_zero,
        List.getD_cons_succ, List.getD_cons_zero, hoff2]
       rw [htb ty tx hty htx])
  · have hcw : srb = 2 * cw := by omega
    subst hcw
    have hoff : 0 + ty * 16 + LoadBP3.srcCol 6 (16 / 8) tx = ty * 16 + 2 * tx := by
      rw [LoadBP3.srcCol_of_ne (by decide)]; omega
    have hmul : ty * (2 * cw) = 2 * (ty * cw) := by ring
    have hoff2 : (ty * cw + tx) * 16 / 8 = ty * (2 * cw) + 2 * tx := by
      rw [hmul]; omega
    rw [hoff]
    simp only [LoadBP3.decodePixel, BP3PackedPixelSpec, List.getD_cons_succ,
      List.getD_cons_zero, hoff2, Nat.add_zero]
    have e1 : ty * 16 + 2 * tx + 1 = ty * 16 + (2 * tx + 1) := by omega
    have e2 : ty * (2 * cw) + 2 * tx + 1 = ty * (2 * cw) + (2 * tx + 1) := by omega
    rw [e1, e2, htb ty (2 * tx) hty (by omega), htb ty (2 * tx + 1) hty (by omega)]
  · have hcw : srb = 3 * cw := by omega
    subst hcw
    have hoff : 0 + ty * 24 + LoadBP3.srcCol 7 (24 / 8) tx = ty * 24 + 3 * tx := by
      rw [LoadBP3.srcCol_of_ne (by decide)]; omega
    have hmul : ty * (3 * cw) = 3 * (ty * cw) := by ring
    have hoff2 : (ty * cw + tx) * 24 / 8 = ty * (3 * cw) + 3 * tx := by
      rw [hmul]; omega
    rw [hoff]
    simp only [LoadBP3.decodePixel, BP3PackedPixelSpec, List.getD_cons_succ,
      List.getD_cons_zero, hoff2, Nat.add_zero]
    have e1 : ty * 24 + 3 * tx + 1 = ty * 24 + (3 * tx + 1) := by omega
    have e2 : ty * 24 + 3 * tx + 2 = ty * 24 + (3 * tx + 2) := by omega
    have e3 : ty * (3 * cw) + 3 * tx + 1 = ty * (3 * cw) + (3 * tx + 1) := by omega
    have e4 : ty * (3 * cw) + 3 * tx + 2 = ty * (3 * cw) + (3 * tx + 2) := by omega
    rw [e1, e2, e3, e4, htb ty (3 * tx) hty (by omega), htb ty (3 * tx + 1) hty (by omega),
      htb ty (3 * tx + 2) hty (by omega)]

/-- A partial tile whose rows are a whole number of bytes (every mode but
GRAY4, and GRAY4 with an even `chunk_w`): the tile is read without error and
the three bytes that the decode loops store for the visible pixel `(tx, ty)`
are the `(b, g, r)` that the specification gives for the contiguously packed
payload. -/
theorem LoadBP3.edge_tile (m bpp bb bg br : Nat) (hbpp : LoadBP3.bpp m = some bpp)
    (h0 : 0 < bpp) (cw ch : Nat) (hcw : cw ≤ 8) (hch : ch ≤ 8) (hrow : m ≠ 4 ∨ cw % 2 = 0)
    (io : SDL_IOStream) (hio : bpp * cw * ch / 8 ≤ io.unread.length)
    (tile_base grb : Nat) (out : List Nat) (hgrb : 24 ≤ grb) (hsz : out.length < 4294967296)
    (hfit : tile_base + 7 * grb + 24 ≤ out.length) (tx ty : Nat) (htx : tx < cw)
    (hty : ty < ch) :
    ∃ tb, LoadBP3.readTile bpp cw ch io =
        .ok (tb, ⟨io.data, io.pos + bpp * cw * ch / 8⟩) ∧
      (LoadBP3.decodeRows m bpp bb bg br tb tile_base grb 8 0 0 out).getD
          (tile_base + ty * grb + 3 * tx) 0 =
        (BP3PackedPixelSpec m bb bg br (io.unread.take (bpp * cw * ch / 8)) cw tx ty).1 ∧
      (LoadBP3.decodeRows m bpp bb bg br tb tile_base grb 8 0 0 out).getD
          (tile_base + ty * grb + 3 * tx + 1) 0 =
        (BP3PackedPixelSpec m bb bg br (io.unread.take (bpp * cw * ch / 8)) cw tx ty).2.1 ∧
      (LoadBP3.decodeRows m bpp bb bg br tb tile_base grb 8 0 0 out).getD
          (tile_base + ty * grb + 3 * tx + 2) 0 =
        (BP3PackedPixelSpec m bb bg br (io.unread.take (bpp * cw * ch / 8)) cw tx ty).2.2 := by
  have h24 : bpp ≤ 24 := by
    rcases LoadBP3.bpp_cases hbpp with ⟨_, h⟩ | ⟨_, h⟩ | ⟨_, h⟩ | ⟨_, h⟩ | ⟨_, h⟩ <;> omega
  have hs : 8 * (bpp * cw / 8) = bpp * cw := by
    rcases LoadBP3.bpp_cases hbpp with ⟨_, h⟩ | ⟨hm, h⟩ | ⟨_, h⟩ | ⟨_, h⟩ | ⟨_, h⟩ <;>
      subst h <;> omega
  have hbound : ∀ r, r < 8 → tile_base + (0 + r) * grb + 24 ≤ out.length := by
    intro r hr
    have : (0 + r) * grb ≤ 7 * grb := Nat.mul_le_mul_right _ (by omega)
    omega
  obtain ⟨tb, hread, _, hget⟩ := LoadBP3.readTile_edge h0 h24 hcw hch io hio
  have hst := LoadBP3.stored_rows_le (bpp * cw) ch
  refine ⟨tb, hread, ?_⟩
  have key := LoadBP3.decodeRows_value m bpp bb bg br tb tile_base grb hgrb 8 0 0 out hsz
    hbound ty tx _ _ _ (by omega) (by omega)
    (LoadBP3.decodePixel_edge hbpp bb bg br tb (io.unread.take (bpp * cw * ch / 8)) cw ch
      (bpp * cw / 8) hs (by
        intro r c hr hc
        have hcb : c < bpp := by
          have : bpp * cw ≤ bpp * 8 := Nat.mul_le_mul_left _ hcw
          omega
        rw [hget r c hr hcb, if_pos hc, getD_take]
        have : (r + 1) * (bpp * cw / 8) ≤ ch * (bpp * cw / 8) := Nat.mul_le_mul_right _ hr
        rw [Nat.succ_mul] at this
        omega) tx ty htx hty)
  simpa only [Nat.zero_add] using key

/-! ## BP3 : what a tile consumes of the stream -/

theorem LoadBP3.readRows_data (srb pad : Nat) :
    ∀ (n dst : Nat) (tb : List Nat) (io : SDL_IOStream) (dst' : Nat) (tb' : List Nat)
      (io' : SDL_IOStream),
      LoadBP3.readRows srb pad n dst tb io = .ok (dst', tb', io') → io'.data = io.data := by
  intro n
  induction n with
  | zero =>
    intro dst tb io dst' tb' io' h
    simp only [LoadBP3.readRows, Except.ok.injEq, Prod.mk.injEq] at h
    rw [← h.2.2]
  | succ n ih =>
    intro dst tb io dst' tb' io' h
    rw [LoadBP3.readRows] at h
    simp only at h
    split at h
    · exact absurd h (by simp)
    · rename_i dst1 tb1 io1 heq
      have hio1 : io1.data = io.data := by
        split_ifs at heq <;> cases heq <;> rfl
      split_ifs at h <;> rw [ih _ _ _ _ _ _ h, hio1]

/-- After a tile that is read without error the stream stands
`bpp * chunk_w * chunk_h / 8` bytes behind where it stood before the tile. -/
theorem LoadBP3.readTile_pos {bpp cw ch : Nat} {io io' : SDL_IOStream} {tb : List Nat}
    (h : LoadBP3.readTile bpp cw ch io = .ok (tb, io')) :
    io'.data = io.data ∧ SDL_TellIO io' = SDL_TellIO io + bpp * cw * ch / 8 := by
  unfold LoadBP3.readTile at h
  simp only at h
  by_cases h0 : bpp > 0
  · rw [if_pos h0] at h
    split at h
    · exact absurd h (by simp)
    · rename_i dst tb1 io1 heq
      split at h
      · exact absurd h (by simp)
      · simp only [Except.ok.injEq, Prod.mk.injEq] at h
        rw [← h.2]
        refine ⟨?_, rfl⟩
        show io1.data = io.data
        exact LoadBP3.readRows_data _ _ _ _ _ _ _ _ _ heq
  · rw [if_neg h0] at h
    simp only [Except.ok.injEq, Prod.mk.injEq] at h
    have hb : bpp = 0 := by omega
    rw [← h.2, hb]
    simp

/-- The tile loop leaves the stream behind the stored bytes of all its
tiles. -/
theorem LoadBP3.tileLoop_pos (d : LoadBP3.Dims) (mode_tab param_tab : List Nat) :
    ∀ (n i : Nat) (io : SDL_IOStream) (out : List Nat) (io' : SDL_IOStream) (out' : List Nat),
      LoadBP3.tileLoop d mode_tab param_tab n i io out = .ok (io', out') →
      io'.data = io.data ∧
      SDL_TellIO io' = SDL_TellIO io +
        ((List.range n).map (fun j =>
          (LoadBP3.bpp (mode_tab.getD (i + j) 0)).getD 0 * LoadBP3.chunk_w d (i + j) *
            LoadBP3.chunk_h d (i + j) / 8)).sum := by
  intro n
  induction n with
  | zero =>
    intro i io out io' out' h
    simp only [LoadBP3.tileLoop, Except.ok.injEq, Prod.mk.injEq] at h
    rw [← h.1]
    simp
  | succ n ih =>
    intro i io out io' out' h
    rw [LoadBP3.tileLoop] at h
    split at h
    · exact absurd h (by simp)
    · rename_i bpp hbpp
      split at h
      · exact absurd h (by simp)
      · rename_i tb io1 hread
        obtain ⟨hd1, hp1⟩ := LoadBP3.readTile_pos hread
        obtain ⟨hd2, hp2⟩ := ih _ _ _ _ _ h
        refine ⟨by rw [hd2, hd1], ?_⟩
        rw [hp2, hp1, List.range_succ_eq_map, List.map_cons, List.sum_cons, List.map_map]
        simp only [Nat.add_zero, hbpp, Option.getD_some]
        rw [Nat.add_assoc]
        congr 2
        apply congrArg
        apply List.map_congr_left
        intro j _
        simp only [Function.comp_apply, Nat.succ_eq_add_one]
        rw [show i + (j + 1) = i + 1 + j by omega]

/-- The extent of a tile is what the image shows of it: 8, or what is left of
the width (height) in the last column (row) of tiles. -/
theorem LoadBP3.chunk_extent (w h : Nat) (hno : 3 * (w + 8) * (h + 8) ≤ 4294967296) (i : Nat)
    (hi : i < (LoadBP3.dims w h).num_tiles) :
    LoadBP3.chunk_w (LoadBP3.dims w h) i =
        min 8 (w - 8 * (i % (LoadBP3.dims w h).tiles_per_row)) ∧
      LoadBP3.chunk_h (LoadBP3.dims w h) i =
        min 8 (h - 8 * (i / (LoadBP3.dims w h).tiles_per_row)) ∧
      1 ≤ LoadBP3.chunk_w (LoadBP3.dims w h) i ∧ 1 ≤ LoadBP3.chunk_h (LoadBP3.dims w h) i := by
  have h1 : (w + 8) * 8 ≤ (w + 8) * (h + 8) := Nat.mul_le_mul_left _ (by omega)
  have h2 : 8 * (h + 8) ≤ (w + 8) * (h + 8) := Nat.mul_le_mul_right _ (by omega)
  have h3 : 3 * (w + 8) * (h + 8) = 3 * ((w + 8) * (h + 8)) := Nat.mul_assoc _ _ _
  obtain ⟨aw0, aw1, aw2⟩ := Align8_spec (x := w) (by omega)
  obtain ⟨ah0, ah1, ah2⟩ := Align8_spec (x := h) (by omega)
  obtain ⟨dw, dh, dpw, dph, dT, dR, _, _, _, dn, _, _⟩ := LoadBP3.dims_spec w h hno
  generalize LoadBP3.dims w h = d at *
  have hT : 0 < d.tiles_per_row := by
    rcases Nat.eq_zero_or_pos d.tiles_per_row with h0 | h0
    · rw [dn, h0, Nat.zero_mul] at hi
      omega
    · exact h0
  have hc : i % d.tiles_per_row < d.tiles_per_row := Nat.mod_lt _ hT
  have hr : i / d.tiles_per_row < d.padded_h / 8 := by
    rw [Nat.div_lt_iff_lt_mul hT, Nat.mul_comm]
    rw [dn] at hi
    exact hi
  unfold LoadBP3.chunk_w LoadBP3.chunk_h
  generalize i % d.tiles_per_row = c at *
  generalize i / d.tiles_per_row = r at *
  have hu1 : u32 (c * 8 + 8) = c * 8 + 8 := u32_of_lt (by omega)
  have hu2 : u32 (r * 8 + 8) = r * 8 + 8 := u32_of_lt (by omega)
  rw [hu1, hu2]
  unfold u32
  refine ⟨?_, ?_, ?_, ?_⟩ <;> split_ifs <;> omega

/-- C27: after every tile that the tile loop of `LoadBP3` reads without error,
the stream position is the position before the tile plus
`bpp * chunk_w * chunk_h / 8`, whatever the tile's rows needed; a SOLID tile
consumes no bytes, a full tile `bpp * 8` bytes; the whole loop leaves the stream
behind the sum of these byte counts; and `chunk_w`, `chunk_h` are the tile's
visible extent. -/
theorem LoadBP3_tile_consumes :
    (∀ (bpp cw ch : Nat) (io io1 : SDL_IOStream) (tile_buf : List Nat),
      LoadBP3.readTile bpp cw ch io = .ok (tile_buf, io1) →
      io1.data = io.data ∧ SDL_TellIO io1 = SDL_TellIO io + bpp * cw * ch / 8) ∧
    (∀ (cw ch : Nat) (io : SDL_IOStream),
      ∃ tile_buf, LoadBP3.readTile 0 cw ch io = .ok (tile_buf, io)) ∧
    (∀ (bpp : Nat) (io io1 : SDL_IOStream) (tile_buf : List Nat),
      LoadBP3.readTile bpp 8 8 io = .ok (tile_buf, io1) →
      SDL_TellIO io1 = SDL_TellIO io + bpp * 8) ∧
    (∀ (d : LoadBP3.Dims) (mode_tab param_tab : List Nat) (n i : Nat) (io : SDL_IOStream)
      (out : List Nat) (io1 : SDL_IOStream) (out1 : List Nat),
      LoadBP3.tileLoop d mode_tab param_tab n i io out = .ok (io1, out1) →
      SDL_TellIO io1 = SDL_TellIO io +
        ((List.range n).map (fun j =>
          (LoadBP3.bpp (mode_tab.getD (i + j) 0)).getD 0 * LoadBP3.chunk_w d (i + j) *
            LoadBP3.chunk_h d (i + j) / 8)).sum) ∧
    (∀ (w h i : Nat), 3 * (w + 8) * (h + 8) ≤ 4294967296 →
      i < (LoadBP3.dims w h).num_tiles →
      LoadBP3.chunk_w (LoadBP3.dims w h) i =
          min 8 (w - 8 * (i % (LoadBP3.dims w h).tiles_per_row)) ∧
        LoadBP3.chunk_h (LoadBP3.dims w h) i =
          min 8 (h - 8 * (i / (LoadBP3.dims w h).tiles_per_row))) := by
  refine ⟨?_, ?_, ?_, ?_, ?_⟩
  · intro bpp cw ch io io1 tile_buf h
    exact LoadBP3.readTile_pos h
  · intro cw ch io
    exact ⟨_, LoadBP3.readTile_solid cw ch io⟩
  · intro bpp io io1 tile_buf h
    rw [(LoadBP3.readTile_pos h).2]
    congr 1
    omega
  · intro d mode_tab param_tab n i io out io1 out1 h
    exact (LoadBP3.tileLoop_pos d mode_tab param_tab n i io out io1 out1 h).2
  · intro w h i hno hi
    exact ⟨(LoadBP3.chunk_extent w h hno i hi).1, (LoadBP3.chunk_extent w h hno i hi).2.1⟩

set_option maxRecDepth 100000 in
/-- C27, at a GRAY4 tile of 3x2 pixels in front of the bytes `21 43 65 87`:
its rows take two bytes and the stream ends up three bytes further. -/
theorem LoadBP3_tile_consumes_witness :
    ∃ (tile_buf : List Nat) (io1 : SDL_IOStream),
      LoadBP3.readTile 4 3 2 ⟨[0x21, 0x43, 0x65, 0x87], 0⟩ = .ok (tile_buf, io1) ∧
      tile_buf.take 8 = [0x21, 0, 0, 0, 0x43, 0, 0, 0] ∧
      SDL_TellIO io1 = 0 + 4 * 3 * 2 / 8 :=
  ⟨_, _, rfl, by decide,
    (LoadBP3_tile_consumes.1 4 3 2 ⟨[0x21, 0x43, 0x65, 0x87], 0⟩ _ _ rfl).2⟩

set_option maxRecDepth 100000 in
/-- C26: a partial tile whose rows are a whole number of bytes (every mode
with `bpp > 0` but GRAY4, and GRAY4 with an even `chunk_w`) is read without
error, and the bytes that the decode loops store for its visible pixel
`(tx, ty)` are those of pixel number `ty * chunk_w + tx` of the contiguously
packed payload.  A GRAY4 tile with an odd `chunk_w` is not decoded so: of every
row only `chunk_w / 2` bytes are read, each row from a fresh byte, and the last
visible pixel of the row is taken from the zeroed padding.  The 3x2 image
with the payload nibbles `1` to `6` comes out as `3 4 0` over `1 2 0` (rows
flipped) where the packed payload has `4 5 6` over `1 2 3`. -/
theorem LoadBP3_edge_tile_pixel :
    (∀ (m bpp bb bg br : Nat), LoadBP3.bpp m = some bpp → 0 < bpp →
      ∀ (cw ch : Nat), cw ≤ 8 → ch ≤ 8 → (m ≠ 4 ∨ cw % 2 = 0) →
      ∀ (io : SDL_IOStream), bpp * cw * ch / 8 ≤ io.unread.length →
      ∀ (tile_base grb : Nat) (out : List Nat), 24 ≤ grb → out.length < 4294967296 →
        tile_base + 7 * grb + 24 ≤ out.length →
      ∀ (tx ty : Nat), tx < cw → ty < ch →
      ∃ tb, LoadBP3.readTile bpp cw ch io =
          .ok (tb, ⟨io.data, io.pos + bpp * cw * ch / 8⟩) ∧
        (LoadBP3.decodeRows m bpp bb bg br tb tile_base grb 8 0 0 out).getD
            (tile_base + ty * grb + 3 * tx) 0 =
          (BP3PackedPixelSpec m bb bg br (io.unread.take (bpp * cw * ch / 8)) cw tx ty).1 ∧
        (LoadBP3.decodeRows m bpp bb bg br tb tile_base grb 8 0 0 out).getD
            (tile_base + ty * grb + 3 * tx + 1) 0 =
          (BP3PackedPixelSpec m bb bg br (io.unread.take (bpp * cw * ch / 8)) cw tx ty).2.1 ∧
        (LoadBP3.decodeRows m bpp bb bg br tb tile_base grb 8 0 0 out).getD
            (tile_base + ty * grb + 3 * tx + 2) 0 =
          (BP3PackedPixelSpec m bb bg br (io.unread.take (bpp * cw * ch / 8)) cw tx ty).2.2) ∧
    LoadBP3.chunk_w (LoadBP3.dims 3 2) 0 = 3 ∧ LoadBP3.chunk_h (LoadBP3.dims 3 2) 0 = 2 ∧
    (∃ tb, LoadBP3.readTile 4 3 2 ⟨[0x21, 0x43, 0x65], 0⟩ = .ok (tb, ⟨[0x21, 0x43, 0x65], 3⟩) ∧
      tb.take 8 = [0x21, 0, 0, 0, 0x43, 0, 0, 0] ∧
      LoadBP3.decodePixel 4 0 0 0 tb (0 + 0 * 4 + LoadBP3.srcCol 4 (4 / 8) 2) 2 =
        some (0, 0, 0)) ∧
    BP3PackedPixelSpec 4 0 0 0 [0x21, 0x43, 0x65] 3 2 0 = (3, 3, 3) ∧
    LoadBP3 bp3Gray4OddExample =
      .ok ⟨3, 2, [[3, 3, 3, 4, 4, 4, 0, 0, 0], [1, 1, 1, 2, 2, 2, 0, 0, 0]]⟩ ∧
    (∀ tx < 3, ∀ ty < 2, ∀ k < 3,
      channel (BP3PackedPixelSpec 4 0 0 0 [0x21, 0x43, 0x65] 3 tx ty) k =
        ([[1, 1, 1, 2, 2, 2, 3, 3, 3], [4, 4, 4, 5, 5, 5, 6, 6, 6]].getD ty []).getD
          (3 * tx + k) 0) := by
  refine ⟨?_, by decide, by decide, ⟨_, rfl, by decide, by decide⟩, by decide, by rfl,
    by decide⟩
  intro m bpp bb bg br hbpp h0 cw ch hcw hch hrow io hio tile_base grb out hgrb hsz hfit tx ty
    htx hty
  exact LoadBP3.edge_tile m bpp bb bg br hbpp h0 cw ch hcw hch hrow io hio tile_base grb out
    hgrb hsz hfit tx ty htx hty

set_option maxRecDepth 100000 in
/-- C26, at a BGR555 tile of 3x2 pixels with the payload `0..11` and the pixel
`(2, 1)`, which is pixel number 5 and starts at byte 10. -/
theorem LoadBP3_edge_tile_pixel_witness :
    ∃ tb, LoadBP3.readTile 16 3 2 ⟨List.range 12, 0⟩ =
        .ok (tb, ⟨List.range 12, 0 + 16 * 3 * 2 / 8⟩) ∧
      (LoadBP3.decodeRows 6 16 0 0 0 tb 0 24 8 0 0 (List.replicate 192 0)).getD
          (0 + 1 * 24 + 3 * 2) 0 =
        (BP3PackedPixelSpec 6 0 0 0
          ((⟨List.range 12, 0⟩ : SDL_IOStream).unread.take (16 * 3 * 2 / 8)) 3 2 1).1 ∧
      (LoadBP3.decodeRows 6 16 0 0 0 tb 0 24 8 0 0 (List.replicate 192 0)).getD
          (0 + 1 * 24 + 3 * 2 + 1) 0 =
        (BP3PackedPixelSpec 6 0 0 0
          ((⟨List.range 12, 0⟩ : SDL_IOStream).unread.take (16 * 3 * 2 / 8)) 3 2 1).2.1 ∧
      (LoadBP3.decodeRows 6 16 0 0 0 tb 0 24 8 0 0 (List.replicate 192 0)).getD
          (0 + 1 * 24 + 3 * 2 + 2) 0 =
        (BP3PackedPixelSpec 6 0 0 0
          ((⟨List.range 12, 0⟩ : SDL_IOStream).unread.take (16 * 3 * 2 / 8)) 3 2 1).2.2 :=
  LoadBP3_edge_tile_pixel.1 6 16 0 0 0 rfl (by decide) 3 2 (by decide) (by decide)
    (Or.inl (by decide)) ⟨List.range 12, 0⟩ (by decide) 0 24 (List.replicate 192 0) (by decide)
    (by rw [List.length_replicate]; decide) (by rw [List.length_replicate]) 2 1 (by decide)
    (by decide)

/-! ## BP2 : a slice whose chunk runs out -/

/-- A column loop over `n` pending pixels succeeds and leaves the other
pending pixels. -/
theorem BP2_DecodeRLE.column_run (SRC_BPP DST_BPP dst_pitch : Nat) :
    ∀ (n col : Nat) (st : BP2_DecodeRLE.Run) (slice : List Nat) (pxs tl : List (List Nat)),
      (∀ b ∈ st.p, b < 256) → BP2_DecodeRLE.pending SRC_BPP st = pxs ++ tl → pxs.length = n →
      ∃ st' slice', BP2_DecodeRLE.column SRC_BPP DST_BPP dst_pitch n col st slice =
          .ok (st', slice') ∧
        BP2_DecodeRLE.pending SRC_BPP st' = tl ∧ (∀ b ∈ st'.p, b < 256) := by
  intro n
  induction n with
  | zero =>
    intro col st slice pxs tl hb hp hl
    have : pxs = [] := List.length_eq_zero.1 hl
    subst this
    exact ⟨st, slice, rfl, hp, hb⟩
  | succ n ih =>
    intro col st slice pxs tl hb hp hl
    obtain ⟨px, pxs', rfl⟩ : ∃ px pxs', pxs = px :: pxs' := by
      cases pxs with
      | nil => simp at hl
      | cons a l => exact ⟨a, l, rfl⟩
    obtain ⟨st1, h1, hp1, hb1⟩ := BP2_DecodeRLE.pixel_pending SRC_BPP DST_BPP st slice col px
      (pxs' ++ tl) hb hp
    obtain ⟨st', slice', h2, hp2, hb2⟩ := ih (col + dst_pitch) st1
      (memWrite slice col (BP2_DecodeRLE.planes SRC_BPP DST_BPP px)) pxs' tl hb1 hp1
      (by simpa using hl)
    refine ⟨st', slice', ?_, hp2, hb2⟩
    rw [BP2_DecodeRLE.column, h1]
    exact h2

/-- A column loop with fewer than `n` pending pixels fails with "Malformed
slice". -/
theorem BP2_DecodeRLE.column_short (SRC_BPP DST_BPP dst_pitch : Nat) :
    ∀ (n col : Nat) (st : BP2_DecodeRLE.Run) (slice : List Nat),
      (∀ b ∈ st.p, b < 256) → (BP2_DecodeRLE.pending SRC_BPP st).length < n →
      BP2_DecodeRLE.column SRC_BPP DST_BPP dst_pitch n col st slice =
        .error (.msg "Malformed slice") := by
  intro n
  induction n with
  | zero => intro col st slice _ h; omega
  | succ n ih =>
    intro col st slice hb hl
    rw [BP2_DecodeRLE.column]
    cases hp : BP2_DecodeRLE.pending SRC_BPP st with
    | nil =>
      rw [BP2_DecodeRLE.pixel_exhausted SRC_BPP DST_BPP st slice col hb hp]
    | cons px tl =>
      obtain ⟨st1, h1, hp1, hb1⟩ := BP2_DecodeRLE.pixel_pending SRC_BPP DST_BPP st slice col
        px tl hb hp
      rw [h1]
      simp only
      apply ih _ _ _ hb1
      rw [hp1]
      rw [hp] at hl
      simpa using hl

/-- A loop over `n` columns with at least `8 * n` pending pixels succeeds. -/
theorem BP2_DecodeRLE.columns_run (SRC_BPP DST_BPP dst_pitch : Nat) :
    ∀ (n x : Nat) (st : BP2_DecodeRLE.Run) (slice : List Nat),
      (∀ b ∈ st.p, b < 256) → 8 * n ≤ (BP2_DecodeRLE.pending SRC_BPP st).length →
      ∃ st' slice', BP2_DecodeRLE.columns SRC_BPP DST_BPP dst_pitch n x st slice =
        .ok (st', slice') := by
  intro n
  induction n with
  | zero => intro x st slice _ _; exact ⟨st, slice, rfl⟩
  | succ n ih =>
    intro x st slice hb hl
    obtain ⟨st1, slice1, h1, hp1, hb1⟩ := BP2_DecodeRLE.column_run SRC_BPP DST_BPP dst_pitch 8
      (x * DST_BPP) st slice ((BP2_DecodeRLE.pending SRC_BPP st).take 8)
      ((BP2_DecodeRLE.pending SRC_BPP st).drop 8) hb (List.take_append_drop _ _).symm
      (by rw [List.length_take]; omega)
    obtain ⟨st', slice', h2⟩ := ih (x + 1) st1 slice1 hb1
      (by rw [hp1, List.length_drop]; omega)
    refine ⟨st', slice', ?_⟩
    rw [BP2_DecodeRLE.columns, h1]
    exact h2

/-- A loop over `n` columns with fewer than `8 * n` pending pixels fails with
"Malformed slice". -/
theorem BP2_DecodeRLE.columns_short (SRC_BPP DST_BPP dst_pitch : Nat) :
    ∀ (n x : Nat) (st : BP2_DecodeRLE.Run) (slice : List Nat),
      (∀ b ∈ st.p, b < 256) → (BP2_DecodeRLE.pending SRC_BPP st).length < 8 * n →
      BP2_DecodeRLE.columns SRC_BPP DST_BPP dst_pitch n x st slice =
        .error (.msg "Malformed slice") := by
  intro n
  induction n with
  | zero => intro x st slice _ h; omega
  | succ n ih =>
    intro x st slice hb hl
    rw [BP2_DecodeRLE.columns]
    by_cases h8 : (BP2_DecodeRLE.pending SRC_BPP st).length < 8
    · rw [BP2_DecodeRLE.column_short SRC_BPP DST_BPP dst_pitch 8 _ st slice hb h8]
    · obtain ⟨st1, slice1, h1, hp1, hb1⟩ := BP2_DecodeRLE.column_run SRC_BPP DST_BPP dst_pitch
        8 (x * DST_BPP) st slice ((BP2_DecodeRLE.pending SRC_BPP st).take 8)
        ((BP2_DecodeRLE.pending SRC_BPP st).drop 8) hb (List.take_append_drop _ _).symm
        (by rw [List.length_take]; omega)
      rw [h1]
      simp only
      apply ih _ _ _ hb1
      rw [hp1, List.length_drop]
      omega

/-! ## BP2 : the chunk as a buffer in memory -/

theorem BP2_DecodeRLE.nextRunAt.go_run (SRC_BPP : Nat) :
    ∀ (fuel : Nat) (c : BP2_DecodeRLE.Cursor), c.chunk_len ≤ c.p.length →
      BP2_DecodeRLE.nextRun.go SRC_BPP fuel c.run =
          (BP2_DecodeRLE.nextRunAt.go SRC_BPP fuel c).map BP2_DecodeRLE.Cursor.run ∧
        ∀ c', BP2_DecodeRLE.nextRunAt.go SRC_BPP fuel c = .ok c' →
          c'.chunk_len ≤ c'.p.length := by
  intro fuel
  induction fuel with
  | zero =>
    intro c _
    exact ⟨rfl, fun c' h => by simp [BP2_DecodeRLE.nextRunAt.go] at h⟩
  | succ fuel ih =>
    intro c hinv
    have hlen : c.run.p.length = c.chunk_len := by
      simp only [BP2_DecodeRLE.Cursor.run, List.length_take]
      omega
    rw [BP2_DecodeRLE.nextRun.go, BP2_DecodeRLE.nextRunAt.go]
    by_cases hr : c.rlen ≠ 0
    · have hr' : c.run.rlen ≠ 0 := hr
      rw [if_pos hr, if_pos hr']
      refine ⟨rfl, ?_⟩
      intro c' h
      simp only [Except.ok.injEq] at h
      rw [← h]
      exact hinv
    · have hr' : ¬ c.run.rlen ≠ 0 := hr
      rw [if_neg hr, if_neg hr', hlen]
      by_cases h2 : c.chunk_len < 2
      · rw [if_pos h2, if_pos h2]
        exact ⟨rfl, fun c' h => by simp at h⟩
      · rw [if_neg h2, if_neg h2]
        have hg0 : c.run.p.getD 0 0 = c.p.getD 0 0 := by
          simp only [BP2_DecodeRLE.Cursor.run]
          exact getD_take_of_lt 0 (by omega)
        have hg1 : c.run.p.getD 1 0 = c.p.getD 1 0 := by
          simp only [BP2_DecodeRLE.Cursor.run]
          exact getD_take_of_lt 0 (by omega)
        have hd2 : c.run.p.drop 2 = (c.p.drop 2).take (c.chunk_len - 2) := by
          simp only [BP2_DecodeRLE.Cursor.run]
          rw [List.drop_take]
        simp only [hg0, hg1, hd2]
        have hl2 : ((c.p.drop 2).take (c.chunk_len - 2)).length = c.chunk_len - 2 := by
          rw [List.length_take, List.length_drop]
          omega
        by_cases h15 : (c.p.getD 0 0 ||| (c.p.getD 1 0 <<< 8)) &&& 0x8000 ≠ 0
        · rw [if_pos h15, if_pos h15, hl2]
          by_cases hs : c.chunk_len - 2 < SRC_BPP
          · rw [if_pos hs, if_pos hs]
            exact ⟨rfl, fun c' h => by simp at h⟩
          · rw [if_neg hs, if_neg hs]
            have key := ih
              { rrle := true, rlen := (c.p.getD 0 0 ||| (c.p.getD 1 0 <<< 8)) &&& 0x7FFF,
                rval := (c.p.drop 2).take SRC_BPP, p := (c.p.drop 2).drop SRC_BPP,
                chunk_len := c.chunk_len - 2 - SRC_BPP }
              (by simp only [List.length_drop]; omega)
            rw [List.take_take, Nat.min_eq_left (by omega), List.drop_take]
            exact key
        · rw [if_neg h15, if_neg h15]
          have key := ih
            { rrle := false, rlen := c.p.getD 0 0 ||| (c.p.getD 1 0 <<< 8),
              rval := c.rval, p := c.p.drop 2, chunk_len := c.chunk_len - 2 }
            (by simp only [List.length_drop]; omega)
          exact key

theorem BP2_DecodeRLE.nextRunAt_run (SRC_BPP : Nat) (c : BP2_DecodeRLE.Cursor)
    (hinv : c.chunk_len ≤ c.p.length) :
    BP2_DecodeRLE.nextRun SRC_BPP c.run =
        (BP2_DecodeRLE.nextRunAt SRC_BPP c).map BP2_DecodeRLE.Cursor.run ∧
      ∀ c', BP2_DecodeRLE.nextRunAt SRC_BPP c = .ok c' → c'.chunk_len ≤ c'.p.length := by
  have hlen : c.run.p.length = c.chunk_len := by
    simp only [BP2_DecodeRLE.Cursor.run, List.length_take]
    omega
  unfold BP2_DecodeRLE.nextRun BP2_DecodeRLE.nextRunAt
  rw [hlen]
  exact BP2_DecodeRLE.nextRunAt.go_run SRC_BPP _ c hinv

theorem BP2_DecodeRLE.pixelAt_run (SRC_BPP DST_BPP : Nat) (c : BP2_DecodeRLE.Cursor)
    (slice : List Nat) (col : Nat) (hinv : c.chunk_len ≤ c.p.length) :
    BP2_DecodeRLE.pixel SRC_BPP DST_BPP c.run slice col =
        (BP2_DecodeRLE.pixelAt SRC_BPP DST_BPP c slice col).map
          (fun r => (BP2_DecodeRLE.Cursor.run r.1, r.2)) ∧
      ∀ c' s', BP2_DecodeRLE.pixelAt SRC_BPP DST_BPP c slice col = .ok (c', s') →
        c'.chunk_len ≤ c'.p.length := by
  obtain ⟨h1, h2⟩ := BP2_DecodeRLE.nextRunAt_run SRC_BPP c hinv
  unfold BP2_DecodeRLE.pixel BP2_DecodeRLE.pixelAt
  rw [h1]
  cases hn : BP2_DecodeRLE.nextRunAt SRC_BPP c with
  | error e => exact ⟨rfl, fun c' s' h => by simp at h⟩
  | ok c1 =>
    have hinv1 := h2 c1 hn
    have hlen : c1.run.p.length = c1.chunk_len := by
      simp only [BP2_DecodeRLE.Cursor.run, List.length_take]
      omega
    simp only [Except.map]
    by_cases hrr : c1.rrle = true
    · have hrr' : c1.run.rrle = true := hrr
      rw [if_pos hrr, if_pos hrr']
      refine ⟨rfl, ?_⟩
      intro c' s' h
      simp only [Except.ok.injEq, Prod.mk.injEq] at h
      rw [← h.1]
      exact hinv1
    · have hrr' : ¬ c1.run.rrle = true := hrr
      rw [if_neg hrr, if_neg hrr', hlen]
      by_cases hs : c1.chunk_len < SRC_BPP
      · rw [if_pos hs, if_pos hs]
        exact ⟨rfl, fun c' s' h => by simp at h⟩
      · rw [if_neg hs, if_neg hs]
        have ht : c1.run.p.take SRC_BPP = c1.p.take SRC_BPP := by
          simp only [BP2_DecodeRLE.Cursor.run]
          rw [List.take_take, Nat.min_eq_left (by omega)]
        have hd : c1.run.p.drop SRC_BPP = (c1.p.drop SRC_BPP).take (c1.chunk_len - SRC_BPP) := by
          simp only [BP2_DecodeRLE.Cursor.run]
          rw [List.drop_take]
        refine ⟨?_, ?_⟩
        · simp only [ht, hd]
          rfl
        · intro c' s' h
          simp only [Except.ok.injEq, Prod.mk.injEq] at h
          rw [← h.1]
          simp only [List.length_drop]
          omega

theorem BP2_DecodeRLE.columnAt_run (SRC_BPP DST_BPP dst_pitch : Nat) :
    ∀ (n col : Nat) (c : BP2_DecodeRLE.Cursor) (slice : List Nat),
      c.chunk_len ≤ c.p.length →
      BP2_DecodeRLE.column SRC_BPP DST_BPP dst_pitch n col c.run slice =
          (BP2_DecodeRLE.columnAt SRC_BPP DST_BPP dst_pitch n col c slice).map
            (fun r => (BP2_DecodeRLE.Cursor.run r.1, r.2)) ∧
        ∀ c' s', BP2_DecodeRLE.columnAt SRC_BPP DST_BPP dst_pitch n col c slice = .ok (c', s') →
          c'.chunk_len ≤ c'.p.length := by
  intro n
  induction n with
  | zero =>
    intro col c slice hinv
    refine ⟨rfl, ?_⟩
    intro c' s' h
    simp only [BP2_DecodeRLE.columnAt, Except.ok.injEq, Prod.mk.injEq] at h
    rw [← h.1]
    exact hinv
  | succ n ih =>
    intro col c slice hinv
    obtain ⟨h1, h2⟩ := BP2_DecodeRLE.pixelAt_run SRC_BPP DST_BPP c slice col hinv
    rw [BP2_DecodeRLE.column, BP2_DecodeRLE.columnAt, h1]
    cases hp : BP2_DecodeRLE.pixelAt SRC_BPP DST_BPP c slice col with
    | error e => exact ⟨rfl, fun c' s' h => by simp at h⟩
    | ok r =>
      obtain ⟨c1, s1⟩ := r
      exact ih (col + dst_pitch) c1 s1 (h2 c1 s1 hp)

theorem BP2_DecodeRLE.columnsAt_run (SRC_BPP DST_BPP dst_pitch : Nat) :
    ∀ (n x : Nat) (c : BP2_DecodeRLE.Cursor) (slice : List Nat),
      c.chunk_len ≤ c.p.length →
      BP2_DecodeRLE.columns SRC_BPP DST_BPP dst_pitch n x c.run slice =
          (BP2_DecodeRLE.columnsAt SRC_BPP DST_BPP dst_pitch n x c slice).map
            (fun r => (BP2_DecodeRLE.Cursor.run r.1, r.2)) ∧
        ∀ c' s', BP2_DecodeRLE.columnsAt SRC_BPP DST_BPP dst_pitch n x c slice = .ok (c', s') →
          c'.chunk_len ≤ c'.p.length := by
  intro n
  induction n with
  | zero =>
    intro x c slice hinv
    refine ⟨rfl, ?_⟩
    intro c' s' h
    simp only [BP2_DecodeRLE.columnsAt, Except.ok.injEq, Prod.mk.injEq] at h
    rw [← h.1]
    exact hinv
  | succ n ih =>
    intro x c slice hinv
    obtain ⟨h1, h2⟩ := BP2_DecodeRLE.columnAt_run SRC_BPP DST_BPP dst_pitch 8 (x * DST_BPP) c
      slice hinv
    rw [BP2_DecodeRLE.columns, BP2_DecodeRLE.columnsAt, h1]
    cases hp : BP2_DecodeRLE.columnAt SRC_BPP DST_BPP dst_pitch 8 (x * DST_BPP) c slice with
    | error e => exact ⟨rfl, fun c' s' h => by simp at h⟩
    | ok r =>
      obtain ⟨c1, s1⟩ := r
      exact ih (x + 1) c1 s1 (h2 c1 s1 hp)

/-- What lies behind the chunk's buffer has no part in the decoding of a
slice: no byte is read at or beyond `chunk + chunk_len`. -/
theorem BP2_DecodeRLE.sliceAt_eq (SRC_BPP DST_BPP biWidth : Nat) (chunk behind slice : List Nat) :
    BP2_DecodeRLE.sliceAt SRC_BPP DST_BPP biWidth chunk behind slice =
      BP2_DecodeRLE.slice SRC_BPP DST_BPP biWidth chunk slice := by
  have hrun : BP2_DecodeRLE.Cursor.run
      { rrle := false, rlen := 0, rval := List.replicate SRC_BPP 0, p := chunk ++ behind,
        chunk_len := chunk.length } =
      { rrle := false, rlen := 0, rval := List.replicate SRC_BPP 0, p := chunk } := by
    simp [BP2_DecodeRLE.Cursor.run]
  obtain ⟨h1, _⟩ := BP2_DecodeRLE.columnsAt_run SRC_BPP DST_BPP (Align4 (biWidth * DST_BPP))
    biWidth 0
    { rrle := false, rlen := 0, rval := List.replicate SRC_BPP 0, p := chunk ++ behind,
      chunk_len := chunk.length } slice (by simp)
  rw [hrun] at h1
  unfold BP2_DecodeRLE.sliceAt BP2_DecodeRLE.slice
  simp only
  rw [h1]
  cases BP2_DecodeRLE.columnsAt SRC_BPP DST_BPP (Align4 (biWidth * DST_BPP)) biWidth 0
    { rrle := false, rlen := 0, rval := List.replicate SRC_BPP 0, p := chunk ++ behind,
      chunk_len := chunk.length } slice with
  | error e => rfl
  | ok r => rfl

/-- C21: the run-length decoding of a slice fails with "Malformed slice"
exactly when the chunk (bytes below 256) is exhausted before `8 * biWidth`
pixels are produced, that is when its run expansion, which ends where two
bytes are missing for a control word or `SRC_BPP` bytes for a repeat value or a
literal pixel, has fewer than `8 * biWidth` pixels; otherwise it succeeds.  No
byte at or beyond `chunk + chunk_len` is used: with the chunk as a buffer in
memory the result is the same whatever lies behind the buffer. -/
theorem BP2_DecodeRLE_malformed_slice (SRC_BPP DST_BPP biWidth : Nat) (chunk slice : List Nat)
    (hbytes : ∀ b ∈ chunk, b < 256) :
    (BP2_DecodeRLE.slice SRC_BPP DST_BPP biWidth chunk slice = .error (.msg "Malformed slice") ↔
      (BP2RunExpansion SRC_BPP chunk).length < 8 * biWidth) ∧
    ((∃ slice1, BP2_DecodeRLE.slice SRC_BPP DST_BPP biWidth chunk slice = .ok slice1) ↔
      8 * biWidth ≤ (BP2RunExpansion SRC_BPP chunk).length) ∧
    (∀ behind, BP2_DecodeRLE.sliceAt SRC_BPP DST_BPP biWidth chunk behind slice =
      BP2_DecodeRLE.slice SRC_BPP DST_BPP biWidth chunk slice) := by
  have hpend : BP2_DecodeRLE.pending SRC_BPP
      { rrle := false, rlen := 0, rval := List.replicate SRC_BPP 0, p := chunk } =
      BP2RunExpansion SRC_BPP chunk := BP2_DecodeRLE.pending_of_rlen_zero SRC_BPP rfl
  have hshort : (BP2RunExpansion SRC_BPP chunk).length < 8 * biWidth →
      BP2_DecodeRLE.slice SRC_BPP DST_BPP biWidth chunk slice =
        .error (.msg "Malformed slice") := by
    intro h
    unfold BP2_DecodeRLE.slice
    simp only
    rw [BP2_DecodeRLE.columns_short SRC_BPP DST_BPP _ biWidth 0 _ slice hbytes
      (by rw [hpend]; exact h)]
  have henough : 8 * biWidth ≤ (BP2RunExpansion SRC_BPP chunk).length →
      ∃ slice1, BP2_DecodeRLE.slice SRC_BPP DST_BPP biWidth chunk slice = .ok slice1 := by
    intro h
    obtain ⟨st', slice', h1⟩ := BP2_DecodeRLE.columns_run SRC_BPP DST_BPP
      (Align4 (biWidth * DST_BPP)) biWidth 0
      { rrle := false, rlen := 0, rval := List.replicate SRC_BPP 0, p := chunk } slice hbytes
      (by rw [hpend]; exact h)
    refine ⟨slice', ?_⟩
    unfold BP2_DecodeRLE.slice
    simp only
    rw [h1]
  refine ⟨⟨?_, hshort⟩, ⟨?_, henough⟩, ?_⟩
  · intro h
    by_contra hcon
    obtain ⟨slice1, h1⟩ := henough (by omega)
    rw [h1] at h
    cases h
  · rintro ⟨slice1, h⟩
    by_contra hcon
    rw [hshort (by omega)] at h
    cases h
  · intro behind
    exact BP2_DecodeRLE.sliceAt_eq SRC_BPP DST_BPP biWidth chunk behind slice

/-- C21, at a GRAY8 slice of width 2 whose chunk stops inside its literal
run: five copies of 7 and the literals 1 and 2 are seven pixels of sixteen. -/
theorem BP2_DecodeRLE_malformed_slice_witness :
    BP2_DecodeRLE.slice 1 3 2 [0x05, 0x80, 7, 0x03, 0x00, 1, 2] (List.replicate 64 0) =
        .error (.msg "Malformed slice") ∧
      BP2_DecodeRLE.sliceAt 1 3 2 [0x05, 0x80, 7, 0x03, 0x00, 1, 2] [3, 0x08, 0x80, 9]
          (List.replicate 64 0) =
        BP2_DecodeRLE.slice 1 3 2 [0x05, 0x80, 7, 0x03, 0x00, 1, 2] (List.replicate 64 0) :=
  ⟨(BP2_DecodeRLE_malformed_slice 1 3 2 [0x05, 0x80, 7, 0x03, 0x00, 1, 2] (List.replicate 64 0)
      (by decide)).1.2 (by decide),
    (BP2_DecodeRLE_malformed_slice 1 3 2 [0x05, 0x80, 7, 0x03, 0x00, 1, 2] (List.replicate 64 0)
      (by decide)).2.2 [3, 0x08, 0x80, 9]⟩

/-! ## BP2 : the trailing partial slice -/

/-- The slice loop leaves the stream behind the chunks of its slices. -/
theorem BP2_DecodeRLE.slices_chunks (SRC_BPP DST_BPP biWidth pitch : Nat) :
    ∀ (n i : Nat) (io : SDL_IOStream) (slice : List Nat) (rows : List (List Nat))
      (io' : SDL_IOStream) (slice' : List Nat) (rows' : List (List Nat)),
      BP2_DecodeRLE.slices SRC_BPP DST_BPP biWidth pitch n i io slice rows =
        .ok (io', slice', rows') →
      ∃ cs, BP2_DecodeRLE.chunks n io = some (cs, io') := by
  intro n
  induction n with
  | zero =>
    intro i io slice rows io' slice' rows' h
    simp only [BP2_DecodeRLE.slices, Except.ok.injEq, Prod.mk.injEq] at h
    rw [← h.1]
    exact ⟨[], rfl⟩
  | succ n ih =>
    intro i io slice rows io' slice' rows' h
    rw [BP2_DecodeRLE.slices] at h
    rw [BP2_DecodeRLE.chunks]
    cases hr : SDL_ReadU32LE io with
    | none => rw [hr] at h; cases h
    | some v =>
      obtain ⟨chunk_len, io1⟩ := v
      rw [hr] at h
      simp only at h ⊢
      by_cases hcl : ( SDL_ReadIO io1 chunk_len).1.length ≠ chunk_len
      · rw [if_pos hcl] at h; cases h
      · rw [if_neg hcl] at h
        rw [if_neg hcl]
        cases hs : BP2_DecodeRLE.slice SRC_BPP DST_BPP biWidth ( SDL_ReadIO io1 chunk_len).1
            slice with
        | error e => rw [hs] at h; cases h
        | ok slice1 =>
          rw [hs] at h
          simp only at h
          obtain ⟨cs, hcs⟩ := ih _ _ _ _ _ _ _ h
          rw [hcs]
          exact ⟨_, rfl⟩

/-- Row `k` of a buffer that was stored at the beginning of the scratch. -/
theorem memWrite_zero_row (slice raw : List Nat) (pitch row_bytes k n : Nat)
    (hraw : raw.length = n * pitch) (hk : k < n) (hrow : row_bytes ≤ pitch) :
    ((memWrite slice 0 raw).drop (pitch * k)).take row_bytes =
      (raw.drop (pitch * k)).take row_bytes := by
  have h1 : (k + 1) * pitch ≤ n * pitch := Nat.mul_le_mul_right _ hk
  rw [Nat.succ_mul] at h1
  have h2 : pitch * k = k * pitch := Nat.mul_comm _ _
  simp only [memWrite, List.take_zero, List.nil_append, Nat.zero_add]
  rw [List.drop_append_of_le_length (by omega),
    List.take_append_of_le_length (by rw [List.length_drop]; omega)]

/-- C22: a BP2 stream (of bytes) with `height % 8 != 0` that `LoadBP2` decodes
successfully: behind the chunks of the slices the stream holds a u32 that
equals the header's `extra_slice_count` and `(height % 8) * Align4(width *
DST_BPP)`, that many bytes follow it, and they are handed to the copy loop with
`first = height - height % 8`; where every row of the surface begins less than
`2^32` bytes behind its first byte (`pitch * (height - 1) < 2^32`), the decoded
row `height - height % 8 + y` (before the flip) is the first `width * DST_BPP`
bytes at `Align4(width * DST_BPP) * y` of them.  Where the header's
`extra_slice_count` is not `(height % 8) * Align4(width * DST_BPP)`, or the u32
behind the slices is not the header's `extra_slice_count`, `LoadBP2` fails.
In a larger surface the `u32` offset `surf->pitch * row` of the copy loop wraps:
for an INDEX8 image of 65536 x 65540 pixels, whose pitch is 65536, the copy loop
of the trailer stores its four rows at the rows 0 to 3 of the surface and
leaves the rows 65536 to 65539 as they were. -/
theorem LoadBP2_trailer (surf_ok : Bool) (src : SDL_IOStream)
    (hbytes : ∀ b ∈ src.data, b < 256) :
    (∀ (pal : Option (List SDL_Color)) (bmp : Bitmap),
      LoadBP2 surf_ok src = .ok (pal, bmp) → bmp.height % 8 ≠ 0 →
      ∃ bpar src1 src2 SRC_BPP DST_BPP chunks src3 src4 decoded slice1 rows1,
        LoadBP2.header src = .ok (bpar, src1) ∧
        LoadBP2.palette bpar.bp2.palette_len src1 = .ok (pal, src2) ∧
        ((bpar.bp2.encoding = 1 ∧ SRC_BPP = 1 ∧ DST_BPP = 1) ∨
          (bpar.bp2.encoding = 2 ∧ SRC_BPP = 3 ∧ DST_BPP = 3) ∨
          (bpar.bp2.encoding = 3 ∧ SRC_BPP = 1 ∧ DST_BPP = 3)) ∧
        LoadBP2.pitch bpar.bih.biWidth (LoadBP2.format_map.get? bpar.bp2.encoding) =
          Align4 (bpar.bih.biWidth * DST_BPP) ∧
        BP2_DecodeRLE.decode SRC_BPP DST_BPP
          (LoadBP2.surface bpar.bih.biWidth bpar.bih.biHeight
            (LoadBP2.format_map.get? bpar.bp2.encoding))
          (Align4 (bpar.bih.biWidth * DST_BPP)) src2 bpar = .ok decoded ∧
        bmp.height = bpar.bih.biHeight ∧ bmp.rows = decoded.reverse ∧
        BP2_DecodeRLE.chunks bpar.bp2.slice_count src2 = some (chunks, src3) ∧
        SDL_ReadU32LE src3 = some (bpar.bp2.extra_slice_count, src4) ∧
        (bpar.bih.biHeight % 8) * Align4 (bpar.bih.biWidth * DST_BPP) =
          bpar.bp2.extra_slice_count ∧
        ( SDL_ReadIO src4 bpar.bp2.extra_slice_count).1.length = bpar.bp2.extra_slice_count ∧
        rows1.length = bpar.bih.biHeight ∧
        (∀ row ∈ rows1, row.length = bpar.bih.biWidth * DST_BPP) ∧
        decoded = BP2_DecodeRLE.copyRows (bpar.bih.biWidth * DST_BPP)
          (Align4 (bpar.bih.biWidth * DST_BPP)) (Align4 (bpar.bih.biWidth * DST_BPP))
          (bpar.bih.biHeight - bpar.bih.biHeight % 8)
          (memWrite slice1 0 ( SDL_ReadIO src4 bpar.bp2.extra_slice_count).1)
          (bpar.bih.biHeight % 8) 0 rows1 ∧
        (Align4 (bpar.bih.biWidth * DST_BPP) * (bpar.bih.biHeight - 1) < 4294967296 →
          ∀ y, y < bpar.bih.biHeight % 8 →
            decoded.getD (bpar.bih.biHeight - bpar.bih.biHeight % 8 + y) [] =
              (( SDL_ReadIO src4 bpar.bp2.extra_slice_count).1.drop
                (Align4 (bpar.bih.biWidth * DST_BPP) * y)).take (bpar.bih.biWidth * DST_BPP))) ∧
    (∀ bpar src1, LoadBP2.header src = .ok (bpar, src1) → bpar.bih.biHeight % 8 ≠ 0 →
      (bpar.bih.biHeight % 8) *
          Align4 (bpar.bih.biWidth * (if bpar.bp2.encoding = 1 then 1 else 3)) ≠
        bpar.bp2.extra_slice_count →
      ∃ e, LoadBP2 surf_ok src = .error e) ∧
    (∀ bpar src1 pal src2 chunks src3 extra_bytes src4,
      LoadBP2.header src = .ok (bpar, src1) → bpar.bih.biHeight % 8 ≠ 0 →
      LoadBP2.palette bpar.bp2.palette_len src1 = .ok (pal, src2) →
      BP2_DecodeRLE.chunks bpar.bp2.slice_count src2 = some (chunks, src3) →
      SDL_ReadU32LE src3 = some (extra_bytes, src4) →
      extra_bytes ≠ bpar.bp2.extra_slice_count →
      ∃ e, LoadBP2 surf_ok src = .error e) ∧
    (∀ (slice : List Nat) (rows : List (List Nat)), rows.length = 65540 →
      (∀ row ∈ rows, row.length = 65536 * 1) → Align4 (65536 * 1) * 4 ≤ slice.length →
      Align4 (65536 * 1) = 65536 ∧ 65540 - 65540 % 8 = 65536 ∧
      Align4 (65536 * 1) * 65536 = 4294967296 ∧
      (∀ y, y < 65540 % 8 →
        (BP2_DecodeRLE.copyRows (65536 * 1) (Align4 (65536 * 1)) (Align4 (65536 * 1))
            (65540 - 65540 % 8) slice (65540 % 8) 0 rows).getD y [] =
          (slice.drop (Align4 (65536 * 1) * y)).take (65536 * 1)) ∧
      (∀ r, 65540 % 8 ≤ r →
        (BP2_DecodeRLE.copyRows (65536 * 1) (Align4 (65536 * 1)) (Align4 (65536 * 1))
            (65540 - 65540 % 8) slice (65540 % 8) 0 rows).getD r [] = rows.getD r [])) := by
  have main : ∀ (pal : Option (List SDL_Color)) (bmp : Bitmap),
      LoadBP2 surf_ok src = .ok (pal, bmp) → bmp.height % 8 ≠ 0 →
      ∃ bpar src1 src2 SRC_BPP DST_BPP chunks src3 src4 decoded slice1 rows1,
        LoadBP2.header src = .ok (bpar, src1) ∧
        LoadBP2.palette bpar.bp2.palette_len src1 = .ok (pal, src2) ∧
        ((bpar.bp2.encoding = 1 ∧ SRC_BPP = 1 ∧ DST_BPP = 1) ∨
          (bpar.bp2.encoding = 2 ∧ SRC_BPP = 3 ∧ DST_BPP = 3) ∨
          (bpar.bp2.encoding = 3 ∧ SRC_BPP = 1 ∧ DST_BPP = 3)) ∧
        LoadBP2.pitch bpar.bih.biWidth (LoadBP2.format_map.get? bpar.bp2.encoding) =
          Align4 (bpar.bih.biWidth * DST_BPP) ∧
        BP2_DecodeRLE.decode SRC_BPP DST_BPP
          (LoadBP2.surface bpar.bih.biWidth bpar.bih.biHeight
            (LoadBP2.format_map.get? bpar.bp2.encoding))
          (Align4 (bpar.bih.biWidth * DST_BPP)) src2 bpar = .ok decoded ∧
        bmp.height = bpar.bih.biHeight ∧ bmp.rows = decoded.reverse ∧
        BP2_DecodeRLE.chunks bpar.bp2.slice_count src2 = some (chunks, src3) ∧
        SDL_ReadU32LE src3 = some (bpar.bp2.extra_slice_count, src4) ∧
        (bpar.bih.biHeight % 8) * Align4 (bpar.bih.biWidth * DST_BPP) =
          bpar.bp2.extra_slice_count ∧
        ( SDL_ReadIO src4 bpar.bp2.extra_slice_count).1.length = bpar.bp2.extra_slice_count ∧
        rows1.length = bpar.bih.biHeight ∧
        (∀ row ∈ rows1, row.length = bpar.bih.biWidth * DST_BPP) ∧
        decoded = BP2_DecodeRLE.copyRows (bpar.bih.biWidth * DST_BPP)
          (Align4 (bpar.bih.biWidth * DST_BPP)) (Align4 (bpar.bih.biWidth * DST_BPP))
          (bpar.bih.biHeight - bpar.bih.biHeight % 8)
          (memWrite slice1 0 ( SDL_ReadIO src4 bpar.bp2.extra_slice_count).1)
          (bpar.bih.biHeight % 8) 0 rows1 ∧
        (Align4 (bpar.bih.biWidth * DST_BPP) * (bpar.bih.biHeight - 1) < 4294967296 →
          ∀ y, y < bpar.bih.biHeight % 8 →
            decoded.getD (bpar.bih.biHeight - bpar.bih.biHeight % 8 + y) [] =
              (( SDL_ReadIO src4 bpar.bp2.extra_slice_count).1.drop
                (Align4 (bpar.bih.biWidth * DST_BPP) * y)).take (bpar.bih.biWidth * DST_BPP)) := by
    intro pal bmp h hmod
    obtain ⟨bpar, src1, src2, SRC_BPP, DST_BPP, hh, hp, _, henc, hd⟩ := LoadBP2.loaded_inv h
    obtain ⟨hpitch, hrowlen⟩ := LoadBP2.surface_format henc bpar.bih.biWidth bpar.bih.biHeight
    rw [hpitch] at hd
    obtain ⟨decoded, hdec, rfl⟩ := BP2_DecodeRLE.ok_iff_decode hd
    obtain ⟨io1, slice1, rows1, hsl, htr, _⟩ := BP2_DecodeRLE.decode_ok hdec
    obtain ⟨_, _, hbound⟩ := LoadBP2.header_ok hh
    obtain ⟨_, hH, _⟩ := hbound hbytes
    have hrows0 := LoadBP2.surface_rows bpar.bih.biWidth bpar.bih.biHeight
      (LoadBP2.format_map.get? bpar.bp2.encoding)
    obtain ⟨hl1', hrl1⟩ := BP2_DecodeRLE.slices_length _ _ _ _ _ _ _ _ _ _ _ _ hsl
    have hl1 : rows1.length = bpar.bih.biHeight := by rw [hl1', hrows0]
    have hm : bpar.bih.biHeight % 8 ≠ 0 := hmod
    obtain ⟨io2, hu, hcnt, hread, hrows2⟩ := BP2_DecodeRLE.trailer_ok (htr hm)
    obtain ⟨cs, hcs⟩ := BP2_DecodeRLE.slices_chunks _ _ _ _ _ _ _ _ _ _ _ _ hsl
    have hmle : bpar.bih.biHeight % 8 ≤ bpar.bih.biHeight := Nat.mod_le _ _
    refine ⟨bpar, src1, src2, SRC_BPP, DST_BPP, cs, io1, io2, decoded, slice1, rows1, hh, hp,
      henc, hpitch, hdec, rfl, rfl, hcs, hu, hcnt, hread, hl1, hrl1 _ hrowlen, hrows2, ?_⟩
    intro hw y hy
    obtain ⟨_, _, c3⟩ := BP2_DecodeRLE.copyRows_spec (bpar.bih.biWidth * DST_BPP)
      (Align4 (bpar.bih.biWidth * DST_BPP)) (Align4 (bpar.bih.biWidth * DST_BPP))
      (bpar.bih.biHeight - bpar.bih.biHeight % 8)
      (memWrite slice1 0 ( SDL_ReadIO io2 bpar.bp2.extra_slice_count).1)
      (Align4_ge _) (Align4_ge _) (bpar.bih.biHeight % 8) 0 rows1
      (hrl1 _ hrowlen) (by omega) (by omega)
      (by
        have := memWrite_zero_ge slice1 ( SDL_ReadIO io2 bpar.bp2.extra_slice_count).1
        rw [hread] at this
        rw [Nat.zero_add, Nat.mul_comm, hcnt]
        exact this)
      (fun r hr => pitch_rows_lt hw (by omega))
    have := c3 y hy
    rw [Nat.add_zero, Nat.zero_add] at this
    rw [hrows2, this]
    exact memWrite_zero_row slice1 _ _ _ y (bpar.bih.biHeight % 8) (by rw [hread, hcnt]) hy
      (Align4_ge _)
  refine ⟨main, ?_, ?_, ?_⟩
  · intro bpar src1 hh hmod hne
    cases hl : LoadBP2 surf_ok src with
    | error e => exact ⟨e, rfl⟩
    | ok v =>
      exfalso
      obtain ⟨pal, bmp⟩ := v
      obtain ⟨bpar', src1', _, _, _, hh', _, _, _, hht⟩ := LoadBP2.loaded_inv hl
      obtain ⟨decoded, _, hb⟩ := BP2_DecodeRLE.ok_iff_decode hht
      rw [hh] at hh'
      simp only [Except.ok.injEq, Prod.mk.injEq] at hh'
      obtain ⟨rfl, rfl⟩ := hh'
      have hheight : bmp.height = bpar.bih.biHeight := by rw [hb]; rfl
      obtain ⟨bpar2, _, _, S, D, _, _, _, _, _, _, hh2, _, henc, _, _, _, _, _, _, hcnt, _⟩ :=
        main pal bmp hl (by rw [hheight]; exact hmod)
      rw [hh] at hh2
      simp only [Except.ok.injEq, Prod.mk.injEq] at hh2
      obtain ⟨rfl, _⟩ := hh2
      apply hne
      rcases henc with ⟨h1, _, rfl⟩ | ⟨h1, _, rfl⟩ | ⟨h1, _, rfl⟩
      · rw [if_pos h1]; exact hcnt
      · rw [if_neg (by omega)]; exact hcnt
      · rw [if_neg (by omega)]; exact hcnt
  · intro bpar src1 pal src2 chunks src3 extra_bytes src4 hh hmod hp hch hu hne
    cases hl : LoadBP2 surf_ok src with
    | error e => exact ⟨e, rfl⟩
    | ok v =>
      exfalso
      obtain ⟨pal', bmp⟩ := v
      obtain ⟨bpar', src1', _, _, _, hh', _, _, _, hht⟩ := LoadBP2.loaded_inv hl
      obtain ⟨decoded, _, hb⟩ := BP2_DecodeRLE.ok_iff_decode hht
      rw [hh] at hh'
      simp only [Except.ok.injEq, Prod.mk.injEq] at hh'
      obtain ⟨rfl, rfl⟩ := hh'
      have hheight : bmp.height = bpar.bih.biHeight := by rw [hb]; rfl
      obtain ⟨bpar2, src1b, src2b, S, D, chunks', src3', src4', _, _, _, hh2, hp2, _, _, _, _, _,
        hch2, hu2, _⟩ := main pal' bmp hl (by rw [hheight]; exact hmod)
      rw [hh] at hh2
      simp only [Except.ok.injEq, Prod.mk.injEq] at hh2
      obtain ⟨rfl, rfl⟩ := hh2
      rw [hp] at hp2
      simp only [Except.ok.injEq, Prod.mk.injEq] at hp2
      obtain ⟨_, rfl⟩ := hp2
      rw [hch] at hch2
      simp only [Option.some.injEq, Prod.mk.injEq] at hch2
      obtain ⟨_, rfl⟩ := hch2
      rw [hu] at hu2
      simp only [Option.some.injEq, Prod.mk.injEq] at hu2
      exact hne hu2.1
  · intro slice rows hlen hL hs
    have e1 : Align4 (65536 * 1) = 65536 := by decide
    have e2 : 65540 - 65540 % 8 = 65536 := by decide
    have e3 : 65540 % 8 = 4 := by decide
    rw [e1] at hs ⊢
    rw [e2, e3]
    obtain ⟨_, c2, c3⟩ := BP2_DecodeRLE.copyRows_at (65536 * 1) 65536 65536 65536 0 slice
      (by decide) (by decide) 4 0 rows hL (by omega) (by omega)
      (by
        intro k hk
        interval_cases k <;> decide)
    refine ⟨rfl, rfl, by decide, ?_, ?_⟩
    · intro y hy
      have := c3 y hy
      simp only [Nat.zero_add] at this
      exact this
    · intro r hr
      exact c2 r (by omega)

set_option maxRecDepth 100000 in
/-- C22, at the GRAY8 image of `bp2Gray8Example` (2 x 12, one slice and a
trailer of four rows of pitch 8): the trailer's u32 is 32 and the decoded row
`8 + 1` is the six bytes `108 .. 113` of the trailer; and at a surface of 65540
rows of 65536 bytes `0xFF`, whose row 65536 the copy loop of the trailer leaves
as it is. -/
theorem LoadBP2_trailer_witness :
    (∃ (bmp : Bitmap) (decoded : List (List Nat)),
      LoadBP2 true bp2Gray8Example = .ok (none, bmp) ∧ bmp.rows = decoded.reverse ∧
      decoded.getD (12 - 12 % 8 + 1) [] = [108, 109, 110, 111, 112, 113]) ∧
    (BP2_DecodeRLE.copyRows (65536 * 1) (Align4 (65536 * 1)) (Align4 (65536 * 1))
        (65540 - 65540 % 8) (List.replicate (65536 * 8) 7) (65540 % 8) 0
        (List.replicate 65540 (List.replicate 65536 0xFF))).getD 65536 [] =
      (List.replicate 65540 (List.replicate 65536 0xFF)).getD 65536 [] := by
  refine ⟨?_, ((LoadBP2_trailer true bp2Gray8Example (by decide)).2.2.2
    (List.replicate (65536 * 8) 7) (List.replicate 65540 (List.replicate 65536 0xFF))
    (List.length_replicate _ _)
    (fun row hr => by rw [(List.mem_replicate.1 hr).2, List.length_replicate])
    (by rw [List.length_replicate]; decide)).2.2.2.2 65536 (by decide)⟩
  have hload : LoadBP2 true bp2Gray8Example = .ok (none,
      { width := 2, height := 12,
        rows := [[124, 125, 126, 127, 128, 129], [116, 117, 118, 119, 120, 121],
          [108, 109, 110, 111, 112, 113], [100, 101, 102, 103, 104, 105],
          [3, 3, 3, 9, 9, 9], [2, 2, 2, 9, 9, 9], [1, 1, 1, 9, 9, 9], [7, 7, 7, 9, 9, 9],
          [7, 7, 7, 9, 9, 9], [7, 7, 7, 9, 9, 9], [7, 7, 7, 9, 9, 9], [7, 7, 7, 9, 9, 9]] }) := by
    rfl
  obtain ⟨bpar, src1, src2, SRC_BPP, DST_BPP, chunks, src3, src4, decoded, slice1, rows1, hh, hp,
    henc, hpitch, hdec, hht, hrows, hch, hu, hcnt, hread, hl1, hrl1, hcopy, hrow⟩ :=
    (LoadBP2_trailer true bp2Gray8Example (by decide)).1 none _ hload (by decide)
  refine ⟨_, decoded, hload, hrows, ?_⟩
  have hrev : decoded = [[7, 7, 7, 9, 9, 9], [7, 7, 7, 9, 9, 9], [7, 7, 7, 9, 9, 9],
      [7, 7, 7, 9, 9, 9], [7, 7, 7, 9, 9, 9], [1, 1, 1, 9, 9, 9], [2, 2, 2, 9, 9, 9],
      [3, 3, 3, 9, 9, 9], [100, 101, 102, 103, 104, 105], [108, 109, 110, 111, 112, 113],
      [116, 117, 118, 119, 120, 121], [124, 125, 126, 127, 128, 129]] := by
    have := congrArg List.reverse hrows
    rw [List.reverse_reverse] at this
    rw [← this]
    rfl
  rw [hrev]
  rfl

/-! ## BP2 : where the copy loops store -/

/-- The copy loop stores at the rows `BP2_DecodeRLE.copyRows.dest`, in their
order, row `y` of the scratch at the row for `y`, that is at the `u32` offset
`pitch * row` behind `surf->pixels`. -/
theorem BP2_DecodeRLE.copyRows_eq_foldl (row_bytes dst_pitch pitch first : Nat)
    (slice : List Nat) :
    ∀ (n y : Nat) (rows : List (List Nat)),
      BP2_DecodeRLE.copyRows row_bytes dst_pitch pitch first slice n y rows =
        ((BP2_DecodeRLE.copyRows.dest first n y).zip (List.range' y n)).foldl
          (fun rows q => surfaceWrite pitch rows (u32 (pitch * q.1))
            ((slice.drop (dst_pitch * q.2)).take row_bytes)) rows := by
  intro n
  induction n with
  | zero => intro y rows; rfl
  | succ n ih =>
    intro y rows
    rw [BP2_DecodeRLE.copyRows, ih]
    rfl

theorem BP2_DecodeRLE.copyRows.mem_dest {first r : Nat} :
    ∀ (n y : Nat), r ∈ BP2_DecodeRLE.copyRows.dest first n y →
      ∃ k, k < n ∧ r = u32 (first + y + k) := by
  intro n
  induction n with
  | zero => intro y h; simp [BP2_DecodeRLE.copyRows.dest] at h
  | succ n ih =>
    intro y h
    simp only [BP2_DecodeRLE.copyRows.dest, List.mem_cons] at h
    rcases h with h | h
    · exact ⟨0, by omega, h⟩
    · obtain ⟨k, hk, hr⟩ := ih (y + 1) h
      exact ⟨k + 1, by omega, by rw [hr]; congr 1; omega⟩

/-- Where the surface has rows for all the slices of the header, every row
that the slice loop stores at lies inside it. -/
theorem BP2_DecodeRLE.slices.dest_inside (H : Nat) (hH : H ≤ 4294967296) :
    ∀ (n i : Nat), 8 * (i + n) ≤ H → ∀ r ∈ BP2_DecodeRLE.slices.dest n i, r < H := by
  intro n
  induction n with
  | zero => intro i _ r h; simp [BP2_DecodeRLE.slices.dest] at h
  | succ n ih =>
    intro i hfit r h
    simp only [BP2_DecodeRLE.slices.dest, List.mem_append] at h
    rcases h with h | h
    · obtain ⟨k, hk, hr⟩ := BP2_DecodeRLE.copyRows.mem_dest 8 0 h
      have h1 : u32 (i * 8) = i * 8 := u32_of_lt (by omega)
      rw [h1, u32_of_lt (by omega)] at hr
      omega
    · exact ih (i + 1) (by omega) r h

set_option maxRecDepth 100000 in
/-- C29: `LoadBP2` stores at rows outside the surface and reads a trailer that
does not fit the scratch.  The 1 x 8 image whose header has `slice_count = 2`
is loaded without error; its second slice is decoded and copied to the rows
8 to 15 of a surface of 8 rows (the copy loop stores at the rows of
`BP2_DecodeRLE.copyRows.dest`, at the `u32` offset `surf->pitch * row` each,
which nothing compares with the height).  The
1 x 1 image with `extra_slice_count = 4` and a trailer that announces 40 bytes
has these 40 bytes read into the scratch of `Align4(1) * 8 = 32` bytes before
`extra_bytes` is compared with `extra_slice_count` and the load fails.  Where
`8 * slice_count <= height`, the rows of the slice loop are inside the
surface. -/
theorem LoadBP2_rows_outside :
    LoadBP2 true bp2TwoSlicesExample =
      .ok (none, ⟨1, 8, [[0x11], [0x11], [0x11], [0x11], [0x11], [0x11], [0x11], [0x11]]⟩) ∧
    (∃ bpar src1, LoadBP2.header bp2TwoSlicesExample = .ok (bpar, src1) ∧
      bpar.bih.biHeight = 8 ∧ bpar.bp2.slice_count = 2 ∧
      ∃ src3, BP2_DecodeRLE.chunks 2 src1 =
        some ([[0x08, 0x80, 0x11], [0x08, 0x80, 0x22]], src3)) ∧
    BP2_DecodeRLE.slices.dest 2 0 = [0, 1, 2, 3, 4, 5, 6, 7, 8, 9, 10, 11, 12, 13, 14, 15] ∧
    (∀ (row_bytes dst_pitch pitch first : Nat) (slice : List Nat) (n y : Nat)
        (rows : List (List Nat)),
      BP2_DecodeRLE.copyRows row_bytes dst_pitch pitch first slice n y rows =
        ((BP2_DecodeRLE.copyRows.dest first n y).zip (List.range' y n)).foldl
          (fun rows q => surfaceWrite pitch rows (u32 (pitch * q.1))
            ((slice.drop (dst_pitch * q.2)).take row_bytes)) rows) ∧
    (∃ bpar src1, LoadBP2.header bp2LongTrailerExample = .ok (bpar, src1) ∧
      bpar.bp2.encoding = 1 ∧ bpar.bih.biWidth = 1 ∧ bpar.bih.biHeight = 1 ∧
      bpar.bp2.slice_count = 0 ∧ bpar.bp2.palette_len = 0 ∧ bpar.bp2.extra_slice_count = 4 ∧
      BP2_DecodeRLE.trailer.stored 1 bpar src1 = some 40 ∧
      Align4 (bpar.bih.biWidth * 1) * 8 = 32) ∧
    LoadBP2 true bp2LongTrailerExample = .error .io ∧
    (∀ (H n i : Nat), H ≤ 4294967296 → 8 * (i + n) ≤ H →
      ∀ r ∈ BP2_DecodeRLE.slices.dest n i, r < H) := by
  refine ⟨by rfl, ⟨_, _, by rfl, by rfl, by rfl, _, by rfl⟩, by decide, ?_,
    ⟨_, _, by rfl, by rfl, by rfl, by rfl, by rfl, by rfl, by rfl, by rfl, by rfl⟩, by rfl, ?_⟩
  · intro row_bytes dst_pitch pitch first slice n y rows
    exact BP2_DecodeRLE.copyRows_eq_foldl row_bytes dst_pitch pitch first slice n y rows
  · intro H n i hH hfit r hr
    exact BP2_DecodeRLE.slices.dest_inside H hH n i hfit r hr

/-- C29, at the one slice of a surface of 12 rows, whose last row is row 7. -/
theorem LoadBP2_rows_outside_witness :
    7 ∈ BP2_DecodeRLE.slices.dest 1 0 ∧ 7 < 12 :=
  ⟨by decide, LoadBP2_rows_outside.2.2.2.2.2.2 12 1 0 (by decide) (by decide) 7 (by decide)⟩

/-! ## Extension : what a returned extension looks like -/

theorem getLastD_cons (c prev : Char) (a : List Char) :
    (c :: a).getLast?.getD prev = a.getLast?.getD c := by
  cases a with
  | nil => rfl
  | cons d a =>
    simp only [List.getLast?_cons_cons, List.getLast?_eq_getLast _ (List.cons_ne_nil d a),
      Option.getD_some]

/-- The first loop of `Extension` either leaves `end_part` as it is, and then
every dot of the path follows a separator, or it returns the part behind the
last dot that does not follow a separator, and then every dot of that part
follows a separator. -/
theorem Extension.scan_last_dot :
    ∀ (l : List Char) (prev : Char) (end_part : Option (List Char)),
      (Extension.scan prev end_part l = end_part ∧
        ∀ a b, l = a ++ '.' :: b → IsDelim (a.getLast?.getD prev) = true) ∨
      ∃ a e, l = a ++ '.' :: e ∧ IsDelim (a.getLast?.getD prev) = false ∧
        (∀ a1 b1, e = a1 ++ '.' :: b1 → IsDelim (a1.getLast?.getD '.') = true) ∧
        Extension.scan prev end_part l = some e := by
  intro l
  induction l with
  | nil =>
    intro prev end_part
    left
    refine ⟨rfl, ?_⟩
    intro a b h
    exact absurd h (by simp)
  | cons c l ih =>
    intro prev end_part
    rw [Extension.scan]
    rcases ih c (if c = '.' ∧ ¬ IsDelim prev then some l else end_part) with
      ⟨h1, h2⟩ | ⟨a, e, h1, h2, h3, h4⟩
    · by_cases hc : c = '.' ∧ ¬ IsDelim prev
      · right
        rw [if_pos hc] at h1
        refine ⟨[], l, by rw [hc.1]; rfl, by simpa using hc.2, ?_, by rw [if_pos hc]; exact h1⟩
        intro a1 b1 hl
        have := h2 a1 b1 hl
        rw [hc.1] at this
        exact this
      · left
        rw [if_neg hc] at h1 ⊢
        refine ⟨h1, ?_⟩
        intro a b hl
        cases a with
        | nil =>
          simp only [List.nil_append, List.cons.injEq] at hl
          simp only [List.getLast?_nil, Option.getD_none]
          by_contra hd
          exact hc ⟨hl.1, by simpa using hd⟩
        | cons d a =>
          simp only [List.cons_append, List.cons.injEq] at hl
          rw [getLastD_cons, ← hl.1]
          exact h2 a b hl.2
    · right
      refine ⟨c :: a, e, by rw [h1]; rfl, by rw [getLastD_cons]; exact h2, h3, h4⟩

/-- C32: an extension that `Extension` returns contains no dot and no path
separator and is a suffix of the path, whatever byte lies in front of the
path. -/
theorem Extension_result (before : Char) (path ext : List Char)
    (h : Extension before path = some ext) :
    '.' ∉ ext ∧ (∀ c ∈ ext, IsDelim c = false) ∧ ext <:+ path := by
  unfold Extension at h
  cases hs : Extension.scan before none path with
  | none => rw [hs] at h; cases h
  | some e =>
    rw [hs] at h
    simp only at h
    split_ifs at h with hany
    simp only [Option.some.injEq] at h
    subst h
    have hnd : ∀ c ∈ e, IsDelim c = false := by
      intro c hc
      by_contra hd
      exact hany (List.any_eq_true.2 ⟨c, hc, by simpa using hd⟩)
    rcases Extension.scan_last_dot path before none with ⟨h1, _⟩ | ⟨a, e', h1, _, h3, h4⟩
    · rw [hs] at h1
      cases h1
    · rw [hs] at h4
      simp only [Option.some.injEq] at h4
      subst h4
      refine ⟨?_, hnd, ⟨a ++ ['.'], by rw [h1]; simp⟩⟩
      intro hdot
      obtain ⟨a1, b1, hsplit⟩ := List.append_of_mem hdot
      have hd := h3 a1 b1 hsplit
      cases a1 with
      | nil => simp [IsDelim] at hd
      | cons d a1 =>
        have hmem : (d :: a1).getLast (List.cons_ne_nil d a1) ∈ e := by
          rw [hsplit]
          exact List.mem_append_left _ (List.getLast_mem _)
        rw [List.getLast?_eq_getLast _ (List.cons_ne_nil d a1), Option.getD_some] at hd
        rw [hnd _ hmem] at hd
        cases hd

/-- C32, at `a.b/c.tar`, whose extension is `tar`. -/
theorem Extension_result_witness :
    '.' ∉ ['t', 'a', 'r'] ∧ (∀ c ∈ ['t', 'a', 'r'], IsDelim c = false) ∧
      ['t', 'a', 'r'] <:+ ['a', '.', 'b', '/', 'c', '.', 't', 'a', 'r'] :=
  Extension_result 'x' ['a', '.', 'b', '/', 'c', '.', 't', 'a', 'r'] ['t', 'a', 'r'] (by decide)

/-! ## TXT_2006 : the substitution -/

/-- C33: the substitution of `DecodeTXT_2006` is `(0x0E - b) mod 256` above
`0x0F` and the identity up to `0x0F`; applied twice it gives back every byte
but `0xFF`, which it maps to `0x0F` as it does `0x0F` itself; a byte that is not
zero is never mapped to zero. -/
theorem DecodeTXT_2006_subst_involution :
    (∀ b : Nat, b < 256 →
      (DecodeTXT_2006.subst b : Int) = if b > 0x0F then (0x0E - (b : Int)) % 256 else b) ∧
    (∀ b : Nat, b < 256 → DecodeTXT_2006.subst b < 256) ∧
    (∀ b : Nat, b < 256 → b ≠ 0xFF →
      DecodeTXT_2006.subst (DecodeTXT_2006.subst b) = b) ∧
    DecodeTXT_2006.subst 0xFF = 0x0F ∧ DecodeTXT_2006.subst 0x0F = 0x0F ∧
    DecodeTXT_2006.subst (DecodeTXT_2006.subst 0xFF) = 0x0F ∧
    (∀ b : Nat, b < 256 → b ≠ 0 → DecodeTXT_2006.subst b ≠ 0) := by
  refine ⟨?_, ?_, ?_, by decide, by decide, by decide, ?_⟩
  · intro b hb
    unfold DecodeTXT_2006.subst
    split_ifs <;> omega
  · intro b hb
    unfold DecodeTXT_2006.subst
    split_ifs <;> omega
  · intro b hb hne
    unfold DecodeTXT_2006.subst
    split_ifs <;> omega
  · intro b hb hne
    exact DecodeTXT_2006.subst_ne_zero hne hb

/-- C33, at the byte `0x41`, which becomes `0xCD` and then `0x41` again. -/
theorem DecodeTXT_2006_subst_involution_witness :
    DecodeTXT_2006.subst 0x41 = 0xCD ∧
      DecodeTXT_2006.subst (DecodeTXT_2006.subst 0x41) = 0x41 :=
  ⟨by decide, DecodeTXT_2006_subst_involution.2.2.1 0x41 (by decide) (by decide)⟩

/-! ## BP3 : the indices of the tile scratch -/

/-- While the rows fit the scratch, `dst` moves by `stored_row_bytes +
pad_per_row` per row and every store of the row loop lies between the first
`dst` and the last. -/
theorem LoadBP3.readRows.stores_bound (srb pad : Nat) :
    ∀ (n dst : Nat), dst + n * (srb + pad) ≤ 192 →
      LoadBP3.readRows.dst srb pad n dst = dst + n * (srb + pad) ∧
      ∀ s ∈ LoadBP3.readRows.stores srb pad n dst,
        dst ≤ s.1 ∧ s.1 + s.2 ≤ dst + n * (srb + pad) := by
  intro n
  induction n with
  | zero =>
    intro dst _
    refine ⟨by simp [LoadBP3.readRows.dst], ?_⟩
    intro s hs
    simp [LoadBP3.readRows.stores] at hs
  | succ n ih =>
    intro dst h
    have hmul : (n + 1) * (srb + pad) = n * (srb + pad) + (srb + pad) := Nat.succ_mul _ _
    have h1 : (if srb ≠ 0 then u32 (dst + srb) else dst) = dst + srb := by
      split_ifs with hs
      · exact u32_of_lt (by omega)
      · omega
    have h2 : (if pad ≠ 0 then u32 (dst + srb + pad) else dst + srb) = dst + srb + pad := by
      split_ifs with hp
      · exact u32_of_lt (by omega)
      · omega
    obtain ⟨ih1, ih2⟩ := ih (dst + srb + pad) (by omega)
    refine ⟨?_, ?_⟩
    · simp only [LoadBP3.readRows.dst, h1, h2, ih1]
      omega
    · intro s hs
      simp only [LoadBP3.readRows.stores, h1, h2, List.mem_append] at hs
      rcases hs with (hs | hs) | hs
      · split_ifs at hs
        · simp only [List.mem_singleton] at hs
          subst hs
          simp only
          omega
        · simp at hs
      · split_ifs at hs
        · simp only [List.mem_singleton] at hs
          subst hs
          simp only
          omega
        · simp at hs
      · have := ih2 s hs
        omega

/-- While the rows fit the scratch, the row loop fails only by a short read of
the stream: its two "Malformed tile data" branches are not taken. -/
theorem LoadBP3.readRows_error (srb pad : Nat) :
    ∀ (n dst : Nat) (tb : List Nat) (io : SDL_IOStream) (e : LoadError),
      dst + n * (srb + pad) ≤ 192 →
      LoadBP3.readRows srb pad n dst tb io = .error e → e = .io := by
  intro n
  induction n with
  | zero =>
    intro dst tb io e _ h
    simp [LoadBP3.readRows] at h
  | succ n ih =>
    intro dst tb io e hfit h
    have hmul : (n + 1) * (srb + pad) = n * (srb + pad) + (srb + pad) := Nat.succ_mul _ _
    rw [LoadBP3.readRows] at h
    simp only at h
    by_cases hs : srb ≠ 0
    · rw [if_pos hs, u32_of_lt (by omega), if_neg (by omega)] at h
      by_cases hr : ( SDL_ReadIO io srb).1.length ≠ srb
      · rw [if_pos hr] at h
        simp only [Except.error.injEq] at h
        exact h.symm
      · rw [if_neg hr] at h
        simp only at h
        by_cases hp : pad ≠ 0
        · rw [if_pos hp, u32_of_lt (by omega), if_neg (by omega)] at h
          exact ih _ _ _ _ (by omega) h
        · rw [if_neg hp] at h
          exact ih _ _ _ _ (by omega) h
    · rw [if_neg hs] at h
      simp only at h
      by_cases hp : pad ≠ 0
      · rw [if_pos hp, u32_of_lt (by omega), if_neg (by omega)] at h
        exact ih _ _ _ _ (by omega) h
      · rw [if_neg hp] at h
        exact ih _ _ _ _ (by omega) h

/-- The row loop changes the scratch only where `LoadBP3.readRows.stores`
says, and leaves `dst` at `LoadBP3.readRows.dst`. -/
theorem LoadBP3.readRows_stores (srb pad : Nat) :
    ∀ (n dst : Nat) (tb : List Nat) (io : SDL_IOStream) (dst' : Nat) (tb' : List Nat)
      (io' : SDL_IOStream),
      tb.length = 192 → dst + n * (srb + pad) ≤ 192 →
      LoadBP3.readRows srb pad n dst tb io = .ok (dst', tb', io') →
      dst' = LoadBP3.readRows.dst srb pad n dst ∧ tb'.length = 192 ∧
      ∀ j, (∀ s ∈ LoadBP3.readRows.stores srb pad n dst, j < s.1 ∨ s.1 + s.2 ≤ j) →
        tb'.getD j 0 = tb.getD j 0 := by
  intro n
  induction n with
  | zero =>
    intro dst tb io dst' tb' io' htb _ h
    simp only [LoadBP3.readRows, Except.ok.injEq, Prod.mk.injEq] at h
    obtain ⟨rfl, rfl, _⟩ := h
    exact ⟨rfl, htb, fun _ _ => rfl⟩
  | succ n ih =>
    intro dst tb io dst' tb' io' htb hfit h
    have hmul : (n + 1) * (srb + pad) = n * (srb + pad) + (srb + pad) := Nat.succ_mul _ _
    rw [LoadBP3.readRows] at h
    simp only at h
    by_cases hs : srb ≠ 0
    · rw [if_pos hs, u32_of_lt (by omega), if_neg (by omega)] at h
      by_cases hr : ( SDL_ReadIO io srb).1.length ≠ srb
      · rw [if_pos hr] at h
        cases h
      · rw [if_neg hr] at h
        simp only at h
        have hread : ( SDL_ReadIO io srb).1.length = srb := by omega
        have hw : dst + ( SDL_ReadIO io srb).1.length ≤ tb.length := by rw [hread]; omega
        have hl1 : (memWrite tb dst ( SDL_ReadIO io srb).1).length = 192 := by
          rw [memWrite_length hw]; exact htb
        by_cases hp : pad ≠ 0
        · rw [if_pos hp, u32_of_lt (by omega), if_neg (by omega)] at h
          have hw2 : dst + srb + (List.replicate pad 0).length ≤
              (memWrite tb dst ( SDL_ReadIO io srb).1).length := by
            rw [hl1, List.length_replicate]; omega
          obtain ⟨h1, h2, h3⟩ := ih _ _ _ _ _ _ (by rw [memWrite_length hw2]; exact hl1)
            (by omega) h
          simp only [LoadBP3.readRows.dst, LoadBP3.readRows.stores, if_pos hs, if_pos hp,
            u32_of_lt (show dst + srb < 4294967296 by omega),
            u32_of_lt (show dst + srb + pad < 4294967296 by omega)]
          refine ⟨h1, h2, ?_⟩
          intro j hj
          rw [h3 j (fun s hs' => hj s (by simp [hs'])), memWrite_getD hw2,
            List.length_replicate, memWrite_getD hw, hread]
          have ha := hj (dst, srb) (by simp)
          have hb := hj (dst + srb, pad) (by simp)
          simp only at ha hb
          rw [if_neg (by omega), if_neg (by omega)]
        · rw [if_neg hp] at h
          obtain ⟨h1, h2, h3⟩ := ih _ _ _ _ _ _ hl1 (by omega) h
          simp only [LoadBP3.readRows.dst, LoadBP3.readRows.stores, if_pos hs, if_neg hp,
            u32_of_lt (show dst + srb < 4294967296 by omega)]
          refine ⟨h1, h2, ?_⟩
          intro j hj
          rw [h3 j (fun s hs' => hj s (by simp [hs'])), memWrite_getD hw, hread]
          have ha := hj (dst, srb) (by simp)
          simp only at ha
          rw [if_neg (by omega)]
    · rw [if_neg hs] at h
      simp only at h
      by_cases hp : pad ≠ 0
      · rw [if_pos hp, u32_of_lt (by omega), if_neg (by omega)] at h
        have hw2 : dst + (List.replicate pad 0).length ≤ tb.length := by
          rw [htb, List.length_replicate]; omega
        obtain ⟨h1, h2, h3⟩ := ih _ _ _ _ _ _ (by rw [memWrite_length hw2]; exact htb)
          (by omega) h
        simp only [LoadBP3.readRows.dst, LoadBP3.readRows.stores, if_neg hs, if_pos hp,
          u32_of_lt (show dst + pad < 4294967296 by omega)]
        refine ⟨h1, h2, ?_⟩
        intro j hj
        rw [h3 j (fun s hs' => hj s (by simp [hs'])), memWrite_getD hw2,
          List.length_replicate]
        have hb := hj (dst, pad) (by simp)
        simp only at hb
        rw [if_neg (by omega)]
      · rw [if_neg hp] at h
        obtain ⟨h1, h2, h3⟩ := ih _ _ _ _ _ _ htb (by omega) h
        simp only [LoadBP3.readRows.dst, LoadBP3.readRows.stores, if_neg hs, if_neg hp]
        refine ⟨h1, h2, ?_⟩
        intro j hj
        exact h3 j (fun s hs' => hj s (by simp [hs']))

/-- The sizes of the rows of a tile of mode 0..7 with an extent of up to 8x8. -/
theorem LoadBP3.row_sizes {mode bpp : Nat} (hbpp : LoadBP3.bpp mode = some bpp) {cw ch : Nat}
    (hcw : cw ≤ 8) (hch : ch ≤ 8) :
    bpp ≤ 24 ∧ u32 (bpp * cw) / 8 ≤ bpp ∧
      u32 (bpp + 4294967296 - u32 (bpp * cw) / 8) = bpp - u32 (bpp * cw) / 8 ∧
      ch * bpp ≤ 192 ∧ bpp * 8 ≤ 192 := by
  have h24 : bpp ≤ 24 := by
    rcases LoadBP3.bpp_cases hbpp with ⟨_, h⟩ | ⟨_, h⟩ | ⟨_, h⟩ | ⟨_, h⟩ | ⟨_, h⟩ <;> omega
  have hx : bpp * cw ≤ bpp * 8 := Nat.mul_le_mul_left _ hcw
  have hsrbu : u32 (bpp * cw) = bpp * cw := u32_of_lt (by omega)
  have hrows : ch * bpp ≤ 8 * 24 := Nat.mul_le_mul hch h24
  rw [hsrbu]
  refine ⟨h24, by omega, ?_, by omega, by omega⟩
  unfold u32
  omega

/-- A tile of mode 0..7 with an extent of up to 8x8: reading it fails only by
a short read of the stream, and every store to the scratch lies inside its 192
bytes. -/
theorem LoadBP3.readTile_inside {mode bpp : Nat} (hbpp : LoadBP3.bpp mode = some bpp)
    {cw ch : Nat} (hcw : cw ≤ 8) (hch : ch ≤ 8) :
    (∀ (io : SDL_IOStream) (e : LoadError),
      LoadBP3.readTile bpp cw ch io = .error e → e = .io) ∧
    (∀ s ∈ LoadBP3.readTile.stores bpp cw ch, s.1 + s.2 ≤ 192) := by
  obtain ⟨h24, hle, hpad, hrows, htot⟩ := LoadBP3.row_sizes hbpp hcw hch
  have hsum : u32 (bpp * cw) / 8 + (bpp - u32 (bpp * cw) / 8) = bpp := by omega
  have hfit : 0 + ch * (u32 (bpp * cw) / 8 + (bpp - u32 (bpp * cw) / 8)) ≤ 192 := by
    rw [hsum]; omega
  refine ⟨?_, ?_⟩
  · intro io e h
    unfold LoadBP3.readTile at h
    simp only [hpad] at h
    by_cases h0 : bpp > 0
    · rw [if_pos h0] at h
      cases hr : LoadBP3.readRows (u32 (bpp * cw) / 8) (bpp - u32 (bpp * cw) / 8) ch 0
          (List.replicate 192 0) io with
      | error e' =>
        rw [hr] at h
        simp only [Except.error.injEq] at h
        rw [← h]
        exact LoadBP3.readRows_error _ _ _ _ _ _ _ hfit hr
      | ok v =>
        rw [hr] at h
        simp only at h
        rw [if_neg (by omega)] at h
        cases h
    · rw [if_neg h0] at h
      cases h
  · intro s hs
    unfold LoadBP3.readTile.stores at hs
    simp only [hpad, List.mem_cons] at hs
    rcases hs with hs | hs
    · rw [hs]
      exact Nat.le_refl _
    · by_cases h0 : bpp > 0
      · rw [if_pos h0] at hs
        obtain ⟨hd, hst⟩ := LoadBP3.readRows.stores_bound (u32 (bpp * cw) / 8)
          (bpp - u32 (bpp * cw) / 8) ch 0 hfit
        rw [hsum] at hd hst
        rw [hd] at hs
        simp only [List.mem_append] at hs
        rcases hs with hs | hs
        · have := hst s hs
          omega
        · split_ifs at hs with hlt
          · simp only [List.mem_singleton] at hs
            rw [hs]
            simp only
            omega
          · simp at hs
      · rw [if_neg h0] at hs
        simp at hs

/-! ## BP3 : the indices read in the tile scratch -/

set_option maxRecDepth 100000 in
/-- Every index that the decode loops read in the scratch is below 192. -/
theorem LoadBP3.decodeRows.reads_bound {mode bpp : Nat} (hbpp : LoadBP3.bpp mode = some bpp) :
    ∀ j ∈ LoadBP3.decodeRows.reads mode bpp 8 0, j < 192 := by
  rcases LoadBP3.bpp_cases hbpp with ⟨rfl, rfl⟩ | ⟨rfl, rfl⟩ | ⟨hm, rfl⟩ | ⟨rfl, rfl⟩ |
    ⟨rfl, rfl⟩
  · decide
  · decide
  · rcases hm with rfl | rfl | rfl | rfl <;> decide
  · decide
  · decide

/-- The second `switch` looks at the scratch only at the indices of
`LoadBP3.decodePixel.reads`. -/
theorem LoadBP3.decodePixel_congr (mode bb bg br : Nat) (tb tb' : List Nat) (src_off tx : Nat)
    (h : ∀ j ∈ LoadBP3.decodePixel.reads mode src_off, tb.getD j 0 = tb'.getD j 0) :
    LoadBP3.decodePixel mode bb bg br tb src_off tx =
      LoadBP3.decodePixel mode bb bg br tb' src_off tx := by
  by_cases hm : mode < 8
  · interval_cases mode
    · rfl
    · simp only [LoadBP3.decodePixel, h src_off (by simp [LoadBP3.decodePixel.reads])]
    · simp only [LoadBP3.decodePixel, h src_off (by simp [LoadBP3.decodePixel.reads])]
    · simp only [LoadBP3.decodePixel, h src_off (by simp [LoadBP3.decodePixel.reads])]
    · simp only [LoadBP3.decodePixel, h src_off (by simp [LoadBP3.decodePixel.reads])]
    · simp only [LoadBP3.decodePixel, h src_off (by simp [LoadBP3.decodePixel.reads])]
    · simp only [LoadBP3.decodePixel, h (src_off + 0) (by simp [LoadBP3.decodePixel.reads]),
        h (src_off + 1) (by simp [LoadBP3.decodePixel.reads])]
    · simp only [LoadBP3.decodePixel, h (src_off + 0) (by simp [LoadBP3.decodePixel.reads]),
        h (src_off + 1) (by simp [LoadBP3.decodePixel.reads]),
        h (src_off + 2) (by simp [LoadBP3.decodePixel.reads])]
  · obtain ⟨k, rfl⟩ : ∃ k, mode = k + 8 := ⟨mode - 8, by omega⟩
    simp only [LoadBP3.decodePixel]

theorem LoadBP3.decodeRow_congr (mode src_step bb bg br : Nat) (tb tb' : List Nat) :
    ∀ (n tx dst src : Nat) (out : List Nat),
      (∀ j ∈ LoadBP3.decodeRow.reads mode src_step n tx src, tb.getD j 0 = tb'.getD j 0) →
      LoadBP3.decodeRow mode src_step bb bg br tb n tx dst src out =
        LoadBP3.decodeRow mode src_step bb bg br tb' n tx dst src out := by
  intro n
  induction n with
  | zero => intro tx dst src out _; rfl
  | succ n ih =>
    intro tx dst src out h
    rw [LoadBP3.decodeRow, LoadBP3.decodeRow]
    rw [LoadBP3.decodePixel_congr mode bb bg br tb tb' src tx
      (fun j hj => h j (by rw [LoadBP3.decodeRow.reads]; exact List.mem_append_left _ hj))]
    exact ih _ _ _ _
      (fun j hj => h j (by rw [LoadBP3.decodeRow.reads]; exact List.mem_append_right _ hj))

/-- The decode loops look at the scratch only at the indices of
`LoadBP3.decodeRows.reads`. -/
theorem LoadBP3.decodeRows_congr (mode bpp bb bg br : Nat) (tb tb' : List Nat)
    (tile_base grb : Nat) :
    ∀ (n ty srb : Nat) (out : List Nat),
      (∀ j ∈ LoadBP3.decodeRows.reads mode bpp n srb, tb.getD j 0 = tb'.getD j 0) →
      LoadBP3.decodeRows mode bpp bb bg br tb tile_base grb n ty srb out =
        LoadBP3.decodeRows mode bpp bb bg br tb' tile_base grb n ty srb out := by
  intro n
  induction n with
  | zero => intro ty srb out _; rfl
  | succ n ih =>
    intro ty srb out h
    rw [LoadBP3.decodeRows, LoadBP3.decodeRows]
    rw [LoadBP3.decodeRow_congr mode (bpp / 8) bb bg br tb tb' 8 0 _ srb out
      (fun j hj => h j (by rw [LoadBP3.decodeRows.reads]; exact List.mem_append_left _ hj))]
    exact ih _ _ _
      (fun j hj => h j (by rw [LoadBP3.decodeRows.reads]; exact List.mem_append_right _ hj))

/-! ## BP3 : the indices written in the padded grid -/

theorem LoadBP3.decodeRow.mem_writes {j : Nat} :
    ∀ (n dst : Nat), j ∈ LoadBP3.decodeRow.writes n dst →
      ∃ t k, t < n ∧ k < 3 ∧ j = dst + 3 * t + k := by
  intro n
  induction n with
  | zero => intro dst h; simp [LoadBP3.decodeRow.writes] at h
  | succ n ih =>
    intro dst h
    simp only [LoadBP3.decodeRow.writes, List.mem_append, List.mem_cons, List.mem_singleton,
      List.not_mem_nil, or_false] at h
    rcases h with (h | h | h) | h
    · exact ⟨0, 0, by omega, by omega, by omega⟩
    · exact ⟨0, 1, by omega, by omega, by omega⟩
    · exact ⟨0, 2, by omega, by omega, by omega⟩
    · obtain ⟨t, k, ht, hk, hj⟩ := ih _ h
      exact ⟨t + 1, k, by omega, hk, by omega⟩

theorem LoadBP3.decodeRows.mem_rows_writes (tile_base grb : Nat) {j : Nat} :
    ∀ (n ty : Nat), j ∈ LoadBP3.decodeRows.writes tile_base grb n ty →
      ∃ r t k, r < n ∧ t < 8 ∧ k < 3 ∧ j = u32 (tile_base + (ty + r) * grb) + 3 * t + k := by
  intro n
  induction n with
  | zero => intro ty h; simp [LoadBP3.decodeRows.writes] at h
  | succ n ih =>
    intro ty h
    simp only [LoadBP3.decodeRows.writes, List.mem_append] at h
    rcases h with h | h
    · obtain ⟨t, k, ht, hk, hj⟩ := LoadBP3.decodeRow.mem_writes 8 _ h
      exact ⟨0, t, k, by omega, ht, hk, by rw [Nat.add_zero]; exact hj⟩
    · obtain ⟨r, t, k, hr, ht, hk, hj⟩ := ih _ h
      exact ⟨r + 1, t, k, by omega, ht, hk, by
        rw [hj, show ty + 1 + r = ty + (r + 1) by omega]⟩

/-- The pixel loop changes the grid only at the indices of
`LoadBP3.decodeRow.writes`. -/
theorem LoadBP3.decodeRow_writes (mode src_step bb bg br : Nat) (tb : List Nat) :
    ∀ (n tx dst src : Nat) (out : List Nat) (j : Nat),
      j ∉ LoadBP3.decodeRow.writes n dst →
      (LoadBP3.decodeRow mode src_step bb bg br tb n tx dst src out).getD j 0 =
        out.getD j 0 := by
  intro n
  induction n with
  | zero => intro tx dst src out j _; rfl
  | succ n ih =>
    intro tx dst src out j h
    simp only [LoadBP3.decodeRow.writes, List.mem_append, List.mem_cons, List.mem_singleton,
      List.not_mem_nil, or_false, not_or] at h
    obtain ⟨⟨h0, h1, h2⟩, h3⟩ := h
    rw [LoadBP3.decodeRow, ih _ _ _ _ _ h3]
    split
    · rw [getD_set_ne _ _ (Ne.symm h2), getD_set_ne _ _ (Ne.symm h1),
        getD_set_ne _ _ (Ne.symm h0)]
    · rfl

theorem LoadBP3.decodeRows_writes (mode bpp bb bg br : Nat) (tb : List Nat)
    (tile_base grb : Nat) :
    ∀ (n ty srb : Nat) (out : List Nat) (j : Nat),
      j ∉ LoadBP3.decodeRows.writes tile_base grb n ty →
      (LoadBP3.decodeRows mode bpp bb bg br tb tile_base grb n ty srb out).getD j 0 =
        out.getD j 0 := by
  intro n
  induction n with
  | zero => intro ty srb out j _; rfl
  | succ n ih =>
    intro ty srb out j h
    simp only [LoadBP3.decodeRows.writes, List.mem_append, not_or] at h
    rw [LoadBP3.decodeRows, ih _ _ _ _ h.2]
    exact LoadBP3.decodeRow_writes _ _ _ _ _ _ _ _ _ _ _ _ h.1

/-- The decode of a tile changes the grid only at the indices of
`LoadBP3.decodeTile.writes`. -/
theorem LoadBP3.decodeTile_writes (d : LoadBP3.Dims) (mode_tab param_tab : List Nat)
    (i bpp : Nat) (tb out : List Nat) (j : Nat) (h : j ∉ LoadBP3.decodeTile.writes d i) :
    (LoadBP3.decodeTile d mode_tab param_tab i bpp tb out).getD j 0 = out.getD j 0 := by
  unfold LoadBP3.decodeTile
  exact LoadBP3.decodeRows_writes _ _ _ _ _ _ _ _ _ _ _ _ _ h

/-- Every index that the decode of a tile of the tile loop stores to in the
padded grid is below `3 * padded_w * padded_h`, for every width and height. -/
theorem LoadBP3.decodeTile.writes_bound (w h i : Nat) (hi : i < (LoadBP3.dims w h).num_tiles) :
    ∀ j ∈ LoadBP3.decodeTile.writes (LoadBP3.dims w h) i,
      j < 3 * (LoadBP3.dims w h).padded_w * (LoadBP3.dims w h).padded_h := by
  intro j hj
  unfold LoadBP3.decodeTile.writes at hj
  obtain ⟨r, t, k, hr, ht, hk, rfl⟩ := LoadBP3.decodeRows.mem_rows_writes _ _ 8 0 hj
  simp only [LoadBP3.dims] at hi ⊢
  obtain ⟨T, hT⟩ : ∃ T, Align8 w = 8 * T := ⟨Align8 w / 8, by have := Align8_mod w; omega⟩
  obtain ⟨R, hR⟩ : ∃ R, Align8 h = 8 * R := ⟨Align8 h / 8, by have := Align8_mod h; omega⟩
  rw [hT, hR] at hi ⊢
  have hTT : 8 * T / 8 = T := by omega
  rw [hTT]
  have e1 : 8 * T * (8 * R) = 64 * (T * R) := by ring
  have hn : u32 (8 * T * (8 * R)) / 64 ≤ T * R := by
    have := u32_le (8 * T * (8 * R))
    rw [e1] at this ⊢
    omega
  have hiTR : i < T * R := by omega
  have hTpos : 0 < T := by
    rcases Nat.eq_zero_or_pos T with h0 | h0
    · rw [h0, Nat.zero_mul] at hiTR; omega
    · exact h0
  have hc : i % T < T := Nat.mod_lt _ hTpos
  have hrr : i / T < R := by
    rw [Nat.div_lt_iff_lt_mul hTpos, Nat.mul_comm]
    exact hiTR
  generalize i % T = c at *
  generalize i / T = rr at *
  have hG : u32 (3 * (8 * T)) ≤ 24 * T := by
    have := u32_le (3 * (8 * T))
    omega
  generalize u32 (3 * (8 * T)) = G at *
  have h1 := u32_le (u32 (24 * c) + u32 (G * 8 * rr) + (0 + r) * G)
  have h2 := u32_le (24 * c)
  have h3 := u32_le (G * 8 * rr)
  have e2 : G * 8 * rr + (0 + r) * G = G * (8 * rr + r) := by ring
  obtain ⟨R', rfl⟩ : ∃ R', R = R' + 1 := ⟨R - 1, by omega⟩
  have h4 : G * (8 * rr + r) ≤ 24 * T * (8 * R' + 7) := Nat.mul_le_mul hG (by omega)
  have e3 : 3 * (8 * T) * (8 * (R' + 1)) = 24 * T * (8 * R' + 7) + 24 * T := by ring
  rw [e3]
  omega

set_option maxRecDepth 100000 in
/-- C31: for every tile mode 0..7 and every extent of up to 8x8, reading the
tile fails only by a short read of the stream (the "Malformed tile data"
branches are not taken), every store to the 192-byte scratch `tile_buf` lies
inside it and every index that the decode loops read in it is below 192; and
for every width and height every index that the decode of a tile of the tile
loop stores to in the padded grid is below `3 * padded_w * padded_h`.  The
stores and reads are those the model makes: the row loop and the decode loops
change, and look at, nothing else.  The size of `outbuf`, however, is the `u32`
product `padded_w * padded_h * 3`: the stores lie inside `outbuf` where `3 *
padded_w * padded_h < 2^32`, and not beyond.  The stream `bp3OverflowExample` of
74 bytes, with the header 24 x 357913944, is accepted with one tile and an
`outbuf` of 192 bytes, and 120 of the 192 stores of that tile, up to index 527,
lie behind its end; for 40000 x 40000 pixels `outbuf` has 505032704 bytes and
tile 5000000 stores at index 960000000. -/
theorem LoadBP3_buffers_inside :
    (∀ (mode bpp cw ch : Nat), LoadBP3.bpp mode = some bpp → cw ≤ 8 → ch ≤ 8 →
      (∀ (io : SDL_IOStream) (e : LoadError),
        LoadBP3.readTile bpp cw ch io = .error e → e = .io) ∧
      (∀ s ∈ LoadBP3.readTile.stores bpp cw ch, s.1 + s.2 ≤ 192) ∧
      (∀ j ∈ LoadBP3.decodeRows.reads mode bpp 8 0, j < 192)) ∧
    (∀ (w h i : Nat), i < (LoadBP3.dims w h).num_tiles →
      ∀ j ∈ LoadBP3.decodeTile.writes (LoadBP3.dims w h) i,
        j < 3 * (LoadBP3.dims w h).padded_w * (LoadBP3.dims w h).padded_h) ∧
    (∀ (w h : Nat), 3 * (LoadBP3.dims w h).padded_w * (LoadBP3.dims w h).padded_h < 4294967296 →
      (List.replicate
        (u32 ((LoadBP3.dims w h).padded_w * (LoadBP3.dims w h).padded_h * 3)) 0).length =
        3 * (LoadBP3.dims w h).padded_w * (LoadBP3.dims w h).padded_h) ∧
    (∀ (srb pad n dst : Nat) (tb : List Nat) (io : SDL_IOStream) (dst1 : Nat) (tb1 : List Nat)
      (io1 : SDL_IOStream), tb.length = 192 → dst + n * (srb + pad) ≤ 192 →
      LoadBP3.readRows srb pad n dst tb io = .ok (dst1, tb1, io1) →
      dst1 = LoadBP3.readRows.dst srb pad n dst ∧
      ∀ j, (∀ s ∈ LoadBP3.readRows.stores srb pad n dst, j < s.1 ∨ s.1 + s.2 ≤ j) →
        tb1.getD j 0 = tb.getD j 0) ∧
    (∀ (mode bpp bb bg br : Nat) (tb tb1 : List Nat) (tile_base grb : Nat) (out : List Nat),
      (∀ j ∈ LoadBP3.decodeRows.reads mode bpp 8 0, tb.getD j 0 = tb1.getD j 0) →
      LoadBP3.decodeRows mode bpp bb bg br tb tile_base grb 8 0 0 out =
        LoadBP3.decodeRows mode bpp bb bg br tb1 tile_base grb 8 0 0 out) ∧
    (∀ (d : LoadBP3.Dims) (mode_tab param_tab : List Nat) (i bpp : Nat) (tb out : List Nat)
      (j : Nat), j ∉ LoadBP3.decodeTile.writes d i →
      (LoadBP3.decodeTile d mode_tab param_tab i bpp tb out).getD j 0 = out.getD j 0) ∧
    (∀ (w h i : Nat),
      3 * (LoadBP3.dims w h).padded_w * (LoadBP3.dims w h).padded_h < 4294967296 →
      i < (LoadBP3.dims w h).num_tiles →
      ∀ j ∈ LoadBP3.decodeTile.writes (LoadBP3.dims w h) i,
        j < (List.replicate
          (u32 ((LoadBP3.dims w h).padded_w * (LoadBP3.dims w h).padded_h * 3)) 0).length) ∧
    (∃ bp3 io1 io2 d outbuf,
      LoadBP3.header bp3OverflowExample = .ok (bp3, io1) ∧
      bp3.width = 24 ∧ bp3.height = 357913944 ∧ d = LoadBP3.dims 24 357913944 ∧
      d.padded_w = 24 ∧ d.padded_h = 357913944 ∧
      d.padded_w * d.padded_h = 2 * 4294967296 + 64 ∧
      d.tiles_per_row = 3 ∧ d.num_tiles = 1 ∧ d.grid_row_bytes = 72 ∧
      LoadBP3.tables d io1 = .ok ([0], [1, 2, 3], io2) ∧
      (List.replicate (u32 (d.padded_w * d.padded_h * 3)) 0).length = 192 ∧
      LoadBP3.grid bp3OverflowExample = .ok (d, outbuf) ∧ outbuf.length = 192 ∧
      527 ∈ LoadBP3.decodeTile.writes d 0 ∧
      ((LoadBP3.decodeTile.writes d 0).filter (fun j => 192 ≤ j)).length = 120) ∧
    ((LoadBP3.dims 40000 40000).padded_w = 40000 ∧ (LoadBP3.dims 40000 40000).padded_h = 40000 ∧
      (LoadBP3.dims 40000 40000).num_tiles = 25000000 ∧
      (List.replicate (u32 ((LoadBP3.dims 40000 40000).padded_w *
        (LoadBP3.dims 40000 40000).padded_h * 3)) 0).length = 505032704 ∧
      960000000 ∈ LoadBP3.decodeTile.writes (LoadBP3.dims 40000 40000) 5000000) := by
  refine ⟨?_, ?_, ?_, ?_, ?_, ?_, ?_, ?_, ?_⟩
  · intro mode bpp cw ch hbpp hcw hch
    exact ⟨(LoadBP3.readTile_inside hbpp hcw hch).1, (LoadBP3.readTile_inside hbpp hcw hch).2,
      LoadBP3.decodeRows.reads_bound hbpp⟩
  · intro w h i hi
    exact LoadBP3.decodeTile.writes_bound w h i hi
  · intro w h hfit
    rw [List.length_replicate, u32_of_lt (by
      have : (LoadBP3.dims w h).padded_w * (LoadBP3.dims w h).padded_h * 3 =
          3 * (LoadBP3.dims w h).padded_w * (LoadBP3.dims w h).padded_h := by ring
      omega)]
    ring
  · intro srb pad n dst tb io dst1 tb1 io1 htb hfit h
    obtain ⟨h1, _, h3⟩ := LoadBP3.readRows_stores srb pad n dst tb io dst1 tb1 io1 htb hfit h
    exact ⟨h1, h3⟩
  · intro mode bpp bb bg br tb tb1 tile_base grb out h
    exact LoadBP3.decodeRows_congr mode bpp bb bg br tb tb1 tile_base grb 8 0 0 out h
  · intro d mode_tab param_tab i bpp tb out j h
    exact LoadBP3.decodeTile_writes d mode_tab param_tab i bpp tb out j h
  · intro w h i hfit hi j hj
    have hb := LoadBP3.decodeTile.writes_bound w h i hi j hj
    rw [List.length_replicate, u32_of_lt (by
      have : (LoadBP3.dims w h).padded_w * (LoadBP3.dims w h).padded_h * 3 =
          3 * (LoadBP3.dims w h).padded_w * (LoadBP3.dims w h).padded_h := by ring
      omega)]
    have : (LoadBP3.dims w h).padded_w * (LoadBP3.dims w h).padded_h * 3 =
        3 * (LoadBP3.dims w h).padded_w * (LoadBP3.dims w h).padded_h := by ring
    omega
  · obtain ⟨outbuf, hg, hlen⟩ : ∃ outbuf, LoadBP3.grid bp3OverflowExample =
        .ok (LoadBP3.dims 24 357913944, outbuf) ∧ outbuf.length = 192 :=
      ⟨[1, 2, 3, 1, 2, 3, 1, 2, 3, 1, 2, 3, 1, 2, 3, 1, 2, 3, 1, 2, 3, 1, 2, 3] ++
        List.replicate 48 0 ++
        [1, 2, 3, 1, 2, 3, 1, 2, 3, 1, 2, 3, 1, 2, 3, 1, 2, 3, 1, 2, 3, 1, 2, 3] ++
        List.replicate 48 0 ++
        [1, 2, 3, 1, 2, 3, 1, 2, 3, 1, 2, 3, 1, 2, 3, 1, 2, 3, 1, 2, 3, 1, 2, 3] ++
        List.replicate 24 0, by rfl, by rfl⟩
    exact ⟨_, _, _, LoadBP3.dims 24 357913944, outbuf, by rfl, by rfl, by rfl, rfl, by rfl,
      by rfl, by rfl, by rfl, by rfl, by rfl, by rfl, by rfl, hg, hlen, by decide, by decide⟩
  · exact ⟨by rfl, by rfl, by rfl, by rw [List.length_replicate]; rfl, by decide⟩

set_option maxRecDepth 100000 in
/-- C31, at a BGR888 tile of 8x8 pixels, whose last pixel is read at
`7 * 24 + 7 * 3 + 2 = 191`, and at the last tile of a 16x16 image, whose last
store is at `3 * 16 * 16 - 1`, inside the 768 bytes of `outbuf`. -/
theorem LoadBP3_buffers_inside_witness :
    191 ∈ LoadBP3.decodeRows.reads 7 24 8 0 ∧ (191 : Nat) < 192 ∧
      767 ∈ LoadBP3.decodeTile.writes (LoadBP3.dims 16 16) 3 ∧
      (767 : Nat) < 3 * (LoadBP3.dims 16 16).padded_w * (LoadBP3.dims 16 16).padded_h ∧
      (767 : Nat) < (List.replicate
        (u32 ((LoadBP3.dims 16 16).padded_w * (LoadBP3.dims 16 16).padded_h * 3)) 0).length :=
  ⟨by decide, (LoadBP3_buffers_inside.1 7 24 8 8 rfl (by decide) (by decide)).2.2 191 (by decide),
    by decide, LoadBP3_buffers_inside.2.1 16 16 3 (by decide) 767 (by decide),
    LoadBP3_buffers_inside.2.2.2.2.2.2.1 16 16 3 (by decide) (by decide) 767 (by decide)⟩

end Fantatech
